import Mathlib

/-! Icarus / DualMiner serial driver: polling protocol engine

A shallow embedding of `driver-icarus.c` and `driver-dualminer.c`.

Conventions of the embedding

* C integers are `Int`/`Nat`; a byte is a `Nat`.
* A region of memory (`unsigned char *`) is a function from offsets to
  bytes (`Buf`); `memset`/`memcpy` are the usual updates of such a function.
* A `struct work *` is `Option WorkRef`: `none` is `NULL`, `some r` carries the
  address (pointer identity) and the work it points to.
* Calls that leave the driver (serial port, clock, work submission) append
  an `Event` to a trace; values that come back from outside are read from
  an `Env`, which may depend on the whole trace so far.
* The throughput `prev_hashrate` and the hash counts computed from it are
  IEEE 754 binary64 values (`double`), rounded to nearest, and converted to
  integers as an x86-64 machine does. The calibration (history sums, `Hs`, `W`,
  `fullnonce`) is embedded twice: in exact arithmetic over `ℚ`, inside the
  scan cycle, and in binary64 (`history_merge_double`,
  `refit_read_count_double`). The hash count of a reply and the detection of
  the device speed are evaluated in exact arithmetic.
* The header `icarus-common.h` and the miner's `miner.h` are not among the
  sources: the structures below hold the fields the two drivers read or
  write, and the miner's helpers are parameters (`Env`).
* `icarus_gets` is the function as built without `HAVE_EPOLL`, and
  `icarus_gets_epoll` the function as built with it; the scan cycle is
  embedded with the former.
-/

namespace Icarus

/-! ## Basic data -/

/-- The type `struct timeval`. -/
structure timeval where
  tv_sec : Int := 0
  tv_usec : Int := 0
deriving DecidableEq, Repr

/-- A region of bytes addressed from its start. -/
abbrev Buf := Nat → Nat

/-- The libc call `memset(b + off, c, n)`. -/
def memset (b : Buf) (off c n : Nat) : Buf :=
  fun i => if off ≤ i ∧ i < off + n then c else b i

/-- The libc call `memcpy(dst + doff, src + soff, n)`. -/
def memcpy (dst : Buf) (doff : Nat) (src : Buf) (soff n : Nat) : Buf :=
  fun i => if doff ≤ i ∧ i < doff + n then src (soff + (i - doff)) else dst i

/-- The assignment `b[i] = v`. -/
def poke (b : Buf) (i v : Nat) : Buf :=
  fun j => if j = i then v else b j

/-- The first `n` bytes of a region, as they go over the wire. -/
def bytes_of (b : Buf) (n : Nat) : List Nat :=
  (List.range n).map b

/-- The fields of `struct work` (miner.h) the driver touches. -/
structure work where
  target : Buf
  midstate : Buf
  data : Buf
  blk_nonce : Nat := 0

/-- A non-NULL `struct work *`: the address and the work stored there. -/
structure WorkRef where
  addr : Nat
  val : work

/-- Pointer comparison `a == b` on `struct work *`. -/
def ptr_eq (a b : Option WorkRef) : Bool :=
  match a, b with
  | none, none => true
  | some x, some y => decide (x.addr = y.addr)
  | _, _ => false

/-- Return codes of `icarus_gets` (`ICA_GETS_*`, declared in
icarus-common.h). -/
inductive GetsRet where
  | ICA_GETS_OK
  | ICA_GETS_ERROR
  | ICA_GETS_RESTART
  | ICA_GETS_TIMEOUT
deriving DecidableEq, Repr

/-- The enum `timing_mode`. -/
inductive timing_mode where
  | MODE_DEFAULT
  | MODE_SHORT
  | MODE_LONG
  | MODE_VALUE
deriving DecidableEq, Repr

/-- The reopen policy (`IRM_*`). -/
inductive reopen_mode where
  | IRM_NEVER
  | IRM_TIMEOUT
  | IRM_CYCLE
deriving DecidableEq, Repr

/-! ## Binary64 arithmetic -/

/-- A value of the C type `double`, an IEEE 754 binary64 number: a rational,
an infinity or a NaN. One zero stands for both signed zeros: every zero the
driver divides by is a sum or a difference, which rounding to nearest gives
as +0. -/
inductive double where
  | finite (q : ℚ)
  | inf (negative : Bool)
  | nan
deriving DecidableEq

/-- The power of two `2^e`. -/
def pow2 (e : Int) : ℚ :=
  if 0 ≤ e then ((2 ^ e.toNat : Nat) : ℚ) else 1 / ((2 ^ (-e).toNat : Nat) : ℚ)

/-- The loop of `ilog2`: halve `n` until it is below 2, counting in `acc`. -/
def ilog2_loop : Nat → Nat → Nat → Nat
  | 0, _, acc => acc
  | fuel + 1, n, acc => if n < 2 then acc else ilog2_loop fuel (n / 2) (acc + 1)

/-- The position of the leading bit of `n`. -/
def ilog2 (n : Nat) : Nat :=
  ilog2_loop n n 0

/-- The binary exponent of a rational other than 0: the `e` with
`2^e <= |q| < 2^(e+1)`. -/
def exponent (q : ℚ) : Int :=
  let e : Int := (ilog2 q.num.natAbs : Int) - (ilog2 q.den : Int)
  if pow2 e ≤ |q| then e else e - 1

/-- The nearest integer, the even one of two that are equally near. -/
def round_even (q : ℚ) : Int :=
  let f := Int.floor q
  if q - f < 1 / 2 then f
  else if q - f > 1 / 2 then f + 1
  else if f % 2 = 0 then f else f + 1

/-- The bound `2^1024`: a value that rounds to it or beyond is an
infinity. -/
def overflow_bound : ℚ :=
  (((2 ^ 256) ^ 4 : Nat) : ℚ)

/-- Rounding of an exact result to binary64, to nearest with ties to even:
53 significant bits, the exponent of the last place not below -1074, and an
infinity on overflow. -/
def rnd (q : ℚ) : double :=
  if q = 0 then .finite 0
  else
    let ulp := pow2 (max (exponent q) (-1022) - 52)
    let r := (round_even (q / ulp) : ℚ) * ulp
    if overflow_bound ≤ |r| then .inf (decide (q < 0)) else .finite r

/-- The sum of two `double`s. -/
def dadd : double → double → double
  | .finite a, .finite b => rnd (a + b)
  | .finite _, .inf s => .inf s
  | .inf s, .finite _ => .inf s
  | .inf s, .inf s2 => if s = s2 then .inf s else .nan
  | _, _ => .nan

/-- The difference of two `double`s. -/
def dsub : double → double → double
  | .finite a, .finite b => rnd (a - b)
  | .finite _, .inf s => .inf (!s)
  | .inf s, .finite _ => .inf s
  | .inf s, .inf s2 => if s = s2 then .nan else .inf s
  | _, _ => .nan

/-- The product of two `double`s. -/
def dmul : double → double → double
  | .finite a, .finite b => rnd (a * b)
  | .finite a, .inf s => if a = 0 then .nan else .inf (xor (decide (a < 0)) s)
  | .inf s, .finite b => if b = 0 then .nan else .inf (xor s (decide (b < 0)))
  | .inf s, .inf s2 => .inf (xor s s2)
  | _, _ => .nan

/-- The quotient of two `double`s; the divisor 0 is +0. -/
def ddiv : double → double → double
  | .finite a, .finite b =>
    if b = 0 then (if a = 0 then .nan else .inf (decide (a < 0))) else rnd (a / b)
  | .finite _, .inf _ => .finite 0
  | .inf s, .finite b => .inf (xor s (decide (b < 0)))
  | .inf _, .inf _ => .nan
  | _, _ => .nan

/-- The conversion `(double)x` of an integer. -/
def of_int (x : Int) : double :=
  rnd (x : ℚ)

/-! ## Device configuration -/

/-- One `struct ICARUS_HISTORY` entry; `finish` is the close-out deadline. -/
structure ICARUS_HISTORY where
  finish : timeval := {}
  sumXiTi : ℚ := 0
  sumXi : ℚ := 0
  sumTi : ℚ := 0
  sumXi2 : ℚ := 0
  values : Nat := 0
  hash_count_min : Int := 0
  hash_count_max : Int := 0
deriving DecidableEq

/-- The device configuration `struct ICARUS_INFO`, with the fields the two
drivers read or write. `user_set_work_division` and `user_set_fpga_count`
are the two bits `IUS_WORK_DIVISION` and `IUS_FPGA_COUNT` of `user_set`. -/
structure ICARUS_INFO where
  baud : Int := 0
  work_division : Int := 0
  fpga_count : Int := 0
  nonce_mask : Nat := 0
  user_set_work_division : Bool := false
  user_set_fpga_count : Bool := false
  reopen_mode : reopen_mode := .IRM_NEVER
  reopen_now : Bool := false
  read_count : Int := 0
  read_count_limit : Int := 0
  read_size : Int := 0
  work_size : Nat := 0
  timing_mode : timing_mode := .MODE_DEFAULT
  do_icarus_timing : Bool := false
  do_default_detection : Nat := 0
  continue_search : Bool := false
  dclk_freqM : Nat := 0
  Hs : ℚ := 0
  W : ℚ := 0
  fullnonce : ℚ := 0
  prev_hashrate : double := .finite 0
  min_data_count : Nat := 0
  count : Int := 0
  values : Nat := 0
  hash_count_range : Int := 0
  history_count : Nat := 0
  history : List ICARUS_HISTORY := []
deriving DecidableEq

/-! ## Work division and nonce mask -/

/-- The function `mask` (driver-icarus.c:1551). `none` is the `quit` of the
default branch. -/
def mask (work_division : Int) : Option Nat :=
  if work_division = 1 then some 0xffffffff
  else if work_division = 2 then some 0x7fffffff
  else if work_division = 4 then some 0x3fffffff
  else if work_division = 8 then some 0x1fffffff
  else none

/-- The predicate `isspace` of the C locale. -/
def isspace (c : Char) : Bool :=
  c.toNat = 32 || (9 ≤ c.toNat && c.toNat ≤ 13)

/-- The digit loop of `strtol` in base 10, before its range check. -/
def atoi_digits : List Char → Int → Int
  | [], acc => acc
  | c :: cs, acc =>
    if c.isDigit then atoi_digits cs (acc * 10 + ((c.toNat : Int) - 48)) else acc

/-- The libc function `strtol(s, NULL, 10)` with a 64-bit `long`: leading
white space, an optional sign, then decimal digits; a value out of the range
of `long` is replaced by `LONG_MIN` or `LONG_MAX`. -/
def strtol (s : String) : Int :=
  let v : Int :=
    match s.toList.dropWhile isspace with
    | '-' :: r => - atoi_digits r 0
    | '+' :: r => atoi_digits r 0
    | r => atoi_digits r 0
  if v < -9223372036854775808 then -9223372036854775808
  else if v > 9223372036854775807 then 9223372036854775807
  else v

/-- The conversion of an integer value to `int`: its low 32 bits, read as a
signed number. -/
def to_int (x : Int) : Int :=
  (x + 2147483648) % 4294967296 - 2147483648

/-- The libc function `atoi` as the C library of the miner's platform
defines it, `(int) strtol(s, NULL, 10)`: the text "4294967297" gives 1 and
"4294967295" gives -1. -/
def atoi (s : String) : Int :=
  to_int (strtol s)

/-- The result of a `set_device` function: the returned message (`none`
is `NULL`, success) and the configuration afterwards. -/
structure SetResult where
  err : Option String
  info : ICARUS_INFO
deriving DecidableEq

/-- The setter `icarus_set_work_division` (driver-icarus.c:2709). The outer
`none` is the `quit` inside `mask`. -/
def icarus_set_work_division (info : ICARUS_INFO) (newvalue : String) : Option SetResult :=
  let work_division := atoi newvalue
  if ¬ (work_division = 1 ∨ work_division = 2 ∨ work_division = 4 ∨ work_division = 8) then
    some ⟨some "Invalid work_division: must be 1, 2, 4 or 8", info⟩
  else if info.user_set_fpga_count ∧ info.fpga_count > work_division then
    some ⟨some "work_division must be >= fpga_count", info⟩
  else
    let info1 := if info.user_set_fpga_count then info else { info with fpga_count := work_division }
    let info2 := { info1 with user_set_work_division := true, work_division := work_division }
    match mask work_division with
    | none => none
    | some m => some ⟨none, { info2 with nonce_mask := m }⟩

/-! ## Nonce validation -/

/-- The per-thread session `struct icarus_state` (declared in
icarus-common.h), with the fields the two drivers use. -/
structure icarus_state where
  firstrun : Bool := true
  changework : Bool := false
  identify : Bool := false
  tv_workstart : timeval := {}
  tv_workfinish : timeval := {}
  last_work : Option WorkRef := none
  last2_work : Option WorkRef := none
  ob_bin : Buf := fun _ => 0
  my_bin : Buf := fun _ => 0
  scrypt_bin : Buf := fun _ => 0

/-- Byte swap of a 32-bit value. -/
def bswap32 (x : Nat) : Nat :=
  (x % 256) * 16777216 + (x / 256 % 256) * 65536 + (x / 65536 % 256) * 256 + (x / 16777216 % 256)

/-- The conversion `be32toh`: the identity on a big-endian host, a byte swap
on a little-endian one. -/
def be32toh (host_be : Bool) (x : Nat) : Nat :=
  if host_be then x else bswap32 x

/-- The function `icarus_process_worknonce` (driver-icarus.c:2168): the
stored `*nonce` and the returned work pointer. `test_nonce` is the miner's
check of a nonce against a work. -/
def icarus_process_worknonce (test_nonce : Option WorkRef → Nat → Bool) (host_be : Bool)
    (state : icarus_state) (nonce : Nat) : Nat × Option WorkRef :=
  let nonce := be32toh host_be nonce
  if test_nonce state.last_work nonce then (nonce, state.last_work)
  else if state.last2_work.isSome && test_nonce state.last2_work nonce then (nonce, state.last2_work)
  else (nonce, none)

/-! ## Job codec -/

/-- The function `icarus_job_prepare` (driver-icarus.c:2019): the returned
flag and the session with its frame buffers rebuilt. `opt_scrypt` is the
global mode flag. -/
def icarus_job_prepare (opt_scrypt : Bool) (state : icarus_state) (w : work) :
    Bool × icarus_state :=
  if opt_scrypt then
    let b := memset state.scrypt_bin 0 0 160
    let b := poke b 0 0x55
    let b := poke b 1 0xaa
    let b := poke b 2 0x1f
    let b := poke b 3 0x00
    let b := memcpy b 4 w.target 0 32
    let b := memcpy b 36 w.midstate 0 32
    let b := memcpy b 68 w.data 0 80
    let b := poke b 148 0xff
    let b := poke b 149 0xff
    let b := poke b 150 0xff
    let b := poke b 151 0xff
    (true, { state with scrypt_bin := b })
  else
    let ob := memset state.ob_bin 0 0 64
    let ob := memcpy ob 0 w.midstate 0 32
    let ob := memcpy ob 52 w.data 64 12
    let my := memset state.my_bin 0 0 52
    let my := poke my 0 0x55
    let my := poke my 1 0xaa
    let my := poke my 2 0x0f
    let my := poke my 3 0x00
    let my := memcpy my 8 ob 0 32
    let my := memcpy my 40 ob 52 12
    (true, { state with ob_bin := ob, my_bin := my })

/-- The buffer and length `icarus_job_start` hands to `icarus_write`
(driver-icarus.c:2132): `scrypt_bin`, 160 bytes, or `my_bin`, 52 bytes. -/
def job_frame (opt_scrypt : Bool) (state : icarus_state) : List Nat :=
  if opt_scrypt then bytes_of state.scrypt_bin 160 else bytes_of state.my_bin 52

/-- The size of the frame the codec builds in each mode. -/
def frame_size (opt_scrypt : Bool) : Nat :=
  if opt_scrypt then 160 else 52

/-- The function `dualminer_job_prepare` (driver-dualminer.c:181): it fills
`state->ob_bin`, after zeroing `info->work_size` bytes of it. -/
def dualminer_job_prepare (opt_scrypt : Bool) (info : ICARUS_INFO) (state : icarus_state)
    (w : work) : Bool × icarus_state :=
  let ob := memset state.ob_bin 0 0 info.work_size
  if opt_scrypt then
    let ob := poke ob 0 0x55
    let ob := poke ob 1 0xaa
    let ob := poke ob 2 0x1f
    let ob := poke ob 3 0x00
    let ob := memcpy ob 4 w.target 0 32
    let ob := memcpy ob 36 w.midstate 0 32
    let ob := memcpy ob 68 w.data 0 80
    let ob := poke ob 148 0xff
    let ob := poke ob 149 0xff
    let ob := poke ob 150 0xff
    let ob := poke ob 151 0xff
    (true, { state with ob_bin := ob })
  else
    let temp_bin : Buf := memset (fun _ => 0) 0 0 64
    let temp_bin := memcpy temp_bin 0 w.midstate 0 32
    let temp_bin := memcpy temp_bin 52 w.data 64 12
    let ob := poke ob 0 0x55
    let ob := poke ob 1 0xaa
    let ob := poke ob 2 0x0f
    let ob := poke ob 3 0x00
    let ob := memcpy ob 8 temp_bin 0 32
    let ob := memcpy ob 40 temp_bin 52 12
    (true, { state with ob_bin := ob })

/-- The `work_size` that `dualminer_detect_one` stores
(driver-dualminer.c:95): 160 in scrypt mode, 52 otherwise. -/
def dualminer_work_size (opt_scrypt : Bool) : Nat :=
  if opt_scrypt then 160 else 52

/-- The frame of `dualminer_job_prepare`: the `info->work_size` bytes of
`ob_bin` it initialises. -/
def dualminer_frame (info : ICARUS_INFO) (state : icarus_state) : List Nat :=
  bytes_of state.ob_bin info.work_size

/-! ## Reply reader -/

/-- What one `read(fd, buf, 4)` of the polling loop meets on the link.
`read = none` is a failed call (a negative return); `read = some bs` stores
the bytes `bs` and returns their number. `now` is the clock right after the
call, `work_restart` the flag `thr->work_restart` at that moment. -/
structure ReadEv where
  read : Option (List Nat) := some []
  now : timeval := {}
  work_restart : Bool := false

/-- The value `read` returns. -/
def ReadEv.ret (e : ReadEv) : Int :=
  match e.read with
  | none => -1
  | some bs => (bs.length : Int)

/-- The bytes `bs` stored at `b + off`. -/
def buf_store (b : Buf) (off : Nat) (bs : List Nat) : Buf :=
  fun i => if off ≤ i ∧ i < off + bs.length then bs.getD (i - off) 0 else b i

/-- What `icarus_gets` leaves behind: its return code, the reply buffer,
`*tv_finish`, and the number of `read` calls it made. -/
structure GetsOut where
  ret : GetsRet
  buf : Buf
  tv_finish : timeval
  reads : Nat

/-- The polling loop of `icarus_gets` (driver-icarus.c:1342), built without
epoll. The list is what the successive `read` calls meet; `none` means the
list ended before the loop returned. `thr` says whether the thread handle
is non-NULL; `off` is how far `buf` has advanced. -/
def icarus_gets_loop (thr : Bool) (read_count : Int) :
    List ReadEv → Int → Int → Bool → Buf → Nat → timeval → Nat → Option GetsOut
  | [], _, _, _, _, _, _, _ => none
  | ev :: link, rc, read_amount, first, buf, off, tv_finish, reads =>
    match ev.read with
    | none => some ⟨.ICA_GETS_ERROR, buf, tv_finish, reads + 1⟩
    | some bs =>
      let ret : Int := (bs.length : Int)
      let buf := buf_store buf off bs
      let tv_finish := if first then ev.now else tv_finish
      if ret ≥ read_amount then
        some ⟨.ICA_GETS_OK, buf, tv_finish, reads + 1⟩
      else if ret > 0 then
        icarus_gets_loop thr read_count link rc (read_amount - ret) false buf
          (off + bs.length) tv_finish (reads + 1)
      else if thr && ev.work_restart then
        some ⟨.ICA_GETS_RESTART, buf, tv_finish, reads + 1⟩
      else if rc + 1 ≥ read_count then
        some ⟨.ICA_GETS_TIMEOUT, buf, tv_finish, reads + 1⟩
      else
        icarus_gets_loop thr read_count link (rc + 1) read_amount first buf off tv_finish
          (reads + 1)

/-- The function `icarus_gets` (driver-icarus.c:1304). -/
def icarus_gets (buf : Buf) (link : List ReadEv) (tv_finish : timeval) (thr : Bool)
    (read_count read_size : Int) : Option GetsOut :=
  icarus_gets_loop thr read_count link 0 read_size true buf 0 tv_finish 0

/-- Total of the values returned by a run of reads. -/
def bytes_read (l : List ReadEv) : Int :=
  (l.map ReadEv.ret).sum

/-- Number of zero-byte reads in a run of reads. -/
def zero_reads (l : List ReadEv) : Nat :=
  l.countP (fun e => decide (e.ret = 0))

/-- Number of reads in a run that returned at least one byte. -/
def data_reads (l : List ReadEv) : Nat :=
  l.countP (fun e => decide (0 < e.ret))

/-- No read of the run fails, and none of its zero-byte reads sees a work
restart (the loop looks at the flag only after a zero-byte read, and only
with a thread handle). -/
def quiet (thr : Bool) (l : List ReadEv) : Prop :=
  ∀ e ∈ l, 0 ≤ e.ret ∧ (e.ret = 0 → (thr && e.work_restart) = false)

/-- What `epoll_wait` returns in a pass of the loop built with `HAVE_EPOLL`:
a failure (-1), a timeout (0), one event that is on the link, or anything
else (an event on the restart notifier, or two events). -/
inductive EpollWait where
  | failed
  | timeout
  | link_ready
  | other
deriving DecidableEq, Repr

/-- What the head of `icarus_gets` built with `HAVE_EPOLL` meets
(driver-icarus.c:1319 to 1334): whether the thread has a restart notifier
(`thr->work_restart_notifier[1] != -1`), and whether `epoll_create` and the
two calls of `epoll_ctl` succeed. -/
structure EpollSetup where
  notifier : Bool := true
  create_ok : Bool := true
  add_link_ok : Bool := true
  add_notifier_ok : Bool := true
deriving DecidableEq, Repr

/-- The head of `icarus_gets` built with `HAVE_EPOLL` (driver-icarus.c:1319
to 1334): whether `epollfd` is valid when the loop starts, and the
`read_count` the loop runs with. When the link cannot be added `epollfd` is
closed and set to -1, so the second `epoll_ctl` fails; when the notifier is
added the timeout is multiplied by `read_count` and `read_count` becomes 1. -/
def epoll_prelude (thr : Bool) (s : EpollSetup) (read_count : Int) : Bool × Int :=
  if thr && s.notifier then
    if s.create_ok then
      if s.add_link_ok then
        if s.add_notifier_ok then (true, 1) else (true, read_count)
      else (false, read_count)
    else (false, read_count)
  else (false, read_count)

/-- The value of `ret` in one pass of the loop built with `HAVE_EPOLL`
(driver-icarus.c:1342 to 1355), as a read result. With a valid `epollfd` and
an `epoll_wait` that does not fail, the link is read only when it alone is
ready, and then for one byte; `ret` is 0 otherwise. In every other case the
pass makes the `read(fd, buf, 4)` of the build without epoll. -/
def epoll_pass (epollfd : Bool) (p : EpollWait × ReadEv) : ReadEv :=
  if epollfd then
    match p.1 with
    | .failed => p.2
    | .link_ready => { p.2 with read := p.2.read.map (List.take 1) }
    | .timeout => { p.2 with read := some [] }
    | .other => { p.2 with read := some [] }
  else p.2

/-- The function `icarus_gets` built with `HAVE_EPOLL`
(driver-icarus.c:1304). Each entry of the list is what a pass of the loop
meets: the result of `epoll_wait`, if it is called, and of the `read`, if
one is made. From the value of `ret` on a pass runs as in the build without
epoll; `reads` counts the passes. -/
def icarus_gets_epoll (s : EpollSetup) (buf : Buf) (link : List (EpollWait × ReadEv))
    (tv_finish : timeval) (thr : Bool) (read_count read_size : Int) : Option GetsOut :=
  icarus_gets buf (link.map (epoll_pass (epoll_prelude thr s read_count).1)) tv_finish thr
    (epoll_prelude thr s read_count).2 read_size

/-! ## Session state machine -/

/-- The actions of the driver that leave it, in the order they happen. A
`gets` event carries the arguments of the `icarus_gets` call and the code it
returned. -/
inductive Event where
  | gets (fd : Int) (thr : Bool) (read_count read_size : Int) (ret : GetsRet)
  | serial_close (fd : Int)
  | serial_open (baud : Int)
  | dev_error
  | tcflush (fd : Int)
  | init_cmds (fd : Int) (ltconly : Bool)
  | dclk_update
  | dclk_nonces (qsec : Int)
  | dclk_errors (qsec : Int)
  | cgtime
  | write (fd : Int) (frame : List Nat)
  | usleep (us : Nat)
  | cgsleep_ms (ms : Nat)
  | submit_nonce (w : Option WorkRef) (nonce : Nat)
  | inc_hw_errors (w : Option WorkRef) (nonce : Nat)
  | free_work (w : Option WorkRef)
  | copy_work (addr : Nat)

/-- Is the event a `write` on the link. -/
def Event.is_write : Event → Bool
  | .write _ _ => true
  | _ => false

/-- Is the event a call of `icarus_gets`. -/
def Event.is_gets : Event → Bool
  | .gets _ _ _ _ _ => true
  | _ => false

/-- Is the event a call of `icarus_gets` that returned ICA_GETS_RESTART. -/
def Event.is_restart : Event → Bool
  | .gets _ _ _ _ .ICA_GETS_RESTART => true
  | _ => false

/-- Is the event a call of `submit_nonce`. -/
def Event.is_submit : Event → Bool
  | .submit_nonce _ _ => true
  | _ => false

/-- Is the event a call of `inc_hw_errors`. -/
def Event.is_hw_error : Event → Bool
  | .inc_hw_errors _ _ => true
  | _ => false

/-- What the driver reads from outside itself. The global option flags are
fixed for a cycle; the answers of the serial port, the clock and the
allocator may depend on everything that happened before. The helpers
`test_nonce`, `timer_elapsed_us`, `tdiff` and
`convert_icarus_to_cairnsmore` live in other files of the miner. -/
structure Env where
  opt_scrypt : Bool := false
  opt_ltconly : Bool := true
  opt_btc_number : Int := 160
  host_be : Bool := false
  test_nonce : Option WorkRef → Nat → Bool := fun _ _ => false
  serial_open : List Event → Int := fun _ => -1
  write_all : List Event → Bool := fun _ => true
  now : List Event → timeval := fun _ => {}
  timer_elapsed_us : timeval → List Event → Int := fun _ _ => 0
  tdiff : timeval → timeval → ℚ := fun _ _ => 0
  work_restart : List Event → Bool := fun _ => false
  new_addr : List Event → Nat := fun _ => 0
  convert_icarus_to_cairnsmore : ICARUS_INFO → ICARUS_INFO := fun i => i

/-- A device thread: the fields of `struct cgpu_info` the driver uses, its
session, its configuration and the trace of its actions. -/
structure Thr where
  device_fd : Int := -1
  deven_enabled : Bool := true
  state : icarus_state := {}
  info : ICARUS_INFO := {}
  trace : List Event := []

/-- Record an action. -/
def emit (t : Thr) (e : Event) : Thr :=
  { t with trace := t.trace ++ [e] }

/-- The macro `timersub`. -/
def timersub (a b : timeval) : timeval :=
  if a.tv_usec - b.tv_usec < 0 then ⟨a.tv_sec - b.tv_sec - 1, a.tv_usec - b.tv_usec + 1000000⟩
  else ⟨a.tv_sec - b.tv_sec, a.tv_usec - b.tv_usec⟩

/-- The macro `timeradd`. -/
def timeradd (a b : timeval) : timeval :=
  if a.tv_usec + b.tv_usec ≥ 1000000 then ⟨a.tv_sec + b.tv_sec + 1, a.tv_usec + b.tv_usec - 1000000⟩
  else ⟨a.tv_sec + b.tv_sec, a.tv_usec + b.tv_usec⟩

/-- The macro `timercmp(a, b, >)`. -/
def timercmp_gt (a b : timeval) : Bool :=
  if a.tv_sec = b.tv_sec then decide (a.tv_usec > b.tv_usec) else decide (a.tv_sec > b.tv_sec)

/-- The expression `(double)tv.tv_sec + (double)tv.tv_usec / 1000000`. -/
def seconds (tv : timeval) : ℚ :=
  (tv.tv_sec : ℚ) + (tv.tv_usec : ℚ) / 1000000

/-- Conversion of a `double` to an integer type: truncation toward zero. -/
def trunc (q : ℚ) : Int :=
  q.num.tdiv q.den

/-- The expression `(double)tv.tv_sec + (double)tv.tv_usec / (double)1000000`
as the machine computes it. -/
def dseconds (tv : timeval) : double :=
  dadd (of_int tv.tv_sec) (ddiv (of_int tv.tv_usec) (.finite 1000000))

/-- The conversion of a `double` to `int64_t` as the x86-64 instruction
`cvttsd2si` makes it: truncation toward zero, and `INT64_MIN` for a NaN, an
infinity or a value out of range. -/
def to_int64 : double → Int
  | .finite q =>
    if -9223372036854775808 ≤ trunc q ∧ trunc q ≤ 9223372036854775807 then trunc q
    else -9223372036854775808
  | _ => -9223372036854775808

/-- The conversion of a `double` to `int` as the x86-64 instruction
`cvttsd2si` makes it: truncation toward zero, and `INT_MIN` for a NaN, an
infinity or a value out of range. -/
def to_int32 : double → Int
  | .finite q =>
    if -2147483648 ≤ trunc q ∧ trunc q ≤ 2147483647 then trunc q else -2147483648
  | _ => -2147483648

/-- The function `rev` (driver-icarus.c:1289) for a length of at least 1. -/
def rev (s : Buf) (l : Nat) : Buf :=
  fun i => if i < l then s (l - 1 - i) else s i

/-- The copy `memcpy(&nonce, nonce_bin, sizeof(nonce))` into a `uint32_t`. -/
def load32 (host_be : Bool) (b : Buf) : Nat :=
  if host_be then
    (b 0 % 256) * 16777216 + (b 1 % 256) * 65536 + (b 2 % 256) * 256 + (b 3 % 256)
  else
    (b 0 % 256) + (b 1 % 256) * 256 + (b 2 % 256) * 65536 + (b 3 % 256) * 16777216

/-- The function `do_icarus_close` (driver-icarus.c:1423). -/
def do_icarus_close (t : Thr) : Thr :=
  if t.device_fd = -1 then t
  else { emit t (.serial_close t.device_fd) with device_fd := -1 }

/-- The function `icarus_reopen` (driver-icarus.c:2003). The caller's `*fdp`
is the `device_fd` of the result. -/
def icarus_reopen (env : Env) (t : Thr) : Bool × Thr :=
  let t := do_icarus_close t
  let fd := env.serial_open t.trace
  let t := { emit t (.serial_open t.info.baud) with device_fd := fd }
  if fd = -1 then
    (false, { emit t .dev_error with state := { t.state with firstrun := true } })
  else (true, t)

/-- The function `icarus_write` (driver-icarus.c:1405): 0 on success. -/
def icarus_write (env : Env) (t : Thr) (fd : Int) (frame : List Nat) : Int × Thr :=
  if fd = -1 then (1, t)
  else if env.write_all t.trace then (0, emit t (.write fd frame))
  else (1, emit t (.write fd frame))

/-- The function `icarus_job_start` (driver-icarus.c:2091). -/
def icarus_job_start (env : Env) (t : Thr) : Bool × Thr :=
  let fd := t.device_fd
  let t := if env.opt_scrypt then emit t (.init_cmds fd env.opt_ltconly) else t
  let t := if t.info.dclk_freqM ≠ 0 ∧ t.state.firstrun = false then emit t .dclk_update else t
  let tv := env.now t.trace
  let t := { emit t .cgtime with state := { t.state with tv_workstart := tv } }
  let r := icarus_write env t fd (job_frame env.opt_scrypt t.state)
  if r.1 ≠ 0 then (false, emit (do_icarus_close r.2) .dev_error)
  else (true, emit r.2 (.usleep 2000))

/-- The function `icarus_transition_work` (driver-icarus.c:2248);
`copy_work` allocates at the address the environment gives. -/
def icarus_transition_work (env : Env) (t : Thr) (w : work) : Thr :=
  let t := if t.state.last2_work.isSome then emit t (.free_work t.state.last2_work) else t
  let addr := env.new_addr t.trace
  let t := emit t (.copy_work addr)
  { t with state := { t.state with last2_work := t.state.last_work, last_work := some ⟨addr, w⟩ } }

/-- The wait loop of `handle_identify` (driver-icarus.c:2204). Each pass
reads the clock and, unless the window of the running job is over, calls
`icarus_gets` without a thread handle on the next stretch of the link. -/
def identify_wait (env : Env) (fd : Int) : List (List ReadEv) → Thr → Option (Thr × List (List ReadEv))
  | [], t =>
    let tv_now := env.now t.trace
    let t := emit t .cgtime
    let delapsed := env.tdiff tv_now t.state.tv_workstart
    if delapsed + 1 / 10 > t.info.fullnonce then some (t, []) else none
  | link :: links, t =>
    let tv_now := env.now t.trace
    let t := emit t .cgtime
    let delapsed := env.tdiff tv_now t.state.tv_workstart
    if delapsed + 1 / 10 > t.info.fullnonce then some (t, link :: links)
    else
      let nonce_bin := memset (fun _ => 0) 0 0 t.info.read_size.toNat
      let read_count := trunc ((t.info.fullnonce - delapsed) * 10)
      match icarus_gets nonce_bin link tv_now false read_count t.info.read_size with
      | none => none
      | some out =>
        let t := emit t (.gets fd false read_count t.info.read_size out.ret)
        let t :=
          if out.ret = .ICA_GETS_OK then
            emit t (.submit_nonce t.state.last_work (be32toh env.host_be (load32 env.host_be out.buf)))
          else t
        identify_wait env fd links t

/-- The end of `handle_identify` (driver-icarus.c:2225 to 2245): the
3-second idle, the check for a work restart, the start of the next job, and
the reset of `identify`. -/
def identify_resume (env : Env) (t : Thr) : Thr :=
  let t := emit t (.cgsleep_ms 3000)
  if env.work_restart t.trace then
    { t with state := { t.state with firstrun := true, identify := false } }
  else if t.state.firstrun = false then
    if (icarus_job_start env t).1 then
      { (icarus_job_start env t).2 with
        state := { (icarus_job_start env t).2.state with identify := false } }
    else
      { (icarus_job_start env t).2 with
        state := { (icarus_job_start env t).2.state with firstrun := true, identify := false } }
  else { t with state := { t.state with identify := false } }

/-- The function `handle_identify` (driver-icarus.c:2179). -/
def handle_identify (env : Env) (was_first_run : Bool) (links : List (List ReadEv)) (t : Thr) :
    Option Thr :=
  if t.device_fd = -1 then some t
  else if was_first_run then some (identify_resume env t)
  else
    match identify_wait env t.device_fd links t with
    | none => none
    | some p => some (identify_resume env p.1)

/-- Sum of the closed history entries that hold at least `MIN_DATA_COUNT`
samples (driver-icarus.c:2594); `count` is how many there are. -/
def history_merge : List ICARUS_HISTORY → ICARUS_HISTORY × Int → ICARUS_HISTORY × Int
  | [], acc => acc
  | h :: hs, (h0, count) =>
    if h.values ≥ 5 then
      let h0 := { h0 with
        sumXiTi := h0.sumXiTi + h.sumXiTi, sumXi := h0.sumXi + h.sumXi,
        sumTi := h0.sumTi + h.sumTi, sumXi2 := h0.sumXi2 + h.sumXi2,
        values := h0.values + h.values }
      let h0 := if h0.hash_count_max < h.hash_count_max then
        { h0 with hash_count_max := h.hash_count_max } else h0
      let h0 := if h0.hash_count_min > h.hash_count_min ∨ h0.hash_count_min = 0 then
        { h0 with hash_count_min := h.hash_count_min } else h0
      history_merge hs (h0, count + 1)
    else history_merge hs (h0, count)

/-- The slope of the least-squares line through the samples summed in
`history0` (driver-icarus.c:2613). -/
def refit_Hs (h0 : ICARUS_HISTORY) : ℚ :=
  ((h0.values : ℚ) * h0.sumXiTi - h0.sumXi * h0.sumTi)
    / ((h0.values : ℚ) * h0.sumXi2 - h0.sumXi * h0.sumXi)

/-- The intercept of the least-squares line, from the slope `Hs`
(driver-icarus.c:2615). -/
def refit_W (h0 : ICARUS_HISTORY) (Hs : ℚ) : ℚ :=
  h0.sumTi / (h0.values : ℚ) - Hs * h0.sumXi / (h0.values : ℚ)

/-- The close of a history data set and the refit (driver-icarus.c:2581). -/
def history_refit (info : ICARUS_INFO) : ICARUS_INFO :=
  let shifted := info.history.dropLast
  let m := history_merge shifted ({}, 0)
  let h0 := m.1
  let Hs := refit_Hs h0
  let W := refit_W h0 Hs
  let fullnonce := W + Hs * ((0xffffffff : ℚ) + 1)
  let read_count := trunc (fullnonce * 10) - 1
  let read_count :=
    if info.read_count_limit > 0 ∧ read_count > info.read_count_limit then info.read_count_limit
    else read_count
  let info := { info with
    history := ({} : ICARUS_HISTORY) :: shifted,
    Hs := Hs, read_count := read_count, fullnonce := fullnonce, count := m.2, W := W,
    values := h0.values, hash_count_range := h0.hash_count_max - h0.hash_count_min }
  if info.min_data_count < 100 then { info with min_data_count := info.min_data_count * 2 }
  else if info.timing_mode = .MODE_SHORT then { info with do_icarus_timing := false }
  else info

/-- One sample `(Xi, Ti)` added to the sums of `history0`
(driver-icarus.c:2567 to 2572). -/
def add_sample (h0 : ICARUS_HISTORY) (Xi Ti : ℚ) : ICARUS_HISTORY :=
  { h0 with
    sumXiTi := h0.sumXiTi + Xi * Ti, sumXi := h0.sumXi + Xi, sumTi := h0.sumTi + Ti,
    sumXi2 := h0.sumXi2 + Xi * Xi, values := h0.values + 1 }

/-- The open history entry `history[0]` once the timing sample of a cycle
is added to it (driver-icarus.c:2558 to 2577): the deadline `finish` is set
with the first sample of the entry, `HISTORY_SEC` = 60 s after the start of
its job. -/
def sample_entry (info : ICARUS_INFO) (hash_count : Int) (elapsed tv_start : timeval) :
    ICARUS_HISTORY :=
  let h0 := info.history.headD {}
  let h0 := if h0.values = 0 then { h0 with finish := timeradd tv_start ⟨60, 0⟩ } else h0
  let Ti := seconds elapsed - (info.read_size : ℚ) * 8 / (info.baud : ℚ)
  let Xi := (hash_count : ℚ)
  let h0 := add_sample h0 Xi Ti
  let h0 := if h0.hash_count_max < hash_count then { h0 with hash_count_max := hash_count } else h0
  if h0.hash_count_min > hash_count ∨ h0.hash_count_min = 0 then
    { h0 with hash_count_min := hash_count } else h0

/-- The timing sample of a cycle (driver-icarus.c:2552); the bookkeeping of
`history_time` is not part of the embedding. -/
def history_sample (info : ICARUS_INFO) (hash_count : Int) (elapsed tv_start : timeval) :
    ICARUS_INFO :=
  let h0 := sample_entry info hash_count elapsed tv_start
  let info := { info with history := h0 :: info.history.tail }
  let info :=
    if h0.values ≥ info.min_data_count ∧ timercmp_gt tv_start h0.finish then
      history_refit info
    else info
  { info with history_count := info.history_count + 1 }

/-- The detection of the device speed (driver-icarus.c:2518 to 2547), run
while `do_default_detection` counts down. -/
def default_detect (env : Env) (info : ICARUS_INFO) (hash_count : Int) (elapsed : timeval) :
    ICARUS_INFO :=
  if info.do_default_detection ≠ 0 ∧ elapsed.tv_sec ≥ 1 then
    let MHs := trunc ((hash_count : ℚ) / ((elapsed.tv_sec : ℚ) * 1000000 + (elapsed.tv_usec : ℚ)))
    let info := { info with do_default_detection := info.do_default_detection - 1 }
    if MHs ≤ 370 ∨ MHs > 420 then
      { info with timing_mode := .MODE_SHORT, do_icarus_timing := true, do_default_detection := 0 }
    else if MHs ≤ 380 then
      if info.do_default_detection = 0 then
        { info with read_count := trunc (info.fullnonce * 10) - 1 }
      else info
    else
      { env.convert_icarus_to_cairnsmore info with do_default_detection := 0 }
  else info

/-- The accounting of a cycle that read a reply (driver-icarus.c:2483 to
2655): the hash count returned and the configuration afterwards. -/
def scan_account (env : Env) (info : ICARUS_INFO) (nonce : Nat) (was_hw_error : Bool)
    (elapsed tv_start : timeval) : Int × ICARUS_INFO :=
  let r : Int × ICARUS_INFO :=
    if was_hw_error = false then
      let hash_count : Int :=
        if env.opt_scrypt then (nonce : Int)
        else trunc ((nonce : ℚ) * (env.opt_btc_number : ℚ) / 160)
      (hash_count, { info with prev_hashrate := ddiv (of_int hash_count) (dseconds elapsed) })
    else (to_int64 (dmul (dseconds elapsed) info.prev_hashrate), info)
  let hash_count := r.1
  let info := r.2
  let info := default_detect env info hash_count elapsed
  let info :=
    if info.do_icarus_timing ∧ was_hw_error = false
        ∧ Nat.land nonce info.nonce_mask > 0x0000ffff
        ∧ Nat.land nonce info.nonce_mask < Nat.land info.nonce_mask 0xffff0000 then
      history_sample info hash_count elapsed tv_start
    else info
  (hash_count, info)

/-- The call of `icarus_gets` at the label `keepwaiting`
(driver-icarus.c:2315 to 2328): the reply buffer is zeroed, the tick budget
is 48 in scrypt mode and 16 otherwise, and `*tv_finish` is
`state->tv_workfinish`. -/
def wait_gets (env : Env) (t : Thr) (link : List ReadEv) : Option GetsOut :=
  icarus_gets (memset (fun _ => 0) 0 0 t.info.read_size.toNat) link t.state.tv_workfinish true
    (if env.opt_scrypt then 48 else 16) t.info.read_size

/-- The nonce `icarus_scanhash` takes from a reply: `rev(nonce_bin, 4)`,
the copy into a `uint32_t`, then `be32toh` in `icarus_process_worknonce`. -/
def reply_nonce (env : Env) (out : GetsOut) : Nat :=
  be32toh env.host_be (load32 env.host_be (rev out.buf 4))

/-- The thread when `icarus_gets` has returned `out` at the label
`keepwaiting`: the call is on the trace and `state->tv_workfinish` holds
what the reader stored. -/
def after_gets (env : Env) (fd : Int) (t : Thr) (out : GetsOut) : Thr :=
  { emit t (.gets fd true (if env.opt_scrypt then 48 else 16) t.info.read_size out.ret) with
    state := { t.state with tv_workfinish := out.tv_finish } }

/-- How the wait for the previous job's reply ends: `returned` when
`icarus_scanhash` returns from inside the wait, `done` when control goes on
to start the next job, with the locals `ret`, `nonce`, `nonce_work`,
`was_hw_error` and `fd`, and the stretches of the link not yet used. -/
inductive WaitResult where
  | returned (value : Int) (t : Thr)
  | done (ret : GetsRet) (nonce : Nat) (nonce_work : Option WorkRef) (was_hw_error : Bool)
      (fd : Int) (links : List (List ReadEv)) (t : Thr)

/-- The wait of `icarus_scanhash` from the label `keepwaiting`
(driver-icarus.c:2313 to 2398). Every pass calls `icarus_gets` on the next
stretch of the link; a `goto keepwaiting` is the recursive call. `none`
means the stretches ran out. -/
def scan_wait (env : Env) (fd : Int) : List (List ReadEv) → Thr → Option WaitResult
  | [], _ => none
  | link :: links, t =>
    match wait_gets env t link with
    | none => none
    | some out =>
      let t := after_gets env fd t out
      match out.ret with
      | .ICA_GETS_RESTART =>
        some (.returned 0 { t with state := { t.state with changework := true } })
      | .ICA_GETS_ERROR =>
        let t := emit (do_icarus_close t) .dev_error
        let r := icarus_reopen env t
        if r.1 = false then some (.returned (-1) r.2)
        else
          some (.done .ICA_GETS_ERROR 0 none false r.2.device_fd links
            (emit r.2 (.tcflush r.2.device_fd)))
      | .ICA_GETS_TIMEOUT =>
        if t.info.reopen_mode = .IRM_TIMEOUT then
          let r := icarus_reopen env t
          if r.1 = false then some (.returned (-1) r.2)
          else
            some (.done .ICA_GETS_TIMEOUT 0 none false r.2.device_fd links
              (emit r.2 (.tcflush r.2.device_fd)))
        else some (.done .ICA_GETS_TIMEOUT 0 none false fd links (emit t (.tcflush fd)))
      | .ICA_GETS_OK =>
        let nonce_bin := rev out.buf 4
        let t := emit t (.tcflush fd)
        let pw := icarus_process_worknonce env.test_nonce env.host_be t.state
          (load32 env.host_be nonce_bin)
        let nonce := pw.1
        let nonce_work := pw.2
        if nonce_work.isSome then
          if ptr_eq nonce_work t.state.last2_work then
            scan_wait env fd links (emit t (.submit_nonce nonce_work nonce))
          else if t.info.continue_search then
            let us := env.timer_elapsed_us t.state.tv_workstart t.trace
            let t := emit t .cgtime
            let read_count := t.info.read_count - (Int.tdiv us (Int.tdiv 1000000 10) + 1)
            if read_count ≠ 0 then
              scan_wait env fd links (emit t (.submit_nonce nonce_work nonce))
            else some (.done .ICA_GETS_OK nonce nonce_work false fd links t)
          else some (.done .ICA_GETS_OK nonce nonce_work false fd links t)
        else some (.done .ICA_GETS_OK nonce nonce_work true fd links t)

/-- The assignment `state->firstrun = true`. -/
def set_firstrun (t : Thr) : Thr :=
  { t with state := { t.state with firstrun := true } }

/-- Dynamic clocking after the wait (driver-icarus.c:2402). -/
def dclk_step (ret : GetsRet) (was_hw_error : Bool) (elapsed : timeval) (t : Thr) : Thr :=
  if t.info.dclk_freqM ≠ 0 ∧ (ret = .ICA_GETS_OK ∨ ret = .ICA_GETS_TIMEOUT) then
    let q := 4 * elapsed.tv_sec + Int.tdiv elapsed.tv_usec 250000
    let qsec := if q ≠ 0 then q else 1
    if was_hw_error then emit (emit t (.dclk_nonces qsec)) (.dclk_errors qsec)
    else emit t (.dclk_nonces qsec)
  else t

/-- The reopen forced by a hardware error or asked for by `reopen_now`
(driver-icarus.c:2411). -/
def forced_reopen (env : Env) (was_hw_error : Bool) (t : Thr) : Thr :=
  if was_hw_error ∨ t.info.reopen_now then
    if t.info.reopen_mode = .IRM_CYCLE then { t with info := { t.info with reopen_now := false } }
    else (icarus_reopen env { t with info := { t.info with reopen_now := false } }).2
  else t

/-- The start of the job (driver-icarus.c:2421): nothing while an identify
is pending, else `icarus_job_start` if the device is enabled; `firstrun` is
set when no job was started. -/
def start_job_step (env : Env) (t : Thr) : Thr :=
  if t.state.identify then t
  else if t.deven_enabled = false then set_firstrun t
  else if (icarus_job_start env t).1 then (icarus_job_start env t).2
  else set_firstrun (icarus_job_start env t).2

/-- The reopen of the every-cycle policy (driver-icarus.c:2429). -/
def cycle_reopen (env : Env) (t : Thr) : Thr :=
  if t.info.reopen_mode = .IRM_CYCLE then (icarus_reopen env t).2 else t

/-- The start of the next job in `icarus_scanhash` (driver-icarus.c:2400
to 2430): dynamic clocking, the forced reopen, the job start, and the
reopen of the every-cycle policy. -/
def start_next_job (env : Env) (ret : GetsRet) (was_hw_error : Bool) (elapsed : timeval)
    (t : Thr) : Thr :=
  cycle_reopen env (start_job_step env (forced_reopen env was_hw_error
    (dclk_step ret was_hw_error elapsed t)))

/-- The part of `icarus_scanhash` between the wait and the label `out`
(driver-icarus.c:2400 to 2655): start the next job, then account for the
last one. `elapsed` and `tv_start` are the locals set after the wait. The
result is `hash_count` and the thread at `out`. -/
def scan_next (env : Env) (w : work) (ret : GetsRet) (nonce : Nat)
    (nonce_work : Option WorkRef) (was_hw_error : Bool) (elapsed tv_start : timeval)
    (t : Thr) : Int × Thr :=
  let t := start_next_job env ret was_hw_error elapsed t
  let w := { w with blk_nonce := 0xffffffff }
  match ret with
  | .ICA_GETS_ERROR =>
    (0, icarus_transition_work env { t with state := { t.state with firstrun := false } } w)
  | .ICA_GETS_TIMEOUT | .ICA_GETS_RESTART =>
    let t := icarus_transition_work env t w
    let estimate_hashes := to_int64 (dmul (dseconds elapsed) t.info.prev_hashrate)
    (if estimate_hashes > 0xffffffff then 0xffffffff else estimate_hashes, t)
  | .ICA_GETS_OK =>
    let t :=
      if was_hw_error = false then emit t (.submit_nonce nonce_work nonce)
      else emit t (.inc_hw_errors t.state.last_work nonce)
    let t := icarus_transition_work env t w
    let a := scan_account env t.info nonce was_hw_error elapsed tv_start
    (a.1, { t with info := a.2 })

/-- The end of `icarus_scanhash` from the label `out`
(driver-icarus.c:2657): the identify hold, then the return of
`hash_count`. -/
def scan_out (env : Env) (was_first_run : Bool) (links : List (List ReadEv)) (r : Int × Thr) :
    Option (Int × Thr) :=
  if r.2.state.identify then
    match handle_identify env was_first_run links r.2 with
    | none => none
    | some t => some (r.1, t)
  else some r

/-- The second half of `icarus_scanhash`, from the end of the wait to the
return (driver-icarus.c:2400 to 2661). -/
def scan_finish (env : Env) (w : work) (was_first_run : Bool) (ret : GetsRet) (nonce : Nat)
    (nonce_work : Option WorkRef) (was_hw_error : Bool) (elapsed tv_start : timeval)
    (links : List (List ReadEv)) (t : Thr) : Option (Int × Thr) :=
  scan_out env was_first_run links
    (scan_next env w ret nonce nonce_work was_hw_error elapsed tv_start t)

/-- The call `icarus_job_prepare(thr, work, max_nonce)` at the head of
`icarus_scanhash` (driver-icarus.c:2290). -/
def prepare_step (env : Env) (t : Thr) (w : work) : Thr :=
  { t with state := (icarus_job_prepare env.opt_scrypt t.state w).2 }

/-- The reopen of a closed port at the head of `icarus_scanhash`
(driver-icarus.c:2301): the flag is false when the cycle returns -1. -/
def open_step (env : Env) (t : Thr) : Bool × Thr :=
  if t.device_fd = -1 then icarus_reopen env t else (true, t)

/-- The replay after a restart (driver-icarus.c:2305 to 2309):
`changework` is cleared and no reply is read. -/
def clear_changework (t : Thr) : Thr :=
  { t with state := { t.state with changework := false } }

/-- The function `icarus_scanhash` (driver-icarus.c:2257): the value
returned and the thread afterwards. `links` holds, for each call of
`icarus_gets` in turn, what its reads meet on the link; `none` means they
ran out before the cycle ended. The second test of `fd == -1`
(driver-icarus.c:2363) comes after the first one has either reopened the
port or returned, so it never fires and has no counterpart here. -/
def icarus_scanhash (env : Env) (links : List (List ReadEv)) (t : Thr) (w : work) :
    Option (Int × Thr) :=
  let was_first_run := t.state.firstrun
  let r := open_step env (prepare_step env t w)
  if r.1 = false then some (-1, r.2)
  else if r.2.state.firstrun = false then
    if r.2.state.changework then
      scan_finish env w was_first_run .ICA_GETS_RESTART 0 none false
        (timersub r.2.state.tv_workfinish r.2.state.tv_workstart) r.2.state.tv_workstart links
        (emit (clear_changework r.2) (.tcflush r.2.device_fd))
    else
      match scan_wait env r.2.device_fd links r.2 with
      | none => none
      | some (.returned v t) => some (v, t)
      | some (.done ret nonce nonce_work hw _ links t) =>
        scan_finish env w was_first_run ret nonce nonce_work hw
          (timersub t.state.tv_workfinish t.state.tv_workstart) t.state.tv_workstart links t
  else
    scan_finish env w was_first_run .ICA_GETS_ERROR 0 none false ⟨0, 0⟩ ⟨0, 0⟩ links
      (emit r.2 (.tcflush r.2.device_fd))

/-! ## Reply decoding -/

/-- The 32-bit integer whose big-endian bytes are the first four bytes of
`b`, in their order. -/
def be_value (b : Buf) : Nat :=
  (b 0 % 256) * 16777216 + (b 1 % 256) * 65536 + (b 2 % 256) * 256 + b 3 % 256

/-- The 32-bit integer whose little-endian bytes are the first four bytes of
`b`, in their order. -/
def le_value (b : Buf) : Nat :=
  b 0 % 256 + (b 1 % 256) * 256 + (b 2 % 256) * 65536 + (b 3 % 256) * 16777216

/-! ## Predicates on traces -/

/-- Events of the port recovery: close, open, and the report of a
communication error. -/
def Event.recovery : Event → Bool
  | .serial_close _ => true
  | .serial_open _ => true
  | .dev_error => true
  | _ => false

/-- Every event other than a reader call, a submitted nonce and a counted
hardware error. -/
def Event.plumbing : Event → Bool
  | .gets _ _ _ _ _ => false
  | .submit_nonce _ _ => false
  | .inc_hw_errors _ _ => false
  | _ => true

/-- The thread `t'` continues the trace of `t` by events that satisfy `P`. -/
def ext (P : Event → Bool) (t t' : Thr) : Prop :=
  ∃ evs, t'.trace = t.trace ++ evs ∧ ∀ e ∈ evs, P e = true

/-- A session with `firstrun`, `tv_workstart` and `tv_workfinish`
blanked. -/
def core (s : icarus_state) : icarus_state :=
  { s with firstrun := false, tv_workstart := ⟨0, 0⟩, tv_workfinish := ⟨0, 0⟩ }

/-- A configuration with `reopen_now` blanked. -/
def cfg (i : ICARUS_INFO) : ICARUS_INFO :=
  { i with reopen_now := false }

/-- The thread `t'` differs from `t` at most in the port, the trace, the
flag `firstrun`, the times `tv_workstart` and `tv_workfinish`, and the flag
`reopen_now`. -/
def keeps (t t' : Thr) : Prop :=
  core t'.state = core t.state ∧ cfg t'.info = cfg t.info ∧
  t'.deven_enabled = t.deven_enabled

/-- The event is not a reader call that returned ICA_GETS_RESTART. -/
def Event.not_restart (e : Event) : Bool :=
  !e.is_restart

/-- The event is not a `write` on the link. -/
def Event.not_write (e : Event) : Bool :=
  !e.is_write

/-- Events that can occur during the wait before it ends: a reader call
that did not return RESTART, the port recovery, the flush, a clock reading,
a submitted nonce. -/
def Event.waiting : Event → Bool
  | .gets _ _ _ _ .ICA_GETS_RESTART => false
  | .gets _ _ _ _ _ => true
  | .serial_close _ => true
  | .serial_open _ => true
  | .dev_error => true
  | .tcflush _ => true
  | .cgtime => true
  | .submit_nonce _ _ => true
  | _ => false

/-- What the wait of `icarus_scanhash` guarantees, seen from the thread `t`
it started in. When it makes `icarus_scanhash` return, nothing was written
and the job slots are untouched, and either a RESTART was read (the value
is 0, `changework` is set, `firstrun` is as before) or no reader call
returned RESTART. When it goes on to the next job, no reader call returned
RESTART. -/
def wait_spec (t : Thr) : WaitResult → Prop
  | .returned v t' =>
    ext Event.not_write t t' ∧
    t'.state.last_work = t.state.last_work ∧ t'.state.last2_work = t.state.last2_work ∧
    ((v = 0 ∧ t'.state.changework = true ∧ t'.state.firstrun = t.state.firstrun) ∨
      ext Event.not_restart t t')
  | .done _ _ _ _ _ _ t' => ext Event.not_restart t t'

/-- The thread `t'` continues the trace of `t`, and the event `e` is among
the new events. -/
def emits (e : Event) (t t' : Thr) : Prop :=
  ∃ pre post, t'.trace = t.trace ++ (pre ++ e :: post)

/-- Is the event an attempt to open the serial port. -/
def Event.is_open : Event → Bool
  | .serial_open _ => true
  | _ => false

/-- The event is not an attempt to open the serial port. -/
def Event.not_open (e : Event) : Bool :=
  !e.is_open

/-- The thread `t'` continues the trace of `t` by events of which exactly
`n` are attempts to open the serial port. -/
def opens (n : Nat) (t t' : Thr) : Prop :=
  ∃ evs, t'.trace = t.trace ++ evs ∧ evs.countP Event.is_open = n

/-! ## Job slots -/

/-- Is the event a call of `copy_work`. -/
def Event.is_copy : Event → Bool
  | .copy_work _ => true
  | _ => false

/-- Is the event a call of `free_work`. -/
def Event.is_free : Event → Bool
  | .free_work _ => true
  | _ => false

/-- The number of job copies alive after a trace: those made by `copy_work`
less those given back by `free_work`. -/
def live (tr : List Event) : Int :=
  (tr.countP Event.is_copy : Int) - (tr.countP Event.is_free : Int)

/-- The number of job slots of a session that are not NULL. -/
def slots (s : icarus_state) : Int :=
  (if s.last_work.isSome then 1 else 0) + (if s.last2_work.isSome then 1 else 0)

/-- A run of calls of `icarus_transition_work`, one for each job in turn. -/
def transitions (env : Env) (t : Thr) (ws : List work) : Thr :=
  ws.foldl (icarus_transition_work env) t

/-! ## Configuration setters -/

/-- The test `strcasecmp(a, b) == 0`, for strings without a NUL. -/
def strcasecmp_eq (a b : String) : Bool :=
  a.toList.map Char.toLower == b.toList.map Char.toLower

/-- The test `strncasecmp(a, b, strlen(b)) == 0`, for strings without a
NUL: the first `strlen(b)` characters of `a` are those of `b`, up to case. -/
def strncasecmp_eq (a b : String) : Bool :=
  (a.toList.take b.length).map Char.toLower == b.toList.map Char.toLower

/-- The string `strchr(buf, '=') + 1`: what follows the first `=`; `none`
when `strchr` returns NULL. -/
def after_eq (buf : String) : Option String :=
  match buf.toList.dropWhile (fun c => c != '=') with
  | [] => none
  | _ :: r => some (String.mk r)

/-- The setter `icarus_set_timing` (driver-icarus.c:1449). `atof` is the
libc function, `NANOSEC` the constant of that name in icarus-common.h, which
is not among the sources, and `drv_is_icarus` the test
`proc->drv == &icarus_drv`. The function has one `return`, of NULL. -/
def icarus_set_timing (atof : String → ℚ) (NANOSEC : ℚ) (drv_is_icarus : Bool)
    (info : ICARUS_INFO) (buf : String) : SetResult :=
  let info : ICARUS_INFO :=
    if strcasecmp_eq buf "short" then
      { info with
        read_count := 50, read_count_limit := 0,
        timing_mode := .MODE_SHORT, do_icarus_timing := true }
    else if strncasecmp_eq buf "short=" then
      let limit := atoi (String.mk (buf.toList.drop 6))
      let limit := if limit < 0 then 0 else limit
      let limit := if limit > 100 then 100 else limit
      { info with
        read_count := 50, timing_mode := .MODE_SHORT, do_icarus_timing := true,
        read_count_limit := limit }
    else if strcasecmp_eq buf "long" then
      { info with
        read_count := 50, read_count_limit := 0,
        timing_mode := .MODE_LONG, do_icarus_timing := true }
    else if strncasecmp_eq buf "long=" then
      let limit := atoi (String.mk (buf.toList.drop 5))
      let limit := if limit < 0 then 0 else limit
      let limit := if limit > 100 then 100 else limit
      { info with
        read_count := 50, timing_mode := .MODE_LONG, do_icarus_timing := true,
        read_count_limit := limit }
    else if atof buf ≠ 0 then
      let Hs := atof buf / NANOSEC
      let fullnonce := Hs * ((0xffffffff : ℚ) + 1)
      let read_count : Int := 0
      let read_count := match after_eq buf with
        | some s => atoi s
        | none => read_count
      let read_count := if read_count < 1 then trunc (fullnonce * 10) - 1 else read_count
      let read_count := if read_count < 1 then 1 else read_count
      { info with
        Hs := Hs, fullnonce := fullnonce, read_count := read_count, read_count_limit := 0,
        timing_mode := .MODE_VALUE, do_icarus_timing := false }
    else
      let fullnonce := info.Hs * ((0xffffffff : ℚ) + 1)
      let read_count : Int := 0
      let read_count := match after_eq buf with
        | some s => atoi s
        | none => read_count
      let def_read_count : Int := 50
      let def_read_count :=
        if info.timing_mode = .MODE_DEFAULT ∧ drv_is_icarus = false then
          trunc (fullnonce * 10) - 1
        else def_read_count
      let do_default_detection :=
        if info.timing_mode = .MODE_DEFAULT ∧ drv_is_icarus = true then 0x10
        else info.do_default_detection
      let do_icarus_timing :=
        if info.timing_mode = .MODE_DEFAULT then false else info.do_icarus_timing
      let read_count := if read_count < 1 then def_read_count else read_count
      { info with
        fullnonce := fullnonce, read_count := read_count, read_count_limit := 0,
        do_default_detection := do_default_detection, do_icarus_timing := do_icarus_timing }
  ⟨none, { info with min_data_count := 5, read_count := info.read_count + 30 }⟩

/-- The setter `icarus_set_baud` (driver-icarus.c:2694). `valid_baud` is the
check of the serial layer. -/
def icarus_set_baud (valid_baud : Int → Bool) (info : ICARUS_INFO) (newvalue : String) :
    SetResult :=
  let baud := atoi newvalue
  if valid_baud baud = false then ⟨some "Invalid baud setting", info⟩
  else if info.baud ≠ baud then ⟨none, { info with baud := baud, reopen_now := true }⟩
  else ⟨none, info⟩

/-- The setter `icarus_set_fpga_count` (driver-icarus.c:2729). -/
def icarus_set_fpga_count (info : ICARUS_INFO) (newvalue : String) : SetResult :=
  let fpga_count := atoi newvalue
  if fpga_count < 1 ∨ fpga_count > info.work_division then
    ⟨some "Invalid fpga_count: must be >0 and <=work_division", info⟩
  else ⟨none, { info with fpga_count := fpga_count }⟩

/-- The setter `icarus_set_reopen` (driver-icarus.c:2740). -/
def icarus_set_reopen (info : ICARUS_INFO) (newvalue : String) : SetResult :=
  if strcasecmp_eq newvalue "never" || strcasecmp_eq newvalue "-r" then
    ⟨none, { info with reopen_mode := .IRM_NEVER }⟩
  else if strcasecmp_eq newvalue "timeout" then
    ⟨none, { info with reopen_mode := .IRM_TIMEOUT }⟩
  else if strcasecmp_eq newvalue "cycle" || strcasecmp_eq newvalue "r" then
    ⟨none, { info with reopen_mode := .IRM_CYCLE }⟩
  else if strcasecmp_eq newvalue "now" then
    ⟨none, { info with reopen_now := true }⟩
  else ⟨some "Invalid reopen mode", info⟩

/-! ## Sample inputs -/

/-- A job with all bytes zero. -/
def sample_work : work :=
  ⟨fun _ => 0, fun _ => 0, fun _ => 0, 0⟩

/-- A running session on descriptor 5 with 4-byte replies: a job is in
flight, the current job is at address 1 and the previous one at address 2. -/
def sample_thr : Thr :=
  { device_fd := 5,
    state := { firstrun := false, last_work := some ⟨1, sample_work⟩,
               last2_work := some ⟨2, sample_work⟩ },
    info := { read_size := 4, baud := 115200 } }

/-- An environment in which only the job at address 2 accepts a nonce and
the port cannot be opened. -/
def sample_env : Env :=
  { test_nonce := fun w _ => match w with
      | some r => decide (r.addr = 2)
      | none => false }

/-- An environment in which no job accepts a nonce and the port cannot be
opened. -/
def deaf_env : Env := {}

/-- A reply of four bytes in one read. -/
def sample_reply : List ReadEv :=
  [{ read := some [1, 2, 3, 4] }]

/-- What `icarus_gets` returns on `sample_reply`. -/
def sample_out : GetsOut :=
  ⟨.ICA_GETS_OK, buf_store (memset (fun _ => 0) 0 0 4) 0 [1, 2, 3, 4], {}, 1⟩

/-- A stretch of the link on which the first read is empty and finds the
work-restart flag raised. -/
def restart_link : List ReadEv :=
  [{ read := some [], work_restart := true }]

/-- What `icarus_gets` returns on `restart_link`. -/
def restart_out : GetsOut :=
  ⟨.ICA_GETS_RESTART, buf_store (memset (fun _ => 0) 0 0 4) 0 [], {}, 1⟩

/-- The thread `sample_thr` after a cycle that read `restart_link`: the
frame buffers hold the prepared job, the reader call is on the trace and
`changework` is set. -/
def restart_thr : Thr :=
  { prepare_step sample_env sample_thr sample_work with
    state := { (prepare_step sample_env sample_thr sample_work).state with changework := true },
    trace := [.gets 5 true 16 4 .ICA_GETS_RESTART] }

/-- The session `sample_thr` after a restart, with a one-shot reopen
pending: `changework` and `reopen_now` are set. -/
def replay_thr : Thr :=
  { sample_thr with
    state := { sample_thr.state with changework := true },
    info := { sample_thr.info with reopen_now := true } }

/-- The session `sample_thr` after a restart: `changework` is set and no
reopen is pending. -/
def resumed_thr : Thr :=
  { sample_thr with state := { sample_thr.state with changework := true } }

/-- The digits of a decimal numeral before the point. -/
def decimal_digits : List Char → ℚ → ℚ × List Char
  | [], acc => (acc, [])
  | c :: cs, acc =>
    if c.isDigit then decimal_digits cs (acc * 10 + ((c.toNat : ℚ) - 48)) else (acc, c :: cs)

/-- The digits of a decimal numeral after the point; `scale` is the weight
of the next digit. -/
def decimal_fraction : List Char → ℚ → ℚ → ℚ
  | [], acc, _ => acc
  | c :: cs, acc, scale =>
    if c.isDigit then decimal_fraction cs (acc + ((c.toNat : ℚ) - 48) * scale) (scale / 10)
    else acc

/-- An `atof` for plain decimal numerals: white space, an optional sign,
digits, and an optional point with more digits; 0 when no numeral starts
the string. -/
def decimal_atof (s : String) : ℚ :=
  let unsigned (r : List Char) : ℚ :=
    match decimal_digits r 0 with
    | (v, '.' :: f) => decimal_fraction f v (1 / 10)
    | (v, _) => v
  match s.toList.dropWhile isspace with
  | '-' :: r => - unsigned r
  | '+' :: r => unsigned r
  | r => unsigned r

/-- A closed history data set of the five samples (100000, 0.01),
(200000, 0.01), ..., (500000, 0.01): every job took 10 ms whatever its hash
count. -/
def flat_history : ICARUS_HISTORY :=
  { sumXiTi := 15000, sumXi := 1500000, sumTi := 5 / 100, sumXi2 := 550000000000, values := 5 }

/-- An environment with a running clock: every action takes one second, and
`tdiff` is the difference in seconds. No job accepts a nonce and the port
cannot be opened. -/
def clock_env : Env :=
  { now := fun tr => ⟨tr.length, 0⟩,
    tdiff := fun a b => seconds a - seconds b }

/-- The session `sample_thr` with an identify pending and a nonce range of
two seconds. -/
def identify_thr : Thr :=
  { sample_thr with
    state := { sample_thr.state with identify := true },
    info := { sample_thr.info with fullnonce := 2 } }

/-- A stretch of the link on which sixteen reads in a row return nothing,
the clock standing at 1 s. -/
def timeout_link : List ReadEv :=
  List.replicate 16 { read := some [], now := ⟨1, 0⟩ }

/-- The session `sample_thr` with the reopen policy `timeout` and a last
known throughput of 1000 hashes per second. -/
def timeout_thr : Thr :=
  { sample_thr with
    info := { sample_thr.info with reopen_mode := .IRM_TIMEOUT, prev_hashrate := .finite 1000 } }

/-- The session `sample_thr` with a job start stamped at 2 s, later than
the clock of `timeout_link`, and a last known throughput of 1000 hashes per
second. -/
def late_thr : Thr :=
  { sample_thr with
    state := { sample_thr.state with tv_workstart := ⟨2, 0⟩ },
    info := { sample_thr.info with prev_hashrate := .finite 1000 } }

/-- An environment in which the port opens, as descriptor 7, and every
write goes through; no job accepts a nonce. -/
def open_env : Env :=
  { serial_open := fun _ => 7 }

/-- A stretch of the link on which the first read fails. -/
def error_link : List ReadEv :=
  [{ read := none }]

/-- The session `sample_thr` one second into its job (`tv_workfinish` = 1 s,
`tv_workstart` = 0) with a last known throughput of 1000 hashes per
second. -/
def error_thr : Thr :=
  { sample_thr with
    state := { sample_thr.state with tv_workfinish := ⟨1, 0⟩ },
    info := { sample_thr.info with prev_hashrate := .finite 1000 } }

/-! ## The divisor of the refit -/

/-- The divisor of the slope `Hs` in the refit (driver-icarus.c:2614), from
the sums merged into `history0`. -/
def refit_divisor (h0 : ICARUS_HISTORY) : ℚ :=
  (h0.values : ℚ) * h0.sumXi2 - h0.sumXi * h0.sumXi

/-- The history entry that holds a list of samples `(Xi, Ti)`, added one by
one to an empty entry. -/
def entry_of (samples : List (ℚ × ℚ)) : ICARUS_HISTORY :=
  samples.foldl (fun h p => add_sample h p.1 p.2) {}

/-- The sums of the history entry `h` are those of the samples `l`:
`values` is their number, `sumXi` the sum of their hash counts and `sumXi2`
the sum of the squares. -/
def holds_samples (h : ICARUS_HISTORY) (l : List (ℚ × ℚ)) : Prop :=
  h.values = l.length ∧ h.sumXi = (l.map (fun p => p.1)).sum ∧
    h.sumXi2 = (l.map (fun p => p.1 * p.1)).sum

/-- The samples a refit merges: those of the closed entries that hold at
least `MIN_DATA_COUNT` of them. -/
def merged_samples (entries : List (List (ℚ × ℚ))) : List (ℚ × ℚ) :=
  (entries.filter (fun l => decide (5 ≤ l.length))).flatten

/-! ## Initialisation -/

/-- The probe frame `pkt` of `icarus_init` (driver-icarus.c:1959). -/
def probe_pkt : List Nat :=
  [0x2e, 0x4c, 0x8f, 0x91, 0xfd, 0x59, 0x5d, 0x2d, 0x7e, 0xa2, 0x0a, 0xaa, 0xcb, 0x64, 0xa2, 0xa0,
   0x43, 0x82, 0x86, 0x02, 0x77, 0xcf, 0x26, 0xb6, 0xa1, 0xee, 0x04, 0xc5, 0x6a, 0x5b, 0x50, 0x4a,
   0x42, 0x46, 0x47, 0x4d, 0x69, 0x6e, 0x65, 0x72, 0x20, 0x50, 0x72, 0x6f, 0x62, 0x65, 0x00, 0x00,
   0x42, 0x46, 0x47, 0x00, 0x64, 0x61, 0x01, 0x1a, 0xc9, 0x06, 0xa9, 0x51, 0xfb, 0x9b, 0x3c, 0x73]

/-- The work division a probe reply `res` stands for: the `switch` of
`icarus_init` (driver-icarus.c:1975). -/
def probe_division (res : Nat) : Int :=
  if res = 0x04C0FDB4 then 1
  else if res = 0x82540E46 then 2
  else if res = 0x417C0F36 then 4
  else if res = 0x60C994D5 then 8
  else 2

/-- The probe of `icarus_init` (driver-icarus.c:1947 to 1993), run when
`work_division` is 0: the probe frame is written, one reply is read without
a thread handle, and the work division it stands for is stored. `none`
means the reads of `link` ran out. -/
def init_probe (env : Env) (link : List ReadEv) (t : Thr) : Option Thr :=
  let fd := t.device_fd
  let t := (icarus_write env t fd probe_pkt).2
  let res_bin := memset (fun _ => 0) 0 0 t.info.read_size.toNat
  match icarus_gets res_bin link {} false t.info.read_count t.info.read_size with
  | none => none
  | some out =>
    let t := emit t (.gets fd false t.info.read_count t.info.read_size out.ret)
    let res :=
      if out.ret = .ICA_GETS_OK then be32toh env.host_be (load32 env.host_be out.buf) else 0
    some { t with info := { t.info with work_division := probe_division res } }

/-- The function `icarus_init` (driver-icarus.c:1941). The outer `none`
means the reads of `link` ran out; the inner `none` is the `quit` inside
`mask`. -/
def icarus_init (env : Env) (link : List ReadEv) (t : Thr) : Option (Option Thr) :=
  match (if t.info.work_division = 0 then init_probe env link t else some t) with
  | none => none
  | some t =>
    let t :=
      if t.info.fpga_count = 0 then { t with info := { t.info with fpga_count := t.info.work_division } }
      else t
    match mask t.info.work_division with
    | none => some none
    | some m => some (some { t with info := { t.info with nonce_mask := m } })

/-- The predicate: `work_division` is one of 1, 2, 4, 8 and
1 <= `fpga_count` <= `work_division`. -/
def division_ok (info : ICARUS_INFO) : Prop :=
  (info.work_division = 1 ∨ info.work_division = 2 ∨ info.work_division = 4 ∨
    info.work_division = 8) ∧ 1 ≤ info.fpga_count ∧ info.fpga_count ≤ info.work_division

/-- A thread whose work division and chip count are not set, on descriptor
5 with 4-byte replies. -/
def fresh_thr : Thr :=
  { device_fd := 5, info := { read_size := 4, read_count := 16, baud := 115200 } }

/-- The reply to the probe of a device that splits the work in four. -/
def probe_reply : List ReadEv :=
  [{ read := some [0x41, 0x7c, 0x0f, 0x36] }]

/-! ## The tick budget of the wait -/

/-- Every event but a reader call with a thread handle; such a call is
admitted when its tick budget is 48 in scrypt mode and 16 otherwise. -/
def Event.fixed_budget (env : Env) : Event → Bool
  | .gets _ true read_count _ _ => decide (read_count = if env.opt_scrypt then 48 else 16)
  | _ => true

/-- The session `sample_thr` with a poll window of 80 ticks, as
`icarus_set_timing` leaves it in the calibration modes. -/
def window_thr : Thr :=
  { sample_thr with info := { sample_thr.info with read_count := 80 } }

/-! ## Continued search -/

/-- An environment in which only the job at address 1, the current one,
accepts a nonce, and two seconds have gone by since the job start whenever
the driver asks; the port cannot be opened. -/
def late_env : Env :=
  { test_nonce := fun w _ => match w with
      | some r => decide (r.addr = 1)
      | none => false,
    timer_elapsed_us := fun _ _ => 2000000 }

/-- The session `sample_thr` with the continued search enabled and a poll
window of 10 ticks, that is one second. -/
def search_thr : Thr :=
  { sample_thr with info := { sample_thr.info with continue_search := true, read_count := 10 } }

/-! ## Cycles that start no job -/

/-- A new session on descriptor 5 with 4-byte replies: `firstrun` is set
and no job was sent yet. -/
def first_thr : Thr :=
  { device_fd := 5, info := { read_size := 4, baud := 115200 } }

/-- The session `first_thr` on a device that is not enabled. -/
def disabled_thr : Thr :=
  { first_thr with deven_enabled := false }

/-- An environment in which every write on the link fails and the port
cannot be opened. -/
def mute_env : Env :=
  { write_all := fun _ => false }

/-! ## The identify hold -/

/-- An environment with a running clock, as `clock_env`, in which
`copy_work` allocates at address 3. -/
def hold_env : Env :=
  { now := fun tr => ⟨tr.length, 0⟩,
    tdiff := fun a b => seconds a - seconds b,
    new_addr := fun _ => 3 }

/-- The session `sample_thr` with an identify pending and a nonce range of
seven seconds: the job at address 1 is running on the device. -/
def hold_thr : Thr :=
  { sample_thr with
    state := { sample_thr.state with identify := true },
    info := { sample_thr.info with fullnonce := 7 } }

/-- A job whose data bytes are all 1. -/
def next_work : work :=
  ⟨fun _ => 0, fun _ => 0, fun _ => 1, 0⟩

/-- Events of an identify hold before its job start: no write on the link,
and a nonce submitted only against the job at address `a` (`none` for a
NULL pointer). -/
def Event.held (a : Option Nat) : Event → Bool
  | .write _ _ => false
  | .submit_nonce w _ => decide (w.map WorkRef.addr = a)
  | _ => true

/-! ## The close of a history entry -/

/-- The test that closes the open history entry (driver-icarus.c:2579), as
it stands before the sample of the cycle is added: with the sample the
entry holds at least `min_data_count` samples, and the job of the cycle
started after the deadline of the entry, which is 60 s after `tv_start` for
the first sample of an entry. -/
def history_closes (info : ICARUS_INFO) (tv_start : timeval) : Prop :=
  (info.history.headD {}).values + 1 ≥ info.min_data_count ∧
    timercmp_gt tv_start
      (if (info.history.headD {}).values = 0 then timeradd tv_start ⟨60, 0⟩
        else (info.history.headD {}).finish) = true

/-- The test that lets a cycle contribute a timing sample
(driver-icarus.c:2552). -/
def takes_sample (info : ICARUS_INFO) (nonce : Nat) (was_hw_error : Bool) : Prop :=
  info.do_icarus_timing = true ∧ was_hw_error = false ∧
    Nat.land nonce info.nonce_mask > 0x0000ffff ∧
    Nat.land nonce info.nonce_mask < Nat.land info.nonce_mask 0xffff0000

/-- The hash count of a reply without hardware error
(driver-icarus.c:2493). -/
def reply_hashes (env : Env) (nonce : Nat) : Int :=
  if env.opt_scrypt then (nonce : Int) else trunc ((nonce : ℚ) * (env.opt_btc_number : ℚ) / 160)

/-- A reply that carries the nonce 375000000, read one second into the
job. -/
def detect_reply : List ReadEv :=
  [{ read := some [0xc0, 0x0b, 0x5a, 0x16], now := ⟨1, 0⟩ }]

/-- The session `sample_thr` after `short` was set with the last round of
the speed detection still to come: the calibration is on, the poll window
is 80 ticks, the nonce range 11.2 s, and the history is empty. -/
def detect_thr : Thr :=
  { sample_thr with
    info := { sample_thr.info with
      timing_mode := .MODE_SHORT, do_icarus_timing := true, do_default_detection := 1,
      nonce_mask := 0x7fffffff, read_count := 80, min_data_count := 5, fullnonce := 112 / 10,
      history := [{}, {}] } }

/-- The session `detect_thr` with the speed detection over. -/
def calibrating_thr : Thr :=
  { detect_thr with info := { detect_thr.info with do_default_detection := 0 } }

/-! ## Runs of driver operations -/

/-- A call into the driver that can change the configuration of a device:
one of the five setters, `icarus_init`, or a cycle of `icarus_scanhash`. -/
inductive Op where
  | set_timing (buf : String)
  | set_baud (newvalue : String)
  | set_work_division (newvalue : String)
  | set_fpga_count (newvalue : String)
  | set_reopen (newvalue : String)
  | init (link : List ReadEv)
  | scanhash (links : List (List ReadEv)) (w : work)

/-- Is the operation a call of `icarus_set_timing`. -/
def Op.is_timing : Op → Bool
  | .set_timing _ => true
  | _ => false

/-- The thread after one operation; `none` when the operation does not
return (the reads ran out, or `mask` quits). -/
def apply_op (env : Env) (atof : String → ℚ) (NANOSEC : ℚ) (drv_is_icarus : Bool)
    (valid_baud : Int → Bool) (t : Thr) : Op → Option Thr
  | .set_timing buf =>
    some { t with info := (icarus_set_timing atof NANOSEC drv_is_icarus t.info buf).info }
  | .set_baud newvalue => some { t with info := (icarus_set_baud valid_baud t.info newvalue).info }
  | .set_work_division newvalue =>
    (icarus_set_work_division t.info newvalue).map (fun r => { t with info := r.info })
  | .set_fpga_count newvalue =>
    some { t with info := (icarus_set_fpga_count t.info newvalue).info }
  | .set_reopen newvalue => some { t with info := (icarus_set_reopen t.info newvalue).info }
  | .init link => (icarus_init env link t).join
  | .scanhash links w => (icarus_scanhash env links t w).map (fun r => r.2)

/-- The thread after a run of operations, one after the other. -/
def run_ops (env : Env) (atof : String → ℚ) (NANOSEC : ℚ) (drv_is_icarus : Bool)
    (valid_baud : Int → Bool) : Thr → List Op → Option Thr
  | t, [] => some t
  | t, op :: ops =>
    match apply_op env atof NANOSEC drv_is_icarus valid_baud t op with
    | none => none
    | some t' => run_ops env atof NANOSEC drv_is_icarus valid_baud t' ops

/-- Is the event a call of the reply reader with a thread handle that
returned ICA_GETS_ERROR. The wait of `icarus_scanhash` is the one place that
calls the reader with a thread handle. -/
def Event.is_read_error : Event → Bool
  | .gets _ true _ _ .ICA_GETS_ERROR => true
  | _ => false

/-- The event is not a reader call with a thread handle that returned
ICA_GETS_ERROR. -/
def Event.not_read_error (e : Event) : Bool :=
  !e.is_read_error

/-- Every event but a reader call with a thread handle. -/
def Event.not_reader : Event → Bool
  | .gets _ true _ _ _ => false
  | _ => true

/-- The session `error_thr` with the reopen policy `timeout` and the port
closed when the cycle begins. -/
def closed_error_thr : Thr :=
  { error_thr with
    device_fd := -1,
    info := { error_thr.info with reopen_mode := .IRM_TIMEOUT } }

/-! ## The refit in binary64 -/

/-- The sums of a `struct ICARUS_HISTORY` entry as the machine holds them:
four `double`s and the count `values`. -/
structure history_double where
  sumXiTi : double := .finite 0
  sumXi : double := .finite 0
  sumTi : double := .finite 0
  sumXi2 : double := .finite 0
  values : Nat := 0
deriving DecidableEq

/-- One sample added to the sums of `history0` (driver-icarus.c:2567 to
2572) in binary64; `Xi` is `(double)hash_count`. -/
def add_sample_double (h0 : history_double) (hash_count : Int) (Ti : double) : history_double :=
  let Xi := of_int hash_count
  { sumXiTi := dadd h0.sumXiTi (dmul Xi Ti), sumXi := dadd h0.sumXi Xi,
    sumTi := dadd h0.sumTi Ti, sumXi2 := dadd h0.sumXi2 (dmul Xi Xi),
    values := h0.values + 1 }

/-- The history entry the driver builds from a list of samples
`(hash_count, Ti)`, added one by one to an entry of zeros. -/
def entry_of_double (samples : List (Int × double)) : history_double :=
  samples.foldl (fun h p => add_sample_double h p.1 p.2) {}

/-- The sums of the closed history entries that hold at least
`MIN_DATA_COUNT` samples, added to `history0` in binary64
(driver-icarus.c:2594 to 2609). -/
def history_merge_double : List history_double → history_double → history_double
  | [], h0 => h0
  | h :: hs, h0 =>
    if h.values ≥ 5 then
      history_merge_double hs
        { sumXiTi := dadd h0.sumXiTi h.sumXiTi, sumXi := dadd h0.sumXi h.sumXi,
          sumTi := dadd h0.sumTi h.sumTi, sumXi2 := dadd h0.sumXi2 h.sumXi2,
          values := h0.values + h.values }
    else history_merge_double hs h0

/-- The divisor of the slope `Hs` (driver-icarus.c:2614) in binary64. -/
def refit_divisor_double (h0 : history_double) : double :=
  dsub (dmul (of_int h0.values) h0.sumXi2) (dmul h0.sumXi h0.sumXi)

/-- The slope `Hs` of the refit (driver-icarus.c:2613) in binary64. -/
def refit_Hs_double (h0 : history_double) : double :=
  ddiv (dsub (dmul (of_int h0.values) h0.sumXiTi) (dmul h0.sumXi h0.sumTi))
    (refit_divisor_double h0)

/-- The intercept `W` of the refit (driver-icarus.c:2615) in binary64. -/
def refit_W_double (h0 : history_double) (Hs : double) : double :=
  dsub (ddiv h0.sumTi (of_int h0.values)) (ddiv (dmul Hs h0.sumXi) (of_int h0.values))

/-- The nonce range time `fullnonce` of the refit (driver-icarus.c:2622) in
binary64. -/
def refit_fullnonce_double (h0 : history_double) : double :=
  dadd (refit_W_double h0 (refit_Hs_double h0))
    (dmul (refit_Hs_double h0) (.finite 4294967296))

/-- The cap of the poll window at the configured limit
(driver-icarus.c:2624 to 2628). -/
def limit_read_count (read_count limit : Int) : Int :=
  if limit > 0 ∧ read_count > limit then limit else read_count

/-- The poll window `(int)(fullnonce * TIME_FACTOR) - 1` of the refit
(driver-icarus.c:2623) as an x86-64 machine computes it: the conversion to
`int`, and a subtraction that wraps. -/
def refit_ticks_double (h0 : history_double) : Int :=
  to_int (to_int32 (dmul (refit_fullnonce_double h0) (.finite 10)) - 1)

/-- The `read_count` a refit stores (driver-icarus.c:2593 to 2631), computed
in binary64 from the closed history entries `hs`. -/
def refit_read_count_double (hs : List history_double) (limit : Int) : Int :=
  limit_read_count (refit_ticks_double (history_merge_double hs {})) limit

/-- The hash counts of the samples a refit merges: those of the entries
that hold at least `MIN_DATA_COUNT` samples. -/
def merged_counts (entries : List (List (Int × double))) : List Int :=
  ((entries.filter (fun l => decide (5 ≤ l.length))).flatten).map (fun p => p.1)

/-! ## Theorems -/

/-! ### Binary64 arithmetic -/

theorem pow2_eq (e : Int) : pow2 e = (2 : ℚ) ^ e := by
  unfold pow2
  split_ifs with h
  · obtain ⟨n, rfl⟩ := Int.eq_ofNat_of_zero_le h
    simp
  · push_neg at h
    obtain ⟨n, hn⟩ := Int.eq_ofNat_of_zero_le (show (0 : Int) ≤ -e by omega)
    have he : e = -(n : Int) := by omega
    subst he
    simp

theorem pow2_pos (e : Int) : 0 < pow2 e := by
  rw [pow2_eq]
  positivity

theorem pow2_mono {a b : Int} (h : a ≤ b) : pow2 a ≤ pow2 b := by
  rw [pow2_eq, pow2_eq]
  exact zpow_le_zpow_right₀ (by norm_num) h

theorem ilog2_loop_acc : ∀ (fuel n acc : Nat),
    ilog2_loop fuel n acc = acc + ilog2_loop fuel n 0 := by
  intro fuel
  induction fuel with
  | zero => intro n acc; simp [ilog2_loop]
  | succ f ih =>
    intro n acc
    simp only [ilog2_loop]
    split_ifs
    · simp
    · rw [ih (n / 2) (acc + 1), ih (n / 2) (0 + 1)]
      omega

theorem ilog2_loop_spec : ∀ (fuel n : Nat), 1 ≤ n → n ≤ fuel →
    2 ^ ilog2_loop fuel n 0 ≤ n ∧ n < 2 ^ (ilog2_loop fuel n 0 + 1) := by
  intro fuel
  induction fuel with
  | zero => intro n h1 h2; omega
  | succ f ih =>
    intro n h1 h2
    simp only [ilog2_loop]
    split_ifs with h
    · have : n = 1 := by omega
      subst this
      simp
    · rw [ilog2_loop_acc f (n / 2) (0 + 1)]
      have hn : 1 ≤ n / 2 := by omega
      have hf : n / 2 ≤ f := by omega
      obtain ⟨a, b⟩ := ih (n / 2) hn hf
      constructor
      · have : 2 ^ (0 + 1 + ilog2_loop f (n / 2) 0) = 2 * 2 ^ ilog2_loop f (n / 2) 0 := by
          rw [pow_add]; simp
        rw [this]
        omega
      · have : 2 ^ (0 + 1 + ilog2_loop f (n / 2) 0 + 1) =
            2 * 2 ^ (ilog2_loop f (n / 2) 0 + 1) := by
          rw [pow_add, pow_add, pow_add]; ring
        rw [this]
        omega

theorem ilog2_spec (n : Nat) (h : 1 ≤ n) : 2 ^ ilog2 n ≤ n ∧ n < 2 ^ (ilog2 n + 1) :=
  ilog2_loop_spec n n h (le_refl n)

theorem abs_num_den (q : ℚ) : |q| = (q.num.natAbs : ℚ) / (q.den : ℚ) := by
  have h := Rat.num_div_den q
  have hd : (0 : ℚ) < (q.den : ℚ) := by exact_mod_cast q.den_pos
  conv_lhs => rw [← h]
  rw [abs_div, abs_of_pos hd]
  congr 1
  rw [Nat.cast_natAbs, Int.cast_abs]

theorem exponent_le (q : ℚ) (hq : q ≠ 0) : pow2 (exponent q) ≤ |q| := by
  unfold exponent
  dsimp only
  split_ifs with h
  · exact h
  · have hn : 1 ≤ q.num.natAbs := by
      have : q.num ≠ 0 := Rat.num_ne_zero.mpr hq
      omega
    have hd : 1 ≤ q.den := q.den_pos
    obtain ⟨a1, _⟩ := ilog2_spec _ hn
    obtain ⟨_, b2⟩ := ilog2_spec _ hd
    rw [abs_num_den, pow2_eq]
    have e : ((ilog2 q.num.natAbs : Int) - (ilog2 q.den : Int) - 1) =
        (ilog2 q.num.natAbs : Int) - ((ilog2 q.den + 1 : Nat) : Int) := by push_cast; ring
    rw [e, zpow_sub₀ (by norm_num : (2 : ℚ) ≠ 0), zpow_natCast, zpow_natCast]
    have hd0 : (0 : ℚ) < (q.den : ℚ) := by exact_mod_cast q.den_pos
    have hp : (0 : ℚ) < 2 ^ (ilog2 q.den + 1) := by positivity
    rw [div_le_div_iff₀ hp hd0]
    have A : ((2 ^ ilog2 q.num.natAbs : Nat) : ℚ) ≤ (q.num.natAbs : ℚ) := by exact_mod_cast a1
    have B : ((q.den : Nat) : ℚ) ≤ ((2 ^ (ilog2 q.den + 1) : Nat) : ℚ) := by
      exact_mod_cast le_of_lt b2
    push_cast at A B
    calc (2 : ℚ) ^ ilog2 q.num.natAbs * (q.den : ℚ)
        ≤ (q.num.natAbs : ℚ) * (q.den : ℚ) := by
          exact mul_le_mul_of_nonneg_right A (le_of_lt hd0)
      _ ≤ (q.num.natAbs : ℚ) * 2 ^ (ilog2 q.den + 1) := by
          exact mul_le_mul_of_nonneg_left B (by positivity)

theorem round_even_int (z : Int) : round_even (z : ℚ) = z := by
  unfold round_even
  simp

theorem round_even_nonneg (q : ℚ) (h : 0 ≤ q) : 0 ≤ round_even q := by
  have hf : 0 ≤ Int.floor q := Int.floor_nonneg.mpr h
  unfold round_even
  dsimp only
  split_ifs <;> omega

theorem round_even_le (q : ℚ) (h : 0 ≤ q) : (round_even q : ℚ) ≤ 2 * q := by
  have hf : 0 ≤ Int.floor q := Int.floor_nonneg.mpr h
  have hfq : ((Int.floor q : Int) : ℚ) ≤ q := Int.floor_le q
  have hf0 : (0 : ℚ) ≤ ((Int.floor q : Int) : ℚ) := by exact_mod_cast hf
  unfold round_even
  dsimp only
  split_ifs with h1 h2 h3
  · linarith
  · push_cast
    by_cases hz : Int.floor q = 0
    · rw [hz] at h2 ⊢
      simp at h2 ⊢
      linarith
    · have : (1 : ℚ) ≤ ((Int.floor q : Int) : ℚ) := by
        have : 1 ≤ Int.floor q := by omega
        exact_mod_cast this
      linarith
  · linarith
  · push_cast
    have hhalf : q - (Int.floor q : ℚ) = 1 / 2 := by
      push_neg at h1 h2
      linarith
    linarith

theorem overflow_bound_eq : overflow_bound = (2 : ℚ) ^ (1024 : Nat) := by
  unfold overflow_bound
  norm_num

theorem overflow_bound_big : (2 : ℚ) ^ (64 : Nat) ≤ overflow_bound := by
  rw [overflow_bound_eq]
  exact pow_le_pow_right₀ (by norm_num) (by norm_num)

/-- Rounding a value that is not negative gives a value that is not
negative and at most twice as large, or the positive infinity. -/
theorem rnd_nonneg (q : ℚ) (h : 0 ≤ q) :
    ∃ r : ℚ, 0 ≤ r ∧ r ≤ 2 * q ∧
      rnd q = if overflow_bound ≤ r then .inf false else .finite r := by
  have hob : (0 : ℚ) < overflow_bound := lt_of_lt_of_le (by positivity) overflow_bound_big
  by_cases hq : q = 0
  · refine ⟨0, le_refl 0, by linarith, ?_⟩
    rw [if_neg (not_le.mpr hob)]
    unfold rnd
    rw [if_pos hq]
  · have hu := pow2_pos (max (exponent q) (-1022) - 52)
    have hm := round_even_nonneg (q / pow2 (max (exponent q) (-1022) - 52)) (by positivity)
    have hm2 := round_even_le (q / pow2 (max (exponent q) (-1022) - 52)) (by positivity)
    have hmq : (0 : ℚ) ≤ (round_even (q / pow2 (max (exponent q) (-1022) - 52)) : ℚ) := by
      exact_mod_cast hm
    refine ⟨(round_even (q / pow2 (max (exponent q) (-1022) - 52)) : ℚ)
      * pow2 (max (exponent q) (-1022) - 52), by positivity, ?_, ?_⟩
    · calc (round_even (q / pow2 (max (exponent q) (-1022) - 52)) : ℚ)
            * pow2 (max (exponent q) (-1022) - 52)
          ≤ 2 * (q / pow2 (max (exponent q) (-1022) - 52))
            * pow2 (max (exponent q) (-1022) - 52) :=
            mul_le_mul_of_nonneg_right hm2 (le_of_lt hu)
        _ = 2 * q := by field_simp
    · unfold rnd
      rw [if_neg hq]
      dsimp only
      rw [abs_of_nonneg (by positivity)]
      have : decide (q < 0) = false := by simpa using h
      rw [this]

/-- An integer of magnitude at most 2^53 is a binary64 value. -/
theorem rnd_int (z : Int) (h : |z| ≤ 9007199254740992) : rnd (z : ℚ) = .finite (z : ℚ) := by
  by_cases hz : z = 0
  · subst hz
    simp [rnd]
  have hq : (z : ℚ) ≠ 0 := by exact_mod_cast hz
  have habs : |(z : ℚ)| ≤ 9007199254740992 := by
    rw [← Int.cast_abs]
    exact_mod_cast h
  have he := exponent_le (z : ℚ) hq
  have h53 : exponent (z : ℚ) ≤ 53 := by
    by_contra hc
    push_neg at hc
    have := pow2_mono (show (54 : Int) ≤ exponent (z : ℚ) by omega)
    have e54 : pow2 54 = 18014398509481984 := by
      rw [pow2_eq]; norm_num
    rw [e54] at this
    linarith
  have hint : ∃ m : Int, (z : ℚ) / pow2 (max (exponent (z : ℚ)) (-1022) - 52) = (m : ℚ) := by
    by_cases h52 : exponent (z : ℚ) ≤ 52
    · obtain ⟨k, hk⟩ := Int.eq_ofNat_of_zero_le
        (show (0 : Int) ≤ 52 - max (exponent (z : ℚ)) (-1022) by omega)
      refine ⟨z * 2 ^ k, ?_⟩
      have e : max (exponent (z : ℚ)) (-1022) - 52 = -(k : Int) := by omega
      rw [e, pow2_eq, zpow_neg, zpow_natCast]
      push_cast
      field_simp
    · have e53 : exponent (z : ℚ) = 53 := by omega
      rw [e53] at he ⊢
      have p53 : pow2 53 = 9007199254740992 := by
        rw [pow2_eq]; norm_num
      rw [p53] at he
      have hz2 : |z| = 9007199254740992 := by
        have : (9007199254740992 : ℚ) ≤ ((|z| : Int) : ℚ) := by
          rw [Int.cast_abs]; exact he
        have : (9007199254740992 : Int) ≤ |z| := by exact_mod_cast this
        omega
      have p1 : pow2 (max 53 (-1022) - 52) = 2 := by
        rw [pow2_eq]; norm_num
      rw [p1]
      rcases abs_eq (by norm_num : (0 : Int) ≤ 9007199254740992) |>.mp hz2 with h1 | h1
      · exact ⟨4503599627370496, by rw [h1]; norm_num⟩
      · exact ⟨-4503599627370496, by rw [h1]; norm_num⟩
  obtain ⟨m, hm⟩ := hint
  have hu := pow2_pos (max (exponent (z : ℚ)) (-1022) - 52)
  unfold rnd
  rw [if_neg hq]
  dsimp only
  rw [hm, round_even_int, ← hm]
  have hr : (z : ℚ) / pow2 (max (exponent (z : ℚ)) (-1022) - 52)
      * pow2 (max (exponent (z : ℚ)) (-1022) - 52) = (z : ℚ) := by
    field_simp
  rw [hr, if_neg]
  have := overflow_bound_big
  have e64 : (2 : ℚ) ^ (64 : Nat) = 18446744073709551616 := by norm_num
  rw [e64] at this
  push_neg
  linarith

/-- C1: for every work_division in {1,2,4,8}, `mask` is `0xFFFFFFFF` shifted
right by `log2 work_division` (the four listed constants); for every other
integer `mask` takes its quit branch, and `icarus_set_work_division` returns
the error "Invalid work_division: must be 1, 2, 4 or 8" whenever the parsed
value is none of the four. -/
theorem mask_work_division (work_division : Int) (info : ICARUS_INFO) (newvalue : String) :
    (mask 1 = some 0xffffffff ∧ mask 2 = some 0x7fffffff ∧
      mask 4 = some 0x3fffffff ∧ mask 8 = some 0x1fffffff) ∧
    ((work_division = 1 ∨ work_division = 2 ∨ work_division = 4 ∨ work_division = 8) →
      mask work_division = some (0xFFFFFFFF >>> Nat.log2 work_division.toNat)) ∧
    (¬ (work_division = 1 ∨ work_division = 2 ∨ work_division = 4 ∨ work_division = 8) →
      mask work_division = none) ∧
    (¬ (atoi newvalue = 1 ∨ atoi newvalue = 2 ∨ atoi newvalue = 4 ∨ atoi newvalue = 8) →
      icarus_set_work_division info newvalue =
        some ⟨some "Invalid work_division: must be 1, 2, 4 or 8", info⟩) := by
  refine ⟨⟨rfl, rfl, rfl, rfl⟩, ?_, ?_, ?_⟩
  · rintro (h | h | h | h) <;> subst h <;> simp [mask, Nat.log2]
  · intro h
    simp only [not_or] at h
    obtain ⟨h1, h2, h4, h8⟩ := h
    simp [mask, h1, h2, h4, h8]
  · intro h
    simp [icarus_set_work_division, h]

/-- C1 at concrete values: work_division 4 gives the mask 0x3fffffff, the
value 3 makes `mask` quit, and the setter rejects "3" and leaves the
configuration alone. -/
theorem mask_work_division_witness :
    mask 4 = some (0xFFFFFFFF >>> Nat.log2 (4 : Int).toNat) ∧ mask 3 = none ∧
    icarus_set_work_division {} "3" =
      some ⟨some "Invalid work_division: must be 1, 2, 4 or 8", {}⟩ :=
  ⟨(mask_work_division 4 {} "3").2.1 (Or.inr (Or.inr (Or.inl rfl))),
    (mask_work_division 3 {} "3").2.2.1 (by decide),
    (mask_work_division 3 {} "3").2.2.2 (by decide)⟩

/-- C2: `icarus_process_worknonce` normalises the byte order of the nonce,
returns `last_work` whenever the normalised nonce is accepted for it,
otherwise `last2_work` when that is not NULL and accepts the nonce, and
otherwise NULL. -/
theorem process_worknonce_order (test_nonce : Option WorkRef → Nat → Bool) (host_be : Bool)
    (state : icarus_state) (nonce : Nat) :
    (icarus_process_worknonce test_nonce host_be state nonce).1 = be32toh host_be nonce ∧
    (test_nonce state.last_work (be32toh host_be nonce) = true →
      (icarus_process_worknonce test_nonce host_be state nonce).2 = state.last_work) ∧
    (test_nonce state.last_work (be32toh host_be nonce) = false →
      state.last2_work.isSome = true →
      test_nonce state.last2_work (be32toh host_be nonce) = true →
      (icarus_process_worknonce test_nonce host_be state nonce).2 = state.last2_work) ∧
    (test_nonce state.last_work (be32toh host_be nonce) = false →
      ¬ (state.last2_work.isSome = true ∧
          test_nonce state.last2_work (be32toh host_be nonce) = true) →
      (icarus_process_worknonce test_nonce host_be state nonce).2 = none) := by
  refine ⟨?_, ?_, ?_, ?_⟩
  · unfold icarus_process_worknonce
    dsimp only
    split_ifs <;> rfl
  · intro h
    simp [icarus_process_worknonce, h]
  · intro h1 h2 h3
    simp [icarus_process_worknonce, h1, h2, h3]
  · intro h1 h2
    unfold icarus_process_worknonce
    dsimp only
    rw [if_neg (by simp [h1]), if_neg]
    simpa using h2

/-- C2 at a concrete session: the current job rejects the nonce and the
previous job, at address 2, accepts it, so the previous job is returned. -/
theorem process_worknonce_order_witness :
    (icarus_process_worknonce sample_env.test_nonce false sample_thr.state 7).2 =
      sample_thr.state.last2_work :=
  (process_worknonce_order sample_env.test_nonce false sample_thr.state 7).2.2.1 rfl rfl rfl

/-- The SHA-mode frame, byte for byte. -/
theorem job_frame_sha (state : icarus_state) (w : work) :
    job_frame false (icarus_job_prepare false state w).2 =
      [0x55, 0xAA, 0x0F, 0x00] ++ [0, 0, 0, 0] ++ bytes_of w.midstate 32 ++
        (List.range 12).map (fun i => w.data (64 + i)) := rfl

/-- The scrypt-mode frame, byte for byte. -/
theorem job_frame_scrypt (state : icarus_state) (w : work) :
    job_frame true (icarus_job_prepare true state w).2 =
      [0x55, 0xAA, 0x1F, 0x00] ++ bytes_of w.target 32 ++ bytes_of w.midstate 32 ++
        bytes_of w.data 80 ++ [0xFF, 0xFF, 0xFF, 0xFF] ++ [0, 0, 0, 0, 0, 0, 0, 0] := rfl

/-- C4: in SHA mode the frame handed to the link is the 52 bytes
55 AA 0F 00, four zeros, midstate[0..31], data[64..75]; in scrypt mode it is
the 160 bytes 55 AA 1F 00, target[0..31], midstate[0..31], data[0..79],
FF FF FF FF, eight zeros, whatever the buffers held before. Reading the
fixed offsets back gives the job's bytes, and `dualminer_job_prepare`, at
the `work_size` its driver configures, builds the same frame. -/
theorem job_frame_layout (state : icarus_state) (w : work) (info : ICARUS_INFO) :
    (job_frame false (icarus_job_prepare false state w).2 =
        [0x55, 0xAA, 0x0F, 0x00] ++ [0, 0, 0, 0] ++ bytes_of w.midstate 32 ++
          (List.range 12).map (fun i => w.data (64 + i))) ∧
    (job_frame true (icarus_job_prepare true state w).2 =
        [0x55, 0xAA, 0x1F, 0x00] ++ bytes_of w.target 32 ++ bytes_of w.midstate 32 ++
          bytes_of w.data 80 ++ [0xFF, 0xFF, 0xFF, 0xFF] ++ [0, 0, 0, 0, 0, 0, 0, 0]) ∧
    ((job_frame false (icarus_job_prepare false state w).2).length = 52 ∧
      (job_frame true (icarus_job_prepare true state w).2).length = 160) ∧
    (((job_frame false (icarus_job_prepare false state w).2).drop 8).take 32 =
        bytes_of w.midstate 32 ∧
      ((job_frame false (icarus_job_prepare false state w).2).drop 40).take 12 =
        (List.range 12).map (fun i => w.data (64 + i))) ∧
    (((job_frame true (icarus_job_prepare true state w).2).drop 4).take 32 =
        bytes_of w.target 32 ∧
      ((job_frame true (icarus_job_prepare true state w).2).drop 36).take 32 =
        bytes_of w.midstate 32 ∧
      ((job_frame true (icarus_job_prepare true state w).2).drop 68).take 80 =
        bytes_of w.data 80) ∧
    (∀ opt_scrypt : Bool, info.work_size = dualminer_work_size opt_scrypt →
      dualminer_frame info (dualminer_job_prepare opt_scrypt info state w).2 =
        job_frame opt_scrypt (icarus_job_prepare opt_scrypt state w).2) := by
  have hsha := job_frame_sha state w
  have hscrypt := job_frame_scrypt state w
  refine ⟨hsha, hscrypt, ?_, ?_, ?_, ?_⟩
  · rw [hsha, hscrypt]
    exact ⟨rfl, rfl⟩
  · rw [hsha]
    exact ⟨rfl, rfl⟩
  · rw [hscrypt]
    exact ⟨rfl, rfl, rfl⟩
  · intro opt_scrypt h
    cases opt_scrypt
    · rw [hsha]
      simp only [dualminer_frame, dualminer_job_prepare, h, dualminer_work_size]
      rfl
    · rw [hscrypt]
      simp only [dualminer_frame, dualminer_job_prepare, h, dualminer_work_size]
      rfl

/-- C4 at the configuration of the dualminer driver in SHA mode
(`work_size` = 52): `dualminer_job_prepare` and `icarus_job_prepare` build
the same frame. -/
theorem job_frame_layout_witness :
    dualminer_frame { work_size := 52 }
        (dualminer_job_prepare false { work_size := 52 } {} sample_work).2 =
      job_frame false (icarus_job_prepare false {} sample_work).2 :=
  (job_frame_layout {} sample_work { work_size := 52 }).2.2.2.2.2 false rfl

/-- C5 (as stated, refuted): with `info->work_size` = 64 the SHA-mode frame
of 52 bytes does not match the declared size, yet `icarus_job_prepare` and
`dualminer_job_prepare` both return success and the 52-byte frame is
built. -/
theorem job_prepare_accepts_size_mismatch :
    frame_size false ≠ ({ work_size := 64 } : ICARUS_INFO).work_size ∧
    (icarus_job_prepare false {} ⟨fun _ => 0, fun _ => 0, fun _ => 0, 0⟩).1 = true ∧
    (dualminer_job_prepare false { work_size := 64 } {}
      ⟨fun _ => 0, fun _ => 0, fun _ => 0, 0⟩).1 = true ∧
    (job_frame false
      (icarus_job_prepare false {} ⟨fun _ => 0, fun _ => 0, fun _ => 0, 0⟩).2).length = 52 := by
  refine ⟨by decide, rfl, rfl, rfl⟩

/-- C5 (amended): the job codec never rejects. For every mode, every job and
every `info->work_size`, matching the frame size or not, both
`icarus_job_prepare` and `dualminer_job_prepare` return success, and the
frame built has the size of its mode (52 or 160 bytes). -/
theorem job_prepare_always_succeeds (opt_scrypt : Bool) (info : ICARUS_INFO)
    (state : icarus_state) (w : work) :
    (icarus_job_prepare opt_scrypt state w).1 = true ∧
    (dualminer_job_prepare opt_scrypt info state w).1 = true ∧
    (job_frame opt_scrypt (icarus_job_prepare opt_scrypt state w).2).length =
      frame_size opt_scrypt := by
  cases opt_scrypt
  · exact ⟨rfl, rfl, rfl⟩
  · exact ⟨rfl, rfl, rfl⟩

/-! ### The reply reader -/

theorem ret_of_some (e : ReadEv) (bs : List Nat) (h : e.read = some bs) :
    e.ret = (bs.length : Int) := by
  simp [ReadEv.ret, h]

theorem ret_nonneg_some (e : ReadEv) (h : 0 ≤ e.ret) : ∃ bs, e.read = some bs := by
  cases hr : e.read with
  | none => simp [ReadEv.ret, hr] at h
  | some bs => exact ⟨bs, rfl⟩

theorem bytes_read_nonneg (l : List ReadEv) (h : ∀ e ∈ l, 0 ≤ e.ret) : 0 ≤ bytes_read l := by
  induction l with
  | nil => simp [bytes_read]
  | cons e l ih =>
    have h1 := h e (List.mem_cons_self _ _)
    have h2 := ih (fun x hx => h x (List.mem_cons_of_mem _ hx))
    simp only [bytes_read, List.map_cons, List.sum_cons] at h2 ⊢
    omega

theorem bytes_read_cons (e : ReadEv) (l : List ReadEv) :
    bytes_read (e :: l) = e.ret + bytes_read l := by
  simp [bytes_read]

theorem zero_reads_cons (e : ReadEv) (l : List ReadEv) :
    zero_reads (e :: l) = zero_reads l + (if e.ret = 0 then 1 else 0) := by
  simp [zero_reads, List.countP_cons]

theorem data_reads_cons (e : ReadEv) (l : List ReadEv) :
    data_reads (e :: l) = data_reads l + (if 0 < e.ret then 1 else 0) := by
  simp [data_reads, List.countP_cons]

/-- The loop returns OK at the read that completes the frame. -/
theorem gets_loop_ok (thr : Bool) (read_count : Int) (r : ReadEv) (post : List ReadEv) :
    ∀ (pre : List ReadEv) (rc read_amount : Int) (first : Bool) (buf : Buf) (off : Nat)
      (tv : timeval) (reads : Nat),
      0 ≤ rc → (∀ e ∈ pre, 0 ≤ e.ret) → bytes_read pre < read_amount →
      read_amount ≤ bytes_read pre + r.ret →
      rc + (zero_reads pre : Int) < max 1 read_count →
      (∀ e ∈ pre, e.ret = 0 → (thr && e.work_restart) = false) →
      ∃ out, icarus_gets_loop thr read_count (pre ++ r :: post) rc read_amount first buf off
          tv reads = some out ∧ out.ret = .ICA_GETS_OK ∧ out.reads = reads + pre.length + 1 := by
  intro pre
  induction pre with
  | nil =>
    intro rc ra first buf off tv reads _ _ hlt hge _ _
    simp only [bytes_read, List.map_nil, List.sum_nil, zero_add] at hlt hge
    obtain ⟨bs, hbs⟩ := ret_nonneg_some r (by omega)
    have hret := ret_of_some r bs hbs
    simp only [List.nil_append, icarus_gets_loop, hbs]
    rw [if_pos (by omega)]
    exact ⟨_, rfl, rfl, by simp⟩
  | cons e pre ih =>
    intro rc ra first buf off tv reads hrc hnn hlt hge hz hq
    have he := hnn e (List.mem_cons_self _ _)
    have hnn' : ∀ x ∈ pre, 0 ≤ x.ret := fun x hx => hnn x (List.mem_cons_of_mem _ hx)
    have hq' : ∀ x ∈ pre, x.ret = 0 → (thr && x.work_restart) = false :=
      fun x hx => hq x (List.mem_cons_of_mem _ hx)
    have hsum := bytes_read_nonneg pre hnn'
    rw [bytes_read_cons] at hlt hge
    rw [zero_reads_cons] at hz
    obtain ⟨bs, hbs⟩ := ret_nonneg_some e he
    have hret := ret_of_some e bs hbs
    simp only [List.cons_append, icarus_gets_loop, hbs]
    rw [if_neg (by omega)]
    by_cases hpos : (bs.length : Int) > 0
    · rw [if_pos hpos]
      have hne : ¬ e.ret = 0 := by omega
      rw [if_neg hne] at hz
      obtain ⟨out, h1, h2, h3⟩ := ih rc (ra - (bs.length : Int)) false (buf_store buf off bs)
        (off + bs.length) (if first then e.now else tv) (reads + 1) hrc hnn' (by omega)
        (by omega) (by simpa using hz) hq'
      exact ⟨out, h1, h2, by simp [h3]; omega⟩
    · rw [if_neg hpos]
      have hzero : e.ret = 0 := by omega
      rw [if_pos hzero] at hz
      have hrst := hq e (List.mem_cons_self _ _) hzero
      rw [hrst]
      simp only [Bool.false_eq_true, if_false]
      push_cast at hz
      rw [if_neg (by omega)]
      obtain ⟨out, h1, h2, h3⟩ := ih (rc + 1) ra first (buf_store buf off bs) off
        (if first then e.now else tv) (reads + 1) (by omega) hnn' (by omega) (by omega)
        (by omega) hq'
      exact ⟨out, h1, h2, by simp [h3]; omega⟩

/-- C6 (as stated, refuted): built with `HAVE_EPOLL`, with a thread handle
whose restart notifier epoll takes, `icarus_gets` is called with read_count =
16 and read_size = 1. The link is ready but the first read returns no byte;
the second read would return the byte. One zero-byte read is fewer than 16
and no restart is seen, yet the function returns ICA_GETS_TIMEOUT after the
first pass; built without epoll it returns ICA_GETS_OK at the second read. -/
theorem gets_epoll_single_pass :
    (icarus_gets_epoll {} (fun _ => 0)
        [(.link_ready, { read := some [] }), (.link_ready, { read := some [7] })]
        {} true 16 1).map (fun o => (o.ret, o.reads)) = some (.ICA_GETS_TIMEOUT, 1) ∧
    (icarus_gets (fun _ => 0) [{ read := some [] }, { read := some [7] }]
        {} true 16 1).map (fun o => (o.ret, o.reads)) = some (.ICA_GETS_OK, 2) ∧
    (icarus_gets_epoll {} (fun _ => 0)
        [(.timeout, {}), (.link_ready, { read := some [7] })]
        {} true 16 1).map (fun o => (o.ret, o.reads)) = some (.ICA_GETS_TIMEOUT, 1) := by
  refine ⟨?_, ?_, ?_⟩ <;> decide

/-- C6 (amended): the link is the run of values `ret` takes in the passes of
the loop. For every read_size >= 1 and every run of non-negative results,
`icarus_gets` returns ICA_GETS_OK at the first pass at which the bytes
received since the call began reach read_size (bytes of earlier short reads
count), and makes no pass after it, provided no observed restart and fewer
than N zero results came before that pass. Built without `HAVE_EPOLL`, N is
read_count. Built with it, N is 1 when the thread has a restart notifier and
epoll takes both descriptors, and read_count otherwise; a pass then reads at
most one byte when epoll waits, and gives 0 when the wait ends with anything
but the link alone ready. -/
theorem gets_ok_at_first_complete (buf : Buf) (tv : timeval) (thr : Bool)
    (read_count read_size : Int) (pre : List ReadEv) (r : ReadEv) (post : List ReadEv)
    (_hsize : 1 ≤ read_size)
    (hnonneg : ∀ e ∈ pre, 0 ≤ e.ret)
    (hbefore : bytes_read pre < read_size)
    (hreach : read_size ≤ bytes_read (pre ++ [r]))
    (hrestart : ∀ e ∈ pre, e.ret = 0 → (thr && e.work_restart) = false) :
    ((zero_reads pre : Int) < read_count →
      ∃ out, icarus_gets buf (pre ++ r :: post) tv thr read_count read_size = some out ∧
        out.ret = .ICA_GETS_OK ∧ out.reads = pre.length + 1) ∧
    (∀ (s : EpollSetup) (link : List (EpollWait × ReadEv)),
      link.map (epoll_pass (epoll_prelude thr s read_count).1) = pre ++ r :: post →
      (zero_reads pre : Int) < (epoll_prelude thr s read_count).2 →
      ∃ out, icarus_gets_epoll s buf link tv thr read_count read_size = some out ∧
        out.ret = .ICA_GETS_OK ∧ out.reads = pre.length + 1) ∧
    (∀ s : EpollSetup,
      (epoll_prelude thr s read_count).2 =
        if thr = true ∧ s.notifier = true ∧ s.create_ok = true ∧ s.add_link_ok = true ∧
          s.add_notifier_ok = true then 1 else read_count) ∧
    (∀ (s : EpollSetup) (p : EpollWait × ReadEv),
      (epoll_pass (epoll_prelude thr s read_count).1 p).ret =
        if (epoll_prelude thr s read_count).1 = true ∧ p.1 ≠ .failed then
          (if p.1 = .link_ready then min p.2.ret 1 else 0)
        else p.2.ret) := by
  have hreach' : read_size ≤ bytes_read pre + r.ret := by
    simpa [bytes_read] using hreach
  refine ⟨?_, ?_, ?_, ?_⟩
  · intro hzeros
    obtain ⟨out, h1, h2, h3⟩ := gets_loop_ok thr read_count r post pre 0 read_size true buf 0
      tv 0 (le_refl 0) hnonneg hbefore hreach' (by omega) hrestart
    exact ⟨out, h1, h2, by omega⟩
  · intro s link hlink hzeros
    obtain ⟨out, h1, h2, h3⟩ := gets_loop_ok thr (epoll_prelude thr s read_count).2 r post pre 0
      read_size true buf 0 tv 0 (le_refl 0) hnonneg hbefore hreach' (by omega) hrestart
    refine ⟨out, ?_, h2, by omega⟩
    unfold icarus_gets_epoll icarus_gets
    rw [hlink]
    exact h1
  · intro s
    unfold epoll_prelude
    cases thr <;> cases s.notifier <;> cases s.create_ok <;> cases s.add_link_ok <;>
      cases s.add_notifier_ok <;> simp
  · intro s p
    unfold epoll_pass
    cases (epoll_prelude thr s read_count).1
    · simp
    · obtain ⟨w, e⟩ := p
      cases w
      · simp
      · simp [ReadEv.ret]
      · cases hrd : e.read with
        | none => simp [ReadEv.ret, hrd]
        | some bs =>
          cases bs with
          | nil => simp [ReadEv.ret, hrd]
          | cons b bs =>
            simp [ReadEv.ret, hrd]
      · simp [ReadEv.ret]

/-- C6 (amended) at a concrete link, built with epoll and the notifier
taken: the link is ready three times and gives one byte each time, which
completes a 3-byte frame at the third pass; the fourth entry is never
reached. -/
theorem gets_ok_at_first_complete_witness :
    ∃ out, icarus_gets_epoll {} (fun _ => 0)
        [(.link_ready, { read := some [7, 8] }), (.link_ready, { read := some [9] }),
          (.link_ready, { read := some [1] }), (.failed, { read := none })]
        {} true 16 3 = some out ∧
      out.ret = .ICA_GETS_OK ∧
      out.reads = ([{ read := some [7] }, { read := some [9] }] : List ReadEv).length + 1 :=
  (gets_ok_at_first_complete (fun _ => 0) {} true 16 3
    [{ read := some [7] }, { read := some [9] }] { read := some [1] } [{ read := none }]
    (by decide) (by decide) (by decide) (by decide) (by decide)).2.1 {}
    [(.link_ready, { read := some [7, 8] }), (.link_ready, { read := some [9] }),
      (.link_ready, { read := some [1] }), (.failed, { read := none })] rfl (by decide)

/-- Where the loop takes `*tv_finish` from when it returns OK. -/
theorem gets_loop_tv (thr : Bool) (read_count : Int) :
    ∀ (link : List ReadEv) (rc read_amount : Int) (first : Bool) (buf : Buf) (off : Nat)
      (tv : timeval) (reads : Nat) (out : GetsOut),
      1 ≤ read_amount →
      icarus_gets_loop thr read_count link rc read_amount first buf off tv reads = some out →
      out.ret = .ICA_GETS_OK →
      reads < out.reads ∧ (first = false → out.tv_finish = tv) ∧
      (first = true → ∃ zs r post, link = zs ++ r :: post ∧ (∀ z ∈ zs, z.ret = 0) ∧
        0 < r.ret ∧ reads + zs.length < out.reads ∧ out.tv_finish = r.now) := by
  intro link
  induction link with
  | nil =>
    intro rc ra first buf off tv reads out _ h
    simp [icarus_gets_loop] at h
  | cons e link ih =>
    intro rc ra first buf off tv reads out hra h hok
    cases hbs : e.read with
    | none =>
      simp only [icarus_gets_loop, hbs, Option.some.injEq] at h
      subst h
      simp at hok
    | some bs =>
      have hret := ret_of_some e bs hbs
      simp only [icarus_gets_loop, hbs] at h
      by_cases hge : (bs.length : Int) ≥ ra
      · rw [if_pos hge] at h
        simp only [Option.some.injEq] at h
        subst h
        refine ⟨by simp, ?_, ?_⟩
        · intro hf
          simp [hf]
        · intro hf
          exact ⟨[], e, link, rfl, by simp, by omega, by simp, by simp [hf]⟩
      · rw [if_neg hge] at h
        by_cases hpos : (bs.length : Int) > 0
        · rw [if_pos hpos] at h
          obtain ⟨h1, h2, _⟩ := ih rc (ra - (bs.length : Int)) false (buf_store buf off bs)
            (off + bs.length) (if first then e.now else tv) (reads + 1) out (by omega) h hok
          have htv := h2 rfl
          refine ⟨by omega, ?_, ?_⟩
          · intro hf
            simpa [hf] using htv
          · intro hf
            exact ⟨[], e, link, rfl, by simp, by omega, by simp; omega, by simpa [hf] using htv⟩
        · rw [if_neg hpos] at h
          by_cases hrst : (thr && e.work_restart) = true
          · rw [if_pos hrst] at h
            simp only [Option.some.injEq] at h
            subst h
            simp at hok
          · rw [if_neg hrst] at h
            by_cases hto : rc + 1 ≥ read_count
            · rw [if_pos hto] at h
              simp only [Option.some.injEq] at h
              subst h
              simp at hok
            · rw [if_neg hto] at h
              obtain ⟨h1, h2, h3⟩ := ih (rc + 1) ra first (buf_store buf off bs) off
                (if first then e.now else tv) (reads + 1) out hra h hok
              refine ⟨by omega, ?_, ?_⟩
              · intro hf
                have := h2 hf
                simpa [hf] using this
              · intro hf
                obtain ⟨zs, r, post, hl, hz, hr, hlen, htv⟩ := h3 hf
                refine ⟨e :: zs, r, post, by simp [hl], ?_, hr, by simp; omega, htv⟩
                intro z hzmem
                rcases List.mem_cons.mp hzmem with rfl | hz'
                · omega
                · exact hz z hz'

/-- C7: whenever `icarus_gets` returns ICA_GETS_OK for read_size >= 1, the
time stored in `*tv_finish` is the clock sampled right after the first read
of this call that returned at least one byte (every read before it returned
none); reads that complete the frame later do not change it. -/
theorem gets_tv_finish_first_byte (buf : Buf) (tv : timeval) (thr : Bool)
    (read_count read_size : Int) (link : List ReadEv) (out : GetsOut)
    (hsize : 1 ≤ read_size)
    (hrun : icarus_gets buf link tv thr read_count read_size = some out)
    (hok : out.ret = .ICA_GETS_OK) :
    ∃ zs r post, link = zs ++ r :: post ∧ (∀ z ∈ zs, z.ret = 0) ∧ 0 < r.ret ∧
      zs.length < out.reads ∧ out.tv_finish = r.now := by
  obtain ⟨_, _, h3⟩ := gets_loop_tv thr read_count link 0 read_size true buf 0 tv 0 out hsize hrun hok
  obtain ⟨zs, r, post, h⟩ := h3 rfl
  exact ⟨zs, r, post, by simpa using h⟩

/-- C7 at a concrete link: an empty read at 1 s, one byte at 2 s and the
remaining three bytes at 3 s; the call returns OK with `*tv_finish` = 2 s. -/
theorem gets_tv_finish_first_byte_witness :
    ∃ zs r post,
      ([{ read := some [], now := ⟨1, 0⟩ }, { read := some [7], now := ⟨2, 0⟩ },
        { read := some [1, 2, 3], now := ⟨3, 0⟩ }] : List ReadEv) = zs ++ r :: post ∧
      (∀ z ∈ zs, z.ret = 0) ∧ 0 < r.ret ∧
      zs.length < (3 : Nat) ∧ (⟨2, 0⟩ : timeval) = r.now :=
  gets_tv_finish_first_byte (fun _ => 0) {} true 16 4
    [{ read := some [], now := ⟨1, 0⟩ }, { read := some [7], now := ⟨2, 0⟩ },
      { read := some [1, 2, 3], now := ⟨3, 0⟩ }]
    ⟨.ICA_GETS_OK, buf_store (buf_store (buf_store (fun _ => 0) 0 []) 0 [7]) 1 [1, 2, 3],
      ⟨2, 0⟩, 3⟩
    (by decide) rfl rfl

/-- The loop returns within its budget of reads. `k` is the number of reads
of this run. -/
theorem gets_loop_terminates (thr : Bool) (read_count : Int) :
    ∀ (link : List ReadEv) (rc read_amount : Int) (first : Bool) (buf : Buf) (off : Nat)
      (tv : timeval) (reads : Nat),
      0 ≤ rc → rc < max 1 read_count → 1 ≤ read_amount →
      (max 1 read_count - rc) + (read_amount - 1) ≤ (link.length : Int) →
      ∃ out k, icarus_gets_loop thr read_count link rc read_amount first buf off tv reads
          = some out ∧ out.reads = reads + k ∧ 1 ≤ k ∧
        (k : Int) ≤ (max 1 read_count - rc) + (read_amount - 1) ∧
        (zero_reads (link.take k) : Int) ≤ max 1 read_count - rc ∧
        (data_reads (link.take (k - 1)) : Int) ≤ read_amount - 1 := by
  intro link
  induction link with
  | nil =>
    intro rc ra first buf off tv reads h0 hM hra hlen
    simp only [List.length_nil, Nat.cast_zero] at hlen
    omega
  | cons e link ih =>
    intro rc ra first buf off tv reads h0 hM hra hlen
    simp only [List.length_cons, Nat.cast_add, Nat.cast_one] at hlen
    have hz1 : (zero_reads (List.take 1 (e :: link)) : Int) ≤ max 1 read_count - rc := by
      have : zero_reads (List.take 1 (e :: link)) ≤ 1 := by
        simp only [List.take_succ_cons, List.take_zero, zero_reads_cons]
        split_ifs <;> simp [zero_reads]
      omega
    have hd0 : (data_reads (List.take (1 - 1) (e :: link)) : Int) ≤ ra - 1 := by
      simp [data_reads]
      omega
    cases hbs : e.read with
    | none =>
      simp only [icarus_gets_loop, hbs]
      exact ⟨_, 1, rfl, rfl, le_refl 1, by push_cast; omega, hz1, hd0⟩
    | some bs =>
      have hret := ret_of_some e bs hbs
      simp only [icarus_gets_loop, hbs]
      by_cases hge : (bs.length : Int) ≥ ra
      · rw [if_pos hge]
        exact ⟨_, 1, rfl, rfl, le_refl 1, by push_cast; omega, hz1, hd0⟩
      · rw [if_neg hge]
        by_cases hpos : (bs.length : Int) > 0
        · rw [if_pos hpos]
          obtain ⟨out, k, h1, h2, h3, h4, h5, h6⟩ := ih rc (ra - (bs.length : Int)) false
            (buf_store buf off bs) (off + bs.length) (if first then e.now else tv) (reads + 1)
            h0 hM (by omega) (by omega)
          obtain ⟨j, rfl⟩ : ∃ j, k = j + 1 := ⟨k - 1, by omega⟩
          refine ⟨out, j + 1 + 1, h1, by omega, by omega, by push_cast at h4 ⊢; omega, ?_, ?_⟩
          · rw [List.take_succ_cons, zero_reads_cons, if_neg (by omega)]
            simpa using h5
          · simp only [Nat.add_sub_cancel] at h6 ⊢
            rw [List.take_succ_cons, data_reads_cons, if_pos (by omega)]
            push_cast
            omega
        · rw [if_neg hpos]
          by_cases hrst : (thr && e.work_restart) = true
          · rw [if_pos hrst]
            exact ⟨_, 1, rfl, rfl, le_refl 1, by push_cast; omega, hz1, hd0⟩
          · rw [if_neg hrst]
            by_cases hto : rc + 1 ≥ read_count
            · rw [if_pos hto]
              exact ⟨_, 1, rfl, rfl, le_refl 1, by push_cast; omega, hz1, hd0⟩
            · rw [if_neg hto]
              obtain ⟨out, k, h1, h2, h3, h4, h5, h6⟩ := ih (rc + 1) ra first
                (buf_store buf off bs) off (if first then e.now else tv) (reads + 1)
                (by omega) (by omega) hra (by omega)
              obtain ⟨j, rfl⟩ : ∃ j, k = j + 1 := ⟨k - 1, by omega⟩
              refine ⟨out, j + 1 + 1, h1, by omega, by omega, by push_cast at h4 ⊢; omega,
                ?_, ?_⟩
              · rw [List.take_succ_cons, zero_reads_cons, if_pos (by omega)]
                push_cast
                omega
              · simp only [Nat.add_sub_cancel] at h6 ⊢
                rw [List.take_succ_cons, data_reads_cons, if_neg (by omega)]
                simpa using h6

/-- A quiet run that stays short of the frame and holds the zero-byte reads
still allowed makes the loop return TIMEOUT. -/
theorem gets_loop_timeout_of (thr : Bool) (read_count : Int) (post : List ReadEv) :
    ∀ (pre : List ReadEv) (rc read_amount : Int) (first : Bool) (buf : Buf) (off : Nat)
      (tv : timeval) (reads : Nat),
      0 ≤ rc → rc < max 1 read_count → rc + (zero_reads pre : Int) = max 1 read_count →
      quiet thr pre → bytes_read pre < read_amount →
      ∃ out, icarus_gets_loop thr read_count (pre ++ post) rc read_amount first buf off tv
          reads = some out ∧ out.ret = .ICA_GETS_TIMEOUT := by
  intro pre
  induction pre with
  | nil =>
    intro rc ra first buf off tv reads h0 hM hz _ _
    simp only [zero_reads, List.countP_nil, Nat.cast_zero] at hz
    omega
  | cons e pre ih =>
    intro rc ra first buf off tv reads h0 hM hz hq hlt
    have he := hq e (List.mem_cons_self _ _)
    have hq' : quiet thr pre := fun x hx => hq x (List.mem_cons_of_mem _ hx)
    have hsum := bytes_read_nonneg pre (fun x hx => (hq' x hx).1)
    rw [bytes_read_cons] at hlt
    rw [zero_reads_cons] at hz
    obtain ⟨bs, hbs⟩ := ret_nonneg_some e he.1
    have hret := ret_of_some e bs hbs
    simp only [List.cons_append, icarus_gets_loop, hbs]
    rw [if_neg (by omega)]
    by_cases hpos : (bs.length : Int) > 0
    · rw [if_pos hpos]
      rw [if_neg (by omega)] at hz
      exact ih rc (ra - (bs.length : Int)) false _ _ _ _ h0 hM (by simpa using hz) hq' (by omega)
    · rw [if_neg hpos]
      have hzero : e.ret = 0 := by omega
      rw [if_pos hzero] at hz
      rw [he.2 hzero]
      simp only [Bool.false_eq_true, if_false]
      push_cast at hz
      by_cases hto : rc + 1 ≥ read_count
      · rw [if_pos hto]
        exact ⟨_, rfl, rfl⟩
      · rw [if_neg hto]
        exact ih (rc + 1) ra first _ _ _ _ (by omega) (by omega) (by omega) hq' (by omega)

/-- A TIMEOUT comes only after a quiet run that stayed short of the frame
and used up the zero-byte reads allowed. -/
theorem gets_loop_timeout_only (thr : Bool) (read_count : Int) :
    ∀ (link : List ReadEv) (rc read_amount : Int) (first : Bool) (buf : Buf) (off : Nat)
      (tv : timeval) (reads : Nat) (out : GetsOut),
      0 ≤ rc → rc < max 1 read_count → 1 ≤ read_amount →
      icarus_gets_loop thr read_count link rc read_amount first buf off tv reads = some out →
      out.ret = .ICA_GETS_TIMEOUT →
      ∃ pre post, link = pre ++ post ∧ rc + (zero_reads pre : Int) = max 1 read_count ∧
        quiet thr pre ∧ bytes_read pre < read_amount := by
  intro link
  induction link with
  | nil =>
    intro rc ra first buf off tv reads out _ _ _ h
    simp [icarus_gets_loop] at h
  | cons e link ih =>
    intro rc ra first buf off tv reads out h0 hM hra h hto
    cases hbs : e.read with
    | none =>
      simp only [icarus_gets_loop, hbs, Option.some.injEq] at h
      subst h
      simp at hto
    | some bs =>
      have hret := ret_of_some e bs hbs
      simp only [icarus_gets_loop, hbs] at h
      by_cases hge : (bs.length : Int) ≥ ra
      · rw [if_pos hge] at h
        simp only [Option.some.injEq] at h
        subst h
        simp at hto
      · rw [if_neg hge] at h
        by_cases hpos : (bs.length : Int) > 0
        · rw [if_pos hpos] at h
          obtain ⟨pre, post, hl, hz, hq, hlt⟩ := ih rc (ra - (bs.length : Int)) false _ _ _ _
            out h0 hM (by omega) h hto
          refine ⟨e :: pre, post, by simp [hl], ?_, ?_, ?_⟩
          · rw [zero_reads_cons, if_neg (by omega)]
            simpa using hz
          · intro x hx
            rcases List.mem_cons.mp hx with rfl | hx'
            · exact ⟨by omega, fun h0' => by omega⟩
            · exact hq x hx'
          · rw [bytes_read_cons]
            omega
        · rw [if_neg hpos] at h
          by_cases hrst : (thr && e.work_restart) = true
          · rw [if_pos hrst] at h
            simp only [Option.some.injEq] at h
            subst h
            simp at hto
          · rw [if_neg hrst] at h
            have hquiet_e : 0 ≤ e.ret ∧ (e.ret = 0 → (thr && e.work_restart) = false) :=
              ⟨by omega, fun _ => by simpa using hrst⟩
            by_cases hlim : rc + 1 ≥ read_count
            · refine ⟨[e], link, rfl, ?_, ?_, ?_⟩
              · rw [zero_reads_cons, if_pos (by omega)]
                simp only [zero_reads, List.countP_nil, zero_add, Nat.cast_one]
                omega
              · intro x hx
                rw [List.mem_singleton] at hx
                subst hx
                exact hquiet_e
              · simp only [bytes_read, List.map_cons, List.map_nil, List.sum_cons, List.sum_nil]
                omega
            · rw [if_neg hlim] at h
              obtain ⟨pre, post, hl, hz, hq, hlt⟩ := ih (rc + 1) ra first _ _ _ _ out
                (by omega) (by omega) hra h hto
              refine ⟨e :: pre, post, by simp [hl], ?_, ?_, ?_⟩
              · rw [zero_reads_cons, if_pos (by omega)]
                push_cast
                omega
              · intro x hx
                rcases List.mem_cons.mp hx with rfl | hx'
                · exact hquiet_e
                · exact hq x hx'
              · rw [bytes_read_cons]
                omega

/-- C8: `icarus_gets` returns within its tick budget. For every read_count,
every read_size >= 1 and every run of read results long enough to cover the
budget, the polling loop returns after at most max(1, read_count) zero-byte
reads and at most read_size - 1 short reads (reads that carry bytes, other
than the last read), so at most max(1, read_count) + read_size - 1 reads;
and it returns ICA_GETS_TIMEOUT exactly when max(1, read_count) zero-byte
reads occurred in a run with no failed read, no observed restart and fewer
than read_size bytes. -/
theorem gets_terminates_within_budget (buf : Buf) (tv : timeval) (thr : Bool)
    (read_count read_size : Int) (link : List ReadEv)
    (hsize : 1 ≤ read_size)
    (hlen : max 1 read_count + read_size - 1 ≤ (link.length : Int)) :
    ∃ out, icarus_gets buf link tv thr read_count read_size = some out ∧
      (out.reads : Int) ≤ max 1 read_count + read_size - 1 ∧
      (zero_reads (link.take out.reads) : Int) ≤ max 1 read_count ∧
      (data_reads (link.take (out.reads - 1)) : Int) ≤ read_size - 1 ∧
      (out.ret = .ICA_GETS_TIMEOUT ↔
        ∃ pre post, link = pre ++ post ∧ (zero_reads pre : Int) = max 1 read_count ∧
          quiet thr pre ∧ bytes_read pre < read_size) := by
  obtain ⟨out, k, h1, h2, h3, h4, h5, h6⟩ := gets_loop_terminates thr read_count link 0
    read_size true buf 0 tv 0 (le_refl 0) (by omega) hsize (by omega)
  have hk : out.reads = k := by omega
  refine ⟨out, h1, by rw [hk]; omega, by rw [hk]; omega, by rw [hk]; exact h6, ?_⟩
  constructor
  · intro hto
    obtain ⟨pre, post, hl, hz, hq, hlt⟩ := gets_loop_timeout_only thr read_count link 0
      read_size true buf 0 tv 0 out (le_refl 0) (by omega) hsize h1 hto
    exact ⟨pre, post, hl, by omega, hq, hlt⟩
  · rintro ⟨pre, post, hl, hz, hq, hlt⟩
    obtain ⟨out', h1', h2'⟩ := gets_loop_timeout_of thr read_count post pre 0 read_size true
      buf 0 tv 0 (le_refl 0) (by omega) (by omega) hq hlt
    rw [← hl] at h1'
    have : out' = out := by
      have := h1'.symm.trans h1
      simpa using this
    rw [← this]
    exact h2'

/-- C8 at a concrete link: with read_count = 2 and read_size = 2, two empty
reads use the budget up and the call returns TIMEOUT after them. -/
theorem gets_terminates_within_budget_witness :
    ∃ out, icarus_gets (fun _ => 0) [{ read := some [] }, { read := some [] }, { read := some [9] }]
        {} true 2 2 = some out ∧
      (out.reads : Int) ≤ max 1 2 + 2 - 1 ∧
      (zero_reads (([{ read := some [] }, { read := some [] }, { read := some [9] }] :
        List ReadEv).take out.reads) : Int) ≤ max 1 2 ∧
      (data_reads (([{ read := some [] }, { read := some [] }, { read := some [9] }] :
        List ReadEv).take (out.reads - 1)) : Int) ≤ 2 - 1 ∧
      (out.ret = .ICA_GETS_TIMEOUT ↔
        ∃ pre post, ([{ read := some [] }, { read := some [] }, { read := some [9] }] :
            List ReadEv) = pre ++ post ∧
          (zero_reads pre : Int) = max 1 2 ∧ quiet true pre ∧ bytes_read pre < 2) :=
  gets_terminates_within_budget (fun _ => 0) {} true 2 2
    [{ read := some [] }, { read := some [] }, { read := some [9] }] (by decide) (by decide)

/-! ### Traces of the helpers -/

theorem ext_refl (P : Event → Bool) (t : Thr) : ext P t t :=
  ⟨[], by simp, by simp⟩

theorem ext_trans {P : Event → Bool} {a b c : Thr} (h1 : ext P a b) (h2 : ext P b c) :
    ext P a c := by
  obtain ⟨e1, ht1, hp1⟩ := h1
  obtain ⟨e2, ht2, hp2⟩ := h2
  refine ⟨e1 ++ e2, by rw [ht2, ht1, List.append_assoc], ?_⟩
  intro e he
  rcases List.mem_append.mp he with h | h
  · exact hp1 e h
  · exact hp2 e h

theorem ext_mono {P Q : Event → Bool} {a b : Thr} (h : ext P a b)
    (hpq : ∀ e, P e = true → Q e = true) : ext Q a b := by
  obtain ⟨evs, ht, hp⟩ := h
  exact ⟨evs, ht, fun e he => hpq e (hp e he)⟩

theorem ext_emit (P : Event → Bool) (t : Thr) (e : Event) (h : P e = true) :
    ext P t (emit t e) :=
  ⟨[e], rfl, by simpa using h⟩

theorem ext_of_trace_eq {P : Event → Bool} {a b c : Thr} (h : ext P a b)
    (hc : c.trace = b.trace) : ext P a c := by
  obtain ⟨evs, ht, hp⟩ := h
  exact ⟨evs, by rw [hc, ht], hp⟩

theorem keeps_refl (t : Thr) : keeps t t :=
  ⟨rfl, rfl, rfl⟩

theorem keeps_trans {a b c : Thr} (h1 : keeps a b) (h2 : keeps b c) : keeps a c :=
  ⟨h2.1.trans h1.1, h2.2.1.trans h1.2.1, h2.2.2.trans h1.2.2⟩

theorem keeps_emit (t : Thr) (e : Event) : keeps t (emit t e) :=
  ⟨rfl, rfl, rfl⟩

theorem keeps_slots {t t' : Thr} (h : keeps t t') :
    t'.state.last_work = t.state.last_work ∧ t'.state.last2_work = t.state.last2_work ∧
    t'.state.changework = t.state.changework ∧ t'.state.identify = t.state.identify ∧
    t'.state.my_bin = t.state.my_bin ∧ t'.state.scrypt_bin = t.state.scrypt_bin ∧
    t'.info.reopen_mode = t.info.reopen_mode ∧ t'.info.dclk_freqM = t.info.dclk_freqM := by
  obtain ⟨h1, h2, _⟩ := h
  have e1 := congrArg icarus_state.last_work h1
  have e2 := congrArg icarus_state.last2_work h1
  have e3 := congrArg icarus_state.changework h1
  have e4 := congrArg icarus_state.identify h1
  have e5 := congrArg icarus_state.my_bin h1
  have e6 := congrArg icarus_state.scrypt_bin h1
  have e8 := congrArg ICARUS_INFO.reopen_mode h2
  have e9 := congrArg ICARUS_INFO.dclk_freqM h2
  exact ⟨e1, e2, e3, e4, e5, e6, e8, e9⟩

theorem close_ext (t : Thr) : ext Event.recovery t (do_icarus_close t) := by
  unfold do_icarus_close
  split_ifs
  · exact ext_refl _ _
  · exact ⟨[.serial_close t.device_fd], rfl, by simp [Event.recovery]⟩

theorem close_keeps (t : Thr) : keeps t (do_icarus_close t) := by
  unfold do_icarus_close
  split_ifs
  · exact keeps_refl _
  · exact ⟨rfl, rfl, rfl⟩

theorem close_state (t : Thr) : (do_icarus_close t).state = t.state := by
  unfold do_icarus_close
  split_ifs <;> rfl

theorem close_fd (t : Thr) : (do_icarus_close t).device_fd = -1 := by
  unfold do_icarus_close
  split_ifs with h
  · exact h
  · rfl

theorem reopen_ext (env : Env) (t : Thr) : ext Event.recovery t (icarus_reopen env t).2 := by
  have h1 := close_ext t
  unfold icarus_reopen
  dsimp only
  split_ifs
  · refine ext_trans h1 ⟨[.serial_open (do_icarus_close t).info.baud, .dev_error], ?_, ?_⟩
    · simp [emit]
    · simp [Event.recovery]
  · refine ext_trans h1 ⟨[.serial_open (do_icarus_close t).info.baud], ?_, ?_⟩
    · simp [emit]
    · simp [Event.recovery]

theorem reopen_keeps (env : Env) (t : Thr) : keeps t (icarus_reopen env t).2 := by
  have h1 := close_keeps t
  unfold icarus_reopen
  dsimp only
  split_ifs
  · exact keeps_trans h1 ⟨rfl, rfl, rfl⟩
  · exact keeps_trans h1 ⟨rfl, rfl, rfl⟩

theorem recovery_plumbing (e : Event) (h : e.recovery = true) : e.plumbing = true := by
  cases e <;> first | rfl | exact absurd h Bool.false_ne_true

theorem write_ext (env : Env) (t : Thr) (fd : Int) (frame : List Nat) :
    ext Event.plumbing t (icarus_write env t fd frame).2 := by
  unfold icarus_write
  split_ifs
  · exact ext_refl _ _
  · exact ext_emit _ _ _ rfl
  · exact ext_emit _ _ _ rfl

theorem write_keeps (env : Env) (t : Thr) (fd : Int) (frame : List Nat) :
    keeps t (icarus_write env t fd frame).2 := by
  unfold icarus_write
  split_ifs
  · exact keeps_refl _
  · exact keeps_emit _ _
  · exact keeps_emit _ _

theorem job_start_ext (env : Env) (t : Thr) :
    ext Event.plumbing t (icarus_job_start env t).2 := by
  unfold icarus_job_start
  lift_lets
  extract_lets fd t1 t2 tv s1 s2 t3 r
  have h1 : ext Event.plumbing t t1 := by
    simp only [t1]
    split_ifs
    · exact ext_emit _ _ _ rfl
    · exact ext_refl _ _
  have h2 : ext Event.plumbing t1 t2 := by
    simp only [t2]
    split_ifs
    · exact ext_emit _ _ _ rfl
    · exact ext_refl _ _
  have h3 : ext Event.plumbing t2 t3 := ext_of_trace_eq (ext_emit _ t2 .cgtime rfl) rfl
  have h4 : ext Event.plumbing t3 r.2 := write_ext env t3 fd _
  have h123 := ext_trans (ext_trans (ext_trans h1 h2) h3) h4
  split_ifs
  · exact ext_trans (ext_trans h123 (ext_mono (close_ext r.2) recovery_plumbing))
      (ext_emit _ (do_icarus_close r.2) .dev_error rfl)
  · exact ext_trans h123 (ext_emit _ r.2 (.usleep 2000) rfl)

theorem job_start_keeps (env : Env) (t : Thr) : keeps t (icarus_job_start env t).2 := by
  unfold icarus_job_start
  lift_lets
  extract_lets fd t1 t2 tv s1 s2 t3 r
  have h1 : keeps t t1 := by
    simp only [t1]
    split_ifs
    · exact keeps_emit _ _
    · exact keeps_refl _
  have h2 : keeps t1 t2 := by
    simp only [t2]
    split_ifs
    · exact keeps_emit _ _
    · exact keeps_refl _
  have h3 : keeps t2 t3 := ⟨rfl, rfl, rfl⟩
  have h4 : keeps t3 r.2 := write_keeps env t3 fd _
  have h123 := keeps_trans (keeps_trans (keeps_trans h1 h2) h3) h4
  split_ifs
  · exact keeps_trans (keeps_trans h123 (close_keeps r.2)) (keeps_emit _ .dev_error)
  · exact keeps_trans h123 (keeps_emit _ (.usleep 2000))

theorem transition_ext (env : Env) (t : Thr) (w : work) :
    ext Event.plumbing t (icarus_transition_work env t w) := by
  unfold icarus_transition_work
  dsimp only
  split_ifs
  · exact ⟨[.free_work t.state.last2_work,
      .copy_work (env.new_addr (emit t (.free_work t.state.last2_work)).trace)],
      by simp [emit], by simp [Event.plumbing]⟩
  · exact ⟨[.copy_work (env.new_addr t.trace)], by simp [emit], by simp [Event.plumbing]⟩

theorem transition_state (env : Env) (t : Thr) (w : work) :
    (∃ addr, (icarus_transition_work env t w).state.last_work = some ⟨addr, w⟩) ∧
    (icarus_transition_work env t w).state.last2_work = t.state.last_work ∧
    (icarus_transition_work env t w).state.changework = t.state.changework ∧
    (icarus_transition_work env t w).state.firstrun = t.state.firstrun ∧
    (icarus_transition_work env t w).state.identify = t.state.identify ∧
    (icarus_transition_work env t w).info = t.info ∧
    (icarus_transition_work env t w).device_fd = t.device_fd := by
  unfold icarus_transition_work
  dsimp only
  split_ifs
  · exact ⟨⟨_, rfl⟩, rfl, rfl, rfl, rfl, rfl, rfl⟩
  · exact ⟨⟨_, rfl⟩, rfl, rfl, rfl, rfl, rfl, rfl⟩

theorem set_firstrun_keeps (t : Thr) : keeps t (set_firstrun t) :=
  ⟨rfl, rfl, rfl⟩

theorem set_firstrun_ext (P : Event → Bool) (t : Thr) : ext P t (set_firstrun t) :=
  ext_of_trace_eq (ext_refl P t) rfl

theorem dclk_step_ok (ret : GetsRet) (was_hw_error : Bool) (elapsed : timeval) (t : Thr) :
    ext Event.plumbing t (dclk_step ret was_hw_error elapsed t) ∧
    keeps t (dclk_step ret was_hw_error elapsed t) := by
  unfold dclk_step
  dsimp only
  split_ifs <;>
    first
    | exact ⟨ext_refl _ _, keeps_refl _⟩
    | exact ⟨ext_emit _ _ _ rfl, ⟨rfl, rfl, rfl⟩⟩
    | exact ⟨ext_trans (ext_emit _ t (.dclk_nonces _) rfl) (ext_emit _ _ (.dclk_errors _) rfl),
        ⟨rfl, rfl, rfl⟩⟩

theorem forced_reopen_ok (env : Env) (was_hw_error : Bool) (t : Thr) :
    ext Event.plumbing t (forced_reopen env was_hw_error t) ∧
    keeps t (forced_reopen env was_hw_error t) := by
  have hk : keeps t { t with info := { t.info with reopen_now := false } } := ⟨rfl, rfl, rfl⟩
  have he : ext Event.plumbing t { t with info := { t.info with reopen_now := false } } :=
    ext_of_trace_eq (ext_refl _ t) rfl
  unfold forced_reopen
  split_ifs
  · exact ⟨he, hk⟩
  · exact ⟨ext_trans he (ext_mono (reopen_ext env _) recovery_plumbing),
      keeps_trans hk (reopen_keeps env _)⟩
  · exact ⟨ext_refl _ _, keeps_refl _⟩

theorem start_job_step_ok (env : Env) (t : Thr) :
    ext Event.plumbing t (start_job_step env t) ∧ keeps t (start_job_step env t) := by
  unfold start_job_step
  split_ifs
  · exact ⟨ext_refl _ _, keeps_refl _⟩
  · exact ⟨set_firstrun_ext _ _, set_firstrun_keeps _⟩
  · exact ⟨job_start_ext env t, job_start_keeps env t⟩
  · exact ⟨ext_trans (job_start_ext env t) (set_firstrun_ext _ _),
      keeps_trans (job_start_keeps env t) (set_firstrun_keeps _)⟩

theorem cycle_reopen_ok (env : Env) (t : Thr) :
    ext Event.plumbing t (cycle_reopen env t) ∧ keeps t (cycle_reopen env t) := by
  unfold cycle_reopen
  split_ifs
  · exact ⟨ext_mono (reopen_ext env _) recovery_plumbing, reopen_keeps env _⟩
  · exact ⟨ext_refl _ _, keeps_refl _⟩

theorem start_next_job_ok (env : Env) (ret : GetsRet) (was_hw_error : Bool) (elapsed : timeval)
    (t : Thr) :
    ext Event.plumbing t (start_next_job env ret was_hw_error elapsed t) ∧
    keeps t (start_next_job env ret was_hw_error elapsed t) := by
  unfold start_next_job
  have h1 := dclk_step_ok ret was_hw_error elapsed t
  have h2 := forced_reopen_ok env was_hw_error (dclk_step ret was_hw_error elapsed t)
  have h3 := start_job_step_ok env (forced_reopen env was_hw_error
    (dclk_step ret was_hw_error elapsed t))
  have h4 := cycle_reopen_ok env (start_job_step env (forced_reopen env was_hw_error
    (dclk_step ret was_hw_error elapsed t)))
  exact ⟨ext_trans (ext_trans (ext_trans h1.1 h2.1) h3.1) h4.1,
    keeps_trans (keeps_trans (keeps_trans h1.2 h2.2) h3.2) h4.2⟩

/-! ### The wait of `icarus_scanhash` -/

theorem ptr_eq_self (a : Option WorkRef) : ptr_eq a a = true := by
  cases a <;> simp [ptr_eq]

theorem process_worknonce_fst (test_nonce : Option WorkRef → Nat → Bool) (host_be : Bool)
    (state : icarus_state) (nonce : Nat) :
    (icarus_process_worknonce test_nonce host_be state nonce).1 = be32toh host_be nonce := by
  unfold icarus_process_worknonce
  dsimp only
  split_ifs <;> rfl

theorem process_worknonce_prev (test_nonce : Option WorkRef → Nat → Bool) (host_be : Bool)
    (state : icarus_state) (nonce : Nat)
    (h1 : test_nonce state.last_work (be32toh host_be nonce) = false)
    (h2 : state.last2_work.isSome = true)
    (h3 : test_nonce state.last2_work (be32toh host_be nonce) = true) :
    (icarus_process_worknonce test_nonce host_be state nonce).2 = state.last2_work := by
  simp [icarus_process_worknonce, h1, h2, h3]

theorem process_worknonce_none (test_nonce : Option WorkRef → Nat → Bool) (host_be : Bool)
    (state : icarus_state) (nonce : Nat)
    (h1 : test_nonce state.last_work (be32toh host_be nonce) = false)
    (h2 : ¬ (state.last2_work.isSome = true ∧
      test_nonce state.last2_work (be32toh host_be nonce) = true)) :
    (icarus_process_worknonce test_nonce host_be state nonce).2 = none := by
  unfold icarus_process_worknonce
  dsimp only
  rw [if_neg (by simp [h1]), if_neg]
  simpa using h2

/-- One pass of the wait on a reply whose nonce only the previous job
accepts: the nonce is submitted against `last2_work` and the wait goes on. -/
theorem scan_wait_previous (env : Env) (fd : Int) (link : List ReadEv)
    (links : List (List ReadEv)) (t : Thr) (out : GetsOut)
    (hgets : wait_gets env t link = some out) (hok : out.ret = .ICA_GETS_OK)
    (h1 : env.test_nonce t.state.last_work (reply_nonce env out) = false)
    (h2 : t.state.last2_work.isSome = true)
    (h3 : env.test_nonce t.state.last2_work (reply_nonce env out) = true) :
    scan_wait env fd (link :: links) t =
      scan_wait env fd links
        { t with
          state := { t.state with tv_workfinish := out.tv_finish },
          trace := t.trace ++
            [.gets fd true (if env.opt_scrypt then 48 else 16) t.info.read_size .ICA_GETS_OK,
              .tcflush fd, .submit_nonce t.state.last2_work (reply_nonce env out)] } := by
  have hp := process_worknonce_prev env.test_nonce env.host_be
    { t.state with tv_workfinish := out.tv_finish } (load32 env.host_be (rev out.buf 4)) h1 h2 h3
  have hf := process_worknonce_fst env.test_nonce env.host_be
    { t.state with tv_workfinish := out.tv_finish } (load32 env.host_be (rev out.buf 4))
  rw [scan_wait]
  simp only [hgets, hok, emit, after_gets]
  rw [hp, hf]
  simp only [h2, ptr_eq_self, if_true, List.append_assoc, List.cons_append, List.nil_append]
  rfl

/-- One pass of the wait on a reply whose nonce neither job accepts: the
wait ends at once with `was_hw_error` set and nothing submitted. -/
theorem scan_wait_mismatch (env : Env) (fd : Int) (link : List ReadEv)
    (links : List (List ReadEv)) (t : Thr) (out : GetsOut)
    (hgets : wait_gets env t link = some out) (hok : out.ret = .ICA_GETS_OK)
    (h1 : env.test_nonce t.state.last_work (reply_nonce env out) = false)
    (h2 : ¬ (t.state.last2_work.isSome = true ∧
      env.test_nonce t.state.last2_work (reply_nonce env out) = true)) :
    scan_wait env fd (link :: links) t =
      some (.done .ICA_GETS_OK (reply_nonce env out) none true fd links
        { t with
          state := { t.state with tv_workfinish := out.tv_finish },
          trace := t.trace ++
            [.gets fd true (if env.opt_scrypt then 48 else 16) t.info.read_size .ICA_GETS_OK,
              .tcflush fd] }) := by
  have hp := process_worknonce_none env.test_nonce env.host_be
    { t.state with tv_workfinish := out.tv_finish } (load32 env.host_be (rev out.buf 4)) h1 h2
  have hf := process_worknonce_fst env.test_nonce env.host_be
    { t.state with tv_workfinish := out.tv_finish } (load32 env.host_be (rev out.buf 4))
  rw [scan_wait]
  simp only [hgets, hok, emit, after_gets]
  rw [hp, hf]
  simp only [Option.isSome_none, Bool.false_eq_true, if_false, List.append_assoc,
    List.cons_append, List.nil_append]
  rfl

theorem plumbing_filters (l : List Event) (h : ∀ e ∈ l, e.plumbing = true) :
    l.filter Event.is_submit = [] ∧ l.filter Event.is_hw_error = [] ∧
    l.filter Event.is_gets = [] := by
  refine ⟨?_, ?_, ?_⟩ <;>
  · rw [List.filter_eq_nil_iff]
    intro e he
    have := h e he
    cases e <;> first | exact Bool.false_ne_true | exact absurd this Bool.false_ne_true

/-- After a reply that neither job accepts, the rest of the cycle up to the
label `out` submits nothing and counts one hardware error. -/
theorem scan_next_mismatch (env : Env) (w : work) (nonce : Nat) (elapsed tv_start : timeval)
    (t : Thr) :
    ∃ evs, (scan_next env w .ICA_GETS_OK nonce none true elapsed tv_start t).2.trace
        = t.trace ++ evs ∧
      evs.filter Event.is_submit = [] ∧
      evs.filter Event.is_hw_error = [.inc_hw_errors t.state.last_work nonce] := by
  obtain ⟨⟨A, hA, hPA⟩, hk⟩ := start_next_job_ok env .ICA_GETS_OK true elapsed t
  have hlw := (keeps_slots hk).1
  obtain ⟨B, hB, hPB⟩ := transition_ext env
    (emit (start_next_job env .ICA_GETS_OK true elapsed t)
      (.inc_hw_errors (start_next_job env .ICA_GETS_OK true elapsed t).state.last_work nonce))
    { w with blk_nonce := 0xffffffff }
  obtain ⟨a1, a2, _⟩ := plumbing_filters A hPA
  obtain ⟨b1, b2, _⟩ := plumbing_filters B hPB
  refine ⟨A ++ [.inc_hw_errors t.state.last_work nonce] ++ B, ?_, ?_, ?_⟩
  · simp only [scan_next, Bool.true_eq_false, if_false]
    rw [hB]
    simp only [emit, hA, hlw, List.append_assoc]
  · simp [List.filter_append, a1, b1, Event.is_submit]
  · simp [List.filter_append, a2, b2, Event.is_hw_error]

/-- C3: in `icarus_scanhash`, a reply whose nonce only the previous job
(`last2_work`) accepts is submitted against that job and the driver waits
again at once: the job slots are the same, and nothing but the reader call,
the flush and the submission has happened (no job was written). A reply
whose nonce neither live job accepts ends the wait without any
`submit_nonce`, and the rest of the cycle up to the label `out` submits
nothing and counts exactly one hardware error, for `last_work` and that
nonce. -/
theorem worknonce_routing (env : Env) (fd : Int) (link : List ReadEv)
    (links : List (List ReadEv)) (t : Thr) (out : GetsOut) (w : work)
    (hgets : wait_gets env t link = some out) (hok : out.ret = .ICA_GETS_OK) :
    (env.test_nonce t.state.last_work (reply_nonce env out) = false →
      t.state.last2_work.isSome = true →
      env.test_nonce t.state.last2_work (reply_nonce env out) = true →
      scan_wait env fd (link :: links) t =
        scan_wait env fd links
          { t with
            state := { t.state with tv_workfinish := out.tv_finish },
            trace := t.trace ++
              [.gets fd true (if env.opt_scrypt then 48 else 16) t.info.read_size .ICA_GETS_OK,
                .tcflush fd, .submit_nonce t.state.last2_work (reply_nonce env out)] }) ∧
    (env.test_nonce t.state.last_work (reply_nonce env out) = false →
      ¬ (t.state.last2_work.isSome = true ∧
        env.test_nonce t.state.last2_work (reply_nonce env out) = true) →
      ∃ t1, scan_wait env fd (link :: links) t =
          some (.done .ICA_GETS_OK (reply_nonce env out) none true fd links t1) ∧
        t1.trace = t.trace ++
          [.gets fd true (if env.opt_scrypt then 48 else 16) t.info.read_size .ICA_GETS_OK,
            .tcflush fd] ∧
        ∀ elapsed tv_start, ∃ evs,
          (scan_next env w .ICA_GETS_OK (reply_nonce env out) none true elapsed tv_start
            t1).2.trace = t1.trace ++ evs ∧
          evs.filter Event.is_submit = [] ∧
          evs.filter Event.is_hw_error =
            [.inc_hw_errors t.state.last_work (reply_nonce env out)]) := by
  refine ⟨fun h1 h2 h3 => scan_wait_previous env fd link links t out hgets hok h1 h2 h3, ?_⟩
  intro h1 h2
  refine ⟨_, scan_wait_mismatch env fd link links t out hgets hok h1 h2, rfl, ?_⟩
  intro elapsed tv_start
  exact scan_next_mismatch env w (reply_nonce env out) elapsed tv_start _

/-- C3 at a concrete session. With `sample_env` the job at address 2 is the
previous job and the only one to accept the reply, so the nonce is
submitted against it and the wait goes on with the same job slots. With
`deaf_env` no job accepts it: the wait ends, and the rest of the cycle
counts one hardware error and submits nothing. -/
theorem worknonce_routing_witness :
    (scan_wait sample_env 5 (sample_reply :: []) sample_thr =
      scan_wait sample_env 5 []
        { sample_thr with
          state := { sample_thr.state with tv_workfinish := sample_out.tv_finish },
          trace := sample_thr.trace ++
            [.gets 5 true (if sample_env.opt_scrypt then 48 else 16) sample_thr.info.read_size
                .ICA_GETS_OK,
              .tcflush 5,
              .submit_nonce sample_thr.state.last2_work (reply_nonce sample_env sample_out)] }) ∧
    (∃ t1, scan_wait deaf_env 5 (sample_reply :: []) sample_thr =
        some (.done .ICA_GETS_OK (reply_nonce deaf_env sample_out) none true 5 [] t1) ∧
      t1.trace = sample_thr.trace ++
        [.gets 5 true (if deaf_env.opt_scrypt then 48 else 16) sample_thr.info.read_size
            .ICA_GETS_OK,
          .tcflush 5] ∧
      ∀ elapsed tv_start, ∃ evs,
        (scan_next deaf_env sample_work .ICA_GETS_OK (reply_nonce deaf_env sample_out) none true
          elapsed tv_start t1).2.trace = t1.trace ++ evs ∧
        evs.filter Event.is_submit = [] ∧
        evs.filter Event.is_hw_error =
          [.inc_hw_errors sample_thr.state.last_work (reply_nonce deaf_env sample_out)]) :=
  ⟨(worknonce_routing sample_env 5 sample_reply [] sample_thr sample_out sample_work rfl rfl).1
      rfl rfl rfl,
    (worknonce_routing deaf_env 5 sample_reply [] sample_thr sample_out sample_work rfl rfl).2
      rfl (by decide)⟩

/-! ### Restart -/

theorem plumbing_not_restart (e : Event) (h : e.plumbing = true) : e.not_restart = true := by
  cases e <;> first | rfl | exact absurd h Bool.false_ne_true

theorem recovery_not_write (e : Event) (h : e.recovery = true) : e.not_write = true := by
  cases e <;> first | rfl | exact absurd h Bool.false_ne_true

theorem recovery_not_restart (e : Event) (h : e.recovery = true) : e.not_restart = true :=
  plumbing_not_restart e (recovery_plumbing e h)

/-- Without a thread handle the reader never returns RESTART. -/
theorem gets_loop_no_restart (read_count : Int) :
    ∀ (link : List ReadEv) (rc read_amount : Int) (first : Bool) (buf : Buf) (off : Nat)
      (tv : timeval) (reads : Nat) (out : GetsOut),
      icarus_gets_loop false read_count link rc read_amount first buf off tv reads = some out →
      out.ret ≠ .ICA_GETS_RESTART := by
  intro link
  induction link with
  | nil =>
    intro rc ra first buf off tv reads out h
    simp [icarus_gets_loop] at h
  | cons e link ih =>
    intro rc ra first buf off tv reads out h
    cases hbs : e.read with
    | none =>
      simp only [icarus_gets_loop, hbs, Option.some.injEq] at h
      subst h
      simp
    | some bs =>
      simp only [icarus_gets_loop, hbs, Bool.false_and, Bool.false_eq_true, if_false] at h
      split_ifs at h <;>
        first
        | exact ih _ _ _ _ _ _ _ _ h
        | (simp only [Option.some.injEq] at h
           subst h
           simp)

theorem identify_wait_ext (env : Env) (fd : Int) :
    ∀ (links : List (List ReadEv)) (t t' : Thr) (rest : List (List ReadEv)),
      identify_wait env fd links t = some (t', rest) → ext Event.not_restart t t' := by
  intro links
  induction links with
  | nil =>
    intro t t' rest h
    simp only [identify_wait] at h
    split_ifs at h
    simp only [Option.some.injEq, Prod.mk.injEq] at h
    rw [← h.1]
    exact ext_emit _ _ _ rfl
  | cons link links ih =>
    intro t t' rest h
    simp only [identify_wait] at h
    split_ifs at h
    · simp only [Option.some.injEq, Prod.mk.injEq] at h
      rw [← h.1]
      exact ext_emit _ _ _ rfl
    · cases hg : icarus_gets (memset (fun _ => 0) 0 0 (emit t .cgtime).info.read_size.toNat) link
          (env.now t.trace) false
          (trunc (((emit t .cgtime).info.fullnonce
            - env.tdiff (env.now t.trace) (emit t .cgtime).state.tv_workstart) * 10))
          (emit t .cgtime).info.read_size with
      | none => simp [hg] at h
      | some out =>
        simp only [hg] at h
        have hnr : out.ret ≠ .ICA_GETS_RESTART := gets_loop_no_restart _ _ _ _ _ _ _ _ _ _ hg
        have h1 : ext Event.not_restart t (emit t .cgtime) := ext_emit _ _ _ rfl
        have h2 : ext Event.not_restart (emit t .cgtime)
            (emit (emit t .cgtime) (.gets fd false
              (trunc (((emit t .cgtime).info.fullnonce
                - env.tdiff (env.now t.trace) (emit t .cgtime).state.tv_workstart) * 10))
              (emit t .cgtime).info.read_size out.ret)) := by
          apply ext_emit
          cases hr : out.ret <;> simp_all [Event.not_restart, Event.is_restart]
        split_ifs at h
        · exact ext_trans (ext_trans h1 h2)
            (ext_trans (ext_emit _ _ (.submit_nonce _ _) rfl) (ih _ _ _ h))
        · exact ext_trans (ext_trans h1 h2) (ih _ _ _ h)

theorem identify_resume_ext (env : Env) (t : Thr) :
    ext Event.not_restart t (identify_resume env t) := by
  have h2 : ext Event.not_restart t (emit t (.cgsleep_ms 3000)) := ext_emit _ _ _ rfl
  have h3 := ext_mono (job_start_ext env (emit t (.cgsleep_ms 3000))) plumbing_not_restart
  unfold identify_resume
  dsimp only
  split_ifs
  · exact ext_of_trace_eq h2 rfl
  · exact ext_of_trace_eq (ext_trans h2 h3) rfl
  · exact ext_of_trace_eq (ext_trans h2 h3) rfl
  · exact ext_of_trace_eq h2 rfl

theorem handle_identify_ext (env : Env) (was_first_run : Bool) (links : List (List ReadEv))
    (t t' : Thr) (h : handle_identify env was_first_run links t = some t') :
    ext Event.not_restart t t' := by
  unfold handle_identify at h
  split_ifs at h
  · simp only [Option.some.injEq] at h
    rw [← h]
    exact ext_refl _ _
  · simp only [Option.some.injEq] at h
    rw [← h]
    exact identify_resume_ext env t
  · cases hw : identify_wait env t.device_fd links t with
    | none => simp [hw] at h
    | some p =>
      simp only [hw, Option.some.injEq] at h
      rw [← h]
      exact ext_trans (identify_wait_ext env _ _ _ _ p.2 (by rw [hw])) (identify_resume_ext env p.1)

theorem scan_next_ext (env : Env) (w : work) (ret : GetsRet) (nonce : Nat)
    (nonce_work : Option WorkRef) (was_hw_error : Bool) (elapsed tv_start : timeval) (t : Thr) :
    ext Event.not_restart t
      (scan_next env w ret nonce nonce_work was_hw_error elapsed tv_start t).2 := by
  have h1 := ext_mono (start_next_job_ok env ret was_hw_error elapsed t).1 plumbing_not_restart
  have ht : ∀ x : Thr, ext Event.not_restart x
      (icarus_transition_work env x { w with blk_nonce := 0xffffffff }) :=
    fun x => ext_mono (transition_ext env x _) plumbing_not_restart
  unfold scan_next
  dsimp only
  cases ret
  · dsimp only
    split_ifs
    · exact ext_of_trace_eq (ext_trans (ext_trans h1 (ext_emit _ _ (.submit_nonce _ _) rfl))
        (ht _)) rfl
    · exact ext_of_trace_eq (ext_trans (ext_trans h1 (ext_emit _ _ (.inc_hw_errors _ _) rfl))
        (ht _)) rfl
  · exact ext_trans (ext_of_trace_eq h1 rfl) (ht _)
  · exact ext_trans h1 (ht _)
  · exact ext_trans h1 (ht _)

theorem scan_finish_ext (env : Env) (w : work) (was_first_run : Bool) (ret : GetsRet)
    (nonce : Nat) (nonce_work : Option WorkRef) (was_hw_error : Bool)
    (elapsed tv_start : timeval) (links : List (List ReadEv)) (t : Thr) (r : Int × Thr)
    (h : scan_finish env w was_first_run ret nonce nonce_work was_hw_error elapsed tv_start
      links t = some r) :
    ext Event.not_restart t r.2 := by
  have h1 := scan_next_ext env w ret nonce nonce_work was_hw_error elapsed tv_start t
  unfold scan_finish scan_out at h
  split_ifs at h
  · cases hh : handle_identify env was_first_run links
        (scan_next env w ret nonce nonce_work was_hw_error elapsed tv_start t).2 with
    | none => simp [hh] at h
    | some t' =>
      simp only [hh, Option.some.injEq] at h
      rw [← h]
      exact ext_trans h1 (handle_identify_ext env _ _ _ _ hh)
  · simp only [Option.some.injEq] at h
    rw [← h]
    exact h1

theorem waiting_not_write (e : Event) (h : e.waiting = true) : e.not_write = true := by
  cases e <;> first | rfl | exact absurd h Bool.false_ne_true

theorem waiting_not_restart (e : Event) (h : e.waiting = true) : e.not_restart = true := by
  cases e with
  | gets fd thr rc rs ret => cases ret <;> first | rfl | exact absurd h Bool.false_ne_true
  | _ => rfl

theorem recovery_waiting (e : Event) (h : e.recovery = true) : e.waiting = true := by
  cases e <;> first | rfl | exact absurd h Bool.false_ne_true

/-- The guarantee of the wait carries over a prefix of waiting events that
leaves the job slots and `firstrun` alone. -/
theorem wait_spec_step (t t2 : Thr) (res : WaitResult) (hext : ext Event.waiting t t2)
    (h1 : t2.state.last_work = t.state.last_work)
    (h2 : t2.state.last2_work = t.state.last2_work)
    (h3 : t2.state.firstrun = t.state.firstrun) (h : wait_spec t2 res) : wait_spec t res := by
  cases res with
  | returned v t' =>
    obtain ⟨a, b, c, d⟩ := h
    refine ⟨ext_trans (ext_mono hext waiting_not_write) a, b.trans h1, c.trans h2, ?_⟩
    rcases d with ⟨d1, d2, d3⟩ | d
    · exact Or.inl ⟨d1, d2, d3.trans h3⟩
    · exact Or.inr (ext_trans (ext_mono hext waiting_not_restart) d)
  | done ret n nw hw fd links t' =>
    exact ext_trans (ext_mono hext waiting_not_restart) h

theorem after_gets_ext (env : Env) (fd : Int) (t : Thr) (out : GetsOut)
    (h : out.ret ≠ .ICA_GETS_RESTART) : ext Event.waiting t (after_gets env fd t out) := by
  refine ⟨[.gets fd true (if env.opt_scrypt then 48 else 16) t.info.read_size out.ret], rfl, ?_⟩
  intro e he
  rw [List.mem_singleton] at he
  subst he
  cases hr : out.ret <;> first | rfl | exact absurd hr h

theorem after_gets_keeps (env : Env) (fd : Int) (t : Thr) (out : GetsOut) :
    keeps t (after_gets env fd t out) :=
  ⟨rfl, rfl, rfl⟩

/-- The wait of `icarus_scanhash` keeps its guarantee. -/
theorem scan_wait_spec (env : Env) (fd : Int) :
    ∀ (links : List (List ReadEv)) (t : Thr) (res : WaitResult),
      scan_wait env fd links t = some res → wait_spec t res := by
  intro links
  induction links with
  | nil =>
    intro t res h
    simp [scan_wait] at h
  | cons link links ih =>
    intro t res h
    rw [scan_wait] at h
    cases hg : wait_gets env t link with
    | none => simp [hg] at h
    | some out =>
      simp only [hg] at h
      cases hr : out.ret with
      | ICA_GETS_RESTART =>
        simp only [hr, Option.some.injEq] at h
        subst h
        refine ⟨⟨[.gets fd true (if env.opt_scrypt then 48 else 16) t.info.read_size
          out.ret], rfl, ?_⟩, rfl, rfl, Or.inl ⟨rfl, rfl, rfl⟩⟩
        intro e he
        rw [List.mem_singleton] at he
        subst he
        rfl
      | ICA_GETS_ERROR =>
        simp only [hr] at h
        have hA := after_gets_ext env fd t out (by simp [hr])
        have hB := ext_trans (ext_trans (ext_trans hA
          (ext_mono (close_ext _) recovery_waiting)) (ext_emit _ _ .dev_error rfl))
          (ext_mono (reopen_ext env _) recovery_waiting)
        have hK := keeps_slots (keeps_trans (keeps_trans (keeps_trans
          (after_gets_keeps env fd t out) (close_keeps _))
          (keeps_emit _ .dev_error)) (reopen_keeps env _))
        split_ifs at h
        · simp only [Option.some.injEq] at h
          subst h
          exact ⟨ext_mono hB waiting_not_write, hK.1, hK.2.1,
            Or.inr (ext_mono hB waiting_not_restart)⟩
        · simp only [Option.some.injEq] at h
          subst h
          exact ext_mono (ext_trans hB (ext_emit _ _ (.tcflush _) rfl)) waiting_not_restart
      | ICA_GETS_TIMEOUT =>
        simp only [hr] at h
        have hA := after_gets_ext env fd t out (by simp [hr])
        have hB := ext_trans hA (ext_mono (reopen_ext env _) recovery_waiting)
        have hK := keeps_slots (keeps_trans (after_gets_keeps env fd t out)
          (reopen_keeps env _))
        split_ifs at h
        · simp only [Option.some.injEq] at h
          subst h
          exact ⟨ext_mono hB waiting_not_write, hK.1, hK.2.1,
            Or.inr (ext_mono hB waiting_not_restart)⟩
        · simp only [Option.some.injEq] at h
          subst h
          exact ext_mono (ext_trans hB (ext_emit _ _ (.tcflush _) rfl)) waiting_not_restart
        · simp only [Option.some.injEq] at h
          subst h
          exact ext_mono (ext_trans hA (ext_emit _ _ (.tcflush _) rfl)) waiting_not_restart
      | ICA_GETS_OK =>
        simp only [hr] at h
        have hA := ext_trans (after_gets_ext env fd t out (by simp [hr]))
          (ext_emit _ _ (.tcflush fd) rfl)
        split_ifs at h
        · exact wait_spec_step t _ res (ext_trans hA (ext_emit _ _ (.submit_nonce _ _) rfl))
            rfl rfl rfl (ih _ _ h)
        · exact wait_spec_step t _ res
            (ext_trans (ext_trans hA (ext_emit _ _ .cgtime rfl))
              (ext_emit _ _ (.submit_nonce _ _) rfl))
            rfl rfl rfl (ih _ _ h)
        · simp only [Option.some.injEq] at h
          subst h
          exact ext_mono (ext_trans hA (ext_emit _ _ .cgtime rfl)) waiting_not_restart
        · simp only [Option.some.injEq] at h
          subst h
          exact ext_mono hA waiting_not_restart
        · simp only [Option.some.injEq] at h
          subst h
          exact ext_mono hA waiting_not_restart

theorem ext_events {P : Event → Bool} {t t' : Thr} (h : ext P t t') (evs : List Event)
    (htrace : t'.trace = t.trace ++ evs) : ∀ e ∈ evs, P e = true := by
  obtain ⟨evs', h1, h2⟩ := h
  have : evs = evs' := List.append_cancel_left (htrace.symm.trans h1)
  rw [this]
  exact h2

theorem prepare_step_flags (env : Env) (t : Thr) (w : work) :
    (prepare_step env t w).trace = t.trace ∧
    (prepare_step env t w).state.firstrun = t.state.firstrun ∧
    (prepare_step env t w).state.changework = t.state.changework ∧
    (prepare_step env t w).state.identify = t.state.identify ∧
    (prepare_step env t w).state.last_work = t.state.last_work ∧
    (prepare_step env t w).state.last2_work = t.state.last2_work ∧
    (prepare_step env t w).device_fd = t.device_fd ∧
    (prepare_step env t w).deven_enabled = t.deven_enabled ∧
    (prepare_step env t w).info = t.info := by
  unfold prepare_step icarus_job_prepare
  split_ifs <;> exact ⟨rfl, rfl, rfl, rfl, rfl, rfl, rfl, rfl, rfl⟩

theorem open_step_ok (env : Env) (t : Thr) :
    ext Event.recovery t (open_step env t).2 ∧ keeps t (open_step env t).2 ∧
    ((open_step env t).1 = true → (open_step env t).2.state.firstrun = t.state.firstrun) := by
  unfold open_step
  split_ifs
  · refine ⟨reopen_ext env t, reopen_keeps env t, ?_⟩
    unfold icarus_reopen
    dsimp only
    split_ifs
    · intro h
      exact absurd h (by simp)
    · intro _
      simp [emit, close_state]
  · exact ⟨ext_refl _ _, keeps_refl _, fun _ => rfl⟩

/-- A cycle of `icarus_scanhash` whose trace holds a reader call that
returned ICA_GETS_RESTART returns 0 with changework set, firstrun false and
the job slots as they were, and has written nothing. -/
theorem restart_cycle_props (env : Env) (links : List (List ReadEv)) (t : Thr) (w : work)
    (v : Int) (t' : Thr) (evs : List Event)
    (hrun : icarus_scanhash env links t w = some (v, t'))
    (htrace : t'.trace = t.trace ++ evs)
    (hrestart : ∃ e ∈ evs, e.is_restart = true) :
    v = 0 ∧ t'.state.changework = true ∧ t'.state.firstrun = false ∧
    t'.state.last_work = t.state.last_work ∧ t'.state.last2_work = t.state.last2_work ∧
    ∀ e ∈ evs, e.is_write = false := by
  obtain ⟨e0, he0, hr0⟩ := hrestart
  have hp := prepare_step_flags env t w
  obtain ⟨ho1, ho2, ho3⟩ := open_step_ok env (prepare_step env t w)
  have hs := keeps_slots ho2
  have hstart : ext Event.recovery t (open_step env (prepare_step env t w)).2 := by
    obtain ⟨A, hA1, hA2⟩ := ho1
    exact ⟨A, hA1.trans (by rw [hp.1]), hA2⟩
  have no_restart : ∀ x : Thr, ext Event.not_restart t x → x.trace = t'.trace → False := by
    intro x hx hxt
    have := ext_events hx evs (by rw [hxt, htrace]) e0 he0
    simp [Event.not_restart, hr0] at this
  unfold icarus_scanhash at hrun
  dsimp only at hrun
  split_ifs at hrun with h1 h2 h3
  · simp only [Option.some.injEq, Prod.mk.injEq] at hrun
    exact (no_restart _ (ext_mono hstart recovery_not_restart) (by rw [hrun.2])).elim
  · have hf := scan_finish_ext _ _ _ _ _ _ _ _ _ _ _ _ hrun
    have hc : ext Event.not_restart (open_step env (prepare_step env t w)).2
        (emit (clear_changework (open_step env (prepare_step env t w)).2)
          (.tcflush (open_step env (prepare_step env t w)).2.device_fd)) :=
      ⟨[.tcflush (open_step env (prepare_step env t w)).2.device_fd], rfl, by simp;rfl⟩
    exact (no_restart _ (ext_trans (ext_trans (ext_mono hstart recovery_not_restart) hc) hf)
      rfl).elim
  · cases hw : scan_wait env (open_step env (prepare_step env t w)).2.device_fd links
        (open_step env (prepare_step env t w)).2 with
    | none => simp [hw] at hrun
    | some res =>
      have hspec := scan_wait_spec env _ links _ res hw
      cases res with
      | returned v2 t2 =>
        simp only [hw, Option.some.injEq, Prod.mk.injEq] at hrun
        obtain ⟨rfl, rfl⟩ := hrun
        obtain ⟨a, b, c, d⟩ := hspec
        have hnw := ext_events (ext_trans (ext_mono hstart recovery_not_write) a) evs htrace
        rcases d with ⟨d1, d2, d3⟩ | d
        · refine ⟨d1, d2, ?_, ?_, ?_, ?_⟩
          · rw [d3]
            simpa using h2
          · rw [b, hs.1, hp.2.2.2.2.1]
          · rw [c, hs.2.1, hp.2.2.2.2.2.1]
          · intro e he
            have := hnw e he
            simpa [Event.not_write] using this
        · exact (no_restart _ (ext_trans (ext_mono hstart recovery_not_restart) d) rfl).elim
      | done ret n nw hwe fd2 links2 t2 =>
        simp only [hw] at hrun
        have hf := scan_finish_ext _ _ _ _ _ _ _ _ _ _ _ _ hrun
        exact (no_restart _ (ext_trans (ext_trans (ext_mono hstart recovery_not_restart) hspec)
          hf) rfl).elim
  · have hf := scan_finish_ext _ _ _ _ _ _ _ _ _ _ _ _ hrun
    have hc : ext Event.not_restart (open_step env (prepare_step env t w)).2
        (emit (open_step env (prepare_step env t w)).2
          (.tcflush (open_step env (prepare_step env t w)).2.device_fd)) :=
      ext_emit _ _ _ rfl
    exact (no_restart _ (ext_trans (ext_trans (ext_mono hstart recovery_not_restart) hc) hf)
      rfl).elim

/-- A cycle of `icarus_scanhash` does return when its wait comes to a
reader call that returns ICA_GETS_RESTART: the value is 0 and the thread is
the one of that call with changework set. -/
theorem restart_cycle_returns (env : Env) (t : Thr) (w : work)
    (hfirst : t.state.firstrun = false) (hcw : t.state.changework = false)
    (pre : List (List ReadEv)) (link : List ReadEv) (rest : List (List ReadEv))
    (t1 : Thr) (out : GetsOut)
    (hopen : (open_step env (prepare_step env t w)).1 = true)
    (hreach : scan_wait env (open_step env (prepare_step env t w)).2.device_fd
        (pre ++ link :: rest) (open_step env (prepare_step env t w)).2 =
      scan_wait env (open_step env (prepare_step env t w)).2.device_fd (link :: rest) t1)
    (hgets : wait_gets env t1 link = some out) (hret : out.ret = .ICA_GETS_RESTART) :
    icarus_scanhash env (pre ++ link :: rest) t w =
      some (0, { after_gets env (open_step env (prepare_step env t w)).2.device_fd t1 out with
        state := { (after_gets env (open_step env (prepare_step env t w)).2.device_fd t1
          out).state with changework := true } }) := by
  have hp := prepare_step_flags env t w
  obtain ⟨_, ho2, ho3⟩ := open_step_ok env (prepare_step env t w)
  have hf : (open_step env (prepare_step env t w)).2.state.firstrun = false := by
    rw [ho3 hopen, hp.2.1, hfirst]
  have hc : (open_step env (prepare_step env t w)).2.state.changework = false := by
    rw [(keeps_slots ho2).2.2.1, hp.2.2.1, hcw]
  unfold icarus_scanhash
  dsimp only
  rw [if_neg (by simp [hopen]), if_pos hf, if_neg (by simp [hc]), hreach, scan_wait]
  simp only [hgets, hret]

/-- C9: for every session with firstrun = false and changework = false, if
in a cycle of `icarus_scanhash` the reply reader returns ICA_GETS_RESTART,
the cycle returns 0 hashes with changework = true, leaves firstrun,
last_work and last2_work as they were, and writes nothing to the device.
First part: every cycle that returns with such a reader call on its trace
has these properties. Second part: the cycle does return: when its wait
has come, after the stretches `pre`, to the reader call on `link` in the
thread `t1`, and that call returns ICA_GETS_RESTART, the cycle returns 0
with the thread of that call and changework set. -/
theorem scanhash_restart (env : Env) (t : Thr) (w : work)
    (hfirst : t.state.firstrun = false) (hcw : t.state.changework = false) :
    (∀ (links : List (List ReadEv)) (v : Int) (t' : Thr) (evs : List Event),
      icarus_scanhash env links t w = some (v, t') →
      t'.trace = t.trace ++ evs →
      (∃ e ∈ evs, e.is_restart = true) →
      v = 0 ∧ t'.state.changework = true ∧ t'.state.firstrun = false ∧
      t'.state.last_work = t.state.last_work ∧ t'.state.last2_work = t.state.last2_work ∧
      ∀ e ∈ evs, e.is_write = false) ∧
    (∀ (pre : List (List ReadEv)) (link : List ReadEv) (rest : List (List ReadEv))
      (t1 : Thr) (out : GetsOut),
      (open_step env (prepare_step env t w)).1 = true →
      scan_wait env (open_step env (prepare_step env t w)).2.device_fd
          (pre ++ link :: rest) (open_step env (prepare_step env t w)).2 =
        scan_wait env (open_step env (prepare_step env t w)).2.device_fd (link :: rest) t1 →
      wait_gets env t1 link = some out →
      out.ret = .ICA_GETS_RESTART →
      icarus_scanhash env (pre ++ link :: rest) t w =
        some (0, { after_gets env (open_step env (prepare_step env t w)).2.device_fd t1 out with
          state := { (after_gets env (open_step env (prepare_step env t w)).2.device_fd t1
            out).state with changework := true } })) :=
  ⟨fun links v t' evs hrun htrace hrestart =>
      restart_cycle_props env links t w v t' evs hrun htrace hrestart,
    fun pre link rest t1 out hopen hreach hgets hret =>
      restart_cycle_returns env t w hfirst hcw pre link rest t1 out hopen hreach hgets hret⟩

/-- C9 at a concrete session: the first read of the cycle is empty and sees
the restart flag; the cycle returns 0 with changework set, the job slots
untouched and nothing written. -/
theorem scanhash_restart_witness :
    ((0 : Int) = 0 ∧ restart_thr.state.changework = true ∧
      restart_thr.state.firstrun = false ∧
      restart_thr.state.last_work = sample_thr.state.last_work ∧
      restart_thr.state.last2_work = sample_thr.state.last2_work ∧
      ∀ e ∈ [Event.gets 5 true 16 4 .ICA_GETS_RESTART], e.is_write = false) ∧
    icarus_scanhash sample_env [restart_link] sample_thr sample_work = some (0, restart_thr) :=
  ⟨(scanhash_restart sample_env sample_thr sample_work rfl rfl).1 [restart_link] 0 restart_thr
      [.gets 5 true 16 4 .ICA_GETS_RESTART] rfl rfl ⟨_, List.mem_singleton.mpr rfl, rfl⟩,
    (scanhash_restart sample_env sample_thr sample_work rfl rfl).2 [] restart_link []
      (prepare_step sample_env sample_thr sample_work) restart_out rfl rfl rfl rfl⟩

/-! ### Replay after a restart -/

theorem emits_after {P : Event → Bool} {e : Event} {a b c : Thr} (h1 : ext P a b)
    (h2 : emits e b c) : emits e a c := by
  obtain ⟨A, hA, _⟩ := h1
  obtain ⟨pre, post, h⟩ := h2
  exact ⟨A ++ pre, post, by rw [h, hA]; simp⟩

theorem emits_before {P : Event → Bool} {e : Event} {a b c : Thr} (h1 : emits e a b)
    (h2 : ext P b c) : emits e a c := by
  obtain ⟨pre, post, h⟩ := h1
  obtain ⟨B, hB, _⟩ := h2
  exact ⟨pre, post ++ B, by rw [hB, h]; simp⟩

theorem emits_of_trace_eq {e : Event} {a b c : Thr} (h : emits e a b)
    (hc : c.trace = b.trace) : emits e a c := by
  obtain ⟨pre, post, h⟩ := h
  exact ⟨pre, post, by rw [hc, h]⟩

theorem job_frame_keeps (env : Env) {t t' : Thr} (h : keeps t t') :
    job_frame env.opt_scrypt t'.state = job_frame env.opt_scrypt t.state := by
  have hs := keeps_slots h
  unfold job_frame
  rw [hs.2.2.2.2.1, hs.2.2.2.2.2.1]

/-- On an open port `icarus_job_start` hands the frame to `write`. -/
theorem job_start_writes (env : Env) (t : Thr) (hfd : t.device_fd ≠ -1) :
    emits (.write t.device_fd (job_frame env.opt_scrypt t.state)) t
      (icarus_job_start env t).2 := by
  unfold icarus_job_start
  lift_lets
  extract_lets fd t1 t2 tv s1 s2 t3 r
  have h1 : ext Event.plumbing t t1 ∧ keeps t t1 := by
    simp only [t1]
    split_ifs
    · exact ⟨ext_emit _ _ _ rfl, keeps_emit _ _⟩
    · exact ⟨ext_refl _ _, keeps_refl _⟩
  have h2 : ext Event.plumbing t1 t2 ∧ keeps t1 t2 := by
    simp only [t2]
    split_ifs
    · exact ⟨ext_emit _ _ _ rfl, keeps_emit _ _⟩
    · exact ⟨ext_refl _ _, keeps_refl _⟩
  have h3 : ext Event.plumbing t2 t3 ∧ keeps t2 t3 :=
    ⟨ext_of_trace_eq (ext_emit _ t2 .cgtime rfl) rfl, ⟨rfl, rfl, rfl⟩⟩
  have h13 := ext_trans (ext_trans h1.1 h2.1) h3.1
  have hframe : job_frame env.opt_scrypt t3.state = job_frame env.opt_scrypt t.state :=
    job_frame_keeps env (keeps_trans (keeps_trans h1.2 h2.2) h3.2)
  have h4 : emits (.write t.device_fd (job_frame env.opt_scrypt t.state)) t3 r.2 := by
    simp only [r, icarus_write, fd]
    rw [if_neg hfd, hframe]
    split_ifs
    · exact ⟨[], [], rfl⟩
    · exact ⟨[], [], rfl⟩
  have h14 := emits_after h13 h4
  split_ifs
  · exact emits_before (emits_before h14 (close_ext r.2)) (ext_emit Event.plumbing _ .dev_error rfl)
  · exact emits_before h14 (ext_emit Event.plumbing r.2 (.usleep 2000) rfl)

theorem dclk_step_restart (was_hw_error : Bool) (elapsed : timeval) (t : Thr) :
    dclk_step .ICA_GETS_RESTART was_hw_error elapsed t = t := by
  simp [dclk_step]

/-- The forced reopen leaves an open port open when no reopen is pending,
when the policy is every-cycle, or when the port opens again. -/
theorem forced_reopen_fd (env : Env) (t : Thr) (hfd : t.device_fd ≠ -1)
    (hre : t.info.reopen_now = false ∨ t.info.reopen_mode = .IRM_CYCLE ∨
      env.serial_open (t.trace ++ [.serial_close t.device_fd]) ≠ -1) :
    (forced_reopen env false t).device_fd ≠ -1 := by
  unfold forced_reopen
  by_cases hnow : t.info.reopen_now = true
  · rw [if_pos (Or.inr hnow)]
    by_cases hm : t.info.reopen_mode = .IRM_CYCLE
    · rw [if_pos hm]
      exact hfd
    · rw [if_neg hm]
      rcases hre with h | h | h
      · rw [hnow] at h
        exact absurd h (by simp)
      · exact absurd h hm
      · simp only [icarus_reopen, do_icarus_close, if_neg hfd, emit]
        rw [if_neg h]
        exact h
  · rw [if_neg (by simp [hnow])]
    exact hfd

theorem scan_next_restart (env : Env) (w : work) (nonce : Nat) (nonce_work : Option WorkRef)
    (was_hw_error : Bool) (elapsed tv_start : timeval) (t : Thr) :
    (scan_next env w .ICA_GETS_RESTART nonce nonce_work was_hw_error elapsed tv_start t).2 =
      icarus_transition_work env (start_next_job env .ICA_GETS_RESTART was_hw_error elapsed t)
        { w with blk_nonce := 0xffffffff } := rfl

/-- The job start on an open port, with the device enabled and no identify
pending, hands the frame to `write`. -/
theorem start_job_step_writes (env : Env) (t : Thr) (hfd : t.device_fd ≠ -1)
    (hid : t.state.identify = false) (hen : t.deven_enabled = true) :
    emits (.write t.device_fd (job_frame env.opt_scrypt t.state)) t (start_job_step env t) := by
  unfold start_job_step
  rw [if_neg (by simp [hid]), if_neg (by simp [hen])]
  split_ifs
  · exact job_start_writes env t hfd
  · exact emits_of_trace_eq (job_start_writes env t hfd) rfl

/-- C10 (as stated, refuted): the session has firstrun = false, changework =
true, an open port, the device enabled and no identify pending, but a
one-shot reopen is pending and the port does not open again; the cycle then
ends without any write on the link. -/
theorem replay_without_write :
    replay_thr.state.firstrun = false ∧ replay_thr.state.changework = true ∧
    replay_thr.device_fd ≠ -1 ∧ replay_thr.deven_enabled = true ∧
    replay_thr.state.identify = false ∧
    (icarus_scanhash deaf_env [] replay_thr sample_work).map
      (fun r => r.2.trace.any Event.is_write) = some false := by
  refine ⟨rfl, rfl, by decide, rfl, rfl, ?_⟩
  rfl

/-- C10 (amended): for every session with firstrun = false, changework =
true and an open port (device enabled, no identify pending), the next cycle
of `icarus_scanhash` calls the reader not at all, rotates the job slots so
that `last_work` is a copy of the caller's job and `last2_work` the former
`last_work`, and returns with changework = false; and it writes the frame
prepared from the caller's job to an open port whenever no one-shot reopen
is pending, or the reopen policy is every-cycle, or the port opens again. -/
theorem scanhash_replay (env : Env) (links : List (List ReadEv)) (t : Thr) (w : work)
    (hfirst : t.state.firstrun = false) (hcw : t.state.changework = true)
    (hopen : t.device_fd ≠ -1) (hen : t.deven_enabled = true)
    (hid : t.state.identify = false) :
    ∃ v t' evs, icarus_scanhash env links t w = some (v, t') ∧ t'.trace = t.trace ++ evs ∧
      evs.filter Event.is_gets = [] ∧
      (∃ addr, t'.state.last_work = some ⟨addr, { w with blk_nonce := 0xffffffff }⟩) ∧
      t'.state.last2_work = t.state.last_work ∧ t'.state.changework = false ∧
      ((t.info.reopen_now = false ∨ t.info.reopen_mode = .IRM_CYCLE ∨
          env.serial_open (t.trace ++ [.tcflush t.device_fd, .serial_close t.device_fd]) ≠ -1) →
        ∃ fd, fd ≠ -1 ∧
          Event.write fd
            (job_frame env.opt_scrypt (icarus_job_prepare env.opt_scrypt t.state w).2) ∈ evs) := by
  obtain ⟨p1, p2, p3, p4, p5, p6, p7, p8, p9⟩ := prepare_step_flags env t w
  have hfdP : (prepare_step env t w).device_fd ≠ -1 := by rw [p7]; exact hopen
  have hopenstep : open_step env (prepare_step env t w) = (true, prepare_step env t w) := by
    unfold open_step
    rw [if_neg hfdP]
  -- the thread after the flush, where the next job is started
  generalize hT0 : emit (clear_changework (prepare_step env t w))
    (.tcflush (prepare_step env t w).device_fd) = T0
  have hT0trace : T0.trace = t.trace ++ [.tcflush t.device_fd] := by
    rw [← hT0, ← p1, ← p7]
    rfl
  have hT0fd : T0.device_fd = t.device_fd := by rw [← hT0, ← p7]; rfl
  have hT0cw : T0.state.changework = false := by rw [← hT0]; rfl
  have hT0id : T0.state.identify = false := by rw [← hT0, ← hid, ← p4]; rfl
  have hT0lw : T0.state.last_work = t.state.last_work := by rw [← hT0, ← p5]; rfl
  have hT0en : T0.deven_enabled = true := by rw [← hT0, ← hen, ← p8]; rfl
  have hT0info : T0.info = t.info := by rw [← hT0, ← p9]; rfl
  have hT0frame : job_frame env.opt_scrypt T0.state =
      job_frame env.opt_scrypt (icarus_job_prepare env.opt_scrypt t.state w).2 := by
    rw [← hT0]
    rfl
  generalize hel : timersub (prepare_step env t w).state.tv_workfinish
    (prepare_step env t w).state.tv_workstart = elapsed
  generalize htv : (prepare_step env t w).state.tv_workstart = tv_start
  -- the start of the next job
  obtain ⟨hNext, hNkeeps⟩ := start_next_job_ok env .ICA_GETS_RESTART false elapsed T0
  have hNs := keeps_slots hNkeeps
  obtain ⟨⟨addr, hF1⟩, hF2, hF3, _, hF5, _, _⟩ := transition_state env
    (start_next_job env .ICA_GETS_RESTART false elapsed T0) { w with blk_nonce := 0xffffffff }
  have hFext := transition_ext env
    (start_next_job env .ICA_GETS_RESTART false elapsed T0) { w with blk_nonce := 0xffffffff }
  have hFid : (scan_next env w .ICA_GETS_RESTART 0 none false elapsed tv_start T0).2.state.identify
      = false := by
    rw [scan_next_restart, hF5, hNs.2.2.2.1, hT0id]
  have hrun : icarus_scanhash env links t w =
      some (scan_next env w .ICA_GETS_RESTART 0 none false elapsed tv_start T0) := by
    unfold icarus_scanhash
    dsimp only
    rw [hopenstep]
    dsimp only
    rw [if_neg (by simp), if_pos (by rw [p2]; exact hfirst), if_pos (by rw [p3]; exact hcw),
      hT0, hel, htv]
    unfold scan_finish scan_out
    rw [if_neg (by rw [hFid]; simp)]
  obtain ⟨A, hA, hPA⟩ := ext_trans hNext hFext
  refine ⟨_, _, [.tcflush t.device_fd] ++ A, hrun, ?_, ?_, ?_, ?_, ?_, ?_⟩
  · show (icarus_transition_work env (start_next_job env .ICA_GETS_RESTART false elapsed T0)
      { w with blk_nonce := 0xffffffff }).trace = _
    rw [hA, hT0trace, List.append_assoc]
  · rw [List.filter_append, (plumbing_filters A hPA).2.2]
    rfl
  · exact ⟨addr, hF1⟩
  · show (icarus_transition_work env (start_next_job env .ICA_GETS_RESTART false elapsed T0)
      { w with blk_nonce := 0xffffffff }).state.last2_work = _
    rw [hF2, hNs.1, hT0lw]
  · show (icarus_transition_work env (start_next_job env .ICA_GETS_RESTART false elapsed T0)
      { w with blk_nonce := 0xffffffff }).state.changework = _
    rw [hF3, hNs.2.2.1, hT0cw]
  · intro hre
    -- the port is still open when the job is started
    have hre' : T0.info.reopen_now = false ∨ T0.info.reopen_mode = .IRM_CYCLE ∨
        env.serial_open (T0.trace ++ [.serial_close T0.device_fd]) ≠ -1 := by
      rw [hT0info, hT0trace, hT0fd]
      simpa using hre
    have hX := forced_reopen_fd env T0 (by rw [hT0fd]; exact hopen) hre'
    obtain ⟨hXext, hXkeeps⟩ := forced_reopen_ok env false T0
    have hXs := keeps_slots hXkeeps
    have hw1 := start_job_step_writes env (forced_reopen env false T0) hX
      (by rw [hXs.2.2.2.1, hT0id]) (by rw [hXkeeps.2.2, hT0en])
    rw [job_frame_keeps env hXkeeps, hT0frame] at hw1
    have hw2 : emits (.write (forced_reopen env false T0).device_fd
        (job_frame env.opt_scrypt (icarus_job_prepare env.opt_scrypt t.state w).2)) T0
        (start_next_job env .ICA_GETS_RESTART false elapsed T0) := by
      unfold start_next_job
      rw [dclk_step_restart]
      exact emits_before (emits_after hXext hw1) (cycle_reopen_ok env _).1
    obtain ⟨pre, post, hpp⟩ := emits_before hw2 hFext
    refine ⟨_, hX, ?_⟩
    have : A = pre ++ Event.write (forced_reopen env false T0).device_fd
        (job_frame env.opt_scrypt (icarus_job_prepare env.opt_scrypt t.state w).2) :: post :=
      List.append_cancel_left (hA.symm.trans hpp)
    rw [this]
    simp

/-- C10 (amended) at a concrete session: `resumed_thr` has changework set,
an open port and no reopen pending; the cycle reads nothing, writes the
prepared frame, rotates the slots and clears changework. -/
theorem scanhash_replay_witness :
    ∃ v t' evs, icarus_scanhash sample_env [] resumed_thr sample_work = some (v, t') ∧
      t'.trace = resumed_thr.trace ++ evs ∧
      evs.filter Event.is_gets = [] ∧
      (∃ addr, t'.state.last_work = some ⟨addr, { sample_work with blk_nonce := 0xffffffff }⟩) ∧
      t'.state.last2_work = resumed_thr.state.last_work ∧ t'.state.changework = false ∧
      ((resumed_thr.info.reopen_now = false ∨ resumed_thr.info.reopen_mode = .IRM_CYCLE ∨
          sample_env.serial_open (resumed_thr.trace ++
            [.tcflush resumed_thr.device_fd, .serial_close resumed_thr.device_fd]) ≠ -1) →
        ∃ fd, fd ≠ -1 ∧
          Event.write fd
            (job_frame sample_env.opt_scrypt
              (icarus_job_prepare sample_env.opt_scrypt resumed_thr.state sample_work).2) ∈ evs) :=
  scanhash_replay sample_env [] resumed_thr sample_work rfl rfl (by decide) rfl rfl

/-! ### Job slots -/

theorem transition_unfold (env : Env) (t : Thr) (w : work) :
    icarus_transition_work env t w =
      { t with
        state := { t.state with
          last2_work := t.state.last_work,
          last_work := some ⟨env.new_addr
            (t.trace ++ if t.state.last2_work.isSome then [.free_work t.state.last2_work]
              else []), w⟩ },
        trace := t.trace ++ (if t.state.last2_work.isSome then [.free_work t.state.last2_work]
            else []) ++
          [.copy_work (env.new_addr
            (t.trace ++ if t.state.last2_work.isSome then [.free_work t.state.last2_work]
              else []))] } := by
  unfold icarus_transition_work
  by_cases h : t.state.last2_work.isSome = true
  · simp [h, emit]
  · simp [h, emit]

theorem live_append (a b : List Event) : live (a ++ b) = live a + live b := by
  simp only [live, List.countP_append, Nat.cast_add]
  ring

theorem transitions_append (env : Env) (t : Thr) (ws : List work) (w : work) :
    transitions env t (ws ++ [w]) = icarus_transition_work env (transitions env t ws) w := by
  simp [transitions, List.foldl_append]

/-- The accounting of live copies through one transition. -/
theorem transition_live (env : Env) (t : Thr) (w : work) (h : live t.trace = slots t.state) :
    live (icarus_transition_work env t w).trace = slots (icarus_transition_work env t w).state ∧
    ∀ p, t.trace <+: p → p <+: (icarus_transition_work env t w).trace → live p ≤ 2 := by
  rw [transition_unfold]
  have hs : slots t.state ≤ 2 := by
    unfold slots
    split_ifs <;> norm_num
  by_cases h2 : t.state.last2_work.isSome = true
  · have h2' : slots t.state = (if t.state.last_work.isSome then 1 else 0) + 1 := by
      simp [slots, h2]
    constructor
    · simp only [h2, if_true, live_append, h]
      simp only [slots, h2, if_true]
      simp [live, Event.is_copy, Event.is_free]
      split_ifs <;> norm_num
    · intro p hp1 hp2
      simp only [h2, if_true, List.append_assoc, List.singleton_append] at hp2
      obtain ⟨x, rfl⟩ := hp1
      have hx : x <+: [Event.free_work t.state.last2_work, Event.copy_work _] :=
        (List.prefix_append_right_inj _).mp hp2
      rw [live_append, h]
      have : live x ≤ 0 := by
        rw [List.prefix_cons_iff] at hx
        rcases hx with rfl | ⟨x', rfl, hx'⟩
        · simp [live]
        · rw [List.prefix_cons_iff] at hx'
          rcases hx' with rfl | ⟨x'', rfl, hx''⟩
          · simp [live, Event.is_copy, Event.is_free]
          · have := List.prefix_nil.mp hx''
            subst this
            simp [live, Event.is_copy, Event.is_free]
      linarith
  · have h2' : t.state.last2_work.isSome = false := by simpa using h2
    have hs1 : slots t.state ≤ 1 := by
      simp only [slots, h2', Bool.false_eq_true, if_false, add_zero]
      split_ifs <;> norm_num
    constructor
    · simp only [h2', live_append, h]
      simp only [slots, h2']
      simp [live, Event.is_copy, Event.is_free]
      ring
    · intro p hp1 hp2
      simp only [h2', List.append_assoc] at hp2
      obtain ⟨x, rfl⟩ := hp1
      have hx := (List.prefix_append_right_inj _).mp hp2
      simp only [Bool.false_eq_true, if_false, List.nil_append, List.append_nil] at hx
      rw [live_append, h]
      have : live x ≤ 1 := by
        rw [List.prefix_cons_iff] at hx
        rcases hx with rfl | ⟨x', rfl, hx'⟩
        · simp [live]
        · have := List.prefix_nil.mp hx'
          subst this
          simp [live, Event.is_copy, Event.is_free]
      linarith


theorem transition_trace_grows (env : Env) (t : Thr) (w : work) :
    t.trace <+: (icarus_transition_work env t w).trace := by
  rw [transition_unfold]
  simp only [List.append_assoc]
  exact List.prefix_append _ _

theorem transitions_trace_grows (env : Env) (ws : List work) :
    ∀ t : Thr, t.trace <+: (transitions env t ws).trace := by
  induction ws with
  | nil => intro t; exact List.prefix_refl _
  | cons w ws ih =>
    intro t
    exact (transition_trace_grows env t w).trans (ih _)

theorem transitions_live (env : Env) (ws : List work) :
    ∀ t : Thr, live t.trace = slots t.state →
      live (transitions env t ws).trace = slots (transitions env t ws).state ∧
      ∀ p, t.trace <+: p → p <+: (transitions env t ws).trace → live p ≤ 2 := by
  induction ws with
  | nil =>
    intro t h
    refine ⟨h, ?_⟩
    intro p hp1 hp2
    have : p = t.trace := List.Sublist.antisymm hp2.sublist hp1.sublist
    rw [this, h]
    unfold slots
    split_ifs <;> norm_num
  | cons w ws ih =>
    intro t h
    obtain ⟨h1, h2⟩ := transition_live env t w h
    obtain ⟨h3, h4⟩ := ih _ h1
    refine ⟨h3, ?_⟩
    intro p hp1 hp2
    have hmid : (icarus_transition_work env t w).trace <+:
        (transitions env t (w :: ws)).trace := transitions_trace_grows env ws _
    rcases List.prefix_or_prefix_of_prefix hp2 hmid with hc | hc
    · exact h2 p hp1 hc
    · exact h4 p hc hp2

/-- C14: `icarus_transition_work(state, work)` sets last2_work to the old
last_work, sets last_work to a copy of work, and releases the old last2_work
when there is one. After transitions with jobs w1..wn, n >= 2, the slots
hold copies of w(n-1) and wn. From a session whose live copies are those in
its slots, the live copies are again those in the slots after any run of
transitions, and at no point of the run are more than two copies live. -/
theorem transition_work_slots (env : Env) (t : Thr) (hlive : live t.trace = slots t.state) :
    (∀ w : work, (icarus_transition_work env t w).state.last2_work = t.state.last_work ∧
      ∃ addr, (icarus_transition_work env t w).state.last_work = some ⟨addr, w⟩ ∧
        (icarus_transition_work env t w).trace =
          t.trace ++ (if t.state.last2_work.isSome then [.free_work t.state.last2_work] else [])
            ++ [.copy_work addr]) ∧
    (∀ (ws : List work) (w1 w2 : work), ∃ a1 a2,
      (transitions env t (ws ++ [w1, w2])).state.last2_work = some ⟨a1, w1⟩ ∧
      (transitions env t (ws ++ [w1, w2])).state.last_work = some ⟨a2, w2⟩) ∧
    (∀ ws : List work,
      live (transitions env t ws).trace = slots (transitions env t ws).state ∧
      slots (transitions env t ws).state ≤ 2 ∧
      ∀ p, t.trace <+: p → p <+: (transitions env t ws).trace → live p ≤ 2) := by
  refine ⟨?_, ?_, ?_⟩
  · intro w
    rw [transition_unfold]
    exact ⟨rfl, _, rfl, rfl⟩
  · intro ws w1 w2
    have e : ws ++ [w1, w2] = (ws ++ [w1]) ++ [w2] := by simp
    rw [e, transitions_append, transitions_append]
    rw [transition_unfold env (icarus_transition_work env (transitions env t ws) w1) w2]
    rw [transition_unfold env (transitions env t ws) w1]
    exact ⟨_, _, rfl, rfl⟩
  · intro ws
    obtain ⟨h1, h2⟩ := transitions_live env ws t hlive
    refine ⟨h1, ?_, h2⟩
    unfold slots
    split_ifs <;> norm_num

/-- C14 from a fresh session, both slots NULL: after the jobs w, w', w the
slots hold copies of w' and w. -/
theorem transition_work_slots_witness :
    ∃ a1 a2,
      (transitions sample_env {} ([sample_work] ++
        [{ sample_work with blk_nonce := 1 }, sample_work])).state.last2_work =
          some ⟨a1, { sample_work with blk_nonce := 1 }⟩ ∧
      (transitions sample_env {} ([sample_work] ++
        [{ sample_work with blk_nonce := 1 }, sample_work])).state.last_work =
          some ⟨a2, sample_work⟩ :=
  (transition_work_slots sample_env {} rfl).2.1 [sample_work]
    { sample_work with blk_nonce := 1 } sample_work

/-! ### Configuration setters -/

/-- The lower-case form of a string. -/
theorem strcasecmp_eq_iff (a b : String) (hb : b.toList.map Char.toLower = b.toList) :
    strcasecmp_eq a b = true ↔ String.mk (a.toList.map Char.toLower) = b := by
  unfold strcasecmp_eq
  rw [beq_iff_eq, hb]
  constructor
  · intro h
    rw [h]
    cases b
    rfl
  · intro h
    subst h
    rfl

theorem set_work_division_total (info : ICARUS_INFO) (newvalue : String) :
    ∃ r, icarus_set_work_division info newvalue = some r ∧
      (r.err.isSome = true → r.info = info) ∧
      (r.err.isSome = true ↔
        (¬ (atoi newvalue = 1 ∨ atoi newvalue = 2 ∨ atoi newvalue = 4 ∨ atoi newvalue = 8) ∨
          (info.user_set_fpga_count = true ∧ atoi newvalue < info.fpga_count))) := by
  unfold icarus_set_work_division
  dsimp only
  by_cases h1 : atoi newvalue = 1 ∨ atoi newvalue = 2 ∨ atoi newvalue = 4 ∨ atoi newvalue = 8
  · rw [if_neg (not_not.mpr h1)]
    by_cases h2 : info.user_set_fpga_count = true ∧ info.fpga_count > atoi newvalue
    · rw [if_pos h2]
      exact ⟨_, rfl, fun _ => rfl, by simp [h1, h2.1]; exact h2.2⟩
    · rw [if_neg h2]
      have hm : ∃ m, mask (atoi newvalue) = some m := by
        rcases h1 with h | h | h | h <;> rw [h] <;> exact ⟨_, rfl⟩
      obtain ⟨m, hm⟩ := hm
      rw [hm]
      refine ⟨_, rfl, by simp, ?_⟩
      simp only [Option.isSome_none, Bool.false_eq_true, false_iff, not_or, not_not]
      refine ⟨by simpa only [not_or] using not_not.mpr h1, ?_⟩
      intro h
      exact h2 ⟨h.1, h.2⟩
  · rw [if_pos h1]
    exact ⟨_, rfl, fun _ => rfl, by simp [h1]⟩

/-- C15: each of `icarus_set_baud`, `icarus_set_work_division`,
`icarus_set_fpga_count` and `icarus_set_reopen` leaves every field of
ICARUS_INFO as it was whenever it returns an error string, and it returns
one exactly when, in turn, the baud is not valid, the work division is none
of 1, 2, 4, 8 or is below a user-set fpga_count, the fpga_count is below 1
or above work_division, or the word, put in lower case, is none of never,
-r, timeout, cycle, r, now. -/
theorem setters_reject_unchanged (valid_baud : Int → Bool) (info : ICARUS_INFO)
    (newvalue : String) :
    (((icarus_set_baud valid_baud info newvalue).err.isSome = true →
        (icarus_set_baud valid_baud info newvalue).info = info) ∧
      ((icarus_set_baud valid_baud info newvalue).err.isSome = true ↔
        valid_baud (atoi newvalue) = false)) ∧
    (∃ r, icarus_set_work_division info newvalue = some r ∧
      (r.err.isSome = true → r.info = info) ∧
      (r.err.isSome = true ↔
        (¬ (atoi newvalue = 1 ∨ atoi newvalue = 2 ∨ atoi newvalue = 4 ∨ atoi newvalue = 8) ∨
          (info.user_set_fpga_count = true ∧ atoi newvalue < info.fpga_count)))) ∧
    (((icarus_set_fpga_count info newvalue).err.isSome = true →
        (icarus_set_fpga_count info newvalue).info = info) ∧
      ((icarus_set_fpga_count info newvalue).err.isSome = true ↔
        (atoi newvalue < 1 ∨ atoi newvalue > info.work_division))) ∧
    (((icarus_set_reopen info newvalue).err.isSome = true →
        (icarus_set_reopen info newvalue).info = info) ∧
      ((icarus_set_reopen info newvalue).err.isSome = true ↔
        String.mk (newvalue.toList.map Char.toLower) ∉
          ["never", "-r", "timeout", "cycle", "r", "now"])) := by
  refine ⟨?_, set_work_division_total info newvalue, ?_, ?_⟩
  · unfold icarus_set_baud
    dsimp only
    by_cases hv : valid_baud (atoi newvalue) = false
    · rw [if_pos hv]
      simp [hv]
    · rw [if_neg hv]
      split_ifs <;> simp [hv]
  · unfold icarus_set_fpga_count
    dsimp only
    split_ifs with h
    · simp [h]
    · simp only [Option.isSome_none, Bool.false_eq_true, false_implies, false_iff, true_and]
      exact h
  · have e1 := strcasecmp_eq_iff newvalue "never" rfl
    have e2 := strcasecmp_eq_iff newvalue "-r" rfl
    have e3 := strcasecmp_eq_iff newvalue "timeout" rfl
    have e4 := strcasecmp_eq_iff newvalue "cycle" rfl
    have e5 := strcasecmp_eq_iff newvalue "r" rfl
    have e6 := strcasecmp_eq_iff newvalue "now" rfl
    generalize String.mk (newvalue.toList.map Char.toLower) = L at e1 e2 e3 e4 e5 e6 ⊢
    unfold icarus_set_reopen
    simp only [Bool.or_eq_true, e1, e2, e3, e4, e5, e6, List.mem_cons, List.mem_singleton,
      List.not_mem_nil, or_false]
    split_ifs with h1 h2 h3 h4
    · simp only [Option.isSome_none, Bool.false_eq_true, false_implies, false_iff, not_not,
        true_and]
      rcases h1 with h | h
      · exact Or.inl h
      · exact Or.inr (Or.inl h)
    · simp only [Option.isSome_none, Bool.false_eq_true, false_implies, false_iff, not_not,
        true_and]
      exact Or.inr (Or.inr (Or.inl h2))
    · simp only [Option.isSome_none, Bool.false_eq_true, false_implies, false_iff, not_not,
        true_and]
      rcases h3 with h | h
      · exact Or.inr (Or.inr (Or.inr (Or.inl h)))
      · exact Or.inr (Or.inr (Or.inr (Or.inr (Or.inl h))))
    · simp only [Option.isSome_none, Bool.false_eq_true, false_implies, false_iff, not_not,
        true_and]
      exact Or.inr (Or.inr (Or.inr (Or.inr (Or.inr h4))))
    · simp only [Option.isSome_some, true_implies, true_iff, true_and]
      rintro (h | h | h | h | h | h)
      · exact h1 (Or.inl h)
      · exact h1 (Or.inr h)
      · exact h2 h
      · exact h3 (Or.inl h)
      · exact h3 (Or.inr h)
      · exact h4 h

/-! ### The timing setter -/

theorem set_timing_idempotent (atof : String → ℚ) (NANOSEC : ℚ) (drv_is_icarus : Bool) (info : ICARUS_INFO)
    (buf : String) :
    icarus_set_timing atof NANOSEC drv_is_icarus (icarus_set_timing atof NANOSEC drv_is_icarus info buf).info buf
      = icarus_set_timing atof NANOSEC drv_is_icarus info buf := by
  unfold icarus_set_timing
  rcases Bool.eq_false_or_eq_true (strcasecmp_eq buf "short") with h1 | h1
  · simp only [h1, if_true]
  rcases Bool.eq_false_or_eq_true (strncasecmp_eq buf "short=") with h2 | h2
  · simp only [h1, h2, if_true, Bool.false_eq_true, if_false]
  rcases Bool.eq_false_or_eq_true (strcasecmp_eq buf "long") with h3 | h3
  · simp only [h1, h2, h3, if_true, Bool.false_eq_true, if_false]
  rcases Bool.eq_false_or_eq_true (strncasecmp_eq buf "long=") with h4 | h4
  · simp only [h1, h2, h3, h4, if_true, Bool.false_eq_true, if_false]
  by_cases h5 : atof buf = 0
  · simp only [h1, h2, h3, h4, h5, if_true, Bool.false_eq_true, if_false, ne_eq,
      not_true_eq_false]
    by_cases hm : info.timing_mode = .MODE_DEFAULT
    · cases drv_is_icarus <;> simp [hm]
    · simp [hm]
  · simp only [h1, h2, h3, h4, h5, if_true, Bool.false_eq_true, if_false, ne_eq,
      not_false_eq_true]

theorem set_timing_reopen_now (atof : String → ℚ) (NANOSEC : ℚ) (drv_is_icarus : Bool) (info : ICARUS_INFO)
    (buf : String) :
    (icarus_set_timing atof NANOSEC drv_is_icarus info buf).info.reopen_now = info.reopen_now := by
  unfold icarus_set_timing
  dsimp only
  split_ifs <;> rfl


theorem set_work_division_idempotent (info : ICARUS_INFO) (v : String) (r : SetResult)
    (h : icarus_set_work_division info v = some r) (hok : r.err = none) :
    icarus_set_work_division r.info v = some r ∧ r.info.reopen_now = info.reopen_now := by
  unfold icarus_set_work_division at h ⊢
  dsimp only at h ⊢
  by_cases h1 : atoi v = 1 ∨ atoi v = 2 ∨ atoi v = 4 ∨ atoi v = 8
  · rw [if_neg (not_not.mpr h1)] at h ⊢
    by_cases h2 : info.user_set_fpga_count = true ∧ info.fpga_count > atoi v
    · rw [if_pos h2] at h
      simp only [Option.some.injEq] at h
      subst h
      simp at hok
    · rw [if_neg h2] at h
      have hm : ∃ m, mask (atoi v) = some m := by
        rcases h1 with h | h | h | h <;> rw [h] <;> exact ⟨_, rfl⟩
      obtain ⟨m, hm⟩ := hm
      rw [hm] at h ⊢
      simp only [Option.some.injEq] at h
      subst h
      by_cases hu : info.user_set_fpga_count = true
      · have h3 : ¬ info.fpga_count > atoi v := fun hc => h2 ⟨hu, hc⟩
        simp [hu, h3]
      · simp [hu]
  · rw [if_pos h1] at h
    simp only [Option.some.injEq] at h
    subst h
    simp at hok

/-- C17: applying an accepted value twice with `icarus_set_baud`,
`icarus_set_work_division`, `icarus_set_fpga_count`, `icarus_set_reopen`
(with a mode name) or `icarus_set_timing` gives the state that applying it
once gives. `icarus_set_baud` sets reopen_now exactly when the new baud
differs from the old one, and the other four leave reopen_now as it was. -/
theorem setters_idempotent (valid_baud : Int → Bool) (atof : String → ℚ)
    (NANOSEC : ℚ) (drv_is_icarus : Bool) (info : ICARUS_INFO) (v : String) :
    (((icarus_set_baud valid_baud info v).err = none →
        icarus_set_baud valid_baud (icarus_set_baud valid_baud info v).info v =
          icarus_set_baud valid_baud info v) ∧
      (valid_baud (atoi v) = true →
        (icarus_set_baud valid_baud info v).info =
          if info.baud ≠ atoi v then { info with baud := atoi v, reopen_now := true }
          else info) ∧
      (info.baud = atoi v → (icarus_set_baud valid_baud info v).info = info)) ∧
    (∀ r, icarus_set_work_division info v = some r → r.err = none →
      icarus_set_work_division r.info v = some r ∧ r.info.reopen_now = info.reopen_now) ∧
    ((icarus_set_fpga_count info v).err = none →
      icarus_set_fpga_count (icarus_set_fpga_count info v).info v =
        icarus_set_fpga_count info v ∧
      (icarus_set_fpga_count info v).info.reopen_now = info.reopen_now) ∧
    ((icarus_set_reopen info v).err = none → strcasecmp_eq v "now" = false →
      icarus_set_reopen (icarus_set_reopen info v).info v = icarus_set_reopen info v ∧
      (icarus_set_reopen info v).info.reopen_now = info.reopen_now) ∧
    (icarus_set_timing atof NANOSEC drv_is_icarus (icarus_set_timing atof NANOSEC drv_is_icarus info v).info v =
        icarus_set_timing atof NANOSEC drv_is_icarus info v ∧
      (icarus_set_timing atof NANOSEC drv_is_icarus info v).info.reopen_now = info.reopen_now) := by
  refine ⟨⟨?_, ?_, ?_⟩, set_work_division_idempotent info v, ?_, ?_,
    set_timing_idempotent atof NANOSEC drv_is_icarus info v,
    set_timing_reopen_now atof NANOSEC drv_is_icarus info v⟩
  · unfold icarus_set_baud
    dsimp only
    by_cases hv : valid_baud (atoi v) = false
    · simp [hv]
    · by_cases hb : info.baud = atoi v
      · simp [hv, hb]
      · simp [hv, hb]
  · intro hv
    unfold icarus_set_baud
    dsimp only
    by_cases hb : info.baud = atoi v
    · simp [hv, hb]
    · simp [hv, hb]
  · intro hb
    unfold icarus_set_baud
    dsimp only
    by_cases hv : valid_baud (atoi v) = false
    · simp [hv]
    · simp [hv, hb]
  · unfold icarus_set_fpga_count
    dsimp only
    by_cases h : atoi v < 1 ∨ atoi v > info.work_division
    · simp [h]
    · simp [h]
  · unfold icarus_set_reopen
    intro hok hnow
    rcases Bool.eq_false_or_eq_true (strcasecmp_eq v "never" || strcasecmp_eq v "-r")
      with h1 | h1
    · simp only [h1, if_true]
      exact ⟨trivial, trivial⟩
    rcases Bool.eq_false_or_eq_true (strcasecmp_eq v "timeout") with h2 | h2
    · simp only [h1, h2, if_true, Bool.false_eq_true, if_false]
      exact ⟨trivial, trivial⟩
    rcases Bool.eq_false_or_eq_true (strcasecmp_eq v "cycle" || strcasecmp_eq v "r")
      with h3 | h3
    · simp only [h1, h2, h3, if_true, Bool.false_eq_true, if_false]
      exact ⟨trivial, trivial⟩
    · simp only [h1, h2, h3, hnow, if_true, Bool.false_eq_true, if_false] at hok
      simp at hok

/-- C17 at concrete values: the baud 57600 on a port configured for 115200
is taken once and sets reopen_now; taking it again changes nothing. -/
theorem setters_idempotent_witness :
    icarus_set_baud (fun _ => true)
        (icarus_set_baud (fun _ => true) { baud := 115200 } "57600").info "57600" =
      icarus_set_baud (fun _ => true) { baud := 115200 } "57600" ∧
    (icarus_set_baud (fun _ => true) { baud := 115200 } "57600").info =
      (if (115200 : Int) ≠ atoi "57600" then
          ({ baud := atoi "57600", reopen_now := true } : ICARUS_INFO)
        else { baud := 115200 }) :=
  ⟨(setters_idempotent (fun _ => true) decimal_atof 1000000000 true { baud := 115200 } "57600").1.1 rfl,
    (setters_idempotent (fun _ => true) decimal_atof 1000000000 true { baud := 115200 } "57600").1.2.1 rfl⟩

/-! ### The poll window -/

theorem trunc_of_nonneg (q : ℚ) (h : 0 ≤ q) : trunc q = ⌊q⌋ := by
  unfold trunc
  rw [Rat.floor_def, Int.tdiv_eq_ediv (Rat.num_nonneg.mpr h)]
  exact Int.ofNat_zero_le q.den

theorem trunc_of_neg (q : ℚ) (h : q < 0) : trunc q ≤ 0 := by
  unfold trunc
  have hn : q.num < 0 := Rat.num_neg.mpr h
  have h1 : 0 ≤ (-q.num).tdiv q.den :=
    Int.tdiv_nonneg (by omega) (Int.ofNat_zero_le q.den)
  rw [Int.neg_tdiv] at h1
  omega

theorem trunc_nonneg (q : ℚ) (h : 0 ≤ q) : 0 ≤ trunc q := by
  rw [trunc_of_nonneg q h]
  exact Int.floor_nonneg.mpr h

theorem two_le_trunc (q : ℚ) : 2 ≤ trunc q ↔ 2 ≤ q := by
  rcases le_or_lt 0 q with h | h
  · rw [trunc_of_nonneg q h, Int.le_floor]
    norm_num
  · have := trunc_of_neg q h
    constructor
    · intro h2
      omega
    · intro h2
      linarith

theorem trunc_le (q : ℚ) (n : Int) (hn : 0 ≤ n) (h : q < n + 1) : trunc q ≤ n := by
  rcases le_or_lt 0 q with h0 | h0
  · rw [trunc_of_nonneg q h0]
    have : ⌊q⌋ < n + 1 := Int.floor_lt.mpr (by push_cast; exact h)
    omega
  · have := trunc_of_neg q h0
    omega


theorem refit_read_count (info : ICARUS_INFO) :
    (history_refit info).read_count =
      if info.read_count_limit > 0 ∧
          trunc ((history_refit info).fullnonce * 10) - 1 > info.read_count_limit then
        info.read_count_limit
      else trunc ((history_refit info).fullnonce * 10) - 1 := by
  unfold history_refit
  dsimp only
  split_ifs <;> rfl

theorem one_le_trunc_sub (q : ℚ) : 1 ≤ trunc (q * 10) - 1 ↔ 1 / 5 ≤ q := by
  have := two_le_trunc (q * 10)
  constructor
  · intro h
    have h2 : (2 : ℚ) ≤ q * 10 := this.mp (by omega)
    linarith
  · intro h
    have h2 : 2 ≤ trunc (q * 10) := this.mpr (by linarith)
    omega

/-- C18 at the failing inputs: read_count falls below 1 at each of the three
places. The refit of the five samples of `flat_history` (10 ms for every
job) stores read_count = -1. The "real Icarus" assignment with fullnonce = 0
(375 MH/s measured over one second, last detection round) stores -1. And
`icarus_set_timing` on a driver other than `icarus_drv`, in default mode,
with Hs = -1e-8 and the empty string stores -400. -/
theorem read_count_below_one :
    (history_refit { history := [flat_history, {}] }).read_count = -1 ∧
    (default_detect sample_env { do_default_detection := 1 } 375000000 ⟨1, 0⟩).read_count = -1 ∧
    (icarus_set_timing decimal_atof 1000000000 false { Hs := -1 / 100000000 } "").info.read_count
      = -400 := by
  refine ⟨?_, ?_, ?_⟩
  · with_unfolding_all decide
  · with_unfolding_all decide
  · with_unfolding_all decide

/-- Where read_count is at least 1. After `icarus_set_timing`,
read_count >= 29 whenever the prior Hs is not negative, or the driver is
`icarus_drv`, or the prior timing mode is not the default. The refit stores
a read_count >= 1 exactly when the fitted fullnonce is at least 0.2 s. The
"real Icarus" assignment stores trunc(fullnonce * 10) - 1, which is >= 1
exactly when fullnonce is at least 0.2 s. -/
theorem read_count_bounds (atof : String → ℚ) (NANOSEC : ℚ) (drv_is_icarus : Bool) (env : Env)
    (info : ICARUS_INFO) (buf : String) (hash_count : Int) (elapsed : timeval) :
    ((0 ≤ info.Hs ∨ drv_is_icarus = true ∨ info.timing_mode ≠ .MODE_DEFAULT) →
      29 ≤ (icarus_set_timing atof NANOSEC drv_is_icarus info buf).info.read_count) ∧
    (1 ≤ (history_refit info).read_count ↔ 1 / 5 ≤ (history_refit info).fullnonce) ∧
    (info.do_default_detection = 1 → elapsed.tv_sec ≥ 1 →
      370 < trunc ((hash_count : ℚ) /
        ((elapsed.tv_sec : ℚ) * 1000000 + (elapsed.tv_usec : ℚ))) →
      trunc ((hash_count : ℚ) /
        ((elapsed.tv_sec : ℚ) * 1000000 + (elapsed.tv_usec : ℚ))) ≤ 380 →
      (default_detect env info hash_count elapsed).read_count =
        trunc (info.fullnonce * 10) - 1 ∧
      (1 ≤ (default_detect env info hash_count elapsed).read_count ↔
        1 / 5 ≤ info.fullnonce)) := by
  refine ⟨?_, ?_, ?_⟩
  · intro h
    unfold icarus_set_timing
    dsimp only
    split_ifs
    all_goals first
      | (simp only []; omega)
      | (have hHs : 0 ≤ info.Hs := by
           rcases h with h | h | h
           · exact h
           · simp_all
           · simp_all
         have := trunc_nonneg (info.Hs * (4294967295 + 1) * 10) (by positivity)
         simp only []
         omega)
  · rw [refit_read_count]
    split_ifs with hl
    · have h1 : 2 ≤ trunc ((history_refit info).fullnonce * 10) := by omega
      have h2 := (two_le_trunc _).mp h1
      constructor
      · intro _
        linarith
      · intro _
        omega
    · exact one_le_trunc_sub _
  · intro h1 h2 h3 h4
    have e : (default_detect env info hash_count elapsed).read_count =
        trunc (info.fullnonce * 10) - 1 := by
      unfold default_detect
      simp only [h1, ne_eq, one_ne_zero, not_false_eq_true, h2, and_self, if_true]
      rw [if_neg (by omega), if_pos h4]
    rw [e]
    exact ⟨rfl, one_le_trunc_sub _⟩

/-! ### The least-squares refit -/

/-- The history entry that holds the samples of a list, added one by one. -/
theorem fold_add_sample (l : List (ℚ × ℚ)) :
    ∀ h : ICARUS_HISTORY,
      (l.foldl (fun h p => add_sample h p.1 p.2) h).sumXi = h.sumXi + (l.map (fun p => p.1)).sum ∧
      (l.foldl (fun h p => add_sample h p.1 p.2) h).sumTi = h.sumTi + (l.map (fun p => p.2)).sum ∧
      (l.foldl (fun h p => add_sample h p.1 p.2) h).sumXiTi =
        h.sumXiTi + (l.map (fun p => p.1 * p.2)).sum ∧
      (l.foldl (fun h p => add_sample h p.1 p.2) h).sumXi2 =
        h.sumXi2 + (l.map (fun p => p.1 * p.1)).sum ∧
      (l.foldl (fun h p => add_sample h p.1 p.2) h).values = h.values + l.length := by
  induction l with
  | nil => intro h; simp
  | cons p l ih =>
    intro h
    obtain ⟨h1, h2, h3, h4, h5⟩ := ih (add_sample h p.1 p.2)
    simp only [List.foldl_cons, List.map_cons, List.sum_cons, List.length_cons]
    rw [h1, h2, h3, h4, h5]
    simp only [add_sample]
    refine ⟨by ring, by ring, by ring, by ring, by omega⟩

theorem sum_line (l : List (ℚ × ℚ)) (a b : ℚ) (hline : ∀ p ∈ l, p.2 = a * p.1 + b) :
    (l.map (fun p => p.2)).sum = a * (l.map (fun p => p.1)).sum + (l.length : ℚ) * b ∧
    (l.map (fun p => p.1 * p.2)).sum =
      a * (l.map (fun p => p.1 * p.1)).sum + b * (l.map (fun p => p.1)).sum := by
  induction l with
  | nil => simp
  | cons p l ih =>
    have hp := hline p (List.mem_cons_self _ _)
    obtain ⟨h1, h2⟩ := ih (fun q hq => hline q (List.mem_cons_of_mem _ hq))
    simp only [List.map_cons, List.sum_cons, List.length_cons, Nat.cast_add, Nat.cast_one]
    rw [h1, h2, hp]
    constructor <;> ring

theorem sum_sq_dev (l : List (ℚ × ℚ)) (c d : ℚ) :
    (l.map (fun p => (c * p.1 - d) * (c * p.1 - d))).sum =
      c * c * (l.map (fun p => p.1 * p.1)).sum - 2 * c * d * (l.map (fun p => p.1)).sum
        + (l.length : ℚ) * (d * d) := by
  induction l with
  | nil => simp
  | cons p l ih =>
    simp only [List.map_cons, List.sum_cons, List.length_cons, Nat.cast_add, Nat.cast_one]
    rw [ih]
    ring

theorem sum_sq_zero (l : List (ℚ × ℚ)) (c d : ℚ)
    (h : (l.map (fun p => (c * p.1 - d) * (c * p.1 - d))).sum = 0) :
    ∀ p ∈ l, c * p.1 = d := by
  induction l with
  | nil => intro p hp; simp at hp
  | cons q l ih =>
    simp only [List.map_cons, List.sum_cons] at h
    have h1 : 0 ≤ (c * q.1 - d) * (c * q.1 - d) := mul_self_nonneg _
    have h2 : 0 ≤ (l.map (fun p => (c * p.1 - d) * (c * p.1 - d))).sum :=
      List.sum_nonneg (by
        intro x hx
        obtain ⟨p, _, rfl⟩ := List.mem_map.mp hx
        exact mul_self_nonneg _)
    have h3 : (c * q.1 - d) * (c * q.1 - d) = 0 := by linarith
    have h4 : (l.map (fun p => (c * p.1 - d) * (c * p.1 - d))).sum = 0 := by linarith
    intro p hp
    rcases List.mem_cons.mp hp with rfl | hp
    · have := mul_self_eq_zero.mp h3
      linarith
    · exact ih h4 p hp

/-- The denominator of the slope does not vanish unless all `Xi` agree. -/
theorem refit_denominator (l : List (ℚ × ℚ)) (hne : ∃ p ∈ l, ∃ q ∈ l, p.1 ≠ q.1) :
    (l.length : ℚ) * (l.map (fun p => p.1 * p.1)).sum
      - (l.map (fun p => p.1)).sum * (l.map (fun p => p.1)).sum ≠ 0 := by
  obtain ⟨p, hp, q, hq, hpq⟩ := hne
  have hlen : (l.length : ℚ) ≠ 0 := by
    have : l ≠ [] := List.ne_nil_of_mem hp
    exact Nat.cast_ne_zero.mpr (by simpa using this)
  intro hD
  have hs := sum_sq_dev l (l.length : ℚ) (l.map (fun p => p.1)).sum
  have hz : (l.map (fun p => ((l.length : ℚ) * p.1 - (l.map (fun p => p.1)).sum) *
      ((l.length : ℚ) * p.1 - (l.map (fun p => p.1)).sum))).sum = 0 := by
    rw [hs]
    have : (l.length : ℚ) * (l.length : ℚ) * (l.map (fun p => p.1 * p.1)).sum
        - 2 * (l.length : ℚ) * (l.map (fun p => p.1)).sum * (l.map (fun p => p.1)).sum
        + (l.length : ℚ) * ((l.map (fun p => p.1)).sum * (l.map (fun p => p.1)).sum)
        = (l.length : ℚ) * ((l.length : ℚ) * (l.map (fun p => p.1 * p.1)).sum
          - (l.map (fun p => p.1)).sum * (l.map (fun p => p.1)).sum) := by ring
    rw [this, hD, mul_zero]
  have hall := sum_sq_zero l _ _ hz
  have e1 := hall p hp
  have e2 := hall q hq
  exact hpq (mul_left_cancel₀ hlen (e1.trans e2.symm))

/-- The fit of an entry whose sums are those of samples on a line. -/
theorem refit_of_sums (l : List (ℚ × ℚ)) (a b : ℚ)
    (hline : ∀ p ∈ l, p.2 = a * p.1 + b) (hne : ∃ p ∈ l, ∃ q ∈ l, p.1 ≠ q.1)
    (h : ICARUS_HISTORY) (h1 : h.sumXi = (l.map (fun p => p.1)).sum)
    (h2 : h.sumTi = (l.map (fun p => p.2)).sum)
    (h3 : h.sumXiTi = (l.map (fun p => p.1 * p.2)).sum)
    (h4 : h.sumXi2 = (l.map (fun p => p.1 * p.1)).sum) (h5 : h.values = l.length) :
    refit_Hs h = a ∧ refit_W h a = b := by
  obtain ⟨s1, s2⟩ := sum_line l a b hline
  have hD := refit_denominator l hne
  have hlen : (l.length : ℚ) ≠ 0 := by
    obtain ⟨p, hp, _⟩ := hne
    have : l ≠ [] := List.ne_nil_of_mem hp
    exact Nat.cast_ne_zero.mpr (by simpa using this)
  constructor
  · unfold refit_Hs
    rw [h1, h2, h3, h4, h5, s1, s2, div_eq_iff hD]
    ring
  · unfold refit_W
    rw [h1, h2, h5, s1]
    field_simp


theorem merge_skip (l : List ICARUS_HISTORY) (acc : ICARUS_HISTORY × Int)
    (h : ∀ x ∈ l, x.values < 5) : history_merge l acc = acc := by
  induction l with
  | nil => rfl
  | cons x l ih =>
    have hx := h x (List.mem_cons_self _ _)
    obtain ⟨h0, count⟩ := acc
    rw [history_merge, if_neg (by omega)]
    exact ih (fun y hy => h y (List.mem_cons_of_mem _ hy))

theorem merge_single (x : ICARUS_HISTORY) (l : List ICARUS_HISTORY) (hx : 5 ≤ x.values)
    (h : ∀ y ∈ l, y.values < 5) :
    (history_merge (x :: l) ({}, 0)).1.sumXi = x.sumXi ∧
    (history_merge (x :: l) ({}, 0)).1.sumTi = x.sumTi ∧
    (history_merge (x :: l) ({}, 0)).1.sumXiTi = x.sumXiTi ∧
    (history_merge (x :: l) ({}, 0)).1.sumXi2 = x.sumXi2 ∧
    (history_merge (x :: l) ({}, 0)).1.values = x.values := by
  rw [history_merge, if_pos (by omega), merge_skip l _ h]
  dsimp only
  split_ifs <;> simp

theorem refit_fields (info : ICARUS_INFO) :
    (history_refit info).Hs = refit_Hs (history_merge info.history.dropLast ({}, 0)).1 ∧
    (history_refit info).W = refit_W (history_merge info.history.dropLast ({}, 0)).1
      (refit_Hs (history_merge info.history.dropLast ({}, 0)).1) ∧
    (history_refit info).fullnonce =
      refit_W (history_merge info.history.dropLast ({}, 0)).1
        (refit_Hs (history_merge info.history.dropLast ({}, 0)).1)
      + refit_Hs (history_merge info.history.dropLast ({}, 0)).1 * 4294967296 := by
  unfold history_refit
  dsimp only
  split_ifs <;> refine ⟨rfl, rfl, ?_⟩ <;> norm_num

/-- C19: for n >= 2 samples (Xi, Ti) that lie on a line Ti = a * Xi + b and
whose Xi are not all equal, the sums the driver keeps give, by its formulas
Hs = (n Sum XiTi - Sum Xi Sum Ti) / (n Sum Xi^2 - (Sum Xi)^2) and
W = Sum Ti / n - Hs Sum Xi / n, exactly Hs = a and W = b over the
rationals. With five samples or more in the newest history entry and no
other entry in use, the refit of `icarus_scanhash` stores these values. -/
theorem refit_exact_recovery (samples : List (ℚ × ℚ)) (a b : ℚ)
    (_hn : 2 ≤ samples.length)
    (hline : ∀ p ∈ samples, p.2 = a * p.1 + b)
    (hne : ∃ p ∈ samples, ∃ q ∈ samples, p.1 ≠ q.1) :
    refit_Hs (samples.foldl (fun h p => add_sample h p.1 p.2) {}) = a ∧
    refit_W (samples.foldl (fun h p => add_sample h p.1 p.2) {})
      (refit_Hs (samples.foldl (fun h p => add_sample h p.1 p.2) {})) = b ∧
    (5 ≤ samples.length → ∀ (info : ICARUS_INFO) (rest : List ICARUS_HISTORY),
      info.history = samples.foldl (fun h p => add_sample h p.1 p.2) {} :: rest →
      rest ≠ [] → (∀ h ∈ rest.dropLast, h.values < 5) →
      (history_refit info).Hs = a ∧ (history_refit info).W = b ∧
      (history_refit info).fullnonce = b + a * 4294967296) := by
  obtain ⟨f1, f2, f3, f4, f5⟩ := fold_add_sample samples {}
  have hfit := refit_of_sums samples a b hline hne
    (samples.foldl (fun h p => add_sample h p.1 p.2) {})
    (by rw [f1]; simp) (by rw [f2]; simp) (by rw [f3]; simp) (by rw [f4]; simp)
    (by rw [f5]; simp)
  refine ⟨hfit.1, by rw [hfit.1]; exact hfit.2, ?_⟩
  intro h5 info rest hh hrest hsmall
  obtain ⟨r1, r2, r3⟩ := refit_fields info
  have hdrop : info.history.dropLast =
      samples.foldl (fun h p => add_sample h p.1 p.2) {} :: rest.dropLast := by
    rw [hh]
    cases rest with
    | nil => exact absurd rfl hrest
    | cons x xs => rfl
  obtain ⟨m1, m2, m3, m4, m5⟩ := merge_single
    (samples.foldl (fun h p => add_sample h p.1 p.2) {}) rest.dropLast
    (by rw [f5]; simpa using h5) hsmall
  rw [← hdrop] at m1 m2 m3 m4 m5
  have hfit2 := refit_of_sums samples a b hline hne
    (history_merge info.history.dropLast ({}, 0)).1
    (by rw [m1, f1]; simp) (by rw [m2, f2]; simp) (by rw [m3, f3]; simp)
    (by rw [m4, f4]; simp) (by rw [m5, f5]; simp)
  rw [r1, r2, r3, hfit2.1, hfit2.2]
  exact ⟨rfl, rfl, rfl⟩

/-- C19 for the line T = 2e-9 X + 0.1 and five samples at X = 1e9, 2e9, ...,
5e9: the formulas give Hs = 2e-9 and W = 0.1. -/
theorem refit_exact_recovery_witness :
    refit_Hs (([(1000000000, 21 / 10), (2000000000, 41 / 10), (3000000000, 61 / 10),
      (4000000000, 81 / 10), (5000000000, 101 / 10)] : List (ℚ × ℚ)).foldl
        (fun h p => add_sample h p.1 p.2) {}) = 2 / 1000000000 ∧
    refit_W (([(1000000000, 21 / 10), (2000000000, 41 / 10), (3000000000, 61 / 10),
      (4000000000, 81 / 10), (5000000000, 101 / 10)] : List (ℚ × ℚ)).foldl
        (fun h p => add_sample h p.1 p.2) {})
      (refit_Hs (([(1000000000, 21 / 10), (2000000000, 41 / 10), (3000000000, 61 / 10),
        (4000000000, 81 / 10), (5000000000, 101 / 10)] : List (ℚ × ℚ)).foldl
          (fun h p => add_sample h p.1 p.2) {})) = 1 / 10 :=
  ⟨(refit_exact_recovery _ (2 / 1000000000) (1 / 10) (by decide)
      (by intro p hp; simp at hp; rcases hp with rfl | rfl | rfl | rfl | rfl <;> norm_num)
      ⟨(1000000000, 21 / 10), by simp, (2000000000, 41 / 10), by simp, by norm_num⟩).1,
    (refit_exact_recovery _ (2 / 1000000000) (1 / 10) (by decide)
      (by intro p hp; simp at hp; rcases hp with rfl | rfl | rfl | rfl | rfl <;> norm_num)
      ⟨(1000000000, 21 / 10), by simp, (2000000000, 41 / 10), by simp, by norm_num⟩).2.1⟩

/-! ### The decoding of a reply -/

theorem bswap32_be_value (b : Buf) : bswap32 (be_value b) = le_value b := by
  unfold bswap32 be_value le_value
  omega

theorem be32toh_load32 (host_be : Bool) (b : Buf) :
    be32toh host_be (load32 host_be b) = be_value b := by
  cases host_be
  · simp only [be32toh, load32, Bool.false_eq_true, if_false]
    unfold bswap32 be_value
    omega
  · simp only [be32toh, load32, if_true]
    rfl

theorem reply_nonce_eq (env : Env) (out : GetsOut) : reply_nonce env out = le_value out.buf := by
  unfold reply_nonce
  rw [be32toh_load32]
  simp [be_value, le_value, rev]
  ring

theorem identify_wait_reply (env : Env) (fd : Int) (link : List ReadEv)
    (links : List (List ReadEv)) (t : Thr) (out : GetsOut)
    (hwin : ¬ (env.tdiff (env.now t.trace) t.state.tv_workstart + 1 / 10 > t.info.fullnonce))
    (hgets : icarus_gets (memset (fun _ => 0) 0 0 t.info.read_size.toNat) link
      (env.now t.trace) false
      (trunc ((t.info.fullnonce - env.tdiff (env.now t.trace) t.state.tv_workstart) * 10))
      t.info.read_size = some out)
    (hok : out.ret = .ICA_GETS_OK) :
    identify_wait env fd (link :: links) t =
      identify_wait env fd links
        { t with trace := t.trace ++
          [.cgtime,
            .gets fd false
              (trunc ((t.info.fullnonce - env.tdiff (env.now t.trace) t.state.tv_workstart)
                * 10)) t.info.read_size .ICA_GETS_OK,
            .submit_nonce t.state.last_work (be_value out.buf)] } := by
  rw [identify_wait]
  simp only [emit, hwin, if_false, hgets, hok, if_true, be32toh_load32, List.append_assoc,
    List.singleton_append]
  rfl

/-- C20 (as stated, refuted): the reply bytes 01 02 03 04 form the
big-endian integer 0x01020304, but the cycle of `icarus_scanhash` that reads
them submits 0x04030201 (against the previous job, which accepts it), while
the wait of `handle_identify` submits 0x01020304 for the same bytes. -/
theorem reply_decoded_little_endian :
    sample_reply = [{ read := some [1, 2, 3, 4] }] ∧
    (icarus_scanhash sample_env [sample_reply, restart_link] sample_thr sample_work).map
        (fun r => r.2.trace) =
      some [.gets 5 true 16 4 .ICA_GETS_OK, .tcflush 5,
        .submit_nonce (some ⟨2, sample_work⟩) 0x04030201,
        .gets 5 true 16 4 .ICA_GETS_RESTART] ∧
    (identify_wait clock_env 5 [sample_reply] identify_thr).map (fun p => p.1.trace) =
      some [.cgtime, .gets 5 false 20 4 .ICA_GETS_OK,
        .submit_nonce (some ⟨1, sample_work⟩) 0x01020304, .cgtime] ∧
    (0x04030201 : Nat) ≠ 0x01020304 := by
  refine ⟨rfl, rfl, ?_, by decide⟩
  with_unfolding_all rfl

/-- C20 (amended): the candidate that `icarus_scanhash` validates and
submits is the little-endian 32-bit integer of the first four bytes of the
reply, in the order received: the driver reverses the four bytes and then
decodes them big-endian, so the value is the byte swap of their big-endian
integer. -/
theorem reply_decoding (env : Env) (fd : Int) (link : List ReadEv)
    (links : List (List ReadEv)) (t : Thr) (out : GetsOut) :
    reply_nonce env out = le_value out.buf ∧
    (∀ s : icarus_state,
      (icarus_process_worknonce env.test_nonce env.host_be s
        (load32 env.host_be (rev out.buf 4))).1 = le_value out.buf) ∧
    (wait_gets env t link = some out → out.ret = .ICA_GETS_OK →
      env.test_nonce t.state.last_work (le_value out.buf) = false →
      t.state.last2_work.isSome = true →
      env.test_nonce t.state.last2_work (le_value out.buf) = true →
      scan_wait env fd (link :: links) t =
        scan_wait env fd links
          { t with
            state := { t.state with tv_workfinish := out.tv_finish },
            trace := t.trace ++
              [.gets fd true (if env.opt_scrypt then 48 else 16) t.info.read_size .ICA_GETS_OK,
                .tcflush fd, .submit_nonce t.state.last2_work (le_value out.buf)] }) ∧
    (wait_gets env t link = some out → out.ret = .ICA_GETS_OK →
      env.test_nonce t.state.last_work (le_value out.buf) = false →
      ¬ (t.state.last2_work.isSome = true ∧
        env.test_nonce t.state.last2_work (le_value out.buf) = true) →
      scan_wait env fd (link :: links) t =
        some (.done .ICA_GETS_OK (le_value out.buf) none true fd links
          { t with
            state := { t.state with tv_workfinish := out.tv_finish },
            trace := t.trace ++
              [.gets fd true (if env.opt_scrypt then 48 else 16) t.info.read_size .ICA_GETS_OK,
                .tcflush fd] })) ∧
    le_value out.buf = bswap32 (be_value out.buf) := by
  refine ⟨reply_nonce_eq env out, ?_, ?_, ?_, (bswap32_be_value out.buf).symm⟩
  · intro s
    rw [process_worknonce_fst]
    exact reply_nonce_eq env out
  · intro hgets hok h1 h2 h3
    rw [← reply_nonce_eq env out] at h1 h3 ⊢
    exact scan_wait_previous env fd link links t out hgets hok h1 h2 h3
  · intro hgets hok h1 h2
    rw [← reply_nonce_eq env out] at h1 h2 ⊢
    exact scan_wait_mismatch env fd link links t out hgets hok h1 h2

/-! ### Cycles that end in a timeout or a read error -/

theorem keeps_info {t t' : Thr} (h : keeps t t') :
    t'.info.prev_hashrate = t.info.prev_hashrate ∧
    t'.info.reopen_mode = t.info.reopen_mode := by
  obtain ⟨_, h2, _⟩ := h
  have e1 := congrArg ICARUS_INFO.prev_hashrate h2
  have e2 := congrArg ICARUS_INFO.reopen_mode h2
  exact ⟨e1, e2⟩

theorem close_info (t : Thr) : (do_icarus_close t).info = t.info := by
  unfold do_icarus_close
  split_ifs <;> rfl

theorem reopen_success (env : Env) (t : Thr) (h : (icarus_reopen env t).1 = true) :
    (icarus_reopen env t).2.state = t.state ∧ (icarus_reopen env t).2.info = t.info := by
  unfold icarus_reopen at h ⊢
  dsimp only at h ⊢
  split_ifs at h ⊢
  exact ⟨close_state t, close_info t⟩

theorem reopen_failure (env : Env) (t : Thr) (h : (icarus_reopen env t).1 = false) :
    (icarus_reopen env t).2.state.firstrun = true ∧ (icarus_reopen env t).2.device_fd = -1 := by
  unfold icarus_reopen at h ⊢
  dsimp only at h ⊢
  split_ifs at h ⊢ with hfd
  exact ⟨rfl, hfd⟩

theorem opens_refl (t : Thr) : opens 0 t t :=
  ⟨[], by simp, rfl⟩

theorem opens_trans {n m : Nat} {a b c : Thr} (h1 : opens n a b) (h2 : opens m b c) :
    opens (n + m) a c := by
  obtain ⟨e1, t1, c1⟩ := h1
  obtain ⟨e2, t2, c2⟩ := h2
  exact ⟨e1 ++ e2, by rw [t2, t1, List.append_assoc], by rw [List.countP_append, c1, c2]⟩

theorem opens_of_ext {a b : Thr} (h : ext Event.not_open a b) : opens 0 a b := by
  obtain ⟨evs, ht, hp⟩ := h
  refine ⟨evs, ht, List.countP_eq_zero.mpr ?_⟩
  intro e he
  have := hp e he
  simpa [Event.not_open] using this

theorem opens_of_trace_eq {n : Nat} {a b c : Thr} (h : opens n a b) (hc : c.trace = b.trace) :
    opens n a c := by
  obtain ⟨evs, ht, hp⟩ := h
  exact ⟨evs, by rw [hc, ht], hp⟩

theorem close_no_open (t : Thr) : ext Event.not_open t (do_icarus_close t) := by
  unfold do_icarus_close
  split_ifs
  · exact ext_refl _ _
  · exact ⟨[.serial_close t.device_fd], rfl, by simp [Event.not_open, Event.is_open]⟩

/-- One call of `icarus_reopen` makes one attempt to open the port. -/
theorem reopen_opens (env : Env) (t : Thr) : opens 1 t (icarus_reopen env t).2 := by
  have h1 := opens_of_ext (close_no_open t)
  unfold icarus_reopen
  dsimp only
  split_ifs
  · exact opens_trans h1 ⟨[.serial_open (do_icarus_close t).info.baud, .dev_error],
      by simp [emit], rfl⟩
  · exact opens_trans h1 ⟨[.serial_open (do_icarus_close t).info.baud], rfl, rfl⟩

theorem write_no_open (env : Env) (t : Thr) (fd : Int) (frame : List Nat) :
    ext Event.not_open t (icarus_write env t fd frame).2 := by
  unfold icarus_write
  split_ifs
  · exact ext_refl _ _
  · exact ext_emit _ _ _ rfl
  · exact ext_emit _ _ _ rfl

theorem job_start_no_open (env : Env) (t : Thr) :
    ext Event.not_open t (icarus_job_start env t).2 := by
  unfold icarus_job_start
  lift_lets
  extract_lets fd t1 t2 tv s1 s2 t3 r
  have h1 : ext Event.not_open t t1 := by
    simp only [t1]
    split_ifs
    · exact ext_emit _ _ _ rfl
    · exact ext_refl _ _
  have h2 : ext Event.not_open t1 t2 := by
    simp only [t2]
    split_ifs
    · exact ext_emit _ _ _ rfl
    · exact ext_refl _ _
  have h3 : ext Event.not_open t2 t3 := ext_of_trace_eq (ext_emit _ t2 .cgtime rfl) rfl
  have h4 : ext Event.not_open t3 r.2 := write_no_open env t3 fd _
  have h123 := ext_trans (ext_trans (ext_trans h1 h2) h3) h4
  split_ifs
  · exact ext_trans (ext_trans h123 (close_no_open r.2))
      (ext_emit _ (do_icarus_close r.2) .dev_error rfl)
  · exact ext_trans h123 (ext_emit _ r.2 (.usleep 2000) rfl)

theorem transition_no_open (env : Env) (t : Thr) (w : work) :
    ext Event.not_open t (icarus_transition_work env t w) := by
  unfold icarus_transition_work
  dsimp only
  split_ifs
  · exact ⟨[.free_work t.state.last2_work,
      .copy_work (env.new_addr (emit t (.free_work t.state.last2_work)).trace)],
      by simp [emit], by simp [Event.not_open, Event.is_open]⟩
  · exact ⟨[.copy_work (env.new_addr t.trace)], by simp [emit],
      by simp [Event.not_open, Event.is_open]⟩

theorem identify_wait_no_open (env : Env) (fd : Int) :
    ∀ (links : List (List ReadEv)) (t t' : Thr) (rest : List (List ReadEv)),
      identify_wait env fd links t = some (t', rest) → ext Event.not_open t t' := by
  intro links
  induction links with
  | nil =>
    intro t t' rest h
    simp only [identify_wait] at h
    split_ifs at h
    simp only [Option.some.injEq, Prod.mk.injEq] at h
    rw [← h.1]
    exact ext_emit _ _ _ rfl
  | cons link links ih =>
    intro t t' rest h
    simp only [identify_wait] at h
    split_ifs at h
    · simp only [Option.some.injEq, Prod.mk.injEq] at h
      rw [← h.1]
      exact ext_emit _ _ _ rfl
    · cases hg : icarus_gets (memset (fun _ => 0) 0 0 (emit t .cgtime).info.read_size.toNat) link
          (env.now t.trace) false
          (trunc (((emit t .cgtime).info.fullnonce
            - env.tdiff (env.now t.trace) (emit t .cgtime).state.tv_workstart) * 10))
          (emit t .cgtime).info.read_size with
      | none => simp [hg] at h
      | some out =>
        simp only [hg] at h
        have h1 : ext Event.not_open t (emit t .cgtime) := ext_emit _ _ _ rfl
        have h2 : ext Event.not_open (emit t .cgtime)
            (emit (emit t .cgtime) (.gets fd false
              (trunc (((emit t .cgtime).info.fullnonce
                - env.tdiff (env.now t.trace) (emit t .cgtime).state.tv_workstart) * 10))
              (emit t .cgtime).info.read_size out.ret)) := ext_emit _ _ _ rfl
        split_ifs at h
        · exact ext_trans (ext_trans h1 h2)
            (ext_trans (ext_emit _ _ (.submit_nonce _ _) rfl) (ih _ _ _ h))
        · exact ext_trans (ext_trans h1 h2) (ih _ _ _ h)

theorem identify_resume_no_open (env : Env) (t : Thr) :
    ext Event.not_open t (identify_resume env t) := by
  have h2 : ext Event.not_open t (emit t (.cgsleep_ms 3000)) := ext_emit _ _ _ rfl
  have h3 := job_start_no_open env (emit t (.cgsleep_ms 3000))
  unfold identify_resume
  dsimp only
  split_ifs
  · exact ext_of_trace_eq h2 rfl
  · exact ext_of_trace_eq (ext_trans h2 h3) rfl
  · exact ext_of_trace_eq (ext_trans h2 h3) rfl
  · exact ext_of_trace_eq h2 rfl

theorem handle_identify_no_open (env : Env) (was_first_run : Bool) (links : List (List ReadEv))
    (t t' : Thr) (h : handle_identify env was_first_run links t = some t') :
    ext Event.not_open t t' := by
  unfold handle_identify at h
  split_ifs at h
  · simp only [Option.some.injEq] at h
    rw [← h]
    exact ext_refl _ _
  · simp only [Option.some.injEq] at h
    rw [← h]
    exact identify_resume_no_open env t
  · cases hw : identify_wait env t.device_fd links t with
    | none => simp [hw] at h
    | some p =>
      simp only [hw, Option.some.injEq] at h
      rw [← h]
      exact ext_trans (identify_wait_no_open env _ _ _ _ p.2 (by rw [hw]))
        (identify_resume_no_open env p.1)


/-- The cycle from the reader call at which its wait has arrived. -/
theorem scanhash_at_reader (env : Env) (t : Thr) (w : work)
    (hfirst : t.state.firstrun = false) (hcw : t.state.changework = false)
    (pre : List (List ReadEv)) (link : List ReadEv) (rest : List (List ReadEv)) (t1 : Thr)
    (hopen : (open_step env (prepare_step env t w)).1 = true)
    (hreach : scan_wait env (open_step env (prepare_step env t w)).2.device_fd
        (pre ++ link :: rest) (open_step env (prepare_step env t w)).2 =
      scan_wait env (open_step env (prepare_step env t w)).2.device_fd (link :: rest) t1) :
    icarus_scanhash env (pre ++ link :: rest) t w =
      match scan_wait env (open_step env (prepare_step env t w)).2.device_fd (link :: rest)
          t1 with
      | none => none
      | some (.returned v t) => some (v, t)
      | some (.done ret nonce nonce_work hw _ links t) =>
        scan_finish env w false ret nonce nonce_work hw
          (timersub t.state.tv_workfinish t.state.tv_workstart) t.state.tv_workstart links t := by
  have hp := prepare_step_flags env t w
  obtain ⟨_, ho2, ho3⟩ := open_step_ok env (prepare_step env t w)
  have hf : (open_step env (prepare_step env t w)).2.state.firstrun = false := by
    rw [ho3 hopen, hp.2.1, hfirst]
  have hc : (open_step env (prepare_step env t w)).2.state.changework = false := by
    rw [(keeps_slots ho2).2.2.1, hp.2.2.1, hcw]
  unfold icarus_scanhash
  dsimp only
  rw [if_neg (by simp [hopen]), if_pos hf, if_neg (by simp [hc]), hreach, hfirst]

theorem scan_wait_timeout (env : Env) (fd : Int) (link : List ReadEv)
    (rest : List (List ReadEv)) (t1 : Thr) (out : GetsOut)
    (hgets : wait_gets env t1 link = some out) (hret : out.ret = .ICA_GETS_TIMEOUT) :
    scan_wait env fd (link :: rest) t1 =
      if t1.info.reopen_mode = .IRM_TIMEOUT then
        if (icarus_reopen env (after_gets env fd t1 out)).1 = false then
          some (.returned (-1) (icarus_reopen env (after_gets env fd t1 out)).2)
        else
          some (.done .ICA_GETS_TIMEOUT 0 none false
            (icarus_reopen env (after_gets env fd t1 out)).2.device_fd rest
            (emit (icarus_reopen env (after_gets env fd t1 out)).2
              (.tcflush (icarus_reopen env (after_gets env fd t1 out)).2.device_fd)))
      else
        some (.done .ICA_GETS_TIMEOUT 0 none false fd rest
          (emit (after_gets env fd t1 out) (.tcflush fd))) := by
  rw [scan_wait]
  simp only [hgets, hret]
  rfl

theorem scan_wait_error (env : Env) (fd : Int) (link : List ReadEv)
    (rest : List (List ReadEv)) (t1 : Thr) (out : GetsOut)
    (hgets : wait_gets env t1 link = some out) (hret : out.ret = .ICA_GETS_ERROR) :
    scan_wait env fd (link :: rest) t1 =
      if (icarus_reopen env (emit (do_icarus_close (after_gets env fd t1 out)) .dev_error)).1
          = false then
        some (.returned (-1)
          (icarus_reopen env (emit (do_icarus_close (after_gets env fd t1 out)) .dev_error)).2)
      else
        some (.done .ICA_GETS_ERROR 0 none false
          (icarus_reopen env
            (emit (do_icarus_close (after_gets env fd t1 out)) .dev_error)).2.device_fd rest
          (emit (icarus_reopen env
              (emit (do_icarus_close (after_gets env fd t1 out)) .dev_error)).2
            (.tcflush (icarus_reopen env
              (emit (do_icarus_close (after_gets env fd t1 out)) .dev_error)).2.device_fd))) := by
  rw [scan_wait]
  simp only [hgets, hret]

/-- The hash count after a timeout: the `double` product of the elapsed
seconds and `prev_hashrate`, converted to `int64_t`, capped at 0xffffffff. -/
theorem scan_next_timeout (env : Env) (w : work) (nonce : Nat) (nonce_work : Option WorkRef)
    (hw : Bool) (elapsed tv_start : timeval) (T : Thr) :
    (scan_next env w .ICA_GETS_TIMEOUT nonce nonce_work hw elapsed tv_start T).1 =
      min (to_int64 (dmul (dseconds elapsed) T.info.prev_hashrate)) 0xffffffff ∧
    (scan_next env w .ICA_GETS_TIMEOUT nonce nonce_work hw elapsed tv_start T).2.state.identify
      = T.state.identify := by
  have hk := (start_next_job_ok env .ICA_GETS_TIMEOUT hw elapsed T).2
  have hi := (keeps_info hk).1
  have hs := (keeps_slots hk).2.2.2.1
  have ht := transition_state env (start_next_job env .ICA_GETS_TIMEOUT hw elapsed T)
    { w with blk_nonce := 0xffffffff }
  unfold scan_next
  dsimp only
  rw [ht.2.2.2.2.2.1, ht.2.2.2.2.1, hi, hs]
  refine ⟨?_, rfl⟩
  rw [min_def]
  split_ifs <;> omega

theorem scan_next_error (env : Env) (w : work) (nonce : Nat) (nonce_work : Option WorkRef)
    (hw : Bool) (elapsed tv_start : timeval) (T : Thr) :
    (scan_next env w .ICA_GETS_ERROR nonce nonce_work hw elapsed tv_start T).1 = 0 ∧
    (scan_next env w .ICA_GETS_ERROR nonce nonce_work hw elapsed tv_start T).2.state.identify
      = T.state.identify ∧
    (scan_next env w .ICA_GETS_ERROR nonce nonce_work hw elapsed tv_start T).2.state.firstrun
      = false := by
  have hk := (start_next_job_ok env .ICA_GETS_ERROR hw elapsed T).2
  have hs := (keeps_slots hk).2.2.2.1
  unfold scan_next
  dsimp only
  refine ⟨rfl, ?_, ?_⟩
  · rw [(transition_state env _ _).2.2.2.2.1]
    exact hs
  · rw [(transition_state env _ _).2.2.2.1]

theorem scan_out_value (env : Env) (was_first_run : Bool) (links : List (List ReadEv))
    (r : Int × Thr) (v : Int) (t' : Thr) (h : scan_out env was_first_run links r = some (v, t')) :
    v = r.1 := by
  unfold scan_out at h
  split_ifs at h
  · cases hh : handle_identify env was_first_run links r.2 with
    | none => simp [hh] at h
    | some x =>
      simp only [hh, Option.some.injEq, Prod.mk.injEq] at h
      exact h.1.symm
  · simp only [Option.some.injEq] at h
    rw [h]

theorem scan_out_plain (env : Env) (was_first_run : Bool) (links : List (List ReadEv))
    (r : Int × Thr) (h : r.2.state.identify = false) :
    scan_out env was_first_run links r = some r := by
  unfold scan_out
  rw [if_neg (by simp [h])]


/-- The wait after a reader call that timed out, when no reopen fails. -/
theorem timeout_done (env : Env) (fd : Int) (link : List ReadEv)
    (rest : List (List ReadEv)) (t1 : Thr) (out : GetsOut)
    (hgets : wait_gets env t1 link = some out) (hret : out.ret = .ICA_GETS_TIMEOUT)
    (hok : t1.info.reopen_mode = .IRM_TIMEOUT →
      (icarus_reopen env (after_gets env fd t1 out)).1 = true) :
    ∃ fd2 T, scan_wait env fd (link :: rest) t1 =
        some (.done .ICA_GETS_TIMEOUT 0 none false fd2 rest T) ∧
      T.state.tv_workfinish = out.tv_finish ∧ T.state.tv_workstart = t1.state.tv_workstart ∧
      T.info = t1.info ∧ T.state.identify = t1.state.identify := by
  rw [scan_wait_timeout env fd link rest t1 out hgets hret]
  by_cases hm : t1.info.reopen_mode = .IRM_TIMEOUT
  · have hs := hok hm
    obtain ⟨r1, r2⟩ := reopen_success env _ hs
    rw [if_pos hm, if_neg (by simp [hs])]
    refine ⟨_, _, rfl, ?_, ?_, ?_, ?_⟩
    · show (icarus_reopen env (after_gets env fd t1 out)).2.state.tv_workfinish = _
      rw [r1]
      rfl
    · show (icarus_reopen env (after_gets env fd t1 out)).2.state.tv_workstart = _
      rw [r1]
      rfl
    · show (icarus_reopen env (after_gets env fd t1 out)).2.info = _
      rw [r2]
      rfl
    · show (icarus_reopen env (after_gets env fd t1 out)).2.state.identify = _
      rw [r1]
      rfl
  · rw [if_neg hm]
    exact ⟨_, _, rfl, rfl, rfl, rfl, rfl⟩

/-- The estimate of a timeout is in range when both factors are finite and
not negative and their exact product is below 2^62. -/
theorem estimate_range (S P : double) (s p : ℚ) (hS : S = .finite s) (hP : P = .finite p)
    (hs : 0 ≤ s) (hp : 0 ≤ p) (hsp : s * p < 4611686018427387904) :
    0 ≤ min (to_int64 (dmul S P)) 0xffffffff ∧ min (to_int64 (dmul S P)) 0xffffffff ≤ 0xffffffff := by
  obtain ⟨r, r0, r1, r2⟩ := rnd_nonneg (s * p) (mul_nonneg hs hp)
  have hob := overflow_bound_big
  have e64 : (2 : ℚ) ^ (64 : Nat) = 18446744073709551616 := by norm_num
  rw [e64] at hob
  rw [if_neg (by push_neg; linarith)] at r2
  have hd : dmul S P = .finite r := by
    rw [hS, hP]
    exact r2
  have t0 := trunc_nonneg r r0
  have t1 : trunc r ≤ 9223372036854775807 :=
    trunc_le r 9223372036854775807 (by norm_num) (by push_cast; linarith)
  have hv : to_int64 (dmul S P) = trunc r := by
    rw [hd]
    show (if -9223372036854775808 ≤ trunc r ∧ trunc r ≤ 9223372036854775807 then trunc r
      else -9223372036854775808) = trunc r
    rw [if_pos ⟨by omega, t1⟩]
  rw [hv]
  exact ⟨le_min t0 (by norm_num), min_le_right _ _⟩

/-- With both factors finite and not negative, the estimate of a timeout
is in range exactly when the `double` product is finite and below 2^63. -/
theorem estimate_in_range (S P : double) (s p : ℚ) (hS : S = .finite s) (hP : P = .finite p)
    (hs : 0 ≤ s) (hp : 0 ≤ p) :
    (0 ≤ min (to_int64 (dmul S P)) 0xffffffff ∧ min (to_int64 (dmul S P)) 0xffffffff ≤ 0xffffffff)
      ↔ ∃ r : ℚ, dmul S P = .finite r ∧ r < 9223372036854775808 := by
  obtain ⟨r, r0, _, r2⟩ := rnd_nonneg (s * p) (mul_nonneg hs hp)
  have hd : dmul S P = if overflow_bound ≤ r then .inf false else .finite r := by
    rw [hS, hP]
    exact r2
  constructor
  · rintro ⟨h0, _⟩
    have h1 : 0 ≤ to_int64 (dmul S P) := (le_min_iff.mp h0).1
    by_cases ho : overflow_bound ≤ r
    · rw [hd, if_pos ho] at h1
      exact absurd h1 (by decide)
    · rw [if_neg ho] at hd
      refine ⟨r, hd, ?_⟩
      by_contra hc
      push_neg at hc
      have ht : (9223372036854775808 : Int) ≤ trunc r := by
        rw [trunc_of_nonneg r r0, Int.le_floor]
        exact_mod_cast hc
      rw [hd] at h1
      have : to_int64 (.finite r) = -9223372036854775808 := by
        show (if -9223372036854775808 ≤ trunc r ∧ trunc r ≤ 9223372036854775807 then trunc r
          else -9223372036854775808) = _
        rw [if_neg (by omega)]
      rw [this] at h1
      exact absurd h1 (by decide)
  · rintro ⟨x, hx, hlt⟩
    have hx0 : 0 ≤ x := by
      by_cases ho : overflow_bound ≤ r
      · rw [hd, if_pos ho] at hx
        exact absurd hx (by simp)
      · rw [hd, if_neg ho] at hx
        injection hx with hx
        rw [← hx]
        exact r0
    have t0 := trunc_nonneg x hx0
    have t1 : trunc x ≤ 9223372036854775807 :=
      trunc_le x 9223372036854775807 (by norm_num) (by push_cast; linarith)
    have hv : to_int64 (dmul S P) = trunc x := by
      rw [hx]
      show (if -9223372036854775808 ≤ trunc x ∧ trunc x ≤ 9223372036854775807 then trunc x
        else -9223372036854775808) = trunc x
      rw [if_pos ⟨by omega, t1⟩]
    rw [hv]
    exact ⟨le_min t0 (by norm_num), min_le_right _ _⟩

/-- The throughput the driver stores when a reply comes with no time
elapsed: a hash count above 0 divided by 0 is the positive infinity, and 0
divided by 0 is a NaN. -/
theorem rate_at_no_time :
    ddiv (of_int 5) (dseconds ⟨0, 0⟩) = .inf false ∧
    ddiv (of_int 0) (dseconds ⟨0, 0⟩) = .nan := by
  constructor <;> with_unfolding_all rfl

set_option maxRecDepth 4000 in
/-- C11 (as stated, refuted). First session: the reopen policy is `timeout`,
the throughput is 1000 hashes per second and the port cannot be reopened;
the reader times out after one second, so the estimate is 1000 hashes, but
the cycle returns -1. Second session: the policy is `never` and the job
start is stamped one second after the time the reader stores, so with
prev_hashrate = 1000 >= 0 the cycle returns -1000, below 0. Third session:
prev_hashrate is the positive infinity, which the driver stores when a reply
comes with no time elapsed; the product is infinite and its conversion to
`int64_t` is INT64_MIN, which the cap lets through. Fourth session: after
1.001 s at 1000 hashes per second the `double` product is just below 1001,
and the cycle returns 1000, where the exact product truncates to 1001. -/
theorem timeout_reopen_failure :
    ((wait_gets sample_env timeout_thr timeout_link).map (fun o => (o.ret, o.tv_finish)) =
        some (.ICA_GETS_TIMEOUT, ⟨1, 0⟩) ∧
      min (to_int64 (dmul (dseconds (timersub ⟨1, 0⟩ timeout_thr.state.tv_workstart))
        timeout_thr.info.prev_hashrate)) 0xffffffff = 1000 ∧
      (icarus_scanhash sample_env [timeout_link] timeout_thr sample_work).map
          (fun r => (r.1, r.2.trace)) =
        some (-1, [.gets 5 true 16 4 .ICA_GETS_TIMEOUT, .serial_close 5, .serial_open 115200,
          .dev_error])) ∧
    ((wait_gets sample_env late_thr timeout_link).map (fun o => (o.ret, o.tv_finish)) =
        some (.ICA_GETS_TIMEOUT, ⟨1, 0⟩) ∧
      late_thr.info.prev_hashrate = .finite 1000 ∧
      (icarus_scanhash sample_env [timeout_link] late_thr sample_work).map Prod.fst =
        some (-1000)) ∧
    (icarus_scanhash sample_env [timeout_link]
        { error_thr with info := { error_thr.info with prev_hashrate := .inf false } }
        sample_work).map Prod.fst = some (-9223372036854775808) ∧
    ((icarus_scanhash sample_env [List.replicate 16 { read := some [], now := ⟨1, 1000⟩ }]
        error_thr sample_work).map Prod.fst = some 1000 ∧
      trunc (seconds ⟨1, 1000⟩ * 1000) = 1001) := by
  refine ⟨⟨rfl, ?_, rfl⟩, ⟨rfl, rfl, ?_⟩, ?_, ?_, ?_⟩ <;> with_unfolding_all rfl

/-- C11 (amended): when the reply reader returns ICA_GETS_TIMEOUT,
`icarus_scanhash` returns -1 if the reopen policy is `timeout` and the
reopen fails; otherwise the hash count it returns is the product, in
`double` arithmetic, of the elapsed time in seconds (tv_workfinish -
tv_workstart) and prev_hashrate, converted to `int64_t` and capped at
0xffffffff. That count depends on the session only through the elapsed time
and prev_hashrate (so not on nonce_mask or fpga_count). When prev_hashrate
is finite and not negative and the elapsed time is not negative, it lies in
[0, 2^32 - 1] exactly when their `double` product is finite and below 2^63,
which it is whenever their exact product is below 2^62. -/
theorem scanhash_timeout (env : Env) (t : Thr) (w : work)
    (hfirst : t.state.firstrun = false) (hcw : t.state.changework = false)
    (pre : List (List ReadEv)) (link : List ReadEv) (rest : List (List ReadEv))
    (t1 : Thr) (out : GetsOut)
    (hopen : (open_step env (prepare_step env t w)).1 = true)
    (hreach : scan_wait env (open_step env (prepare_step env t w)).2.device_fd
        (pre ++ link :: rest) (open_step env (prepare_step env t w)).2 =
      scan_wait env (open_step env (prepare_step env t w)).2.device_fd (link :: rest) t1)
    (hgets : wait_gets env t1 link = some out) (hret : out.ret = .ICA_GETS_TIMEOUT) :
    (t1.info.reopen_mode = .IRM_TIMEOUT →
      (icarus_reopen env
        (after_gets env (open_step env (prepare_step env t w)).2.device_fd t1 out)).1 = false →
      icarus_scanhash env (pre ++ link :: rest) t w =
        some (-1, (icarus_reopen env
          (after_gets env (open_step env (prepare_step env t w)).2.device_fd t1 out)).2)) ∧
    ((t1.info.reopen_mode = .IRM_TIMEOUT →
        (icarus_reopen env
          (after_gets env (open_step env (prepare_step env t w)).2.device_fd t1 out)).1
          = true) →
      (∀ v t', icarus_scanhash env (pre ++ link :: rest) t w = some (v, t') →
        v = min (to_int64 (dmul (dseconds (timersub out.tv_finish t1.state.tv_workstart))
          t1.info.prev_hashrate)) 0xffffffff) ∧
      (t1.state.identify = false →
        ∃ t', icarus_scanhash env (pre ++ link :: rest) t w =
          some (min (to_int64 (dmul (dseconds (timersub out.tv_finish t1.state.tv_workstart))
            t1.info.prev_hashrate)) 0xffffffff, t'))) ∧
    (∀ s p : ℚ, dseconds (timersub out.tv_finish t1.state.tv_workstart) = .finite s →
      t1.info.prev_hashrate = .finite p → 0 ≤ s → 0 ≤ p → s * p < 4611686018427387904 →
      0 ≤ min (to_int64 (dmul (dseconds (timersub out.tv_finish t1.state.tv_workstart))
          t1.info.prev_hashrate)) 0xffffffff ∧
      min (to_int64 (dmul (dseconds (timersub out.tv_finish t1.state.tv_workstart))
          t1.info.prev_hashrate)) 0xffffffff ≤ 0xffffffff) ∧
    (∀ s p : ℚ, dseconds (timersub out.tv_finish t1.state.tv_workstart) = .finite s →
      t1.info.prev_hashrate = .finite p → 0 ≤ s → 0 ≤ p →
      ((0 ≤ min (to_int64 (dmul (dseconds (timersub out.tv_finish t1.state.tv_workstart))
            t1.info.prev_hashrate)) 0xffffffff ∧
          min (to_int64 (dmul (dseconds (timersub out.tv_finish t1.state.tv_workstart))
            t1.info.prev_hashrate)) 0xffffffff ≤ 0xffffffff) ↔
        ∃ r : ℚ, dmul (dseconds (timersub out.tv_finish t1.state.tv_workstart))
            t1.info.prev_hashrate = .finite r ∧ r < 9223372036854775808)) ∧
    (∀ (x : Thr) (nonce : Nat) (nonce_work : Option WorkRef) (hw : Bool) (tv_start : timeval),
      x.info.prev_hashrate = t1.info.prev_hashrate →
      (scan_next env w .ICA_GETS_TIMEOUT nonce nonce_work hw
        (timersub out.tv_finish t1.state.tv_workstart) tv_start x).1 =
        min (to_int64 (dmul (dseconds (timersub out.tv_finish t1.state.tv_workstart))
          t1.info.prev_hashrate)) 0xffffffff) := by
  have hrun := scanhash_at_reader env t w hfirst hcw pre link rest t1 hopen hreach
  refine ⟨?_, ?_, ?_, fun s p hS hP hs hp => estimate_in_range _ _ s p hS hP hs hp, ?_⟩
  · intro hm hfail
    rw [hrun, scan_wait_timeout env _ link rest t1 out hgets hret, if_pos hm, if_pos hfail]
  · intro hok
    obtain ⟨fd2, T, hT, f1, f2, f3, f4⟩ := timeout_done env _ link rest t1 out hgets hret hok
    rw [hT] at hrun
    simp only [scan_finish] at hrun
    rw [f1, f2] at hrun
    obtain ⟨n1, n2⟩ := scan_next_timeout env w 0 none false
      (timersub out.tv_finish t1.state.tv_workstart) t1.state.tv_workstart T
    rw [f3] at n1
    constructor
    · intro v t' h
      rw [hrun] at h
      rw [scan_out_value env _ _ _ v t' h]
      exact n1
    · intro hid
      rw [hrun, scan_out_plain env _ _ _ (by rw [n2, f4, hid])]
      exact ⟨_, congrArg some (Prod.ext n1 rfl)⟩
  · intro s p hS hP hs hp hsp
    exact estimate_range _ _ s p hS hP hs hp hsp
  · intro x nonce nonce_work hw tv_start hx
    rw [(scan_next_timeout env w nonce nonce_work hw _ tv_start x).1, hx]

/-- C11 (amended) at a concrete session: the policy is `never` and
prev_hashrate is 1000; the first reply is for the previous job, so the
driver waits again, and the reader then times out with the clock at one
second; the cycle returns the estimate for one second. -/
theorem scanhash_timeout_witness :
    ∃ t', icarus_scanhash sample_env ([sample_reply] ++ timeout_link :: []) error_thr
        sample_work =
      some (min (to_int64 (dmul (dseconds (timersub (⟨1, 0⟩ : timeval)
          (prepare_step sample_env error_thr sample_work).state.tv_workstart))
        (prepare_step sample_env error_thr sample_work).info.prev_hashrate)) 0xffffffff, t') :=
  ((scanhash_timeout sample_env error_thr sample_work rfl rfl [sample_reply] timeout_link []
    { prepare_step sample_env error_thr sample_work with
      state := { (prepare_step sample_env error_thr sample_work).state with
        tv_workfinish := ⟨0, 0⟩ },
      trace := [.gets 5 true 16 4 .ICA_GETS_OK, .tcflush 5,
        .submit_nonce (some ⟨2, sample_work⟩) 0x04030201] }
    ((wait_gets sample_env (prepare_step sample_env error_thr sample_work) timeout_link).get rfl)
    rfl rfl rfl rfl).2.1 (fun h => absurd h (by decide))).2 rfl

/-! ### Cycles that end in a read error -/

theorem start_job_step_no_open (env : Env) (t : Thr) :
    ext Event.not_open t (start_job_step env t) := by
  unfold start_job_step
  split_ifs
  · exact ext_refl _ _
  · exact set_firstrun_ext _ _
  · exact job_start_no_open env t
  · exact ext_trans (job_start_no_open env t) (set_firstrun_ext _ _)

/-- After a read error the start of the next job opens no port, unless the
policy is `cycle` or a one-shot reopen is pending. -/
theorem error_next_no_open (env : Env) (w : work) (nonce : Nat) (nonce_work : Option WorkRef)
    (elapsed tv_start : timeval) (T : Thr) (hmode : T.info.reopen_mode ≠ .IRM_CYCLE)
    (hnow : T.info.reopen_now = false) :
    ext Event.not_open T
      (scan_next env w .ICA_GETS_ERROR nonce nonce_work false elapsed tv_start T).2 := by
  have h1 : dclk_step .ICA_GETS_ERROR false elapsed T = T := by
    unfold dclk_step
    simp
  have h2 : forced_reopen env false T = T := by
    unfold forced_reopen
    simp [hnow]
  have h3 := start_job_step_no_open env T
  have h4 : cycle_reopen env (start_job_step env T) = start_job_step env T := by
    unfold cycle_reopen
    rw [if_neg]
    rw [(keeps_info (start_job_step_ok env T).2).2]
    exact hmode
  have h5 : start_next_job env .ICA_GETS_ERROR false elapsed T = start_job_step env T := by
    unfold start_next_job
    rw [h1, h2, h4]
  unfold scan_next
  dsimp only
  rw [h5]
  exact ext_trans (ext_of_trace_eq h3 rfl) (transition_no_open env _ _)

theorem scan_out_no_open (env : Env) (was_first_run : Bool) (links : List (List ReadEv))
    (r : Int × Thr) (v : Int) (t' : Thr) (h : scan_out env was_first_run links r = some (v, t')) :
    ext Event.not_open r.2 t' := by
  unfold scan_out at h
  split_ifs at h
  · cases hh : handle_identify env was_first_run links r.2 with
    | none => simp [hh] at h
    | some x =>
      simp only [hh, Option.some.injEq, Prod.mk.injEq] at h
      rw [← h.2]
      exact handle_identify_no_open env _ _ _ _ hh
  · simp only [Option.some.injEq] at h
    rw [h]
    exact ext_refl _ _

/-- The wait after a reader call that failed, when the reopen succeeds. -/
theorem error_done (env : Env) (fd : Int) (link : List ReadEv)
    (rest : List (List ReadEv)) (t1 : Thr) (out : GetsOut)
    (hgets : wait_gets env t1 link = some out) (hret : out.ret = .ICA_GETS_ERROR)
    (hok : (icarus_reopen env
      (emit (do_icarus_close (after_gets env fd t1 out)) .dev_error)).1 = true) :
    ∃ fd2 T, scan_wait env fd (link :: rest) t1 =
        some (.done .ICA_GETS_ERROR 0 none false fd2 rest T) ∧
      T.info = t1.info ∧ T.state.identify = t1.state.identify ∧
      opens 1 (after_gets env fd t1 out) T := by
  rw [scan_wait_error env fd link rest t1 out hgets hret, if_neg (by simp [hok])]
  obtain ⟨r1, r2⟩ := reopen_success env _ hok
  refine ⟨_, _, rfl, ?_, ?_, ?_⟩
  · show (icarus_reopen env
      (emit (do_icarus_close (after_gets env fd t1 out)) .dev_error)).2.info = _
    rw [r2]
    exact close_info _
  · show (icarus_reopen env
      (emit (do_icarus_close (after_gets env fd t1 out)) .dev_error)).2.state.identify = _
    rw [r1]
    show (do_icarus_close (after_gets env fd t1 out)).state.identify = _
    rw [close_state]
    rfl
  · have a1 := opens_of_ext (close_no_open (after_gets env fd t1 out))
    have a2 : opens 0 (do_icarus_close (after_gets env fd t1 out))
        (emit (do_icarus_close (after_gets env fd t1 out)) .dev_error) :=
      opens_of_ext (ext_emit _ _ .dev_error rfl)
    have a3 := reopen_opens env (emit (do_icarus_close (after_gets env fd t1 out)) .dev_error)
    have a4 : opens 0 (icarus_reopen env
          (emit (do_icarus_close (after_gets env fd t1 out)) .dev_error)).2
        (emit (icarus_reopen env
            (emit (do_icarus_close (after_gets env fd t1 out)) .dev_error)).2
          (.tcflush (icarus_reopen env
            (emit (do_icarus_close (after_gets env fd t1 out)) .dev_error)).2.device_fd)) :=
      opens_of_ext (ext_emit _ _ (.tcflush _) rfl)
    exact opens_trans (opens_trans (opens_trans a1 a2) a3) a4

/-- C13 (as stated, refuted): the session is one second into its job with a
throughput of 1000 hashes per second, and the port reopens. When the reader
times out the cycle reports 1000 hashes; when the read fails, with the same
elapsed time, it reports 0. -/
theorem error_reports_zero :
    timersub (⟨1, 0⟩ : timeval) error_thr.state.tv_workstart = ⟨1, 0⟩ ∧
    (wait_gets open_env error_thr timeout_link).map (fun o => (o.ret, o.tv_finish)) =
      some (.ICA_GETS_TIMEOUT, ⟨1, 0⟩) ∧
    (icarus_scanhash open_env [timeout_link] error_thr sample_work).map Prod.fst = some 1000 ∧
    (wait_gets open_env error_thr error_link).map (fun o => (o.ret, o.tv_finish)) =
      some (.ICA_GETS_ERROR, ⟨1, 0⟩) ∧
    (icarus_scanhash open_env [error_link] error_thr sample_work).map Prod.fst = some 0 := by
  refine ⟨rfl, rfl, ?_, rfl, ?_⟩
  · with_unfolding_all rfl
  · with_unfolding_all rfl

/-- C13 (amended): when the reply reader returns ICA_GETS_ERROR and the
reopen succeeds, `icarus_scanhash` reports 0 hashes, whatever the elapsed
time and the last known throughput. -/
theorem scanhash_error_zero (env : Env) (t : Thr) (w : work)
    (hfirst : t.state.firstrun = false) (hcw : t.state.changework = false)
    (pre : List (List ReadEv)) (link : List ReadEv) (rest : List (List ReadEv))
    (t1 : Thr) (out : GetsOut)
    (hopen : (open_step env (prepare_step env t w)).1 = true)
    (hreach : scan_wait env (open_step env (prepare_step env t w)).2.device_fd
        (pre ++ link :: rest) (open_step env (prepare_step env t w)).2 =
      scan_wait env (open_step env (prepare_step env t w)).2.device_fd (link :: rest) t1)
    (hgets : wait_gets env t1 link = some out) (hret : out.ret = .ICA_GETS_ERROR)
    (hok : (icarus_reopen env (emit (do_icarus_close
      (after_gets env (open_step env (prepare_step env t w)).2.device_fd t1 out))
      .dev_error)).1 = true) :
    (∀ v t', icarus_scanhash env (pre ++ link :: rest) t w = some (v, t') → v = 0) ∧
    (t1.state.identify = false →
      ∃ t', icarus_scanhash env (pre ++ link :: rest) t w = some (0, t')) := by
  have hrun := scanhash_at_reader env t w hfirst hcw pre link rest t1 hopen hreach
  obtain ⟨fd2, T, hT, _, f2, _⟩ := error_done env _ link rest t1 out hgets hret hok
  rw [hT] at hrun
  simp only [scan_finish] at hrun
  obtain ⟨n1, n2, _⟩ := scan_next_error env w 0 none false
    (timersub T.state.tv_workfinish T.state.tv_workstart) T.state.tv_workstart T
  constructor
  · intro v t' h
    rw [hrun] at h
    rw [scan_out_value env _ _ _ v t' h]
    exact n1
  · intro hid
    rw [hrun, scan_out_plain env _ _ _ (by rw [n2, f2, hid])]
    exact ⟨_, congrArg some (Prod.ext n1 rfl)⟩

/-- C13 (amended) at a concrete session: one second into the job at 1000
hashes per second the read fails and the port reopens; the cycle reports 0
hashes. -/
theorem scanhash_error_zero_witness :
    ∃ t', icarus_scanhash open_env ([] ++ error_link :: []) error_thr sample_work
      = some (0, t') :=
  (scanhash_error_zero open_env error_thr sample_work rfl rfl [] error_link []
    (prepare_step open_env error_thr sample_work)
    ((wait_gets open_env (prepare_step open_env error_thr sample_work) error_link).get rfl)
    rfl rfl (by simp) rfl rfl).2 rfl

/-! ### The divisor of the refit -/

/-- The sums of a merge are those of the entries that count. -/
theorem merge_sums (hs : List ICARUS_HISTORY) :
    ∀ acc : ICARUS_HISTORY × Int,
      (history_merge hs acc).1.sumXi =
        acc.1.sumXi + ((hs.filter (fun h => decide (5 ≤ h.values))).map (fun h => h.sumXi)).sum ∧
      (history_merge hs acc).1.sumXi2 =
        acc.1.sumXi2 + ((hs.filter (fun h => decide (5 ≤ h.values))).map (fun h => h.sumXi2)).sum ∧
      (history_merge hs acc).1.values =
        acc.1.values + ((hs.filter (fun h => decide (5 ≤ h.values))).map (fun h => h.values)).sum := by
  induction hs with
  | nil => intro acc; simp [history_merge]
  | cons h hs ih =>
    intro acc
    obtain ⟨h0, c⟩ := acc
    by_cases h5 : 5 ≤ h.values
    · rw [history_merge, if_pos (by simpa using h5)]
      simp only [List.filter_cons, h5, decide_True, if_true, List.map_cons, List.sum_cons]
      rw [(ih _).1, (ih _).2.1, (ih _).2.2]
      dsimp only
      split_ifs <;> refine ⟨by ring, by ring, by simp only []; omega⟩
    · rw [history_merge, if_neg (by simpa using h5)]
      simp only [List.filter_cons, h5, decide_False, Bool.false_eq_true, if_false]
      exact ih _

/-- The sums merged from entries that hold lists of samples are the sums
over the merged samples. -/
theorem merged_sums (hs : List ICARUS_HISTORY) (entries : List (List (ℚ × ℚ)))
    (hsums : List.Forall₂ holds_samples hs entries) :
    (history_merge hs ({}, 0)).1.sumXi = ((merged_samples entries).map (fun p => p.1)).sum ∧
    (history_merge hs ({}, 0)).1.sumXi2 =
      ((merged_samples entries).map (fun p => p.1 * p.1)).sum ∧
    (history_merge hs ({}, 0)).1.values = (merged_samples entries).length := by
  obtain ⟨h1, h2, h3⟩ := merge_sums hs ({}, 0)
  rw [h1, h2, h3]
  clear h1 h2 h3
  simp only [zero_add]
  induction hsums with
  | nil => simp [merged_samples]
  | @cons h l hs ls hhl _ ih =>
    obtain ⟨e3, e1, e2⟩ := hhl
    by_cases h5 : 5 ≤ l.length
    · have h5' : 5 ≤ h.values := by rw [e3]; exact h5
      simp only [merged_samples, List.filter_cons, h5, h5', decide_True, if_true,
        List.map_cons, List.sum_cons, List.flatten_cons, List.map_append, List.sum_append,
        List.length_append] at ih ⊢
      rw [ih.1, ih.2.1, ih.2.2, e1, e2, e3]
      exact ⟨rfl, rfl, rfl⟩
    · have h5' : ¬ 5 ≤ h.values := by rw [e3]; exact h5
      simp only [merged_samples, List.filter_cons, h5, h5', decide_False,
        Bool.false_eq_true, if_false] at ih ⊢
      exact ih

/-- An empty entry holds no sample, and the open entry holds one sample
more once the sample of a cycle is added: its hash count, with the time of
the job less the time the reply takes on the link. -/
theorem sample_entry_holds (info : ICARUS_INFO) (hash_count : Int) (elapsed tv_start : timeval)
    (l : List (ℚ × ℚ)) (h : holds_samples (info.history.headD {}) l) :
    holds_samples ({} : ICARUS_HISTORY) [] ∧
    holds_samples (sample_entry info hash_count elapsed tv_start)
      (l ++ [((hash_count : ℚ),
        seconds elapsed - (info.read_size : ℚ) * 8 / (info.baud : ℚ))]) := by
  obtain ⟨h1, h2, h3⟩ := h
  refine ⟨⟨rfl, rfl, rfl⟩, ?_⟩
  unfold sample_entry add_sample holds_samples
  dsimp only
  simp only [List.length_append, List.length_singleton, List.map_append, List.map_cons,
    List.map_nil, List.sum_append, List.sum_cons, List.sum_nil, add_zero]
  split_ifs <;> exact ⟨by simp only []; omega, by simp only []; rw [h2], by simp only []; rw [h3]⟩

/-- The divisor over a list of samples, as a sum of squares. -/
theorem divisor_sq (l : List (ℚ × ℚ)) :
    (l.length : ℚ) * ((l.length : ℚ) * (l.map (fun p => p.1 * p.1)).sum
      - (l.map (fun p => p.1)).sum * (l.map (fun p => p.1)).sum) =
    (l.map (fun p => ((l.length : ℚ) * p.1 - (l.map (fun p => p.1)).sum) *
      ((l.length : ℚ) * p.1 - (l.map (fun p => p.1)).sum))).sum := by
  rw [sum_sq_dev]
  ring

/-- Sums of samples that all have the same `Xi`. -/
theorem sums_const (l : List (ℚ × ℚ)) (c : ℚ) (h : ∀ p ∈ l, p.1 = c) :
    (l.map (fun p => p.1)).sum = (l.length : ℚ) * c ∧
    (l.map (fun p => p.1 * p.1)).sum = (l.length : ℚ) * (c * c) := by
  induction l with
  | nil => simp
  | cons p l ih =>
    have hp := h p (List.mem_cons_self _ _)
    obtain ⟨h1, h2⟩ := ih (fun q hq => h q (List.mem_cons_of_mem _ hq))
    simp only [List.map_cons, List.sum_cons, List.length_cons, Nat.cast_add, Nat.cast_one]
    rw [h1, h2, hp]
    constructor <;> ring

/-- The divisor over a list of samples is not negative, and vanishes
exactly when all `Xi` agree. -/
theorem divisor_list (l : List (ℚ × ℚ)) :
    0 ≤ (l.length : ℚ) * (l.map (fun p => p.1 * p.1)).sum
      - (l.map (fun p => p.1)).sum * (l.map (fun p => p.1)).sum ∧
    ((l.length : ℚ) * (l.map (fun p => p.1 * p.1)).sum
      - (l.map (fun p => p.1)).sum * (l.map (fun p => p.1)).sum = 0 ↔
      ∀ p ∈ l, ∀ q ∈ l, p.1 = q.1) := by
  have hall : (∀ p ∈ l, ∀ q ∈ l, p.1 = q.1) →
      (l.length : ℚ) * (l.map (fun p => p.1 * p.1)).sum
        - (l.map (fun p => p.1)).sum * (l.map (fun p => p.1)).sum = 0 := by
    intro h
    cases l with
    | nil => simp
    | cons a l =>
      obtain ⟨h1, h2⟩ := sums_const (a :: l) a.1
        (fun p hp => h p hp a (List.mem_cons_self _ _))
      rw [h1, h2]
      ring
  constructor
  · rcases Nat.eq_zero_or_pos l.length with h0 | hpos
    · have : l = [] := List.length_eq_zero.mp h0
      subst this
      simp
    · have hq : (0 : ℚ) < (l.length : ℚ) := Nat.cast_pos.mpr hpos
      have hsq := divisor_sq l
      have hnn : 0 ≤ (l.map (fun p => ((l.length : ℚ) * p.1 - (l.map (fun p => p.1)).sum) *
          ((l.length : ℚ) * p.1 - (l.map (fun p => p.1)).sum))).sum :=
        List.sum_nonneg (by
          intro x hx
          obtain ⟨p, _, rfl⟩ := List.mem_map.mp hx
          exact mul_self_nonneg _)
      rw [← hsq] at hnn
      exact nonneg_of_mul_nonneg_right hnn hq
  · constructor
    · intro hD
      by_contra hne
      push_neg at hne
      exact refit_denominator l hne hD
    · exact hall

set_option maxRecDepth 8000 in
/-- C28 (as stated, refuted): in the driver's `double` arithmetic five
samples with the same hash count 3000000001 give the divisor -32768, which
is negative and not 0 although all samples agree; four samples with that
hash count and one with 3000000002 give the divisor 0 although two samples
differ. -/
theorem divisor_rounds :
    refit_divisor_double (history_merge_double
      [entry_of_double (List.replicate 5 (3000000001, .finite 1))] {}) = .finite (-32768) ∧
    refit_divisor_double (history_merge_double
      [entry_of_double [(3000000001, .finite 1), (3000000001, .finite 1),
        (3000000001, .finite 1), (3000000001, .finite 1), (3000000002, .finite 1)]] {})
      = .finite 0 := by
  constructor <;> with_unfolding_all rfl

theorem abs_le_sq (x : Int) : |x| ≤ x * x := by
  rcases abs_cases x with ⟨h, _⟩ | ⟨h, _⟩ <;> rw [h] <;> nlinarith

theorem sum_sq_nonneg (l : List Int) : 0 ≤ (l.map (fun x => x * x)).sum := by
  induction l with
  | nil => simp
  | cons x l ih =>
    simp only [List.map_cons, List.sum_cons]
    nlinarith [mul_self_nonneg x]

theorem dadd_int (a b : Int) (h : |a + b| ≤ 9007199254740992) :
    dadd (.finite (a : ℚ)) (.finite (b : ℚ)) = .finite ((a + b : Int) : ℚ) := by
  show rnd ((a : ℚ) + (b : ℚ)) = _
  rw [← Int.cast_add]
  exact rnd_int _ h

theorem dsub_int (a b : Int) (h : |a - b| ≤ 9007199254740992) :
    dsub (.finite (a : ℚ)) (.finite (b : ℚ)) = .finite ((a - b : Int) : ℚ) := by
  show rnd ((a : ℚ) - (b : ℚ)) = _
  rw [← Int.cast_sub]
  exact rnd_int _ h

theorem dmul_int (a b : Int) (h : |a * b| ≤ 9007199254740992) :
    dmul (.finite (a : ℚ)) (.finite (b : ℚ)) = .finite ((a * b : Int) : ℚ) := by
  show rnd ((a : ℚ) * (b : ℚ)) = _
  rw [← Int.cast_mul]
  exact rnd_int _ h

/-- The count of an entry is the number of samples added to it. -/
theorem entry_values : ∀ (l : List (Int × double)) (h : history_double),
    (l.foldl (fun h p => add_sample_double h p.1 p.2) h).values = h.values + l.length := by
  intro l
  induction l with
  | nil => intro h; simp
  | cons p l ih =>
    intro h
    rw [List.foldl_cons, ih]
    simp only [add_sample_double, List.length_cons]
    omega

/-- While the sum of the squares stays within 2^53, the sums of the hash
counts and of their squares an entry holds are exact. -/
theorem entry_sums_exact : ∀ (l : List (Int × double)) (h : history_double) (a b : Int),
    h.sumXi = .finite (a : ℚ) → h.sumXi2 = .finite (b : ℚ) → |a| ≤ b →
    b + ((l.map (fun p => p.1)).map (fun x => x * x)).sum ≤ 9007199254740992 →
    (l.foldl (fun h p => add_sample_double h p.1 p.2) h).sumXi =
      .finite ((a + (l.map (fun p => p.1)).sum : Int) : ℚ) ∧
    (l.foldl (fun h p => add_sample_double h p.1 p.2) h).sumXi2 =
      .finite ((b + ((l.map (fun p => p.1)).map (fun x => x * x)).sum : Int) : ℚ) ∧
    |a + (l.map (fun p => p.1)).sum| ≤ b + ((l.map (fun p => p.1)).map (fun x => x * x)).sum := by
  intro l
  induction l with
  | nil =>
    intro h a b h1 h2 hab _
    simp only [List.foldl_nil, List.map_nil, List.sum_nil, add_zero]
    exact ⟨h1, h2, hab⟩
  | cons p l ih =>
    intro h a b h1 h2 hab hb
    simp only [List.map_cons, List.sum_cons] at hb ⊢
    have hrest := sum_sq_nonneg (l.map (fun p => p.1))
    have hx := abs_le_sq p.1
    have hb0 : 0 ≤ b := le_trans (abs_nonneg a) hab
    have hsq : 0 ≤ p.1 * p.1 := mul_self_nonneg p.1
    have hax : |a + p.1| ≤ b + p.1 * p.1 := le_trans (abs_add a p.1) (by omega)
    have e0 : of_int p.1 = .finite (p.1 : ℚ) := rnd_int p.1 (by omega)
    have e1 : (add_sample_double h p.1 p.2).sumXi = .finite ((a + p.1 : Int) : ℚ) := by
      show dadd h.sumXi (of_int p.1) = _
      rw [h1, e0]
      exact dadd_int a p.1 (by omega)
    have e2 : (add_sample_double h p.1 p.2).sumXi2 = .finite ((b + p.1 * p.1 : Int) : ℚ) := by
      show dadd h.sumXi2 (dmul (of_int p.1) (of_int p.1)) = _
      rw [h2, e0, dmul_int p.1 p.1 (by rw [abs_of_nonneg hsq]; omega)]
      exact dadd_int b (p.1 * p.1) (by rw [abs_of_nonneg (by omega)]; omega)
    obtain ⟨r1, r2, r3⟩ := ih (add_sample_double h p.1 p.2) (a + p.1) (b + p.1 * p.1) e1 e2 hax
      (by omega)
    rw [List.foldl_cons, r1, r2]
    refine ⟨?_, ?_, ?_⟩
    · rw [add_assoc]
    · rw [add_assoc]
    · rw [← add_assoc, ← add_assoc]
      exact r3

theorem merged_counts_cons (l : List (Int × double)) (entries : List (List (Int × double))) :
    merged_counts (l :: entries) =
      if 5 ≤ l.length then l.map (fun p => p.1) ++ merged_counts entries
      else merged_counts entries := by
  unfold merged_counts
  by_cases h : 5 ≤ l.length
  · rw [if_pos h, List.filter_cons_of_pos (by simpa using h), List.flatten_cons, List.map_append]
  · rw [if_neg h, List.filter_cons_of_neg (by simpa using h)]

/-- While the sum of the squares stays within 2^53, the merged sums of the
hash counts and of their squares are exact. -/
theorem merge_sums_exact : ∀ (entries : List (List (Int × double))) (h0 : history_double)
    (A B : Int),
    h0.sumXi = .finite (A : ℚ) → h0.sumXi2 = .finite (B : ℚ) → |A| ≤ B →
    B + ((merged_counts entries).map (fun x => x * x)).sum ≤ 9007199254740992 →
    (history_merge_double (entries.map entry_of_double) h0).sumXi =
      .finite ((A + (merged_counts entries).sum : Int) : ℚ) ∧
    (history_merge_double (entries.map entry_of_double) h0).sumXi2 =
      .finite ((B + ((merged_counts entries).map (fun x => x * x)).sum : Int) : ℚ) ∧
    (history_merge_double (entries.map entry_of_double) h0).values =
      h0.values + (merged_counts entries).length := by
  intro entries
  induction entries with
  | nil =>
    intro h0 A B h1 h2 _ _
    simp only [List.map_nil, history_merge_double, merged_counts, List.filter_nil,
      List.flatten_nil, List.sum_nil, List.length_nil, add_zero]
    exact ⟨h1, h2, trivial⟩
  | cons l entries ih =>
    intro h0 A B h1 h2 hAB hB
    have hv : (entry_of_double l).values = l.length := by
      have := entry_values l {}
      simpa [entry_of_double] using this
    rw [merged_counts_cons] at hB ⊢
    rw [List.map_cons, history_merge_double, hv]
    by_cases h5 : 5 ≤ l.length
    · rw [if_pos h5] at hB ⊢
      rw [if_pos (by simpa using h5)]
      simp only [List.map_append, List.sum_append, List.length_append, List.length_map] at hB ⊢
      have hrest := sum_sq_nonneg (merged_counts entries)
      have hl := sum_sq_nonneg (l.map (fun p => p.1))
      have hB0 : 0 ≤ B := le_trans (abs_nonneg A) hAB
      obtain ⟨s1, s2, s3⟩ := entry_sums_exact l {} 0 0 (by simp) (by simp)
        (by simp) (by omega)
      simp only [zero_add] at s1 s2 s3
      have hA2 : |A + (l.map (fun p => p.1)).sum| ≤
          B + ((l.map (fun p => p.1)).map (fun x => x * x)).sum :=
        le_trans (abs_add _ _) (by omega)
      obtain ⟨r1, r2, r3⟩ := ih
        { sumXiTi := dadd h0.sumXiTi (entry_of_double l).sumXiTi,
          sumXi := dadd h0.sumXi (entry_of_double l).sumXi,
          sumTi := dadd h0.sumTi (entry_of_double l).sumTi,
          sumXi2 := dadd h0.sumXi2 (entry_of_double l).sumXi2,
          values := h0.values + l.length }
        (A + (l.map (fun p => p.1)).sum)
        (B + ((l.map (fun p => p.1)).map (fun x => x * x)).sum)
        (by
          show dadd h0.sumXi (entry_of_double l).sumXi = _
          rw [h1]
          unfold entry_of_double
          rw [s1]
          exact dadd_int _ _ (by omega))
        (by
          show dadd h0.sumXi2 (entry_of_double l).sumXi2 = _
          rw [h2]
          unfold entry_of_double
          rw [s2]
          exact dadd_int _ _ (by rw [abs_of_nonneg (by omega)]; omega))
        hA2 (by omega)
      rw [r1, r2, r3]
      refine ⟨?_, ?_, ?_⟩
      · rw [add_assoc]
      · rw [add_assoc]
      · simp only []
        omega
    · rw [if_neg h5] at hB ⊢
      rw [if_neg (by simpa using h5)]
      exact ih h0 A B h1 h2 hAB hB

/-- The sum of the hash counts, squared, is at most their number times the
sum of their squares, and equal to it exactly when they are all the same. -/
theorem counts_divisor (l : List Int) :
    0 ≤ (l.length : Int) * (l.map (fun x => x * x)).sum - l.sum * l.sum ∧
    ((l.length : Int) * (l.map (fun x => x * x)).sum - l.sum * l.sum = 0 ↔
      ∀ x ∈ l, ∀ y ∈ l, x = y) := by
  obtain ⟨d1, d2⟩ := divisor_list (l.map (fun x : Int => ((x : ℚ), (0 : ℚ))))
  have e1 : ((l.map (fun x : Int => ((x : ℚ), (0 : ℚ)))).map (fun p => p.1)).sum = ((l.sum : Int) : ℚ) := by
    rw [List.map_map, Int.cast_list_sum]
    rfl
  have e2 : ((l.map (fun x : Int => ((x : ℚ), (0 : ℚ)))).map (fun p => p.1 * p.1)).sum =
      (((l.map (fun x => x * x)).sum : Int) : ℚ) := by
    rw [List.map_map, Int.cast_list_sum, List.map_map]
    congr 1
    apply List.map_congr_left
    intro x _
    simp
  rw [e1, e2, List.length_map] at d1 d2
  have c : ((l.length : ℚ)) * (((l.map (fun x => x * x)).sum : Int) : ℚ)
      - ((l.sum : Int) : ℚ) * ((l.sum : Int) : ℚ) =
      (((l.length : Int) * (l.map (fun x => x * x)).sum - l.sum * l.sum : Int) : ℚ) := by
    push_cast
    ring
  rw [c] at d1 d2
  refine ⟨by exact_mod_cast d1, ?_⟩
  refine (Int.cast_eq_zero.symm.trans d2).trans ?_
  constructor
  · intro h x hx y hy
    have : (x : ℚ) = (y : ℚ) := h ((x : ℚ), 0) (List.mem_map.mpr ⟨x, hx, rfl⟩) ((y : ℚ), 0)
      (List.mem_map.mpr ⟨y, hy, rfl⟩)
    exact_mod_cast this
  · intro h p hp q hq
    obtain ⟨x, hx, rfl⟩ := List.mem_map.mp hp
    obtain ⟨y, hy, rfl⟩ := List.mem_map.mp hq
    rw [h x hx y hy]

/-- The divisor of the refit in binary64 is the exact one while the number
of merged samples and that number times the sum of the squares of their hash
counts stay within 2^53. -/
theorem divisor_double_exact (entries : List (List (Int × double)))
    (hn : ((merged_counts entries).length : Int) ≤ 9007199254740992)
    (hb : ((merged_counts entries).length : Int) *
      ((merged_counts entries).map (fun x => x * x)).sum ≤ 9007199254740992) :
    refit_divisor_double (history_merge_double (entries.map entry_of_double) {}) =
      .finite ((((merged_counts entries).length : Int) *
          ((merged_counts entries).map (fun x => x * x)).sum
        - (merged_counts entries).sum * (merged_counts entries).sum : Int) : ℚ) := by
  have hS2 := sum_sq_nonneg (merged_counts entries)
  obtain ⟨c1, _⟩ := counts_divisor (merged_counts entries)
  have hsmall : ((merged_counts entries).map (fun x => x * x)).sum ≤ 9007199254740992 := by
    rcases Nat.eq_zero_or_pos (merged_counts entries).length with h0 | h0
    · rw [List.length_eq_zero] at h0
      rw [h0]
      simp
    · have : (1 : Int) ≤ ((merged_counts entries).length : Int) := by exact_mod_cast h0
      nlinarith
  obtain ⟨m1, m2, m3⟩ := merge_sums_exact entries {} 0 0 (by simp) (by simp) (by simp)
    (by omega)
  simp only [zero_add] at m1 m2
  have m3' : (history_merge_double (entries.map entry_of_double) {}).values =
      (merged_counts entries).length := by
    rw [m3]
    simp
  unfold refit_divisor_double
  rw [m1, m2, m3']
  have e0 : of_int (((merged_counts entries).length : Nat) : Int) =
      .finite ((((merged_counts entries).length : Nat) : Int) : ℚ) :=
    rnd_int _ (by rw [abs_of_nonneg (by omega)]; exact hn)
  rw [e0, dmul_int _ _ (by rw [abs_of_nonneg (by positivity)]; exact hb),
    dmul_int _ _ (by rw [abs_of_nonneg (mul_self_nonneg _)]; omega)]
  exact dsub_int _ _ (by rw [abs_of_nonneg c1]; nlinarith [mul_self_nonneg (merged_counts entries).sum])

/-- A quotient by the divisor 0 is an infinity or a NaN. -/
theorem ddiv_zero (x : double) (q : ℚ) : ddiv x (.finite 0) ≠ .finite q := by
  cases x with
  | finite a =>
    show (if (0 : ℚ) = 0 then (if a = 0 then double.nan else .inf (decide (a < 0)))
      else rnd (a / 0)) ≠ _
    rw [if_pos rfl]
    split_ifs <;> simp
  | inf s => simp [ddiv]
  | nan => simp [ddiv]

/-- C28 (amended): over the samples a refit merges (those of the closed
history entries that hold at least MIN_DATA_COUNT samples), the divisor
n * Sum(Xi^2) - (Sum Xi)^2 of the slope, computed exactly, is not negative
and is zero exactly when all merged samples have the same hash count Xi, so
it is non-zero if and only if two merged samples differ in hash count. In
the `double` arithmetic of the driver the divisor is that exact value, with
the same sign and zero test, while n and n * Sum(Xi^2) stay within 2^53. The
refit divides by it whatever its value: the Hs it stores is the quotient by
this divisor, with no test before, and in `double` arithmetic a divisor 0
gives an Hs that is an infinity or a NaN. The entries are any whose sums are
those of lists of samples, as the driver builds them: an entry starts empty
and takes one sample per cycle. -/
theorem refit_divisor_sign (hs : List ICARUS_HISTORY) (entries : List (List (ℚ × ℚ)))
    (hsums : List.Forall₂ holds_samples hs entries) (info : ICARUS_INFO) :
    0 ≤ refit_divisor (history_merge hs ({}, 0)).1 ∧
    (refit_divisor (history_merge hs ({}, 0)).1 = 0 ↔
      ∀ p ∈ merged_samples entries, ∀ q ∈ merged_samples entries, p.1 = q.1) ∧
    (refit_divisor (history_merge hs ({}, 0)).1 ≠ 0 ↔
      ∃ p ∈ merged_samples entries, ∃ q ∈ merged_samples entries, p.1 ≠ q.1) ∧
    (history_refit info).Hs =
      (((history_merge info.history.dropLast ({}, 0)).1.values : ℚ)
          * (history_merge info.history.dropLast ({}, 0)).1.sumXiTi
        - (history_merge info.history.dropLast ({}, 0)).1.sumXi
          * (history_merge info.history.dropLast ({}, 0)).1.sumTi)
      / refit_divisor (history_merge info.history.dropLast ({}, 0)).1 ∧
    holds_samples ({} : ICARUS_HISTORY) [] ∧
    (∀ (hash_count : Int) (elapsed tv_start : timeval) (l : List (ℚ × ℚ)),
      holds_samples (info.history.headD {}) l →
      holds_samples (sample_entry info hash_count elapsed tv_start)
        (l ++ [((hash_count : ℚ),
          seconds elapsed - (info.read_size : ℚ) * 8 / (info.baud : ℚ))])) ∧
    (∀ samples : List (List (Int × double)),
      ((merged_counts samples).length : Int) ≤ 9007199254740992 →
      ((merged_counts samples).length : Int) *
        ((merged_counts samples).map (fun x => x * x)).sum ≤ 9007199254740992 →
      ∃ d : Int,
        d = ((merged_counts samples).length : Int) *
            ((merged_counts samples).map (fun x => x * x)).sum
          - (merged_counts samples).sum * (merged_counts samples).sum ∧
        refit_divisor_double (history_merge_double (samples.map entry_of_double) {}) =
          .finite (d : ℚ) ∧
        0 ≤ d ∧
        (d = 0 ↔ ∀ x ∈ merged_counts samples, ∀ y ∈ merged_counts samples, x = y)) ∧
    (∀ h0 : history_double,
      refit_Hs_double h0 =
        ddiv (dsub (dmul (of_int h0.values) h0.sumXiTi) (dmul h0.sumXi h0.sumTi))
          (refit_divisor_double h0) ∧
      (refit_divisor_double h0 = .finite 0 → ∀ q : ℚ, refit_Hs_double h0 ≠ .finite q)) := by
  obtain ⟨h1, h2, h3⟩ := merged_sums hs entries hsums
  obtain ⟨d1, d2⟩ := divisor_list (merged_samples entries)
  have hD : refit_divisor (history_merge hs ({}, 0)).1 =
      ((merged_samples entries).length : ℚ) * ((merged_samples entries).map (fun p => p.1 * p.1)).sum
      - ((merged_samples entries).map (fun p => p.1)).sum
        * ((merged_samples entries).map (fun p => p.1)).sum := by
    rw [refit_divisor, h1, h2, h3]
  rw [hD]
  refine ⟨d1, d2, ?_, (refit_fields info).1, ⟨rfl, rfl, rfl⟩,
    fun hc el ts l h => (sample_entry_holds info hc el ts l h).2, ?_, ?_⟩
  · rw [Ne, d2]
    push_neg
    rfl
  · intro samples hn hb
    obtain ⟨c1, c2⟩ := counts_divisor (merged_counts samples)
    exact ⟨_, rfl, divisor_double_exact samples hn hb, c1, c2⟩
  · intro h0
    refine ⟨rfl, fun hz q => ?_⟩
    unfold refit_Hs_double
    rw [hz]
    exact ddiv_zero _ q

/-- C28 (amended) on five samples with the hash counts 100000, 200000, ...,
500000, held by the entry `flat_history`: the divisor of the refit is not 0,
and in `double` arithmetic it is the exact value, which is not negative. -/
theorem refit_divisor_sign_witness :
    refit_divisor (history_merge [flat_history] ({}, 0)).1 ≠ 0 ∧
    ∃ d : Int,
      d = ((merged_counts [[(100000, .finite 1), (200000, .finite 1), (300000, .finite 1),
            (400000, .finite 1), (500000, .finite 1)]]).length : Int) *
          ((merged_counts [[(100000, .finite 1), (200000, .finite 1), (300000, .finite 1),
            (400000, .finite 1), (500000, .finite 1)]]).map (fun x => x * x)).sum
        - (merged_counts [[(100000, .finite 1), (200000, .finite 1), (300000, .finite 1),
            (400000, .finite 1), (500000, .finite 1)]]).sum *
          (merged_counts [[(100000, .finite 1), (200000, .finite 1), (300000, .finite 1),
            (400000, .finite 1), (500000, .finite 1)]]).sum ∧
      refit_divisor_double (history_merge_double
        ([[(100000, .finite 1), (200000, .finite 1), (300000, .finite 1),
          (400000, .finite 1), (500000, .finite 1)]].map entry_of_double) {}) = .finite (d : ℚ) ∧
      0 ≤ d ∧
      (d = 0 ↔
        ∀ x ∈ merged_counts [[(100000, .finite 1), (200000, .finite 1), (300000, .finite 1),
          (400000, .finite 1), (500000, .finite 1)]],
        ∀ y ∈ merged_counts [[(100000, .finite 1), (200000, .finite 1), (300000, .finite 1),
          (400000, .finite 1), (500000, .finite 1)]], x = y) :=
  ⟨(refit_divisor_sign [flat_history]
      [[(100000, 1 / 100), (200000, 1 / 100), (300000, 1 / 100), (400000, 1 / 100),
        (500000, 1 / 100)]]
      (.cons ⟨rfl, by norm_num [flat_history], by norm_num [flat_history]⟩ .nil) {}).2.2.1.mpr
      ⟨(100000, 1 / 100), by simp [merged_samples], (200000, 1 / 100), by simp [merged_samples],
        by norm_num⟩,
   (refit_divisor_sign [flat_history]
      [[(100000, 1 / 100), (200000, 1 / 100), (300000, 1 / 100), (400000, 1 / 100),
        (500000, 1 / 100)]]
      (.cons ⟨rfl, by norm_num [flat_history], by norm_num [flat_history]⟩ .nil) {}).2.2.2.2.2.2.1
      [[(100000, .finite 1), (200000, .finite 1), (300000, .finite 1), (400000, .finite 1),
        (500000, .finite 1)]] (by decide) (by decide)⟩

/-! ### The nonce range time -/

/-- The fullnonce `icarus_set_timing` stores: untouched in the four
calibration modes, Hs * 2^32 in the value and default modes. -/
theorem set_timing_fullnonce (atof : String → ℚ) (NANOSEC : ℚ) (drv_is_icarus : Bool)
    (info : ICARUS_INFO) (buf : String) :
    (icarus_set_timing atof NANOSEC drv_is_icarus info buf).info.fullnonce =
      if strcasecmp_eq buf "short" ∨ strncasecmp_eq buf "short=" ∨ strcasecmp_eq buf "long"
          ∨ strncasecmp_eq buf "long=" then info.fullnonce
      else (icarus_set_timing atof NANOSEC drv_is_icarus info buf).info.Hs * 4294967296 := by
  unfold icarus_set_timing
  rcases Bool.eq_false_or_eq_true (strcasecmp_eq buf "short") with h1 | h1
  · simp [h1]
  rcases Bool.eq_false_or_eq_true (strncasecmp_eq buf "short=") with h2 | h2
  · simp [h1, h2]
  rcases Bool.eq_false_or_eq_true (strcasecmp_eq buf "long") with h3 | h3
  · simp [h1, h2, h3]
  rcases Bool.eq_false_or_eq_true (strncasecmp_eq buf "long=") with h4 | h4
  · simp [h1, h2, h3, h4]
  simp only [h1, h2, h3, h4, Bool.false_eq_true, if_false, or_self]
  by_cases h5 : atof buf = 0
  · simp [h5]
    left; norm_num
  · simp [h5]
    left; norm_num

/-- C25 (as stated, refuted): the refit of the five samples of
`flat_history` stores Hs = 0 and W = 1/100, and fullnonce = 1/100, which is
W + Hs * 2^32 and not Hs * 2^32 = 0. -/
theorem refit_fullnonce_offset :
    (history_refit { history := [flat_history, {}] }).Hs = 0 ∧
    (history_refit { history := [flat_history, {}] }).W = 1 / 100 ∧
    (history_refit { history := [flat_history, {}] }).fullnonce = 1 / 100 ∧
    (history_refit { history := [flat_history, {}] }).fullnonce ≠
      (history_refit { history := [flat_history, {}] }).Hs * 4294967296 := by
  refine ⟨?_, ?_, ?_, ?_⟩ <;> with_unfolding_all decide

/-- C25 (amended): `icarus_set_timing` stores fullnonce = Hs * 2^32 for the
Hs it stores (value mode) or finds (default mode), and leaves fullnonce as
it was in the four calibration modes; every calibration refit stores
fullnonce = W + Hs * 2^32 for the W and Hs stored by the same refit, which
is Hs * 2^32 exactly when the fitted W is 0. -/
theorem fullnonce_derivation (atof : String → ℚ) (NANOSEC : ℚ) (drv_is_icarus : Bool)
    (info : ICARUS_INFO) (buf : String) :
    ((icarus_set_timing atof NANOSEC drv_is_icarus info buf).info.fullnonce =
      if strcasecmp_eq buf "short" ∨ strncasecmp_eq buf "short=" ∨ strcasecmp_eq buf "long"
          ∨ strncasecmp_eq buf "long=" then info.fullnonce
      else (icarus_set_timing atof NANOSEC drv_is_icarus info buf).info.Hs * 4294967296) ∧
    (history_refit info).fullnonce =
      (history_refit info).W + (history_refit info).Hs * 4294967296 ∧
    ((history_refit info).fullnonce = (history_refit info).Hs * 4294967296 ↔
      (history_refit info).W = 0) := by
  obtain ⟨h1, h2, h3⟩ := refit_fields info
  have h : (history_refit info).fullnonce =
      (history_refit info).W + (history_refit info).Hs * 4294967296 := by rw [h3, h2, h1]
  refine ⟨set_timing_fullnonce atof NANOSEC drv_is_icarus info buf, h, ?_⟩
  rw [h]
  constructor
  · intro e; linarith
  · intro e; rw [e, zero_add]

/-! ### The limit on the poll window -/

/-- The test `strcasecmp_eq` on the lower-cased text. -/
theorem casecmp_lower (a b : String) :
    strcasecmp_eq a b = true ↔ a.toList.map Char.toLower = b.toList.map Char.toLower := by
  simp [strcasecmp_eq]

/-- The test `strncasecmp_eq` on the lower-cased text. -/
theorem ncasecmp_lower (a b : String) :
    strncasecmp_eq a b = true ↔
      (a.toList.map Char.toLower).take b.length = b.toList.map Char.toLower := by
  simp [strncasecmp_eq, List.map_take]

/-- A text that starts with `short=` is not `short`. -/
theorem short_eq_branch (buf : String) (h : strncasecmp_eq buf "short=" = true) :
    strcasecmp_eq buf "short" = false := by
  rw [ncasecmp_lower] at h
  rw [Bool.eq_false_iff, Ne, casecmp_lower]
  intro h2
  rw [h2] at h
  exact absurd h (by decide)

/-- A text that starts with `long=` is not `short`, does not start with
`short=`, and is not `long`. -/
theorem long_eq_branch (buf : String) (h : strncasecmp_eq buf "long=" = true) :
    strcasecmp_eq buf "short" = false ∧ strncasecmp_eq buf "short=" = false ∧
    strcasecmp_eq buf "long" = false := by
  rw [ncasecmp_lower] at h
  refine ⟨?_, ?_, ?_⟩
  · rw [Bool.eq_false_iff, Ne, casecmp_lower]
    intro h2
    rw [h2] at h
    exact absurd h (by decide)
  · rw [Bool.eq_false_iff, Ne, ncasecmp_lower]
    intro h2
    have h3 := congrArg (List.take 5) h2
    rw [List.take_take] at h3
    have h4 : (List.map Char.toLower buf.toList).take 5 =
        List.take 5 (List.map Char.toLower "short=".toList) := h3
    have h5 : (List.map Char.toLower buf.toList).take 5 =
        List.map Char.toLower "long=".toList := h
    rw [h4] at h5
    exact absurd h5 (by decide)
  · rw [Bool.eq_false_iff, Ne, casecmp_lower]
    intro h2
    rw [h2] at h
    exact absurd h (by decide)

/-- The limit `icarus_set_timing` stores. -/
theorem set_timing_limit (atof : String → ℚ) (NANOSEC : ℚ) (drv_is_icarus : Bool)
    (info : ICARUS_INFO) (buf : String) :
    (icarus_set_timing atof NANOSEC drv_is_icarus info buf).info.read_count_limit =
      if strcasecmp_eq buf "short" then 0
      else if strncasecmp_eq buf "short=" then
        max 0 (min 100 (atoi (String.mk (buf.toList.drop 6))))
      else if strcasecmp_eq buf "long" then 0
      else if strncasecmp_eq buf "long=" then
        max 0 (min 100 (atoi (String.mk (buf.toList.drop 5))))
      else 0 := by
  have clamp : ∀ n : Int,
      (if (if n < 0 then 0 else n) > 100 then 100 else (if n < 0 then 0 else n)) =
        max 0 (min 100 n) := by
    intro n
    split_ifs <;> omega
  unfold icarus_set_timing
  rcases Bool.eq_false_or_eq_true (strcasecmp_eq buf "short") with h1 | h1
  · simp [h1]
  rcases Bool.eq_false_or_eq_true (strncasecmp_eq buf "short=") with h2 | h2
  · simp only [h1, h2, Bool.false_eq_true, if_false, if_true]
    exact clamp _
  rcases Bool.eq_false_or_eq_true (strcasecmp_eq buf "long") with h3 | h3
  · simp [h1, h2, h3]
  rcases Bool.eq_false_or_eq_true (strncasecmp_eq buf "long=") with h4 | h4
  · simp only [h1, h2, h3, h4, Bool.false_eq_true, if_false, if_true]
    exact clamp _
  simp only [h1, h2, h3, h4, Bool.false_eq_true, if_false]
  by_cases h5 : atof buf = 0
  · simp [h5]
  · simp [h5]

theorem limit_read_count_eq (c L : Int) (hL : 0 ≤ L) :
    ((L = 0 ∨ c ≤ L) → limit_read_count c L = c) ∧
    (¬ (L = 0 ∨ c ≤ L) → limit_read_count c L = L) ∧
    (0 < L → limit_read_count c L ≤ L) := by
  unfold limit_read_count
  refine ⟨?_, ?_, ?_⟩
  · intro h
    rw [if_neg]
    omega
  · intro h
    rw [if_pos]
    omega
  · intro h
    split_ifs <;> omega

/-- A value in the range of `int` converts to itself. -/
theorem to_int_id (x : Int) (h1 : -2147483648 ≤ x) (h2 : x ≤ 2147483647) : to_int x = x := by
  unfold to_int
  omega

/-- The libc function `atoi` wraps beyond the range of `int`, so the setters
take the text "4294967297" for the value 1. -/
theorem atoi_wraps :
    atoi "4294967297" = 1 ∧ atoi "4294967295" = -1 ∧ atoi " -12abc" = -12 ∧
    strtol "4294967295" = 4294967295 ∧ atoi "99999999999999999999" = -1 ∧
    (icarus_set_work_division {} "4294967297").map (fun r => (r.err, r.info.work_division))
      = some (none, 1) ∧
    (icarus_set_fpga_count { work_division := 2 } "4294967297").err = none := by
  refine ⟨?_, ?_, ?_, ?_, ?_, ?_, ?_⟩ <;> decide

/-- C26 (as stated, refuted): `short=4294967295` stores the limit 0, where
4294967295 clamped to [0, 100] is 100: `atoi` gives -1 for this text. -/
theorem short_limit_wraps :
    strncasecmp_eq "short=4294967295" "short=" = true ∧
    strtol "4294967295" = 4294967295 ∧
    (icarus_set_timing decimal_atof 1000000000 true {} "short=4294967295").info.read_count_limit
      = 0 ∧
    (icarus_set_timing decimal_atof 1000000000 true {} "long=4294967295").info.read_count_limit
      = 0 := by
  refine ⟨?_, ?_, ?_, ?_⟩ <;> decide

set_option maxRecDepth 8000 in
/-- A fit through five samples with the same hash count divides 0 by 0: Hs,
W and fullnonce are NaN, the conversion to `int` gives INT_MIN, and the
subtraction wraps to INT_MAX, which is stored unless a limit is set. -/
theorem refit_nan_ticks :
    refit_fullnonce_double (history_merge_double
      [entry_of_double (List.replicate 5 (100000, .finite 1))] {}) = .nan ∧
    refit_read_count_double [entry_of_double (List.replicate 5 (100000, .finite 1))] 0
      = 2147483647 ∧
    refit_read_count_double [entry_of_double (List.replicate 5 (100000, .finite 1))] 20
      = 20 := by
  refine ⟨?_, ?_, ?_⟩ <;> with_unfolding_all rfl

/-- C26 (amended): with read_count_limit not negative (as
`icarus_set_timing`, the only writer of the limit, leaves it), a calibration
refit stores read_count = (int)(fullnonce * 10) - 1 when the limit is 0 or
that value does not exceed the limit, and read_count = read_count_limit
otherwise; so with a limit L > 0 the read_count after the refit is at most
L, and the refit leaves the limit as it is. This holds of the refit computed
exactly and of the refit in `double` arithmetic, where the conversion and
the subtraction are those of the machine. The limit stored by `short=N` and
`long=N` is atoi(N) clamped to [0, 100], which is the number N clamped to
[0, 100] when N is in the range of `int`; every call of `icarus_set_timing`
leaves the limit in [0, 100]. -/
theorem refit_read_count_limit (atof : String → ℚ) (NANOSEC : ℚ) (drv_is_icarus : Bool)
    (info : ICARUS_INFO) (buf : String) (hlim : 0 ≤ info.read_count_limit) :
    ((info.read_count_limit = 0 ∨
        trunc ((history_refit info).fullnonce * 10) - 1 ≤ info.read_count_limit) →
      (history_refit info).read_count = trunc ((history_refit info).fullnonce * 10) - 1) ∧
    (¬ (info.read_count_limit = 0 ∨
        trunc ((history_refit info).fullnonce * 10) - 1 ≤ info.read_count_limit) →
      (history_refit info).read_count = info.read_count_limit) ∧
    (0 < info.read_count_limit → (history_refit info).read_count ≤ info.read_count_limit) ∧
    (history_refit info).read_count_limit = info.read_count_limit ∧
    (strncasecmp_eq buf "short=" = true →
      (icarus_set_timing atof NANOSEC drv_is_icarus info buf).info.read_count_limit =
        max 0 (min 100 (atoi (String.mk (buf.toList.drop 6))))) ∧
    (strncasecmp_eq buf "long=" = true →
      (icarus_set_timing atof NANOSEC drv_is_icarus info buf).info.read_count_limit =
        max 0 (min 100 (atoi (String.mk (buf.toList.drop 5))))) ∧
    0 ≤ (icarus_set_timing atof NANOSEC drv_is_icarus info buf).info.read_count_limit ∧
    (icarus_set_timing atof NANOSEC drv_is_icarus info buf).info.read_count_limit ≤ 100 ∧
    (∀ hs : List history_double,
      ((info.read_count_limit = 0 ∨
          refit_ticks_double (history_merge_double hs {}) ≤ info.read_count_limit) →
        refit_read_count_double hs info.read_count_limit =
          refit_ticks_double (history_merge_double hs {})) ∧
      (¬ (info.read_count_limit = 0 ∨
          refit_ticks_double (history_merge_double hs {}) ≤ info.read_count_limit) →
        refit_read_count_double hs info.read_count_limit = info.read_count_limit) ∧
      (0 < info.read_count_limit →
        refit_read_count_double hs info.read_count_limit ≤ info.read_count_limit)) ∧
    (∀ N : String, -2147483648 ≤ strtol N → strtol N ≤ 2147483647 →
      max 0 (min 100 (atoi N)) = max 0 (min 100 (strtol N))) := by
  have hr := refit_read_count info
  have hl : (history_refit info).read_count_limit = info.read_count_limit := by
    unfold history_refit
    dsimp only
    split_ifs <;> rfl
  have hs := set_timing_limit atof NANOSEC drv_is_icarus info buf
  refine ⟨?_, ?_, ?_, hl, ?_, ?_, ?_, ?_, ?_, ?_⟩
  · intro h
    rw [hr, if_neg]
    omega
  · intro h
    rw [hr, if_pos]
    omega
  · intro h
    rw [hr]
    split_ifs <;> omega
  · intro h
    rw [hs, short_eq_branch buf h, h]
    simp
  · intro h
    obtain ⟨a, b, c⟩ := long_eq_branch buf h
    rw [hs, a, b, c, h]
    simp
  · rw [hs]
    split_ifs <;> omega
  · rw [hs]
    split_ifs <;> omega
  · intro hs
    exact limit_read_count_eq _ _ hlim
  · intro N h1 h2
    unfold atoi
    rw [to_int_id _ h1 h2]

set_option maxRecDepth 8000 in
/-- C26 (amended) on an example: with the limit 20 and the five samples of
the line T = 2e-9 X + 0.1 in the newest history entry, the fitted fullnonce
gives 85 ticks and the refit stores 20, computed exactly and in `double`
arithmetic; `short=250` stores the limit 100. -/
theorem refit_read_count_limit_witness :
    (history_refit { read_count_limit := 20, history := [entry_of
      [(1000000000, 21 / 10), (2000000000, 41 / 10), (3000000000, 61 / 10),
        (4000000000, 81 / 10), (5000000000, 101 / 10)], {}] }).read_count = 20 ∧
    (icarus_set_timing decimal_atof 1000000000 true
      { read_count_limit := 20, history := [entry_of
        [(1000000000, 21 / 10), (2000000000, 41 / 10), (3000000000, 61 / 10),
          (4000000000, 81 / 10), (5000000000, 101 / 10)], {}] }
      "short=250").info.read_count_limit = max 0 (min 100 (atoi "250")) ∧
    refit_read_count_double [entry_of_double
      [(1000000000, rnd (21 / 10)), (2000000000, rnd (41 / 10)), (3000000000, rnd (61 / 10)),
        (4000000000, rnd (81 / 10)), (5000000000, rnd (101 / 10))]] 20 = 20 :=
  ⟨((refit_read_count_limit decimal_atof 1000000000 true
      { read_count_limit := 20, history := [entry_of
        [(1000000000, 21 / 10), (2000000000, 41 / 10), (3000000000, 61 / 10),
          (4000000000, 81 / 10), (5000000000, 101 / 10)], {}] }
      "short=250" (by decide)).2.1 (by with_unfolding_all decide)),
   (refit_read_count_limit decimal_atof 1000000000 true
      { read_count_limit := 20, history := [entry_of
        [(1000000000, 21 / 10), (2000000000, 41 / 10), (3000000000, 61 / 10),
          (4000000000, 81 / 10), (5000000000, 101 / 10)], {}] }
      "short=250" (by decide)).2.2.2.2.1 (by decide),
   ((refit_read_count_limit decimal_atof 1000000000 true
      { read_count_limit := 20, history := [entry_of
        [(1000000000, 21 / 10), (2000000000, 41 / 10), (3000000000, 61 / 10),
          (4000000000, 81 / 10), (5000000000, 101 / 10)], {}] }
      "short=250" (by decide)).2.2.2.2.2.2.2.2.1 [entry_of_double
        [(1000000000, rnd (21 / 10)), (2000000000, rnd (41 / 10)), (3000000000, rnd (61 / 10)),
          (4000000000, rnd (81 / 10)), (5000000000, rnd (101 / 10))]]).2.1
      (by with_unfolding_all decide)⟩

/-! ### Work division and chip count -/

/-- The probed work division is one of 1, 2, 4, 8. -/
theorem probe_division_ok (res : Nat) :
    probe_division res = 1 ∨ probe_division res = 2 ∨ probe_division res = 4 ∨
      probe_division res = 8 := by
  unfold probe_division
  split_ifs <;> simp

/-- The mask of a work division that is one of 1, 2, 4, 8. -/
theorem mask_some (wd : Int) (h : wd = 1 ∨ wd = 2 ∨ wd = 4 ∨ wd = 8) : ∃ m, mask wd = some m := by
  rcases h with h | h | h | h <;> rw [h] <;> exact ⟨_, rfl⟩

/-- The probe stores a work division out of 1, 2, 4, 8 and leaves the
chip count. -/
theorem init_probe_ok (env : Env) (link : List ReadEv) (t t' : Thr)
    (h : init_probe env link t = some t') :
    (t'.info.work_division = 1 ∨ t'.info.work_division = 2 ∨ t'.info.work_division = 4 ∨
      t'.info.work_division = 8) ∧ t'.info.fpga_count = t.info.fpga_count := by
  unfold init_probe at h
  dsimp only at h
  have hi : (icarus_write env t t.device_fd probe_pkt).2.info = t.info := by
    unfold icarus_write
    split_ifs <;> rfl
  split at h
  · exact absurd h (by simp)
  · injection h with h
    subst h
    refine ⟨probe_division_ok _, ?_⟩
    show (icarus_write env t t.device_fd probe_pkt).2.info.fpga_count = _
    rw [hi]

/-- The probe returns when the reader does. -/
theorem init_probe_some (env : Env) (link : List ReadEv) (t : Thr)
    (h : (icarus_gets (memset (fun _ => 0) 0 0 t.info.read_size.toNat) link {} false
      t.info.read_count t.info.read_size).isSome = true) :
    ∃ t', init_probe env link t = some t' := by
  have hi : (icarus_write env t t.device_fd probe_pkt).2.info = t.info := by
    unfold icarus_write
    split_ifs <;> rfl
  obtain ⟨out, hout⟩ := Option.isSome_iff_exists.mp h
  unfold init_probe
  dsimp only
  rw [hi, hout]
  exact ⟨_, rfl⟩

/-- The end of `icarus_init`, from a work division out of 1, 2, 4, 8. -/
theorem init_tail_ok (t : Thr)
    (hwd : t.info.work_division = 1 ∨ t.info.work_division = 2 ∨ t.info.work_division = 4 ∨
      t.info.work_division = 8)
    (hfc : t.info.fpga_count = 0 ∨ (1 ≤ t.info.fpga_count ∧ t.info.fpga_count ≤ t.info.work_division)) :
    ∃ t', (match mask (if t.info.fpga_count = 0 then
            { t with info := { t.info with fpga_count := t.info.work_division } }
          else t).info.work_division with
        | none => some none
        | some m => some (some { (if t.info.fpga_count = 0 then
            { t with info := { t.info with fpga_count := t.info.work_division } }
          else t) with info := { (if t.info.fpga_count = 0 then
            { t with info := { t.info with fpga_count := t.info.work_division } }
          else t).info with nonce_mask := m } })) = some (some t') ∧
      division_ok t'.info ∧ mask t'.info.work_division = some t'.info.nonce_mask := by
  by_cases h0 : t.info.fpga_count = 0
  · simp only [h0, if_true]
    obtain ⟨m, hm⟩ := mask_some _ hwd
    rw [hm]
    refine ⟨_, rfl, ⟨hwd, ?_, le_refl _⟩, hm⟩
    show 1 ≤ t.info.work_division
    rcases hwd with h | h | h | h <;> omega
  · simp only [h0, if_false]
    obtain ⟨m, hm⟩ := mask_some _ hwd
    rw [hm]
    rcases hfc with h | h
    · exact absurd h h0
    · exact ⟨_, rfl, ⟨hwd, h.1, h.2⟩, hm⟩

/-- C30: the predicate `work_division in {1,2,4,8} and
1 <= fpga_count <= work_division` is preserved by every call of
`icarus_set_work_division` and of `icarus_set_fpga_count`, accepted or
rejected. `icarus_init` establishes it from a state in which work_division
is 0 or one of 1, 2, 4, 8 and fpga_count is 0 or between 1 and
work_division: it returns whenever its reader call does (it makes none when
work_division is set). After `icarus_init` and after every accepted
`icarus_set_work_division`, nonce_mask = mask(work_division); neither caller
reaches the `quit` of `mask`. -/
theorem division_invariant (env : Env) (link : List ReadEv) (t : Thr) (info : ICARUS_INFO)
    (newvalue : String) :
    (division_ok info →
      ∃ r, icarus_set_work_division info newvalue = some r ∧ division_ok r.info) ∧
    (division_ok info → division_ok (icarus_set_fpga_count info newvalue).info) ∧
    ((t.info.work_division = 0 ∨ t.info.work_division = 1 ∨ t.info.work_division = 2 ∨
        t.info.work_division = 4 ∨ t.info.work_division = 8) →
      (t.info.fpga_count = 0 ∨
        (1 ≤ t.info.fpga_count ∧ t.info.fpga_count ≤ t.info.work_division)) →
      (t.info.work_division ≠ 0 ∨
        (icarus_gets (memset (fun _ => 0) 0 0 t.info.read_size.toNat) link {} false
          t.info.read_count t.info.read_size).isSome = true) →
      ∃ t', icarus_init env link t = some (some t') ∧ division_ok t'.info ∧
        mask t'.info.work_division = some t'.info.nonce_mask) ∧
    (∃ r, icarus_set_work_division info newvalue = some r ∧
      (r.err = none → mask r.info.work_division = some r.info.nonce_mask)) := by
  refine ⟨?_, ?_, ?_, ?_⟩
  · intro hok
    obtain ⟨hwd, h1, h2⟩ := hok
    unfold icarus_set_work_division
    dsimp only
    by_cases hv : atoi newvalue = 1 ∨ atoi newvalue = 2 ∨ atoi newvalue = 4 ∨ atoi newvalue = 8
    · rw [if_neg (not_not.mpr hv)]
      by_cases hu : info.user_set_fpga_count = true ∧ info.fpga_count > atoi newvalue
      · rw [if_pos hu]
        exact ⟨_, rfl, hwd, h1, h2⟩
      · rw [if_neg hu]
        obtain ⟨m, hm⟩ := mask_some _ hv
        rw [hm]
        refine ⟨_, rfl, hv, ?_⟩
        by_cases hs : info.user_set_fpga_count = true
        · simp only [hs, if_true]
          have : ¬ info.fpga_count > atoi newvalue := fun h => hu ⟨hs, h⟩
          exact ⟨h1, by omega⟩
        · simp only [hs, if_false]
          constructor
          · show 1 ≤ atoi newvalue
            rcases hv with h | h | h | h <;> omega
          · exact le_refl _
    · rw [if_pos hv]
      exact ⟨_, rfl, hwd, h1, h2⟩
  · intro hok
    obtain ⟨hwd, h1, h2⟩ := hok
    unfold icarus_set_fpga_count
    dsimp only
    split_ifs with h
    · exact ⟨hwd, h1, h2⟩
    · exact ⟨hwd, by show 1 ≤ atoi newvalue; omega,
        by show atoi newvalue ≤ info.work_division; omega⟩
  · intro hwd hfc hrun
    unfold icarus_init
    by_cases h0 : t.info.work_division = 0
    · rw [if_pos h0]
      have hg := hrun.resolve_left (not_not.mpr h0)
      obtain ⟨t1, ht1⟩ := init_probe_some env link t hg
      obtain ⟨p1, p2⟩ := init_probe_ok env link t t1 ht1
      rw [ht1]
      have hfc1 : t1.info.fpga_count = 0 ∨
          (1 ≤ t1.info.fpga_count ∧ t1.info.fpga_count ≤ t1.info.work_division) := by
        rcases hfc with h | h
        · left; rw [p2, h]
        · exfalso; omega
      exact init_tail_ok t1 p1 hfc1
    · rw [if_neg h0]
      exact init_tail_ok t (hwd.resolve_left h0) hfc
  · unfold icarus_set_work_division
    dsimp only
    by_cases hv : atoi newvalue = 1 ∨ atoi newvalue = 2 ∨ atoi newvalue = 4 ∨ atoi newvalue = 8
    · rw [if_neg (not_not.mpr hv)]
      by_cases hu : info.user_set_fpga_count = true ∧ info.fpga_count > atoi newvalue
      · rw [if_pos hu]
        exact ⟨_, rfl, fun h => absurd h (by simp)⟩
      · rw [if_neg hu]
        obtain ⟨m, hm⟩ := mask_some _ hv
        rw [hm]
        exact ⟨_, rfl, fun _ => hm⟩
    · rw [if_pos hv]
      exact ⟨_, rfl, fun h => absurd h (by simp)⟩

/-- C30 on an example: a thread with neither value set probes the device,
reads the reply of a four-way split, and leaves `icarus_init` with
work_division = fpga_count = 4 and the mask of 4. -/
theorem division_invariant_witness :
    ∃ t', icarus_init sample_env probe_reply fresh_thr = some (some t') ∧ division_ok t'.info ∧
      mask t'.info.work_division = some t'.info.nonce_mask :=
  (division_invariant sample_env probe_reply fresh_thr {} "").2.2.1
    (Or.inl rfl) (Or.inl rfl) (Or.inr rfl)

/-! ### The tick budget of the wait -/

theorem plumbing_budget (env : Env) (e : Event) (h : e.plumbing = true) :
    e.fixed_budget env = true := by
  cases e <;> first | rfl | exact absurd h Bool.false_ne_true

theorem recovery_budget (env : Env) (e : Event) (h : e.recovery = true) :
    e.fixed_budget env = true :=
  plumbing_budget env e (recovery_plumbing e h)

theorem after_gets_budget (env : Env) (fd : Int) (t : Thr) (out : GetsOut) :
    ext (Event.fixed_budget env) t (after_gets env fd t out) :=
  ⟨[.gets fd true (if env.opt_scrypt then 48 else 16) t.info.read_size out.ret], rfl, by
    intro e he
    rw [List.mem_singleton] at he
    subst he
    simp [Event.fixed_budget]⟩

/-- A wait that ends has made its first reader call on the first stretch
of the link, and ends in a thread that continues the one after that call. -/
theorem scan_wait_first (env : Env) (fd : Int) :
    ∀ (links : List (List ReadEv)) (t : Thr) (res : WaitResult),
      scan_wait env fd links t = some res →
      ∃ link rest out, links = link :: rest ∧ wait_gets env t link = some out ∧
        match res with
        | .returned _ t' => ext (Event.fixed_budget env) (after_gets env fd t out) t'
        | .done _ _ _ _ _ _ t' => ext (Event.fixed_budget env) (after_gets env fd t out) t' := by
  intro links
  induction links with
  | nil =>
    intro t res h
    simp [scan_wait] at h
  | cons link links ih =>
    intro t res h
    rw [scan_wait] at h
    cases hg : wait_gets env t link with
    | none => simp [hg] at h
    | some out =>
      simp only [hg] at h
      refine ⟨link, links, out, rfl, hg, ?_⟩
      have hA := ext_refl (Event.fixed_budget env) (after_gets env fd t out)
      cases hr : out.ret with
      | ICA_GETS_RESTART =>
        simp only [hr, Option.some.injEq] at h
        subst h
        exact ext_of_trace_eq hA rfl
      | ICA_GETS_ERROR =>
        simp only [hr] at h
        have hB := ext_trans (ext_trans (ext_trans hA
          (ext_mono (close_ext _) (recovery_budget env))) (ext_emit _ _ .dev_error rfl))
          (ext_mono (reopen_ext env _) (recovery_budget env))
        split_ifs at h
        · simp only [Option.some.injEq] at h
          subst h
          exact hB
        · simp only [Option.some.injEq] at h
          subst h
          exact ext_trans hB (ext_emit _ _ (.tcflush _) rfl)
      | ICA_GETS_TIMEOUT =>
        simp only [hr] at h
        have hB := ext_trans hA (ext_mono (reopen_ext env _) (recovery_budget env))
        split_ifs at h
        · simp only [Option.some.injEq] at h
          subst h
          exact hB
        · simp only [Option.some.injEq] at h
          subst h
          exact ext_trans hB (ext_emit _ _ (.tcflush _) rfl)
        · simp only [Option.some.injEq] at h
          subst h
          exact ext_trans hA (ext_emit _ _ (.tcflush _) rfl)
      | ICA_GETS_OK =>
        simp only [hr] at h
        have hC := ext_trans hA (ext_emit (Event.fixed_budget env) _ (.tcflush fd) rfl)
        split_ifs at h
        · obtain ⟨link2, rest2, out2, _, _, this⟩ := ih _ _ h
          cases res with
          | returned v t' =>
            exact ext_trans (ext_trans hC (ext_emit _ _ (.submit_nonce _ _) rfl))
              (ext_trans (after_gets_budget env fd _ out2) this)
          | done a b c d e f t' =>
            exact ext_trans (ext_trans hC (ext_emit _ _ (.submit_nonce _ _) rfl))
              (ext_trans (after_gets_budget env fd _ out2) this)
        · obtain ⟨link2, rest2, out2, _, _, this⟩ := ih _ _ h
          cases res with
          | returned v t' =>
            exact ext_trans (ext_trans (ext_trans hC (ext_emit _ _ .cgtime rfl))
              (ext_emit _ _ (.submit_nonce _ _) rfl))
              (ext_trans (after_gets_budget env fd _ out2) this)
          | done a b c d e f t' =>
            exact ext_trans (ext_trans (ext_trans hC (ext_emit _ _ .cgtime rfl))
              (ext_emit _ _ (.submit_nonce _ _) rfl))
              (ext_trans (after_gets_budget env fd _ out2) this)
        · simp only [Option.some.injEq] at h
          subst h
          exact ext_trans hC (ext_emit _ _ .cgtime rfl)
        · simp only [Option.some.injEq] at h
          subst h
          exact hC
        · simp only [Option.some.injEq] at h
          subst h
          exact hC

/-- Every reader call of a wait has the fixed tick budget. -/
theorem scan_wait_budget (env : Env) (fd : Int) (links : List (List ReadEv)) (t : Thr)
    (res : WaitResult) (h : scan_wait env fd links t = some res) :
    match res with
    | .returned _ t' => ext (Event.fixed_budget env) t t'
    | .done _ _ _ _ _ _ t' => ext (Event.fixed_budget env) t t' := by
  obtain ⟨link, rest, out, _, _, this⟩ := scan_wait_first env fd links t res h
  cases res with
  | returned v t' => exact ext_trans (after_gets_budget env fd t out) this
  | done a b c d e f t' => exact ext_trans (after_gets_budget env fd t out) this

theorem identify_wait_budget (env : Env) (fd : Int) :
    ∀ (links : List (List ReadEv)) (t t' : Thr) (rest : List (List ReadEv)),
      identify_wait env fd links t = some (t', rest) → ext (Event.fixed_budget env) t t' := by
  intro links
  induction links with
  | nil =>
    intro t t' rest h
    simp only [identify_wait] at h
    split_ifs at h
    simp only [Option.some.injEq, Prod.mk.injEq] at h
    rw [← h.1]
    exact ext_emit _ _ _ rfl
  | cons link links ih =>
    intro t t' rest h
    simp only [identify_wait] at h
    split_ifs at h
    · simp only [Option.some.injEq, Prod.mk.injEq] at h
      rw [← h.1]
      exact ext_emit _ _ _ rfl
    · cases hg : icarus_gets (memset (fun _ => 0) 0 0 (emit t .cgtime).info.read_size.toNat) link
          (env.now t.trace) false
          (trunc (((emit t .cgtime).info.fullnonce
            - env.tdiff (env.now t.trace) (emit t .cgtime).state.tv_workstart) * 10))
          (emit t .cgtime).info.read_size with
      | none => simp [hg] at h
      | some out =>
        simp only [hg] at h
        have h1 : ext (Event.fixed_budget env) t (emit t .cgtime) := ext_emit _ _ _ rfl
        have h2 : ext (Event.fixed_budget env) (emit t .cgtime)
            (emit (emit t .cgtime) (.gets fd false
              (trunc (((emit t .cgtime).info.fullnonce
                - env.tdiff (env.now t.trace) (emit t .cgtime).state.tv_workstart) * 10))
              (emit t .cgtime).info.read_size out.ret)) := ext_emit _ _ _ rfl
        split_ifs at h
        · exact ext_trans (ext_trans h1 h2)
            (ext_trans (ext_emit _ _ (.submit_nonce _ _) rfl) (ih _ _ _ h))
        · exact ext_trans (ext_trans h1 h2) (ih _ _ _ h)

theorem identify_resume_budget (env : Env) (t : Thr) :
    ext (Event.fixed_budget env) t (identify_resume env t) := by
  have h2 : ext (Event.fixed_budget env) t (emit t (.cgsleep_ms 3000)) := ext_emit _ _ _ rfl
  have h3 := ext_mono (job_start_ext env (emit t (.cgsleep_ms 3000))) (plumbing_budget env)
  unfold identify_resume
  dsimp only
  split_ifs
  · exact ext_of_trace_eq h2 rfl
  · exact ext_of_trace_eq (ext_trans h2 h3) rfl
  · exact ext_of_trace_eq (ext_trans h2 h3) rfl
  · exact ext_of_trace_eq h2 rfl

theorem handle_identify_budget (env : Env) (was_first_run : Bool) (links : List (List ReadEv))
    (t t' : Thr) (h : handle_identify env was_first_run links t = some t') :
    ext (Event.fixed_budget env) t t' := by
  unfold handle_identify at h
  split_ifs at h
  · simp only [Option.some.injEq] at h
    rw [← h]
    exact ext_refl _ _
  · simp only [Option.some.injEq] at h
    rw [← h]
    exact identify_resume_budget env t
  · cases hw : identify_wait env t.device_fd links t with
    | none => simp [hw] at h
    | some p =>
      simp only [hw, Option.some.injEq] at h
      rw [← h]
      exact ext_trans (identify_wait_budget env _ _ _ _ p.2 (by rw [hw]))
        (identify_resume_budget env p.1)

theorem scan_next_budget (env : Env) (w : work) (ret : GetsRet) (nonce : Nat)
    (nonce_work : Option WorkRef) (was_hw_error : Bool) (elapsed tv_start : timeval) (t : Thr) :
    ext (Event.fixed_budget env) t
      (scan_next env w ret nonce nonce_work was_hw_error elapsed tv_start t).2 := by
  have h1 := ext_mono (start_next_job_ok env ret was_hw_error elapsed t).1 (plumbing_budget env)
  have ht : ∀ x : Thr, ext (Event.fixed_budget env) x
      (icarus_transition_work env x { w with blk_nonce := 0xffffffff }) :=
    fun x => ext_mono (transition_ext env x _) (plumbing_budget env)
  unfold scan_next
  dsimp only
  cases ret
  · dsimp only
    split_ifs
    · exact ext_of_trace_eq (ext_trans (ext_trans h1 (ext_emit _ _ (.submit_nonce _ _) rfl))
        (ht _)) rfl
    · exact ext_of_trace_eq (ext_trans (ext_trans h1 (ext_emit _ _ (.inc_hw_errors _ _) rfl))
        (ht _)) rfl
  · exact ext_trans (ext_of_trace_eq h1 rfl) (ht _)
  · exact ext_trans h1 (ht _)
  · exact ext_trans h1 (ht _)

theorem scan_finish_budget (env : Env) (w : work) (was_first_run : Bool) (ret : GetsRet)
    (nonce : Nat) (nonce_work : Option WorkRef) (was_hw_error : Bool)
    (elapsed tv_start : timeval) (links : List (List ReadEv)) (t : Thr) (r : Int × Thr)
    (h : scan_finish env w was_first_run ret nonce nonce_work was_hw_error elapsed tv_start
      links t = some r) :
    ext (Event.fixed_budget env) t r.2 := by
  have h1 := scan_next_budget env w ret nonce nonce_work was_hw_error elapsed tv_start t
  unfold scan_finish scan_out at h
  split_ifs at h
  · cases hh : handle_identify env was_first_run links
        (scan_next env w ret nonce nonce_work was_hw_error elapsed tv_start t).2 with
    | none => simp [hh] at h
    | some t' =>
      simp only [hh, Option.some.injEq] at h
      rw [← h]
      exact ext_trans h1 (handle_identify_budget env _ _ _ _ hh)
  · simp only [Option.some.injEq] at h
    rw [← h]
    exact h1

/-- Every reader call a cycle makes with a thread handle has the fixed
tick budget. -/
theorem scanhash_budget (env : Env) (links : List (List ReadEv)) (t : Thr) (w : work)
    (v : Int) (t' : Thr) (hrun : icarus_scanhash env links t w = some (v, t')) :
    ext (Event.fixed_budget env) t t' := by
  have hP : ext (Event.fixed_budget env) t (open_step env (prepare_step env t w)).2 :=
    ext_trans (ext_of_trace_eq (ext_refl _ t) (prepare_step_flags env t w).1)
      (ext_mono (open_step_ok env _).1 (recovery_budget env))
  unfold icarus_scanhash at hrun
  dsimp only at hrun
  split_ifs at hrun with h1 h2 h3
  · simp only [Option.some.injEq, Prod.mk.injEq] at hrun
    rw [← hrun.2]
    exact hP
  · have := scan_finish_budget env w _ _ _ _ _ _ _ _ _ _ hrun
    exact ext_trans (ext_trans hP (ext_of_trace_eq (ext_emit _ _ (.tcflush _) rfl) rfl)) this
  · cases hw : scan_wait env (open_step env (prepare_step env t w)).2.device_fd links
        (open_step env (prepare_step env t w)).2 with
    | none => simp [hw] at hrun
    | some res =>
      have hb := scan_wait_budget env _ _ _ _ hw
      cases res with
      | returned v2 t2 =>
        simp only [hw, Option.some.injEq, Prod.mk.injEq] at hrun
        rw [← hrun.2]
        exact ext_trans hP hb
      | done a b c d e f t2 =>
        simp only [hw] at hrun
        have := scan_finish_budget env w _ _ _ _ _ _ _ _ _ _ hrun
        exact ext_trans (ext_trans hP hb) this
  · have := scan_finish_budget env w _ _ _ _ _ _ _ _ _ _ hrun
    exact ext_trans (ext_trans hP (ext_emit _ _ (.tcflush _) rfl)) this

/-- C21 (as stated, refuted): with info->read_count = 80 the wait of a cycle
calls the reader with a budget of 16 ticks, and the reader returns
ICA_GETS_TIMEOUT after the sixteen empty reads of `timeout_link`. -/
theorem wait_ignores_read_count :
    window_thr.info.read_count = 80 ∧ sample_env.opt_scrypt = false ∧
    (icarus_scanhash sample_env [timeout_link] window_thr sample_work).map
      (fun p => p.2.trace.filter Event.is_gets) =
        some [.gets 5 true 16 4 .ICA_GETS_TIMEOUT] ∧
    (16 : Int) ≠ 80 :=
  ⟨rfl, rfl, rfl, by decide⟩

/-- C21 (amended): every call `icarus_scanhash` itself makes to the reply
reader (the calls with the thread handle, at the label keepwaiting) has the
fixed tick budget 48 in scrypt mode and 16 otherwise, whatever
info->read_count holds. In a cycle that is neither a first run nor a replay
after a restart, and whose port is open or reopens, the first action after
the port is ready is the reader call on the first stretch of the link with
that budget; the call is the same for every value of info->read_count. -/
theorem scanhash_reader_budget (env : Env) (t : Thr) (w : work)
    (hfirst : t.state.firstrun = false) (hcw : t.state.changework = false)
    (hopen : (open_step env (prepare_step env t w)).1 = true) :
    (∀ (links : List (List ReadEv)) (v : Int) (t' : Thr),
      icarus_scanhash env links t w = some (v, t') → ext (Event.fixed_budget env) t t') ∧
    (∀ (links : List (List ReadEv)) (v : Int) (t' : Thr),
      icarus_scanhash env links t w = some (v, t') →
      ∃ link rest out evs, links = link :: rest ∧
        icarus_gets (memset (fun _ => 0) 0 0
            (open_step env (prepare_step env t w)).2.info.read_size.toNat) link
          (open_step env (prepare_step env t w)).2.state.tv_workfinish true
          (if env.opt_scrypt then 48 else 16)
          (open_step env (prepare_step env t w)).2.info.read_size = some out ∧
        t'.trace = (open_step env (prepare_step env t w)).2.trace ++
          .gets (open_step env (prepare_step env t w)).2.device_fd true
            (if env.opt_scrypt then 48 else 16)
            (open_step env (prepare_step env t w)).2.info.read_size out.ret :: evs) ∧
    (∀ (read_count : Int) (x : Thr) (link : List ReadEv),
      wait_gets env { x with info := { x.info with read_count := read_count } } link =
        wait_gets env x link) := by
  refine ⟨fun links v t' h => scanhash_budget env links t w v t' h, ?_, fun _ _ _ => rfl⟩
  intro links v t' hrun
  have hf : (open_step env (prepare_step env t w)).2.state.firstrun = false := by
    rw [(open_step_ok env _).2.2 hopen, (prepare_step_flags env t w).2.1, hfirst]
  have hc : (open_step env (prepare_step env t w)).2.state.changework = false := by
    rw [(keeps_slots (open_step_ok env _).2.1).2.2.1, (prepare_step_flags env t w).2.2.1, hcw]
  unfold icarus_scanhash at hrun
  dsimp only at hrun
  rw [if_neg (by rw [hopen]; simp), if_pos hf, if_neg (by rw [hc]; simp)] at hrun
  cases hw : scan_wait env (open_step env (prepare_step env t w)).2.device_fd links
      (open_step env (prepare_step env t w)).2 with
  | none => simp [hw] at hrun
  | some res =>
    obtain ⟨link, rest, out, hl, hg, hext⟩ := scan_wait_first env _ _ _ _ hw
    cases res with
    | returned v2 t2 =>
      simp only [hw, Option.some.injEq, Prod.mk.injEq] at hrun
      obtain ⟨evs, he, _⟩ := hext
      refine ⟨link, rest, out, evs, hl, hg, ?_⟩
      rw [← hrun.2, he]
      simp [after_gets, emit]
    | done a b c d e f t2 =>
      simp only [hw] at hrun
      obtain ⟨evs, he, _⟩ := ext_trans hext (scan_finish_budget env w _ _ _ _ _ _ _ _ _ _ hrun)
      refine ⟨link, rest, out, evs, hl, hg, ?_⟩
      rw [he]
      simp [after_gets, emit]

/-- C21 on the session `window_thr`, whose poll window is 80 ticks: the
one reader call of the cycle has a budget of 16. -/
theorem scanhash_reader_budget_witness :
    ∃ link rest out evs, [timeout_link] = link :: rest ∧
      icarus_gets (memset (fun _ => 0) 0 0
          (open_step sample_env (prepare_step sample_env window_thr sample_work)).2.info.read_size.toNat)
        link (open_step sample_env (prepare_step sample_env window_thr sample_work)).2.state.tv_workfinish
        true (if sample_env.opt_scrypt then 48 else 16)
        (open_step sample_env (prepare_step sample_env window_thr sample_work)).2.info.read_size
          = some out ∧
      ((icarus_scanhash sample_env [timeout_link] window_thr sample_work).get rfl).2.trace =
        (open_step sample_env (prepare_step sample_env window_thr sample_work)).2.trace ++
          .gets (open_step sample_env (prepare_step sample_env window_thr sample_work)).2.device_fd
            true (if sample_env.opt_scrypt then 48 else 16)
            (open_step sample_env (prepare_step sample_env window_thr sample_work)).2.info.read_size
            out.ret :: evs :=
  (scanhash_reader_budget sample_env window_thr sample_work rfl rfl rfl).2.1 [timeout_link]
    ((icarus_scanhash sample_env [timeout_link] window_thr sample_work).get rfl).1
    ((icarus_scanhash sample_env [timeout_link] window_thr sample_work).get rfl).2
    (by simp)

/-! ### Continued search -/

/-- The work a reply is for, when the current job accepts its nonce. -/
theorem process_worknonce_current (test_nonce : Option WorkRef → Nat → Bool) (host_be : Bool)
    (state : icarus_state) (nonce : Nat)
    (h1 : test_nonce state.last_work (be32toh host_be nonce) = true) :
    (icarus_process_worknonce test_nonce host_be state nonce).2 = state.last_work := by
  unfold icarus_process_worknonce
  simp [h1]

/-- One pass of the wait on a reply whose nonce the current job accepts,
the current job not being the previous one as well. With the continued
search disabled the wait ends. With it enabled the driver computes
n = info->read_count - (elapsed ticks since the job start + 1); the wait
goes on with the same job when n is not 0, positive or negative, and ends
when n is 0. -/
theorem scan_wait_current (env : Env) (fd : Int) (link : List ReadEv)
    (links : List (List ReadEv)) (t : Thr) (out : GetsOut)
    (hgets : wait_gets env t link = some out) (hok : out.ret = .ICA_GETS_OK)
    (h1 : env.test_nonce t.state.last_work (reply_nonce env out) = true)
    (h2 : t.state.last_work.isSome = true)
    (h3 : ptr_eq t.state.last_work t.state.last2_work = false) :
    scan_wait env fd (link :: links) t =
      if t.info.continue_search = true then
        if t.info.read_count -
            (Int.tdiv (env.timer_elapsed_us t.state.tv_workstart
              (emit (after_gets env fd t out) (.tcflush fd)).trace) (Int.tdiv 1000000 10) + 1)
              ≠ 0 then
          scan_wait env fd links
            (emit (emit (emit (after_gets env fd t out) (.tcflush fd)) .cgtime)
              (.submit_nonce t.state.last_work (reply_nonce env out)))
        else
          some (.done .ICA_GETS_OK (reply_nonce env out) t.state.last_work false fd links
            (emit (emit (after_gets env fd t out) (.tcflush fd)) .cgtime))
      else
        some (.done .ICA_GETS_OK (reply_nonce env out) t.state.last_work false fd links
          (emit (after_gets env fd t out) (.tcflush fd))) := by
  have hp := process_worknonce_current env.test_nonce env.host_be
    { t.state with tv_workfinish := out.tv_finish } (load32 env.host_be (rev out.buf 4)) h1
  have hf := process_worknonce_fst env.test_nonce env.host_be
    { t.state with tv_workfinish := out.tv_finish } (load32 env.host_be (rev out.buf 4))
  rw [scan_wait]
  simp only [hgets, hok, emit, after_gets]
  rw [hp, hf]
  simp only [h2, h3, if_true, Bool.false_eq_true, if_false]
  rfl

/-- C22 at the failing input: the continued search is enabled, the poll
window is 10 ticks and the reply arrives 20 ticks after the job start, so
10 - (20 + 1) = -11 ticks remain. The current job accepts the nonce. The
driver submits it and calls the reader again, before any job is written:
the cycle keeps waiting on the same job although the window is exceeded. -/
theorem continue_search_past_window :
    search_thr.info.continue_search = true ∧
    search_thr.info.read_count -
      (Int.tdiv (late_env.timer_elapsed_us search_thr.state.tv_workstart []) (Int.tdiv 1000000 10)
        + 1) = -11 ∧
    late_env.test_nonce search_thr.state.last_work 0x04030201 = true ∧
    (icarus_scanhash late_env [sample_reply, timeout_link] search_thr sample_work).map
      (fun p => p.2.trace.take 6) =
        some [.gets 5 true 16 4 .ICA_GETS_OK, .tcflush 5, .cgtime,
          .submit_nonce (some ⟨1, sample_work⟩) 0x04030201,
          .gets 5 true 16 4 .ICA_GETS_TIMEOUT, .tcflush 5] :=
  ⟨rfl, by decide, rfl, rfl⟩

/-! ### Cycles that start no job -/

/-- A reopen leaves `firstrun` set. -/
theorem reopen_firstrun (env : Env) (t : Thr) (h : t.state.firstrun = true) :
    (icarus_reopen env t).2.state.firstrun = true := by
  unfold icarus_reopen
  dsimp only
  split_ifs
  · rfl
  · simp [emit, close_state, h]

/-- The step that starts the job leaves `firstrun` set when the device is
not enabled or `icarus_job_start` fails. -/
theorem start_job_step_failure (env : Env) (t : Thr) (hid : t.state.identify = false)
    (hfail : t.deven_enabled = false ∨ (icarus_job_start env t).1 = false) :
    (start_job_step env t).state.firstrun = true := by
  unfold start_job_step
  rw [if_neg (by rw [hid]; simp)]
  rcases Bool.eq_false_or_eq_true t.deven_enabled with hen | hen
  · rcases hfail with h | h
    · rw [h] at hen
      exact absurd hen (by simp)
    · rw [if_neg (by rw [hen]; simp), if_neg (by rw [h]; simp)]
      rfl
  · rw [if_pos hen]
    rfl

/-- Where a cycle that read a reply, timed out or replays a restart leaves
`firstrun`: as the start of the next job left it. -/
theorem scan_next_firstrun (env : Env) (w : work) (ret : GetsRet) (nonce : Nat)
    (nonce_work : Option WorkRef) (hw : Bool) (elapsed tv_start : timeval) (T : Thr)
    (hret : ret ≠ .ICA_GETS_ERROR) :
    (scan_next env w ret nonce nonce_work hw elapsed tv_start T).2.state.firstrun =
      (start_next_job env ret hw elapsed T).state.firstrun := by
  unfold scan_next
  dsimp only
  cases ret
  · dsimp only
    split_ifs <;> exact (transition_state env _ _).2.2.2.1
  · exact absurd rfl hret
  · exact (transition_state env _ _).2.2.2.1
  · exact (transition_state env _ _).2.2.2.1

/-- Outside the ICA_GETS_ERROR branch, a cycle that starts no job because
the device is not enabled or `icarus_job_start` fails comes to the label
`out` with `firstrun` set. -/
theorem scan_next_no_job (env : Env) (w : work) (ret : GetsRet) (nonce : Nat)
    (nonce_work : Option WorkRef) (hw : Bool) (elapsed tv_start : timeval) (T : Thr)
    (hret : ret ≠ .ICA_GETS_ERROR)
    (hid : T.state.identify = false)
    (hfail : (forced_reopen env hw (dclk_step ret hw elapsed T)).deven_enabled = false ∨
      (icarus_job_start env (forced_reopen env hw (dclk_step ret hw elapsed T))).1 = false) :
    (scan_next env w ret nonce nonce_work hw elapsed tv_start T).2.state.firstrun = true := by
  rw [scan_next_firstrun env w ret nonce nonce_work hw elapsed tv_start T hret]
  have hk := keeps_trans (dclk_step_ok ret hw elapsed T).2
    (forced_reopen_ok env hw (dclk_step ret hw elapsed T)).2
  have hid2 : (forced_reopen env hw (dclk_step ret hw elapsed T)).state.identify = false := by
    rw [(keeps_slots hk).2.2.2.1, hid]
  have h1 := start_job_step_failure env _ hid2 hfail
  unfold start_next_job cycle_reopen
  split_ifs
  · exact reopen_firstrun env _ h1
  · exact h1

/-- C29 at the failing inputs. The device of `disabled_thr` is not enabled:
its first cycle writes nothing, returns 0 and leaves `firstrun` false, and
the next cycle calls the reader for a reply. On `first_thr` with every
write failing, the first cycle closes the port after the failed write,
returns 0 and leaves `firstrun` false. -/
theorem first_run_without_job :
    disabled_thr.state.firstrun = true ∧
    (icarus_scanhash sample_env [] disabled_thr sample_work).map
      (fun p => (p.1, p.2.state.firstrun, p.2.trace.any Event.is_write)) =
        some (0, false, false) ∧
    ((icarus_scanhash sample_env [] disabled_thr sample_work).bind
      (fun p => icarus_scanhash sample_env [timeout_link] p.2 sample_work)).map
      (fun q => q.2.trace.filter Event.is_gets) =
        some [.gets 5 true 16 4 .ICA_GETS_TIMEOUT] ∧
    (icarus_scanhash mute_env [] first_thr sample_work).map
      (fun p => (p.1, p.2.state.firstrun, p.2.device_fd)) = some (0, false, -1) ∧
    (icarus_job_start mute_env
      { (prepare_step mute_env first_thr sample_work) with trace := [.tcflush 5] }).1 = false :=
  ⟨rfl, rfl, rfl, rfl, rfl⟩

/-! ### The identify hold -/

/-- The wait of `handle_identify` writes nothing, leaves the session as it
is, and submits every nonce it reads against `last_work`. -/
theorem identify_wait_held (env : Env) (fd : Int) :
    ∀ (links : List (List ReadEv)) (t t' : Thr) (rest : List (List ReadEv)),
      identify_wait env fd links t = some (t', rest) →
      ext (Event.held (t.state.last_work.map WorkRef.addr)) t t' ∧ t'.state = t.state := by
  intro links
  induction links with
  | nil =>
    intro t t' rest h
    simp only [identify_wait] at h
    split_ifs at h
    simp only [Option.some.injEq, Prod.mk.injEq] at h
    rw [← h.1]
    exact ⟨ext_emit _ _ _ rfl, rfl⟩
  | cons link links ih =>
    intro t t' rest h
    simp only [identify_wait] at h
    split_ifs at h
    · simp only [Option.some.injEq, Prod.mk.injEq] at h
      rw [← h.1]
      exact ⟨ext_emit _ _ _ rfl, rfl⟩
    · cases hg : icarus_gets (memset (fun _ => 0) 0 0 (emit t .cgtime).info.read_size.toNat) link
          (env.now t.trace) false
          (trunc (((emit t .cgtime).info.fullnonce
            - env.tdiff (env.now t.trace) (emit t .cgtime).state.tv_workstart) * 10))
          (emit t .cgtime).info.read_size with
      | none => simp [hg] at h
      | some out =>
        simp only [hg] at h
        have h1 : ext (Event.held (t.state.last_work.map WorkRef.addr)) t (emit t .cgtime) :=
          ext_emit _ _ _ rfl
        have h2 : ext (Event.held (t.state.last_work.map WorkRef.addr)) (emit t .cgtime)
            (emit (emit t .cgtime) (.gets fd false
              (trunc (((emit t .cgtime).info.fullnonce
                - env.tdiff (env.now t.trace) (emit t .cgtime).state.tv_workstart) * 10))
              (emit t .cgtime).info.read_size out.ret)) := ext_emit _ _ _ rfl
        split_ifs at h
        · obtain ⟨e1, e2⟩ := ih _ _ _ h
          exact ⟨ext_trans (ext_trans h1 h2)
            (ext_trans (ext_emit _ _ (.submit_nonce _ _) (by simp [Event.held, emit])) e1), e2⟩
        · obtain ⟨e1, e2⟩ := ih _ _ _ h
          exact ⟨ext_trans (ext_trans h1 h2) e1, e2⟩

/-- With an identify pending, the start of the next job writes nothing. -/
theorem start_next_job_hold (env : Env) (ret : GetsRet) (hw : Bool) (elapsed : timeval)
    (T : Thr) (hid : T.state.identify = true) :
    ext Event.not_write T (start_next_job env ret hw elapsed T) := by
  have h1 : ext Event.not_write T (dclk_step ret hw elapsed T) := by
    unfold dclk_step
    dsimp only
    split_ifs <;>
      first
      | exact ext_refl _ _
      | exact ext_emit _ _ _ rfl
      | exact ext_trans (ext_emit _ T (.dclk_nonces _) rfl) (ext_emit _ _ (.dclk_errors _) rfl)
  have h2 : ext Event.not_write (dclk_step ret hw elapsed T)
      (forced_reopen env hw (dclk_step ret hw elapsed T)) := by
    unfold forced_reopen
    split_ifs
    · exact ext_of_trace_eq (ext_refl _ _) rfl
    · exact ext_trans (ext_of_trace_eq (ext_refl _ (dclk_step ret hw elapsed T)) rfl)
        (ext_mono (reopen_ext env _) recovery_not_write)
    · exact ext_refl _ _
  have hk := keeps_trans (dclk_step_ok ret hw elapsed T).2
    (forced_reopen_ok env hw (dclk_step ret hw elapsed T)).2
  have hid2 : (forced_reopen env hw (dclk_step ret hw elapsed T)).state.identify = true := by
    rw [(keeps_slots hk).2.2.2.1, hid]
  have h3 : start_job_step env (forced_reopen env hw (dclk_step ret hw elapsed T)) =
      forced_reopen env hw (dclk_step ret hw elapsed T) := by
    unfold start_job_step
    rw [if_pos hid2]
  unfold start_next_job
  rw [h3]
  unfold cycle_reopen
  split_ifs
  · exact ext_trans (ext_trans h1 h2) (ext_mono (reopen_ext env _) recovery_not_write)
  · exact ext_trans h1 h2

/-- A cycle with an identify pending comes to the label `out` without
having written a job: `last_work` is then a copy, made in this cycle, of
the job the cycle was given, and `last2_work` the job that was current
before. From there the wait of `handle_identify` submits every nonce it
reads against that copy, and writes nothing. -/
theorem identify_hold_slots (env : Env) (w : work) (ret : GetsRet) (nonce : Nat)
    (nonce_work : Option WorkRef) (hw : Bool) (elapsed tv_start : timeval) (T : Thr)
    (hid : T.state.identify = true) :
    ext Event.not_write T (scan_next env w ret nonce nonce_work hw elapsed tv_start T).2 ∧
    (∃ addr, (scan_next env w ret nonce nonce_work hw elapsed tv_start T).2.state.last_work =
      some ⟨addr, { w with blk_nonce := 0xffffffff }⟩) ∧
    (scan_next env w ret nonce nonce_work hw elapsed tv_start T).2.state.last2_work =
      T.state.last_work ∧
    (∀ (links : List (List ReadEv)) (t' : Thr) (rest : List (List ReadEv)),
      identify_wait env (scan_next env w ret nonce nonce_work hw elapsed tv_start T).2.device_fd
        links (scan_next env w ret nonce nonce_work hw elapsed tv_start T).2 = some (t', rest) →
      ext (Event.held ((scan_next env w ret nonce nonce_work hw elapsed tv_start
        T).2.state.last_work.map WorkRef.addr))
        (scan_next env w ret nonce nonce_work hw elapsed tv_start T).2 t') := by
  have h1 := start_next_job_hold env ret hw elapsed T hid
  have hk := keeps_slots (start_next_job_ok env ret hw elapsed T).2
  have ht : ∀ x : Thr, ext Event.not_write x
      (icarus_transition_work env x { w with blk_nonce := 0xffffffff }) := by
    intro x
    unfold icarus_transition_work
    dsimp only
    split_ifs
    · exact ext_of_trace_eq (ext_trans (ext_emit _ x (.free_work _) rfl)
        (ext_emit _ _ (.copy_work _) rfl)) rfl
    · exact ext_of_trace_eq (ext_emit _ x (.copy_work _) rfl) rfl
  refine ⟨?_, ?_, ?_, fun links t' rest h => (identify_wait_held env _ links _ t' rest h).1⟩
  · unfold scan_next
    dsimp only
    cases ret
    · dsimp only
      split_ifs
      · exact ext_of_trace_eq (ext_trans (ext_trans h1 (ext_emit _ _ (.submit_nonce _ _) rfl))
          (ht _)) rfl
      · exact ext_of_trace_eq (ext_trans (ext_trans h1 (ext_emit _ _ (.inc_hw_errors _ _) rfl))
          (ht _)) rfl
    · exact ext_trans (ext_of_trace_eq h1 rfl) (ht _)
    · exact ext_trans h1 (ht _)
    · exact ext_trans h1 (ht _)
  · unfold scan_next
    dsimp only
    cases ret
    · dsimp only
      split_ifs <;> exact (transition_state env _ _).1
    · exact (transition_state env _ _).1
    · exact (transition_state env _ _).1
    · exact (transition_state env _ _).1
  · unfold scan_next
    dsimp only
    cases ret
    · dsimp only
      split_ifs
      · exact (transition_state env _ _).2.1.trans hk.1
      · exact (transition_state env _ _).2.1.trans hk.1
    · exact (transition_state env _ _).2.1.trans hk.1
    · exact (transition_state env _ _).2.1.trans hk.1
    · exact (transition_state env _ _).2.1.trans hk.1

/-- C27 at the failing input: an identify is pending, the job at address 1
is running, and the cycle is given the job `next_work`. The wait of the
cycle times out; no job is started, but the job slots move on, so that
`last_work` is the copy of `next_work` at address 3. The wait of
`handle_identify` then reads a reply and submits its nonce against the job
at address 3, whose frame goes on the link only afterwards, when the hold
is over. -/
theorem identify_reports_unsent :
    hold_thr.state.last_work = some ⟨1, sample_work⟩ ∧
    (icarus_scanhash hold_env [timeout_link, sample_reply] hold_thr next_work).map
      (fun p => p.2.trace.take 7) =
        some [.gets 5 true 16 4 .ICA_GETS_TIMEOUT, .tcflush 5,
          .free_work (some ⟨2, sample_work⟩), .copy_work 3, .cgtime,
          .gets 5 false 30 4 .ICA_GETS_OK,
          .submit_nonce (some ⟨3, { next_work with blk_nonce := 0xffffffff }⟩) 0x01020304] ∧
    (icarus_scanhash hold_env [timeout_link, sample_reply] hold_thr next_work).map
      (fun p => p.2.trace.drop 7) =
        some [.cgtime, .cgsleep_ms 3000, .cgtime,
          .write 5 (job_frame hold_env.opt_scrypt
            (prepare_step hold_env hold_thr next_work).state),
          .usleep 2000] ∧
    job_frame hold_env.opt_scrypt (prepare_step hold_env hold_thr next_work).state ≠
      job_frame hold_env.opt_scrypt (prepare_step hold_env hold_thr sample_work).state := by
  refine ⟨rfl, ?_, ?_, ?_⟩
  · with_unfolding_all rfl
  · with_unfolding_all rfl
  · decide

/-! ### The configuration over a cycle -/

theorem reopen_info (env : Env) (t : Thr) : (icarus_reopen env t).2.info = t.info := by
  unfold icarus_reopen
  dsimp only
  split_ifs <;> simp [emit, close_info]

theorem job_start_info (env : Env) (t : Thr) : (icarus_job_start env t).2.info = t.info := by
  unfold icarus_job_start icarus_write
  dsimp only
  split_ifs <;> simp [emit, close_info]

/-- The wait of a cycle leaves the configuration as it is. -/
theorem scan_wait_info (env : Env) (fd : Int) :
    ∀ (links : List (List ReadEv)) (t : Thr) (res : WaitResult),
      scan_wait env fd links t = some res →
      match res with
      | .returned _ t' => t'.info = t.info
      | .done _ _ _ _ _ _ t' => t'.info = t.info := by
  intro links
  induction links with
  | nil =>
    intro t res h
    simp [scan_wait] at h
  | cons link links ih =>
    intro t res h
    rw [scan_wait] at h
    cases hg : wait_gets env t link with
    | none => simp [hg] at h
    | some out =>
      simp only [hg] at h
      cases hr : out.ret with
      | ICA_GETS_RESTART =>
        simp only [hr, Option.some.injEq] at h
        subst h
        rfl
      | ICA_GETS_ERROR =>
        simp only [hr] at h
        split_ifs at h
        · simp only [Option.some.injEq] at h
          subst h
          show (icarus_reopen env _).2.info = _
          rw [reopen_info]
          simp [emit, close_info, after_gets]
        · simp only [Option.some.injEq] at h
          subst h
          show (icarus_reopen env _).2.info = _
          rw [reopen_info]
          simp [emit, close_info, after_gets]
      | ICA_GETS_TIMEOUT =>
        simp only [hr] at h
        split_ifs at h
        · simp only [Option.some.injEq] at h
          subst h
          show (icarus_reopen env _).2.info = _
          rw [reopen_info]
          rfl
        · simp only [Option.some.injEq] at h
          subst h
          show (icarus_reopen env _).2.info = _
          rw [reopen_info]
          rfl
        · simp only [Option.some.injEq] at h
          subst h
          rfl
      | ICA_GETS_OK =>
        simp only [hr] at h
        split_ifs at h
        · have := ih _ _ h
          cases res with
          | returned v t' => exact this
          | done a b c d e f t' => exact this
        · have := ih _ _ h
          cases res with
          | returned v t' => exact this
          | done a b c d e f t' => exact this
        · simp only [Option.some.injEq] at h
          subst h
          rfl
        · simp only [Option.some.injEq] at h
          subst h
          rfl
        · simp only [Option.some.injEq] at h
          subst h
          rfl

theorem identify_wait_info (env : Env) (fd : Int) :
    ∀ (links : List (List ReadEv)) (t t' : Thr) (rest : List (List ReadEv)),
      identify_wait env fd links t = some (t', rest) → t'.info = t.info := by
  intro links
  induction links with
  | nil =>
    intro t t' rest h
    simp only [identify_wait] at h
    split_ifs at h
    simp only [Option.some.injEq, Prod.mk.injEq] at h
    rw [← h.1]
    rfl
  | cons link links ih =>
    intro t t' rest h
    simp only [identify_wait] at h
    split_ifs at h
    · simp only [Option.some.injEq, Prod.mk.injEq] at h
      rw [← h.1]
      rfl
    · cases hg : icarus_gets (memset (fun _ => 0) 0 0 (emit t .cgtime).info.read_size.toNat) link
          (env.now t.trace) false
          (trunc (((emit t .cgtime).info.fullnonce
            - env.tdiff (env.now t.trace) (emit t .cgtime).state.tv_workstart) * 10))
          (emit t .cgtime).info.read_size with
      | none => simp [hg] at h
      | some out =>
        simp only [hg] at h
        split_ifs at h
        · exact (ih _ _ _ h).trans rfl
        · exact (ih _ _ _ h).trans rfl

theorem identify_resume_info (env : Env) (t : Thr) : (identify_resume env t).info = t.info := by
  unfold identify_resume
  dsimp only
  split_ifs
  · rfl
  · show (icarus_job_start env _).2.info = _
    rw [job_start_info]
    rfl
  · show (icarus_job_start env _).2.info = _
    rw [job_start_info]
    rfl
  · rfl

theorem handle_identify_info (env : Env) (was_first_run : Bool) (links : List (List ReadEv))
    (t t' : Thr) (h : handle_identify env was_first_run links t = some t') :
    t'.info = t.info := by
  unfold handle_identify at h
  split_ifs at h
  · simp only [Option.some.injEq] at h
    rw [← h]
  · simp only [Option.some.injEq] at h
    rw [← h]
    exact identify_resume_info env t
  · cases hw : identify_wait env t.device_fd links t with
    | none => simp [hw] at h
    | some p =>
      simp only [hw, Option.some.injEq] at h
      rw [← h, identify_resume_info]
      exact identify_wait_info env _ _ _ _ p.2 (by rw [hw])

/-- The configuration at the label `out`: after a reply, what the
accounting of the cycle makes of the configuration the start of the next
job left; otherwise that configuration itself. -/
theorem scan_next_info (env : Env) (w : work) (ret : GetsRet) (nonce : Nat)
    (nonce_work : Option WorkRef) (hw : Bool) (elapsed tv_start : timeval) (T : Thr) :
    (scan_next env w ret nonce nonce_work hw elapsed tv_start T).2.info =
      if ret = .ICA_GETS_OK then
        (scan_account env (start_next_job env ret hw elapsed T).info nonce hw elapsed tv_start).2
      else (start_next_job env ret hw elapsed T).info := by
  unfold scan_next
  dsimp only
  cases ret
  · dsimp only
    rw [if_pos rfl]
    split_ifs <;> rw [(transition_state env _ _).2.2.2.2.2.1] <;> rfl
  · show (icarus_transition_work env _ _).info = (start_next_job env _ hw elapsed T).info
    exact (transition_state env _ _).2.2.2.2.2.1
  · show (icarus_transition_work env _ _).info = (start_next_job env _ hw elapsed T).info
    exact (transition_state env _ _).2.2.2.2.2.1
  · show (icarus_transition_work env _ _).info = (start_next_job env _ hw elapsed T).info
    exact (transition_state env _ _).2.2.2.2.2.1

theorem scan_finish_info (env : Env) (w : work) (was_first_run : Bool) (ret : GetsRet)
    (nonce : Nat) (nonce_work : Option WorkRef) (hw : Bool)
    (elapsed tv_start : timeval) (links : List (List ReadEv)) (T : Thr) (r : Int × Thr)
    (h : scan_finish env w was_first_run ret nonce nonce_work hw elapsed tv_start links T
      = some r) :
    cfg r.2.info = cfg T.info ∨
      ∃ i, cfg i = cfg T.info ∧ r.2.info = (scan_account env i nonce hw elapsed tv_start).2 := by
  have hk := (start_next_job_ok env ret hw elapsed T).2.2.1
  have hn := scan_next_info env w ret nonce nonce_work hw elapsed tv_start T
  have key : cfg (scan_next env w ret nonce nonce_work hw elapsed tv_start T).2.info = cfg T.info ∨
      ∃ i, cfg i = cfg T.info ∧
        (scan_next env w ret nonce nonce_work hw elapsed tv_start T).2.info =
          (scan_account env i nonce hw elapsed tv_start).2 := by
    rw [hn]
    split_ifs
    · exact Or.inr ⟨_, hk, rfl⟩
    · exact Or.inl hk
  unfold scan_finish scan_out at h
  split_ifs at h
  · cases hh : handle_identify env was_first_run links
        (scan_next env w ret nonce nonce_work hw elapsed tv_start T).2 with
    | none => simp [hh] at h
    | some t' =>
      simp only [hh, Option.some.injEq] at h
      rw [← h]
      show cfg t'.info = _ ∨ ∃ i, _ ∧ t'.info = _
      rw [handle_identify_info env _ _ _ _ hh]
      exact key
  · simp only [Option.some.injEq] at h
    rw [← h]
    exact key

/-- Over a cycle the configuration changes, `reopen_now` apart, only by the
accounting of a reply. -/
theorem scanhash_info (env : Env) (links : List (List ReadEv)) (t : Thr) (w : work)
    (v : Int) (t' : Thr) (hrun : icarus_scanhash env links t w = some (v, t')) :
    cfg t'.info = cfg t.info ∨
      ∃ i nonce hw elapsed tv_start, cfg i = cfg t.info ∧
        t'.info = (scan_account env i nonce hw elapsed tv_start).2 := by
  have hP : cfg (open_step env (prepare_step env t w)).2.info = cfg t.info := by
    rw [(open_step_ok env _).2.1.2.1, (prepare_step_flags env t w).2.2.2.2.2.2.2.2]
  have lift : ∀ (T : Thr) (r : Int × Thr) nonce hw elapsed tv_start, cfg T.info = cfg t.info →
      (cfg r.2.info = cfg T.info ∨
        ∃ i, cfg i = cfg T.info ∧ r.2.info = (scan_account env i nonce hw elapsed tv_start).2) →
      (cfg r.2.info = cfg t.info ∨
        ∃ i nonce hw elapsed tv_start, cfg i = cfg t.info ∧
          r.2.info = (scan_account env i nonce hw elapsed tv_start).2) := by
    intro T r nonce hw elapsed tv_start hT h
    rcases h with h | ⟨i, h1, h2⟩
    · exact Or.inl (h.trans hT)
    · exact Or.inr ⟨i, nonce, hw, elapsed, tv_start, h1.trans hT, h2⟩
  unfold icarus_scanhash at hrun
  dsimp only at hrun
  split_ifs at hrun with h1 h2 h3
  · simp only [Option.some.injEq, Prod.mk.injEq] at hrun
    rw [← hrun.2]
    exact Or.inl hP
  · exact lift _ (v, t') _ _ _ _ (by exact hP) (scan_finish_info env w _ _ _ _ _ _ _ _ _ _ hrun)
  · cases hw : scan_wait env (open_step env (prepare_step env t w)).2.device_fd links
        (open_step env (prepare_step env t w)).2 with
    | none => simp [hw] at hrun
    | some res =>
      have hb := scan_wait_info env _ _ _ _ hw
      cases res with
      | returned v2 t2 =>
        simp only [hw, Option.some.injEq, Prod.mk.injEq] at hrun
        rw [← hrun.2]
        left
        rw [hb]
        exact hP
      | done a b c d e f t2 =>
        simp only [hw] at hrun
        exact lift _ (v, t') _ _ _ _ (by rw [hb]; exact hP)
          (scan_finish_info env w _ _ _ _ _ _ _ _ _ _ hrun)
  · exact lift _ (v, t') _ _ _ _ (by exact hP) (scan_finish_info env w _ _ _ _ _ _ _ _ _ _ hrun)

/-! ### The close of a history entry -/

theorem sample_entry_fields (info : ICARUS_INFO) (hash_count : Int) (elapsed tv_start : timeval) :
    (sample_entry info hash_count elapsed tv_start).values = (info.history.headD {}).values + 1 ∧
    (sample_entry info hash_count elapsed tv_start).finish =
      if (info.history.headD {}).values = 0 then timeradd tv_start ⟨60, 0⟩
      else (info.history.headD {}).finish := by
  unfold sample_entry add_sample
  dsimp only
  split_ifs <;> exact ⟨rfl, rfl⟩

/-- The sampling step when the entry stays open. -/
theorem history_sample_open (info : ICARUS_INFO) (hash_count : Int) (elapsed tv_start : timeval)
    (h : ¬ history_closes info tv_start) :
    history_sample info hash_count elapsed tv_start =
      { info with
        history := sample_entry info hash_count elapsed tv_start :: info.history.tail,
        history_count := info.history_count + 1 } := by
  obtain ⟨e1, e2⟩ := sample_entry_fields info hash_count elapsed tv_start
  unfold history_sample
  dsimp only
  rw [if_neg]
  rw [e1, e2]
  exact h

/-- The sampling step when the entry closes. -/
theorem history_sample_closed (info : ICARUS_INFO) (hash_count : Int) (elapsed tv_start : timeval)
    (h : history_closes info tv_start) :
    history_sample info hash_count elapsed tv_start =
      { history_refit { info with
          history := sample_entry info hash_count elapsed tv_start :: info.history.tail } with
        history_count := (history_refit { info with
          history := sample_entry info hash_count elapsed tv_start :: info.history.tail
          }).history_count + 1 } := by
  obtain ⟨e1, e2⟩ := sample_entry_fields info hash_count elapsed tv_start
  unfold history_sample
  dsimp only
  rw [if_pos]
  rw [e1, e2]
  exact h

/-- What a refit leaves at the head of the history: an empty entry. -/
theorem refit_history (info : ICARUS_INFO) :
    (history_refit info).history = ({} : ICARUS_HISTORY) :: info.history.dropLast ∧
    (history_refit info).min_data_count =
      if info.min_data_count < 100 then info.min_data_count * 2 else info.min_data_count := by
  unfold history_refit
  dsimp only
  split_ifs <;> exact ⟨rfl, rfl⟩

/-- The speed detection does not run. -/
theorem default_detect_idle (env : Env) (info : ICARUS_INFO) (hash_count : Int)
    (elapsed : timeval) (h : info.do_default_detection = 0 ∨ elapsed.tv_sec < 1) :
    default_detect env info hash_count elapsed = info := by
  unfold default_detect
  rw [if_neg]
  rintro ⟨h1, h2⟩
  rcases h with h | h
  · exact h1 h
  · omega

/-- The accounting of a reply that contributes a timing sample, when the
speed detection does not run: the throughput is stored, then the sample is
taken. -/
theorem scan_account_sample (env : Env) (info : ICARUS_INFO) (nonce : Nat)
    (elapsed tv_start : timeval) (hsample : takes_sample info nonce false)
    (hdet : info.do_default_detection = 0 ∨ elapsed.tv_sec < 1) :
    (scan_account env info nonce false elapsed tv_start).2 =
      history_sample
        { info with prev_hashrate := ddiv (of_int (reply_hashes env nonce)) (dseconds elapsed) }
        (reply_hashes env nonce) elapsed tv_start := by
  unfold scan_account
  dsimp only
  rw [if_pos rfl]
  dsimp only
  rw [default_detect_idle env _ _ _ (by exact hdet)]
  rw [if_pos (by exact hsample)]
  rfl

/-- C23 (as stated, refuted): the session is in calibration with the last
round of the speed detection still to come, its poll window is 80 ticks and
its history is empty. The cycle reads a reply one second into the job, with
the nonce 375000000, which the current job accepts: it contributes a timing
sample (history_count goes to 1 and the open entry holds 1 sample, fewer
than min_data_count = 5, so the entry stays open), and the speed detection
of the same cycle, finding 375 MH/s, stores read_count = 111. -/
theorem detection_moves_read_count :
    detect_thr.info.read_count = 80 ∧ detect_thr.info.history_count = 0 ∧
    ¬ history_closes detect_thr.info detect_thr.state.tv_workstart ∧
    (icarus_scanhash late_env [detect_reply] detect_thr sample_work).map
      (fun p => (p.2.info.read_count, p.2.info.history_count,
        (p.2.info.history.headD {}).values, p.2.info.min_data_count)) =
      some (111, 1, 1, 5) := by
  refine ⟨rfl, rfl, ?_, ?_⟩
  · unfold history_closes
    decide
  · with_unfolding_all decide

/-- C23 (amended): in a cycle that contributes a timing sample and in which
the speed detection does not run, the open history entry is closed and the
fit recomputed if and only if both hold: with the sample the entry holds at
least min_data_count samples, and the job's start time is strictly later
than the deadline of the entry (the start time of the job of its first
sample + 60 s). When they hold, Hs, W and fullnonce are those of the fit
over the closed entries, and a new empty entry is opened. When either
fails, Hs, W, fullnonce, read_count and min_data_count are as before the
cycle, and the entry holds one sample more. The sampling step by itself
leaves the five values unchanged whenever the test fails; and over a whole
cycle the configuration is changed, `reopen_now` apart, by nothing but the
accounting of a reply. -/
theorem history_close_condition (env : Env) (info : ICARUS_INFO) (nonce : Nat)
    (elapsed tv_start : timeval) (hsample : takes_sample info nonce false)
    (hdet : info.do_default_detection = 0 ∨ elapsed.tv_sec < 1) :
    ((((scan_account env info nonce false elapsed tv_start).2.history.headD {}).values = 0 ↔
      history_closes info tv_start) ∧
    (history_closes info tv_start →
      (scan_account env info nonce false elapsed tv_start).2.Hs =
        refit_Hs (history_merge
          (sample_entry info (reply_hashes env nonce) elapsed tv_start ::
            info.history.tail).dropLast ({}, 0)).1 ∧
      (scan_account env info nonce false elapsed tv_start).2.W =
        refit_W (history_merge
          (sample_entry info (reply_hashes env nonce) elapsed tv_start ::
            info.history.tail).dropLast ({}, 0)).1
          (scan_account env info nonce false elapsed tv_start).2.Hs ∧
      (scan_account env info nonce false elapsed tv_start).2.fullnonce =
        (scan_account env info nonce false elapsed tv_start).2.W +
          (scan_account env info nonce false elapsed tv_start).2.Hs * 4294967296) ∧
    (¬ history_closes info tv_start →
      (scan_account env info nonce false elapsed tv_start).2.Hs = info.Hs ∧
      (scan_account env info nonce false elapsed tv_start).2.W = info.W ∧
      (scan_account env info nonce false elapsed tv_start).2.fullnonce = info.fullnonce ∧
      (scan_account env info nonce false elapsed tv_start).2.read_count = info.read_count ∧
      (scan_account env info nonce false elapsed tv_start).2.min_data_count =
        info.min_data_count ∧
      ((scan_account env info nonce false elapsed tv_start).2.history.headD {}).values =
        (info.history.headD {}).values + 1 ∧
      ((scan_account env info nonce false elapsed tv_start).2.history.headD {}).finish =
        if (info.history.headD {}).values = 0 then timeradd tv_start ⟨60, 0⟩
        else (info.history.headD {}).finish)) ∧
    (∀ (i : ICARUS_INFO) (hash_count : Int), ¬ history_closes i tv_start →
      (history_sample i hash_count elapsed tv_start).Hs = i.Hs ∧
      (history_sample i hash_count elapsed tv_start).W = i.W ∧
      (history_sample i hash_count elapsed tv_start).fullnonce = i.fullnonce ∧
      (history_sample i hash_count elapsed tv_start).read_count = i.read_count ∧
      (history_sample i hash_count elapsed tv_start).min_data_count = i.min_data_count) ∧
    (∀ (links : List (List ReadEv)) (t : Thr) (w : work) (v : Int) (t' : Thr),
      icarus_scanhash env links t w = some (v, t') →
      cfg t'.info = cfg t.info ∨
        ∃ i n hw el ts, cfg i = cfg t.info ∧ t'.info = (scan_account env i n hw el ts).2) := by
  have hA := scan_account_sample env info nonce elapsed tv_start hsample hdet
  have hcl : history_closes
      { info with prev_hashrate := ddiv (of_int (reply_hashes env nonce)) (dseconds elapsed) } tv_start ↔
      history_closes info tv_start := Iff.rfl
  have hse : sample_entry
      { info with prev_hashrate := ddiv (of_int (reply_hashes env nonce)) (dseconds elapsed) }
      (reply_hashes env nonce) elapsed tv_start =
      sample_entry info (reply_hashes env nonce) elapsed tv_start := rfl
  obtain ⟨v1, v2⟩ := sample_entry_fields info (reply_hashes env nonce) elapsed tv_start
  refine ⟨⟨?_, ?_, ?_⟩, ?_, fun links t w v t' h => scanhash_info env links t w v t' h⟩
  · by_cases hc : history_closes info tv_start
    · rw [hA, history_sample_closed _ _ _ _ (hcl.mpr hc)]
      simp only [(refit_history _).1, List.headD_cons, hc]
    · rw [hA, history_sample_open _ _ _ _ (fun h => hc (hcl.mp h))]
      simp only [List.headD_cons, hse, v1, hc, iff_false]
      omega
  · intro hc
    rw [hA, history_sample_closed _ _ _ _ (hcl.mpr hc)]
    obtain ⟨f1, f2, f3⟩ := refit_fields
      { ({ info with prev_hashrate := ddiv (of_int (reply_hashes env nonce)) (dseconds elapsed) } :
          ICARUS_INFO) with
        history := sample_entry
          { info with prev_hashrate := ddiv (of_int (reply_hashes env nonce)) (dseconds elapsed) }
          (reply_hashes env nonce) elapsed tv_start :: info.history.tail }
    refine ⟨f1, ?_, ?_⟩
    · show (history_refit _).W = refit_W _ (history_refit _).Hs
      rw [f2, f1]
      rfl
    · show (history_refit _).fullnonce = (history_refit _).W + (history_refit _).Hs * _
      rw [f3, f2, f1]
  · intro hc
    rw [hA, history_sample_open _ _ _ _ (fun h => hc (hcl.mp h))]
    refine ⟨rfl, rfl, rfl, rfl, rfl, ?_, ?_⟩
    · simp only [List.headD_cons, hse, v1]
    · simp only [List.headD_cons, hse, v2]
  · intro i hash_count hc
    rw [history_sample_open _ _ _ _ hc]
    exact ⟨rfl, rfl, rfl, rfl, rfl⟩

/-- C23 on the session `calibrating_thr`, whose first timing sample comes
from a reply with the nonce 375000000 read one second into the job: the
entry stays open, and Hs, W, fullnonce, read_count and min_data_count are
as before. -/
theorem history_close_condition_witness :
    (scan_account late_env calibrating_thr.info 375000000 false ⟨1, 0⟩ ⟨0, 0⟩).2.Hs =
      calibrating_thr.info.Hs ∧
    (scan_account late_env calibrating_thr.info 375000000 false ⟨1, 0⟩ ⟨0, 0⟩).2.read_count =
      calibrating_thr.info.read_count ∧
    (scan_account late_env calibrating_thr.info 375000000 false ⟨1, 0⟩ ⟨0, 0⟩).2.min_data_count =
      calibrating_thr.info.min_data_count :=
  have h := ((history_close_condition late_env calibrating_thr.info 375000000 ⟨1, 0⟩ ⟨0, 0⟩
    (by unfold takes_sample; decide) (Or.inl rfl)).1.2.2 (by unfold history_closes; decide))
  ⟨h.1, h.2.2.2.1, h.2.2.2.2.1⟩

/-! ### The minimum sample count -/

theorem default_detect_min (env : Env) (info : ICARUS_INFO) (hash_count : Int)
    (elapsed : timeval)
    (hconv : ∀ j, (env.convert_icarus_to_cairnsmore j).min_data_count = j.min_data_count) :
    (default_detect env info hash_count elapsed).min_data_count = info.min_data_count := by
  unfold default_detect
  dsimp only
  split_ifs
  all_goals first | rfl | exact hconv _

theorem history_sample_min (info : ICARUS_INFO) (hash_count : Int) (elapsed tv_start : timeval) :
    (history_sample info hash_count elapsed tv_start).min_data_count = info.min_data_count ∨
    (info.min_data_count < 100 ∧
      (history_sample info hash_count elapsed tv_start).min_data_count =
        2 * info.min_data_count) := by
  by_cases hc : history_closes info tv_start
  · rw [history_sample_closed _ _ _ _ hc]
    show (history_refit _).min_data_count = _ ∨ _ ∧ (history_refit _).min_data_count = _
    rw [(refit_history _).2]
    dsimp only
    split_ifs with h
    · right
      exact ⟨h, by omega⟩
    · left
      rfl
  · rw [history_sample_open _ _ _ _ hc]
    left
    rfl

/-- The accounting of a reply leaves min_data_count or doubles it, and
doubles it only from below 100. -/
theorem scan_account_min (env : Env) (info : ICARUS_INFO) (nonce : Nat) (hw : Bool)
    (elapsed tv_start : timeval)
    (hconv : ∀ j, (env.convert_icarus_to_cairnsmore j).min_data_count = j.min_data_count) :
    (scan_account env info nonce hw elapsed tv_start).2.min_data_count = info.min_data_count ∨
    (info.min_data_count < 100 ∧
      (scan_account env info nonce hw elapsed tv_start).2.min_data_count =
        2 * info.min_data_count) := by
  unfold scan_account
  dsimp only
  have key : ∀ (r : Int × ICARUS_INFO), r.2.min_data_count = info.min_data_count →
      (if (default_detect env r.2 r.1 elapsed).do_icarus_timing = true ∧ hw = false ∧
          Nat.land nonce (default_detect env r.2 r.1 elapsed).nonce_mask > 0x0000ffff ∧
          Nat.land nonce (default_detect env r.2 r.1 elapsed).nonce_mask <
            Nat.land (default_detect env r.2 r.1 elapsed).nonce_mask 0xffff0000 then
        history_sample (default_detect env r.2 r.1 elapsed) r.1 elapsed tv_start
      else default_detect env r.2 r.1 elapsed).min_data_count = info.min_data_count ∨
      (info.min_data_count < 100 ∧
        (if (default_detect env r.2 r.1 elapsed).do_icarus_timing = true ∧ hw = false ∧
            Nat.land nonce (default_detect env r.2 r.1 elapsed).nonce_mask > 0x0000ffff ∧
            Nat.land nonce (default_detect env r.2 r.1 elapsed).nonce_mask <
              Nat.land (default_detect env r.2 r.1 elapsed).nonce_mask 0xffff0000 then
          history_sample (default_detect env r.2 r.1 elapsed) r.1 elapsed tv_start
        else default_detect env r.2 r.1 elapsed).min_data_count = 2 * info.min_data_count) := by
    intro r hr
    have hd := default_detect_min env r.2 r.1 elapsed hconv
    split_ifs
    · have := history_sample_min (default_detect env r.2 r.1 elapsed) r.1 elapsed tv_start
      rw [hd, hr] at this
      exact this
    · left
      rw [hd, hr]
  by_cases h : hw = false
  · rw [if_pos h]
    exact key _ rfl
  · rw [if_neg h]
    exact key _ rfl

/-- A cycle leaves min_data_count or doubles it, and doubles it only from
below 100. -/
theorem scanhash_min (env : Env) (links : List (List ReadEv)) (t : Thr) (w : work)
    (v : Int) (t' : Thr)
    (hconv : ∀ j, (env.convert_icarus_to_cairnsmore j).min_data_count = j.min_data_count)
    (hrun : icarus_scanhash env links t w = some (v, t')) :
    t'.info.min_data_count = t.info.min_data_count ∨
    (t.info.min_data_count < 100 ∧ t'.info.min_data_count = 2 * t.info.min_data_count) := by
  rcases scanhash_info env links t w v t' hrun with h | ⟨i, n, hw, el, ts, h1, h2⟩
  · left
    have := congrArg (fun x : ICARUS_INFO => x.min_data_count) h
    exact this
  · have hi : i.min_data_count = t.info.min_data_count := by
      have := congrArg (fun x : ICARUS_INFO => x.min_data_count) h1
      exact this
    have := scan_account_min env i n hw el ts hconv
    rw [← h2, hi] at this
    exact this

theorem set_work_division_min (info : ICARUS_INFO) (newvalue : String) (r : SetResult)
    (h : icarus_set_work_division info newvalue = some r) :
    r.info.min_data_count = info.min_data_count := by
  unfold icarus_set_work_division at h
  dsimp only at h
  by_cases hv : atoi newvalue = 1 ∨ atoi newvalue = 2 ∨ atoi newvalue = 4 ∨ atoi newvalue = 8
  · rw [if_neg (not_not.mpr hv)] at h
    by_cases hu : info.user_set_fpga_count = true ∧ info.fpga_count > atoi newvalue
    · rw [if_pos hu] at h
      simp only [Option.some.injEq] at h
      subst h
      rfl
    · rw [if_neg hu] at h
      obtain ⟨m, hm⟩ := mask_some _ hv
      rw [hm] at h
      simp only [Option.some.injEq] at h
      subst h
      dsimp only
      split_ifs <;> rfl
  · rw [if_pos hv] at h
    simp only [Option.some.injEq] at h
    subst h
    rfl

/-- An operation other than `icarus_set_timing` leaves min_data_count or
doubles it, and doubles it only from below 100. -/
theorem apply_op_min (env : Env) (atof : String → ℚ) (NANOSEC : ℚ) (drv_is_icarus : Bool)
    (valid_baud : Int → Bool) (t t' : Thr) (op : Op)
    (hconv : ∀ j, (env.convert_icarus_to_cairnsmore j).min_data_count = j.min_data_count)
    (hop : op.is_timing = false)
    (h : apply_op env atof NANOSEC drv_is_icarus valid_baud t op = some t') :
    t'.info.min_data_count = t.info.min_data_count ∨
    (t.info.min_data_count < 100 ∧ t'.info.min_data_count = 2 * t.info.min_data_count) := by
  cases op with
  | set_timing buf => exact absurd hop (by simp [Op.is_timing])
  | set_baud newvalue =>
    simp only [apply_op, Option.some.injEq] at h
    subst h
    left
    unfold icarus_set_baud
    dsimp only
    split_ifs <;> rfl
  | set_work_division newvalue =>
    simp only [apply_op, Option.map_eq_some'] at h
    obtain ⟨r, hr, rfl⟩ := h
    left
    exact set_work_division_min t.info newvalue r hr
  | set_fpga_count newvalue =>
    simp only [apply_op, Option.some.injEq] at h
    subst h
    left
    unfold icarus_set_fpga_count
    dsimp only
    split_ifs <;> rfl
  | set_reopen newvalue =>
    simp only [apply_op, Option.some.injEq] at h
    subst h
    left
    unfold icarus_set_reopen
    split_ifs <;> rfl
  | init link =>
    left
    simp only [apply_op, Option.join_eq_some] at h
    unfold icarus_init at h
    have hp : ∀ x, init_probe env link t = some x → x.info.min_data_count = t.info.min_data_count := by
      intro x hx
      unfold init_probe at hx
      dsimp only at hx
      split at hx
      · exact absurd hx (by simp)
      · simp only [Option.some.injEq] at hx
        subst hx
        show (icarus_write env t t.device_fd probe_pkt).2.info.min_data_count = _
        unfold icarus_write
        split_ifs <;> rfl
    split at h
    · exact absurd h (by simp)
    · rename_i x hx
      have hx' : x.info.min_data_count = t.info.min_data_count := by
        split_ifs at hx with h0
        · exact hp x hx
        · simp only [Option.some.injEq] at hx
          subst hx
          rfl
      dsimp only at h
      split at h
      · exact absurd h (by simp)
      · simp only [Option.some.injEq] at h
        subst h
        dsimp only
        rw [← hx']
        split_ifs <;> rfl
  | scanhash links w =>
    simp only [apply_op, Option.map_eq_some'] at h
    obtain ⟨r, hr, rfl⟩ := h
    exact scanhash_min env links t w r.1 r.2 hconv hr

/-- A step that leaves a value of the ladder 5, 10, 20, 40, 80, 160 or
doubles it from below 100 stays on the ladder. -/
theorem ladder_step (m m' : Nat)
    (hm : m = 5 ∨ m = 10 ∨ m = 20 ∨ m = 40 ∨ m = 80 ∨ m = 160)
    (h : m' = m ∨ (m < 100 ∧ m' = 2 * m)) :
    m' = 5 ∨ m' = 10 ∨ m' = 20 ∨ m' = 40 ∨ m' = 80 ∨ m' = 160 := by
  omega

theorem run_ops_ladder (env : Env) (atof : String → ℚ) (NANOSEC : ℚ) (drv_is_icarus : Bool)
    (valid_baud : Int → Bool)
    (hconv : ∀ j, (env.convert_icarus_to_cairnsmore j).min_data_count = j.min_data_count) :
    ∀ (ops : List Op) (t t' : Thr),
      (t.info.min_data_count = 5 ∨ t.info.min_data_count = 10 ∨ t.info.min_data_count = 20 ∨
        t.info.min_data_count = 40 ∨ t.info.min_data_count = 80 ∨
        t.info.min_data_count = 160) →
      run_ops env atof NANOSEC drv_is_icarus valid_baud t ops = some t' →
      (t'.info.min_data_count = 5 ∨ t'.info.min_data_count = 10 ∨
        t'.info.min_data_count = 20 ∨ t'.info.min_data_count = 40 ∨
        t'.info.min_data_count = 80 ∨ t'.info.min_data_count = 160) := by
  intro ops
  induction ops with
  | nil =>
    intro t t' hm h
    simp only [run_ops, Option.some.injEq] at h
    rw [← h]
    exact hm
  | cons op ops ih =>
    intro t t' hm h
    rw [run_ops] at h
    cases ha : apply_op env atof NANOSEC drv_is_icarus valid_baud t op with
    | none => simp [ha] at h
    | some t1 =>
      simp only [ha] at h
      refine ih t1 t' ?_ h
      rcases Bool.eq_false_or_eq_true op.is_timing with ht | ht
      · cases op with
        | set_timing buf =>
          simp only [apply_op, Option.some.injEq] at ha
          subst ha
          left
          rfl
        | _ => exact absurd ht (by simp [Op.is_timing])
      · exact ladder_step _ _ hm
          (apply_op_min env atof NANOSEC drv_is_icarus valid_baud t t1 op hconv ht ha)

theorem run_ops_mono (env : Env) (atof : String → ℚ) (NANOSEC : ℚ) (drv_is_icarus : Bool)
    (valid_baud : Int → Bool)
    (hconv : ∀ j, (env.convert_icarus_to_cairnsmore j).min_data_count = j.min_data_count) :
    ∀ (ops : List Op) (t t' : Thr), (∀ op ∈ ops, op.is_timing = false) →
      run_ops env atof NANOSEC drv_is_icarus valid_baud t ops = some t' →
      t.info.min_data_count ≤ t'.info.min_data_count := by
  intro ops
  induction ops with
  | nil =>
    intro t t' _ h
    simp only [run_ops, Option.some.injEq] at h
    rw [← h]
  | cons op ops ih =>
    intro t t' hops h
    rw [run_ops] at h
    cases ha : apply_op env atof NANOSEC drv_is_icarus valid_baud t op with
    | none => simp [ha] at h
    | some t1 =>
      simp only [ha] at h
      have h1 := ih t1 t' (fun o ho => hops o (List.mem_cons_of_mem _ ho)) h
      have h2 := apply_op_min env atof NANOSEC drv_is_icarus valid_baud t t1 op hconv
        (hops op (List.mem_cons_self _ _)) ha
      omega

/-- C24: every call of `icarus_set_timing` sets min_data_count to 5. Every
other operation of the driver (the other setters, `icarus_init`, a cycle of
`icarus_scanhash`) leaves it or doubles it, and doubles it only from below
100; the doubling is that of a completed refit. So after a call of
`icarus_set_timing` and any run of operations min_data_count is one of 5,
10, 20, 40, 80, 160, and over a run without a call of `icarus_set_timing`
it does not decrease. `convert_icarus_to_cairnsmore`, which is not among the
sources, is taken not to touch min_data_count. -/
theorem min_data_count_ladder (env : Env) (atof : String → ℚ) (NANOSEC : ℚ)
    (drv_is_icarus : Bool) (valid_baud : Int → Bool)
    (hconv : ∀ j, (env.convert_icarus_to_cairnsmore j).min_data_count = j.min_data_count) :
    (∀ (info : ICARUS_INFO) (buf : String),
      (icarus_set_timing atof NANOSEC drv_is_icarus info buf).info.min_data_count = 5) ∧
    (∀ info : ICARUS_INFO, (history_refit info).min_data_count =
      if info.min_data_count < 100 then info.min_data_count * 2 else info.min_data_count) ∧
    (∀ (t t' : Thr) (op : Op), op.is_timing = false →
      apply_op env atof NANOSEC drv_is_icarus valid_baud t op = some t' →
      t'.info.min_data_count = t.info.min_data_count ∨
      (t.info.min_data_count < 100 ∧ t'.info.min_data_count = 2 * t.info.min_data_count)) ∧
    (∀ (t : Thr) (buf : String) (ops : List Op) (t' : Thr),
      run_ops env atof NANOSEC drv_is_icarus valid_baud t (.set_timing buf :: ops) = some t' →
      (t'.info.min_data_count = 5 ∨ t'.info.min_data_count = 10 ∨
        t'.info.min_data_count = 20 ∨ t'.info.min_data_count = 40 ∨
        t'.info.min_data_count = 80 ∨ t'.info.min_data_count = 160) ∧
      t'.info.min_data_count ≤ 160) ∧
    (∀ (t : Thr) (ops : List Op) (t' : Thr), (∀ op ∈ ops, op.is_timing = false) →
      run_ops env atof NANOSEC drv_is_icarus valid_baud t ops = some t' →
      t.info.min_data_count ≤ t'.info.min_data_count) := by
  refine ⟨fun _ _ => rfl, fun info => (refit_history info).2, ?_, ?_, ?_⟩
  · intro t t' op hop h
    exact apply_op_min env atof NANOSEC drv_is_icarus valid_baud t t' op hconv hop h
  · intro t buf ops t' h
    rw [run_ops] at h
    simp only [apply_op] at h
    have := run_ops_ladder env atof NANOSEC drv_is_icarus valid_baud hconv ops _ t'
      (Or.inl rfl) h
    exact ⟨this, by omega⟩
  · intro t ops t' hops h
    exact run_ops_mono env atof NANOSEC drv_is_icarus valid_baud hconv ops t t' hops h

/-- C24 on a run: `short` is set on the session `sample_thr`, then a cycle
times out; min_data_count is on the ladder afterwards. -/
theorem min_data_count_ladder_witness :
    ∃ t', run_ops sample_env decimal_atof 1000000000 true (fun _ => true) sample_thr
        [.set_timing "short", .scanhash [timeout_link] sample_work] = some t' ∧
      (t'.info.min_data_count = 5 ∨ t'.info.min_data_count = 10 ∨
        t'.info.min_data_count = 20 ∨ t'.info.min_data_count = 40 ∨
        t'.info.min_data_count = 80 ∨ t'.info.min_data_count = 160) :=
  ⟨_, rfl, ((min_data_count_ladder sample_env decimal_atof 1000000000 true (fun _ => true)
    (fun _ => rfl)).2.2.2.1 sample_thr "short" [.scanhash [timeout_link] sample_work] _ rfl).1⟩

/-! ### Reopen attempts of a cycle with a read error -/

theorem plumbing_not_reader (e : Event) (h : e.plumbing = true) : e.not_reader = true := by
  cases e <;> first | rfl | exact absurd h Bool.false_ne_true

theorem not_reader_no_error (e : Event) (h : e.not_reader = true) :
    e.not_read_error = true := by
  cases e with
  | gets fd thr rc rs ret =>
    cases thr
    · rfl
    · exact absurd h Bool.false_ne_true
  | _ => rfl

theorem identify_wait_no_reader (env : Env) (fd : Int) :
    ∀ (links : List (List ReadEv)) (t t' : Thr) (rest : List (List ReadEv)),
      identify_wait env fd links t = some (t', rest) → ext Event.not_reader t t' := by
  intro links
  induction links with
  | nil =>
    intro t t' rest h
    simp only [identify_wait] at h
    split_ifs at h
    simp only [Option.some.injEq, Prod.mk.injEq] at h
    rw [← h.1]
    exact ext_emit _ _ _ rfl
  | cons link links ih =>
    intro t t' rest h
    simp only [identify_wait] at h
    split_ifs at h
    · simp only [Option.some.injEq, Prod.mk.injEq] at h
      rw [← h.1]
      exact ext_emit _ _ _ rfl
    · cases hg : icarus_gets (memset (fun _ => 0) 0 0 (emit t .cgtime).info.read_size.toNat) link
          (env.now t.trace) false
          (trunc (((emit t .cgtime).info.fullnonce
            - env.tdiff (env.now t.trace) (emit t .cgtime).state.tv_workstart) * 10))
          (emit t .cgtime).info.read_size with
      | none => simp [hg] at h
      | some out =>
        simp only [hg] at h
        have h1 : ext Event.not_reader t (emit t .cgtime) := ext_emit _ _ _ rfl
        have h2 : ext Event.not_reader (emit t .cgtime)
            (emit (emit t .cgtime) (.gets fd false
              (trunc (((emit t .cgtime).info.fullnonce
                - env.tdiff (env.now t.trace) (emit t .cgtime).state.tv_workstart) * 10))
              (emit t .cgtime).info.read_size out.ret)) := ext_emit _ _ _ rfl
        split_ifs at h
        · exact ext_trans (ext_trans h1 h2)
            (ext_trans (ext_emit _ _ (.submit_nonce _ _) rfl) (ih _ _ _ h))
        · exact ext_trans (ext_trans h1 h2) (ih _ _ _ h)

theorem identify_resume_no_reader (env : Env) (t : Thr) :
    ext Event.not_reader t (identify_resume env t) := by
  have h2 : ext Event.not_reader t (emit t (.cgsleep_ms 3000)) := ext_emit _ _ _ rfl
  have h3 := ext_mono (job_start_ext env (emit t (.cgsleep_ms 3000))) plumbing_not_reader
  unfold identify_resume
  dsimp only
  split_ifs
  · exact ext_of_trace_eq h2 rfl
  · exact ext_of_trace_eq (ext_trans h2 h3) rfl
  · exact ext_of_trace_eq (ext_trans h2 h3) rfl
  · exact ext_of_trace_eq h2 rfl

theorem handle_identify_no_reader (env : Env) (was_first_run : Bool)
    (links : List (List ReadEv)) (t t' : Thr)
    (h : handle_identify env was_first_run links t = some t') :
    ext Event.not_reader t t' := by
  unfold handle_identify at h
  split_ifs at h
  · simp only [Option.some.injEq] at h
    rw [← h]
    exact ext_refl _ _
  · simp only [Option.some.injEq] at h
    rw [← h]
    exact identify_resume_no_reader env t
  · cases hw : identify_wait env t.device_fd links t with
    | none => simp [hw] at h
    | some p =>
      simp only [hw, Option.some.injEq] at h
      rw [← h]
      exact ext_trans (identify_wait_no_reader env _ _ _ _ p.2 (by rw [hw]))
        (identify_resume_no_reader env p.1)

theorem scan_next_no_reader (env : Env) (w : work) (ret : GetsRet) (nonce : Nat)
    (nonce_work : Option WorkRef) (was_hw_error : Bool) (elapsed tv_start : timeval) (t : Thr) :
    ext Event.not_reader t
      (scan_next env w ret nonce nonce_work was_hw_error elapsed tv_start t).2 := by
  have h1 := ext_mono (start_next_job_ok env ret was_hw_error elapsed t).1 plumbing_not_reader
  have ht : ∀ x : Thr, ext Event.not_reader x
      (icarus_transition_work env x { w with blk_nonce := 0xffffffff }) :=
    fun x => ext_mono (transition_ext env x _) plumbing_not_reader
  unfold scan_next
  dsimp only
  cases ret
  · dsimp only
    split_ifs
    · exact ext_of_trace_eq (ext_trans (ext_trans h1 (ext_emit _ _ (.submit_nonce _ _) rfl))
        (ht _)) rfl
    · exact ext_of_trace_eq (ext_trans (ext_trans h1 (ext_emit _ _ (.inc_hw_errors _ _) rfl))
        (ht _)) rfl
  · exact ext_trans (ext_of_trace_eq h1 rfl) (ht _)
  · exact ext_trans h1 (ht _)
  · exact ext_trans h1 (ht _)

/-- From the end of the wait to its return a cycle does not call the reader
with a thread handle. -/
theorem scan_finish_no_reader (env : Env) (w : work) (was_first_run : Bool) (ret : GetsRet)
    (nonce : Nat) (nonce_work : Option WorkRef) (was_hw_error : Bool)
    (elapsed tv_start : timeval) (links : List (List ReadEv)) (t : Thr) (r : Int × Thr)
    (h : scan_finish env w was_first_run ret nonce nonce_work was_hw_error elapsed tv_start
      links t = some r) :
    ext Event.not_reader t r.2 := by
  have h1 := scan_next_no_reader env w ret nonce nonce_work was_hw_error elapsed tv_start t
  unfold scan_finish scan_out at h
  split_ifs at h
  · cases hh : handle_identify env was_first_run links
        (scan_next env w ret nonce nonce_work was_hw_error elapsed tv_start t).2 with
    | none => simp [hh] at h
    | some t' =>
      simp only [hh, Option.some.injEq] at h
      rw [← h]
      exact ext_trans h1 (handle_identify_no_reader env _ _ _ _ hh)
  · simp only [Option.some.injEq] at h
    rw [← h]
    exact h1

/-- A stretch of events with no read error counts none. -/
theorem no_error_count {evs : List Event} (h : ∀ e ∈ evs, e.not_read_error = true) :
    evs.countP Event.is_read_error = 0 := by
  rw [List.countP_eq_zero]
  intro e he
  have := h e he
  simpa [Event.not_read_error] using this

/-- The head of a cycle opens the port once when it finds it closed, and not
at all otherwise. -/
theorem open_step_opens (env : Env) (t : Thr) :
    opens (if t.device_fd = -1 then 1 else 0) t (open_step env t).2 := by
  unfold open_step
  split_ifs
  · exact reopen_opens env t
  · exact opens_refl t

/-- The events of a wait hold no read error, or they hold exactly one
attempt to open the port and the wait ended on the error: either the reopen
failed and the cycle returns -1 with firstrun set and the port closed, or
control goes on with `ret` = ICA_GETS_ERROR. -/
theorem scan_wait_errors (env : Env) (fd : Int) :
    ∀ (links : List (List ReadEv)) (t : Thr) (res : WaitResult),
      scan_wait env fd links t = some res →
      match res with
      | .returned v t' => ext Event.not_read_error t t' ∨
          (opens 1 t t' ∧ v = -1 ∧ t'.state.firstrun = true ∧ t'.device_fd = -1)
      | .done ret _ _ hw _ _ t' => ext Event.not_read_error t t' ∨
          (opens 1 t t' ∧ ret = .ICA_GETS_ERROR ∧ hw = false) := by
  intro links
  induction links with
  | nil =>
    intro t res h
    simp [scan_wait] at h
  | cons link links ih =>
    intro t res h
    rw [scan_wait] at h
    cases hg : wait_gets env t link with
    | none => simp [hg] at h
    | some out =>
      simp only [hg] at h
      have hrec : ∀ e : Event, e.recovery = true → e.not_read_error = true :=
        fun e he => not_reader_no_error e (plumbing_not_reader e (recovery_plumbing e he))
      have hA : out.ret ≠ .ICA_GETS_ERROR →
          ext Event.not_read_error t (after_gets env fd t out) := by
        intro hne
        refine ⟨[.gets fd true (if env.opt_scrypt then 48 else 16) t.info.read_size out.ret],
          rfl, ?_⟩
        intro e he
        rw [List.mem_singleton] at he
        subst he
        cases hr : out.ret <;> first | rfl | exact absurd hr hne
      have hO : opens 0 t (after_gets env fd t out) :=
        ⟨[.gets fd true (if env.opt_scrypt then 48 else 16) t.info.read_size out.ret],
          rfl, rfl⟩
      cases hr : out.ret with
      | ICA_GETS_RESTART =>
        simp only [hr, Option.some.injEq] at h
        subst h
        exact Or.inl (ext_of_trace_eq (hA (by rw [hr]; decide)) rfl)
      | ICA_GETS_ERROR =>
        simp only [hr] at h
        have a1 := opens_of_ext (close_no_open (after_gets env fd t out))
        have a2 : opens 0 (do_icarus_close (after_gets env fd t out))
            (emit (do_icarus_close (after_gets env fd t out)) .dev_error) :=
          opens_of_ext (ext_emit _ _ .dev_error rfl)
        have a3 := reopen_opens env (emit (do_icarus_close (after_gets env fd t out)) .dev_error)
        have hB := opens_trans (opens_trans (opens_trans hO a1) a2) a3
        split_ifs at h with hf
        · simp only [Option.some.injEq] at h
          subst h
          obtain ⟨g1, g2⟩ := reopen_failure env _ hf
          exact Or.inr ⟨hB, rfl, g1, g2⟩
        · simp only [Option.some.injEq] at h
          subst h
          exact Or.inr ⟨opens_trans hB (opens_of_ext (ext_emit _ _ (.tcflush _) rfl)), rfl, rfl⟩
      | ICA_GETS_TIMEOUT =>
        simp only [hr] at h
        have hA' := hA (by rw [hr]; decide)
        have hB := ext_trans hA' (ext_mono (reopen_ext env _) hrec)
        split_ifs at h
        · simp only [Option.some.injEq] at h
          subst h
          exact Or.inl hB
        · simp only [Option.some.injEq] at h
          subst h
          exact Or.inl (ext_trans hB (ext_emit _ _ (.tcflush _) rfl))
        · simp only [Option.some.injEq] at h
          subst h
          exact Or.inl (ext_trans hA' (ext_emit _ _ (.tcflush _) rfl))
      | ICA_GETS_OK =>
        simp only [hr] at h
        have hA' := hA (by rw [hr]; decide)
        have hC := ext_trans hA' (ext_emit Event.not_read_error _ (.tcflush fd) rfl)
        have hD : opens 0 t (emit (after_gets env fd t out) (.tcflush fd)) :=
          opens_trans hO (opens_of_ext (ext_emit _ _ (.tcflush fd) rfl))
        split_ifs at h
        · have := ih _ _ h
          have e1 : ext Event.not_read_error t
              (emit (emit (after_gets env fd t out) (.tcflush fd))
                (.submit_nonce
                  (icarus_process_worknonce env.test_nonce env.host_be
                    (emit (after_gets env fd t out) (.tcflush fd)).state
                    (load32 env.host_be (rev out.buf 4))).2
                  (icarus_process_worknonce env.test_nonce env.host_be
                    (emit (after_gets env fd t out) (.tcflush fd)).state
                    (load32 env.host_be (rev out.buf 4))).1)) :=
            ext_trans hC (ext_emit _ _ (.submit_nonce _ _) rfl)
          have o1 := opens_trans hD (opens_of_ext (ext_emit Event.not_open
            (emit (after_gets env fd t out) (.tcflush fd))
            (.submit_nonce
              (icarus_process_worknonce env.test_nonce env.host_be
                (emit (after_gets env fd t out) (.tcflush fd)).state
                (load32 env.host_be (rev out.buf 4))).2
              (icarus_process_worknonce env.test_nonce env.host_be
                (emit (after_gets env fd t out) (.tcflush fd)).state
                (load32 env.host_be (rev out.buf 4))).1) rfl))
          cases res with
          | returned v t' =>
            rcases this with h1 | ⟨h1, h2⟩
            · exact Or.inl (ext_trans e1 h1)
            · exact Or.inr ⟨opens_trans o1 h1, h2⟩
          | done a b c d e f t' =>
            rcases this with h1 | ⟨h1, h2⟩
            · exact Or.inl (ext_trans e1 h1)
            · exact Or.inr ⟨opens_trans o1 h1, h2⟩
        · have := ih _ _ h
          have e1 : ext Event.not_read_error t
              (emit (emit (emit (after_gets env fd t out) (.tcflush fd)) .cgtime)
                (.submit_nonce
                  (icarus_process_worknonce env.test_nonce env.host_be
                    (emit (after_gets env fd t out) (.tcflush fd)).state
                    (load32 env.host_be (rev out.buf 4))).2
                  (icarus_process_worknonce env.test_nonce env.host_be
                    (emit (after_gets env fd t out) (.tcflush fd)).state
                    (load32 env.host_be (rev out.buf 4))).1)) :=
            ext_trans (ext_trans hC (ext_emit _ _ .cgtime rfl))
              (ext_emit _ _ (.submit_nonce _ _) rfl)
          have o1 := opens_trans (opens_trans hD (opens_of_ext (ext_emit Event.not_open
            (emit (after_gets env fd t out) (.tcflush fd)) .cgtime rfl)))
            (opens_of_ext (ext_emit Event.not_open
            (emit (emit (after_gets env fd t out) (.tcflush fd)) .cgtime)
            (.submit_nonce
              (icarus_process_worknonce env.test_nonce env.host_be
                (emit (after_gets env fd t out) (.tcflush fd)).state
                (load32 env.host_be (rev out.buf 4))).2
              (icarus_process_worknonce env.test_nonce env.host_be
                (emit (after_gets env fd t out) (.tcflush fd)).state
                (load32 env.host_be (rev out.buf 4))).1) rfl))
          cases res with
          | returned v t' =>
            rcases this with h1 | ⟨h1, h2⟩
            · exact Or.inl (ext_trans e1 h1)
            · exact Or.inr ⟨opens_trans o1 h1, h2⟩
          | done a b c d e f t' =>
            rcases this with h1 | ⟨h1, h2⟩
            · exact Or.inl (ext_trans e1 h1)
            · exact Or.inr ⟨opens_trans o1 h1, h2⟩
        · simp only [Option.some.injEq] at h
          subst h
          exact Or.inl (ext_trans hC (ext_emit _ _ .cgtime rfl))
        · simp only [Option.some.injEq] at h
          subst h
          exact Or.inl hC
        · simp only [Option.some.injEq] at h
          subst h
          exact Or.inl hC

/-- A cycle that continues a trace by events without a read error meets any
statement about its read errors. -/
theorem no_error_done {t t' : Thr} (h : ext Event.not_read_error t t') (X : List Event → Prop) :
    ∃ evs, t'.trace = t.trace ++ evs ∧ (1 ≤ evs.countP Event.is_read_error → X evs) := by
  obtain ⟨evs, h1, h2⟩ := h
  refine ⟨evs, h1, ?_⟩
  intro hc
  rw [no_error_count h2] at hc
  exact absurd hc (by decide)

/-- The reopen attempts of a whole cycle in which the reader fails: with a
policy other than `cycle` and no one-shot reopen pending there is the one
after the error, and one before it when the port was closed at the head of
the cycle; the cycle returns -1 or 0, and -1 only with firstrun set and the
port closed. -/
theorem scanhash_error_opens (env : Env) (links : List (List ReadEv)) (t : Thr) (w : work)
    (v : Int) (t' : Thr) (hmode : t.info.reopen_mode ≠ .IRM_CYCLE)
    (hnow : t.info.reopen_now = false)
    (hrun : icarus_scanhash env links t w = some (v, t')) :
    ∃ evs, t'.trace = t.trace ++ evs ∧
      (1 ≤ evs.countP Event.is_read_error →
        evs.countP Event.is_open = (if t.device_fd = -1 then 2 else 1) ∧
        (v = -1 ∨ v = 0) ∧ (v = -1 → t'.state.firstrun = true ∧ t'.device_fd = -1)) := by
  have hrec : ∀ e : Event, e.recovery = true → e.not_read_error = true :=
    fun e he => not_reader_no_error e (plumbing_not_reader e (recovery_plumbing e he))
  have hflags := prepare_step_flags env t w
  have hP : ext Event.not_read_error t (open_step env (prepare_step env t w)).2 :=
    ext_trans (ext_of_trace_eq (ext_refl _ t) hflags.1)
      (ext_mono (open_step_ok env _).1 hrec)
  have hQ : opens (if t.device_fd = -1 then 1 else 0) t
      (open_step env (prepare_step env t w)).2 := by
    have := open_step_opens env (prepare_step env t w)
    rw [hflags.2.2.2.2.2.2.1] at this
    obtain ⟨evs, e1, e2⟩ := this
    exact ⟨evs, by rw [e1, hflags.1], e2⟩
  have hinfo : (open_step env (prepare_step env t w)).2.info = t.info := by
    unfold open_step
    split_ifs
    · rw [reopen_info]
      rfl
    · rfl
  unfold icarus_scanhash at hrun
  dsimp only at hrun
  split_ifs at hrun with h1 h2 h3
  · simp only [Option.some.injEq, Prod.mk.injEq] at hrun
    rw [← hrun.2]
    exact no_error_done hP _
  · have := ext_mono (scan_finish_no_reader env w _ _ _ _ _ _ _ _ _ _ hrun) not_reader_no_error
    exact no_error_done
      (ext_trans (ext_trans hP (ext_of_trace_eq (ext_emit _ _ (.tcflush _) rfl) rfl)) this) _
  · cases hw : scan_wait env (open_step env (prepare_step env t w)).2.device_fd links
        (open_step env (prepare_step env t w)).2 with
    | none => simp [hw] at hrun
    | some res =>
      have hb := scan_wait_errors env _ _ _ _ hw
      have hi := scan_wait_info env _ _ _ _ hw
      cases res with
      | returned v2 t2 =>
        simp only [hw, Option.some.injEq, Prod.mk.injEq] at hrun
        rw [← hrun.1, ← hrun.2]
        rcases hb with hb | ⟨b1, b2, b3, b4⟩
        · exact no_error_done (ext_trans hP hb) _
        · obtain ⟨evs, e1, e2⟩ := opens_trans hQ b1
          refine ⟨evs, e1, fun _ => ⟨?_, Or.inl b2, fun _ => ⟨b3, b4⟩⟩⟩
          rw [e2]
          split_ifs <;> rfl
      | done a b c d e f t2 =>
        simp only [hw] at hrun
        have hfin := ext_mono (scan_finish_no_reader env w _ _ _ _ _ _ _ _ _ _ hrun)
          not_reader_no_error
        rcases hb with hb | ⟨b1, b2, b3⟩
        · exact no_error_done (ext_trans (ext_trans hP hb) hfin) _
        · subst b2
          subst b3
          simp only [scan_finish] at hrun
          have hi' : t2.info = t.info := by
            rw [← hinfo]
            exact hi
          have hno := error_next_no_open env w b c
            (timersub t2.state.tv_workfinish t2.state.tv_workstart) t2.state.tv_workstart t2
            (by rw [hi']; exact hmode) (by rw [hi']; exact hnow)
          have h2o := scan_out_no_open env _ _ _ v t' hrun
          have hv := scan_out_value env _ _ _ v t' hrun
          rw [(scan_next_error env w b c false _ _ t2).1] at hv
          obtain ⟨evs, e1, e2⟩ := opens_trans (opens_trans (opens_trans hQ b1)
            (opens_of_ext hno)) (opens_of_ext h2o)
          refine ⟨evs, e1, fun _ => ⟨?_, Or.inr hv, fun hneg => ?_⟩⟩
          · rw [e2]
            split_ifs <;> rfl
          · rw [hv] at hneg
            exact absurd hneg (by decide)
  · have := ext_mono (scan_finish_no_reader env w _ _ _ _ _ _ _ _ _ _ hrun) not_reader_no_error
    exact no_error_done
      (ext_trans (ext_trans hP (ext_of_trace_eq (ext_emit _ _ (.tcflush _) rfl) rfl)) this) _

/-- C12 (as stated, refuted): the policy is `timeout`, no one-shot reopen is
pending, and the port is closed when the cycle begins. The cycle opens the
port at its head, the reader then returns ICA_GETS_ERROR, and the port is
opened again: two attempts to reopen the link in one cycle, which returns 0. -/
theorem error_reopens_twice :
    closed_error_thr.info.reopen_mode = .IRM_TIMEOUT ∧
    closed_error_thr.info.reopen_now = false ∧ closed_error_thr.trace = [] ∧
    (icarus_scanhash open_env [error_link] closed_error_thr sample_work).map
        (fun r => (r.1, r.2.trace.countP Event.is_read_error, r.2.trace.countP Event.is_open))
      = some (0, 1, 2) := by
  refine ⟨rfl, rfl, rfl, ?_⟩
  with_unfolding_all rfl

/-- C12 (amended): in a cycle in which the reply reader returns
ICA_GETS_ERROR, with a reopen policy other than `cycle` (so with the policy
`timeout`) and no one-shot reopen pending, `icarus_scanhash` makes exactly
one attempt to reopen the link after the error, and one more before it when
the port was closed at the head of the cycle: the events of every such
cycle hold two attempts in that case and one otherwise, and the cycle
returns -1 or 0. If the attempt after the error fails the cycle returns -1
with firstrun = true and the device fd = -1. The function returns in that
case; it also returns when the attempt succeeds and no identify is
pending. -/
theorem scanhash_error_reopen (env : Env) (t : Thr) (w : work)
    (hfirst : t.state.firstrun = false) (hcw : t.state.changework = false)
    (pre : List (List ReadEv)) (link : List ReadEv) (rest : List (List ReadEv))
    (t1 : Thr) (out : GetsOut)
    (hopen : (open_step env (prepare_step env t w)).1 = true)
    (hreach : scan_wait env (open_step env (prepare_step env t w)).2.device_fd
        (pre ++ link :: rest) (open_step env (prepare_step env t w)).2 =
      scan_wait env (open_step env (prepare_step env t w)).2.device_fd (link :: rest) t1)
    (hgets : wait_gets env t1 link = some out) (hret : out.ret = .ICA_GETS_ERROR)
    (hmode : t1.info.reopen_mode ≠ .IRM_CYCLE) (hnow : t1.info.reopen_now = false)
    (hmode0 : t.info.reopen_mode ≠ .IRM_CYCLE) (hnow0 : t.info.reopen_now = false) :
    (∀ links v t', icarus_scanhash env links t w = some (v, t') →
      ∃ evs, t'.trace = t.trace ++ evs ∧
        (1 ≤ evs.countP Event.is_read_error →
          evs.countP Event.is_open = (if t.device_fd = -1 then 2 else 1) ∧
          (v = -1 ∨ v = 0) ∧ (v = -1 → t'.state.firstrun = true ∧ t'.device_fd = -1))) ∧
    (∀ v t', icarus_scanhash env (pre ++ link :: rest) t w = some (v, t') →
      ∃ evs, t'.trace = t1.trace ++
          Event.gets (open_step env (prepare_step env t w)).2.device_fd true
            (if env.opt_scrypt then 48 else 16) t1.info.read_size .ICA_GETS_ERROR :: evs ∧
        evs.countP Event.is_open = 1) ∧
    ((icarus_reopen env (emit (do_icarus_close
        (after_gets env (open_step env (prepare_step env t w)).2.device_fd t1 out))
        .dev_error)).1 = false →
      ∃ t', icarus_scanhash env (pre ++ link :: rest) t w = some (-1, t') ∧
        t'.state.firstrun = true ∧ t'.device_fd = -1) ∧
    ((icarus_reopen env (emit (do_icarus_close
        (after_gets env (open_step env (prepare_step env t w)).2.device_fd t1 out))
        .dev_error)).1 = true →
      t1.state.identify = false →
      ∃ v t', icarus_scanhash env (pre ++ link :: rest) t w = some (v, t')) := by
  have hrun := scanhash_at_reader env t w hfirst hcw pre link rest t1 hopen hreach
  have hA : ∀ t' : Thr,
      opens 1 (after_gets env (open_step env (prepare_step env t w)).2.device_fd t1 out) t' →
      ∃ evs, t'.trace = t1.trace ++
          Event.gets (open_step env (prepare_step env t w)).2.device_fd true
            (if env.opt_scrypt then 48 else 16) t1.info.read_size .ICA_GETS_ERROR :: evs ∧
        evs.countP Event.is_open = 1 := by
    intro t' h
    obtain ⟨evs, h1, h2⟩ := h
    refine ⟨evs, ?_, h2⟩
    rw [h1]
    simp [after_gets, emit, hret]
  by_cases hok : (icarus_reopen env (emit (do_icarus_close
      (after_gets env (open_step env (prepare_step env t w)).2.device_fd t1 out))
      .dev_error)).1 = true
  · obtain ⟨fd2, T, hT, f1, f2, f3⟩ := error_done env _ link rest t1 out hgets hret hok
    rw [hT] at hrun
    simp only [scan_finish] at hrun
    have hno := error_next_no_open env w 0 none
      (timersub T.state.tv_workfinish T.state.tv_workstart) T.state.tv_workstart T
      (by rw [f1]; exact hmode) (by rw [f1]; exact hnow)
    refine ⟨fun links v t' h => scanhash_error_opens env links t w v t' hmode0 hnow0 h,
      ?_, ?_, ?_⟩
    · intro v t' h
      rw [hrun] at h
      have h2 := scan_out_no_open env _ _ _ v t' h
      have := opens_trans (opens_trans f3 (opens_of_ext hno)) (opens_of_ext h2)
      exact hA t' this
    · intro hfail
      rw [hok] at hfail
      exact absurd hfail (by decide)
    · intro _ hid
      rw [hrun, scan_out_plain env _ _ _ (by
        rw [(scan_next_error env w 0 none false _ _ T).2.1, f2, hid])]
      exact ⟨_, _, rfl⟩
  · have hfail : (icarus_reopen env (emit (do_icarus_close
        (after_gets env (open_step env (prepare_step env t w)).2.device_fd t1 out))
        .dev_error)).1 = false := by simpa using hok
    rw [scan_wait_error env _ link rest t1 out hgets hret, if_pos hfail] at hrun
    have hop : opens 1
        (after_gets env (open_step env (prepare_step env t w)).2.device_fd t1 out)
        (icarus_reopen env (emit (do_icarus_close
          (after_gets env (open_step env (prepare_step env t w)).2.device_fd t1 out))
          .dev_error)).2 := by
      have a1 := opens_of_ext (close_no_open
        (after_gets env (open_step env (prepare_step env t w)).2.device_fd t1 out))
      have a2 : opens 0 (do_icarus_close
            (after_gets env (open_step env (prepare_step env t w)).2.device_fd t1 out))
          (emit (do_icarus_close
            (after_gets env (open_step env (prepare_step env t w)).2.device_fd t1 out))
            .dev_error) :=
        opens_of_ext (ext_emit _ _ .dev_error rfl)
      exact opens_trans (opens_trans a1 a2) (reopen_opens env _)
    refine ⟨fun links v t' h => scanhash_error_opens env links t w v t' hmode0 hnow0 h,
      ?_, ?_, ?_⟩
    · intro v t' h
      rw [hrun] at h
      simp only [Option.some.injEq, Prod.mk.injEq] at h
      rw [← h.2]
      exact hA _ hop
    · intro _
      obtain ⟨g1, g2⟩ := reopen_failure env _ hfail
      exact ⟨_, hrun, g1, g2⟩
    · intro hs
      rw [hfail] at hs
      exact absurd hs (by decide)


/-- C12 (amended) at a concrete session: the policy is `timeout`; the first
reply is for the previous job, so the driver waits again, then a read fails
and the port cannot be reopened; the cycle returns -1 with firstrun set and
the port closed. -/
theorem scanhash_error_reopen_witness :
    ∃ t', icarus_scanhash sample_env ([sample_reply] ++ error_link :: []) timeout_thr
        sample_work = some (-1, t') ∧
      t'.state.firstrun = true ∧ t'.device_fd = -1 :=
  (scanhash_error_reopen sample_env timeout_thr sample_work rfl rfl [sample_reply] error_link []
    { prepare_step sample_env timeout_thr sample_work with
      state := { (prepare_step sample_env timeout_thr sample_work).state with
        tv_workfinish := ⟨0, 0⟩ },
      trace := [.gets 5 true 16 4 .ICA_GETS_OK, .tcflush 5,
        .submit_nonce (some ⟨2, sample_work⟩) 0x04030201] }
    ((wait_gets sample_env (prepare_step sample_env timeout_thr sample_work) error_link).get rfl)
    rfl rfl rfl rfl (by decide) rfl (by decide) rfl).2.2.1 rfl

end Icarus
